import Mathlib

/-!
# cJSON: a shallow embedding of `cJSON.c` and its specification

Conventions of the embedding.

* A text (`const PFCHAR *`) is the list of the bytes under the pointer, up to
  and not including the terminating NUL; the empty list is a pointer at the
  terminator.  Bytes are naturals (the byte build, `USE_UNICODE` undefined).
  Wherever the C code tests `*p` the embedding tests the head of the list
  against 0 too, so a list holding a 0 behaves as a text ending there.
* A pointer `cJSON *` is `cJSON.null` or a node together with what its `next`
  and `child` pointers own.  `prev` is not stored: it is determined by the
  chain.  Where the links themselves are the subject, the functions that
  write them are embedded a second time, on a heap of nodes with `next`,
  `prev` and `child` as addresses (`Heap`).
* `valuedouble` holds the exact rational value; the rounding and the overflow
  of `double` arithmetic are not modelled.  On integers of magnitude below
  2^53 the two coincide (the two zeros of a `double` are the one value 0), and
  what is stated of the value of a number is stated there.
* A parser function returns `Parsed`: the returned pointer with the node it
  filled, or the null result with the error pointer `ep` it recorded, or
  `overrun` when the C code reads past the terminator of the text or writes
  past the end of the buffer it allocated.  Allocation never fails.
-/

namespace CJSON

/-! ## Data model -/

/-- A `cJSON *`: null, or the node pointed at, fields in the order of the
struct (`next`, `child`, `type`, `valuestring`, `valueint`, `valuedouble`,
`string`).  A `char *` field is `none` when null. -/
inductive cJSON where
  | null : cJSON
  | node (next child : cJSON) (type : Nat) (valuestring : Option (List Nat))
      (valueint : Int) (valuedouble : ℚ) (string : Option (List Nat)) : cJSON
  deriving DecidableEq, Repr

/-- Modelled from the spec: `cJSON.h` is not among the sources; the seven
kinds of section 3 carry the numbers of the cJSON header. -/
def cJSON_False : Nat := 0

/-- Modelled from the spec: kind True of section 3 (see `cJSON_False`). -/
def cJSON_True : Nat := 1

/-- Modelled from the spec: kind Null of section 3 (see `cJSON_False`). -/
def cJSON_NULL : Nat := 2

/-- Modelled from the spec: kind Number of section 3 (see `cJSON_False`). -/
def cJSON_Number : Nat := 3

/-- Modelled from the spec: kind String of section 3 (see `cJSON_False`). -/
def cJSON_String : Nat := 4

/-- Modelled from the spec: kind Array of section 3 (see `cJSON_False`). -/
def cJSON_Array : Nat := 5

/-- Modelled from the spec: kind Object of section 3 (see `cJSON_False`). -/
def cJSON_Object : Nat := 6

/-- Modelled from the spec: the `isReference` flag of section 3, a bit above
the eight bits `print_value` keeps with `type & 255`. -/
def cJSON_IsReference : Nat := 256

/-- `INT_MAX` of a 32-bit `int`. -/
def INT_MAX : Int := 2147483647

/-- `INT_MIN` of a 32-bit `int`. -/
def INT_MIN : Int := -2147483648

/-- `DBL_EPSILON`, 2^-52. -/
def DBL_EPSILON : ℚ := 1 / 4503599627370496

/-- `cJSON_New_Item`: a node with every field zero. -/
def cJSON_New_Item : cJSON := .node .null .null 0 none 0 0 none

/-- Field `item->next`. -/
def cJSON.getNext : cJSON → cJSON
  | .null => .null
  | .node n _ _ _ _ _ _ => n

/-- Field `item->child`. -/
def cJSON.getChild : cJSON → cJSON
  | .null => .null
  | .node _ c _ _ _ _ _ => c

/-- Field `item->type`. -/
def cJSON.getType : cJSON → Nat
  | .null => 0
  | .node _ _ t _ _ _ _ => t

/-- Field `item->valuestring`. -/
def cJSON.getValuestring : cJSON → Option (List Nat)
  | .null => none
  | .node _ _ _ vs _ _ _ => vs

/-- Field `item->valueint`. -/
def cJSON.getValueint : cJSON → Int
  | .null => 0
  | .node _ _ _ _ vi _ _ => vi

/-- Field `item->valuedouble`. -/
def cJSON.getValuedouble : cJSON → ℚ
  | .null => 0
  | .node _ _ _ _ _ vd _ => vd

/-- Field `item->string`, the key. -/
def cJSON.getString : cJSON → Option (List Nat)
  | .null => none
  | .node _ _ _ _ _ _ s => s

/-- Assignment `item->next = n`. -/
def cJSON.setNext : cJSON → cJSON → cJSON
  | .null, _ => .null
  | .node _ c t vs vi vd s, n => .node n c t vs vi vd s

/-- Assignment `item->child = c`. -/
def cJSON.setChild : cJSON → cJSON → cJSON
  | .null, _ => .null
  | .node n _ t vs vi vd s, c => .node n c t vs vi vd s

/-- Assignment `item->type = t`. -/
def cJSON.setType : cJSON → Nat → cJSON
  | .null, _ => .null
  | .node n c _ vs vi vd s, t => .node n c t vs vi vd s

/-- Assignment `item->valuestring = vs`. -/
def cJSON.setValuestring : cJSON → Option (List Nat) → cJSON
  | .null, _ => .null
  | .node n c t _ vi vd s, vs => .node n c t vs vi vd s

/-- Assignment `item->valueint = vi`. -/
def cJSON.setValueint : cJSON → Int → cJSON
  | .null, _ => .null
  | .node n c t vs _ vd s, vi => .node n c t vs vi vd s

/-- Assignment `item->valuedouble = vd`. -/
def cJSON.setValuedouble : cJSON → ℚ → cJSON
  | .null, _ => .null
  | .node n c t vs vi _ s, vd => .node n c t vs vi vd s

/-- Assignment `item->string = s`. -/
def cJSON.setString : cJSON → Option (List Nat) → cJSON
  | .null, _ => .null
  | .node n c t vs vi vd _, s => .node n c t vs vi vd s

/-- The nodes of a sibling chain, head first, each as the pointer to it. -/
def cJSON.chain : cJSON → List cJSON
  | .null => []
  | .node n c t vs vi vd s => .node n c t vs vi vd s :: n.chain

/-- Result of a parser function. -/
inductive Parsed where
  | ok (item : cJSON) (rest : List Nat) : Parsed
  | fail (ep : List Nat) : Parsed
  | overrun : Parsed
  | nofuel : Parsed
  deriving DecidableEq, Repr

/-! ## Text helpers -/

/-- The bytes of an ASCII string literal. -/
def bytes (s : String) : List Nat := s.toList.map Char.toNat

/-- `*p`: the byte under the pointer, 0 at the terminator. -/
def peek (p : List Nat) : Nat := p.headD 0

/-- Test `c >= '0' && c <= '9'`. -/
def isdig (c : Nat) : Bool := decide (48 ≤ c ∧ c ≤ 57)

/-- `skip`: `while (in && *in && (UPFCHAR)*in<=32) in++`. -/
def skip : List Nat → List Nat
  | [] => []
  | c :: rest => if c ≠ 0 ∧ c ≤ 32 then skip rest else c :: rest

/-! ## parse_number -/

/-- The conversion `(int)n` of a double to a 32-bit `int`: truncation toward
zero.  When the truncated value is outside the `int` range the conversion is
undefined in C; the value here is the one the conversion instruction of
x86-64 stores, `INT_MIN`.  Of that value the proofs below use only that it is
an `int`. -/
def int_of_double (n : ℚ) : Int :=
  if INT_MIN ≤ n.num.tdiv n.den ∧ n.num.tdiv n.den ≤ INT_MAX then n.num.tdiv n.den else INT_MIN

/-- `pow(10.0, e)` for an integral `e`, as the exact power.  The `double`
that `pow` returns is this value for `e = 0` (where it is 1) and a rounding of
it in general. -/
def pow10 (e : Int) : ℚ := (10 : ℚ) ^ e

/-- Integer digits, line 114: `do n=(n*10.0)+(*num++ -'0'); while (*num>='0' &&
*num<='9')`.  The loop is entered under `*num>='1' && *num<='9'`, so its first
pass is a pass of the while form. -/
def number_int : ℚ → List Nat → ℚ × List Nat
  | n, [] => (n, [])
  | n, c :: rest => if isdig c then number_int (n * 10 + ((c : ℚ) - 48)) rest else (n, c :: rest)

/-- Fraction digits, line 115: `do n=(n*10.0)+(*num++ -'0'),scale--; while
(*num>='0' && *num<='9')`, entered under `num[1]` being a digit. -/
def number_frac : ℚ → Int → List Nat → ℚ × Int × List Nat
  | n, scale, [] => (n, scale, [])
  | n, scale, c :: rest =>
    if isdig c then number_frac (n * 10 + ((c : ℚ) - 48)) (scale - 1) rest else (n, scale, c :: rest)

/-- Exponent digits, line 118: `while (*num>='0' && *num<='9')
subscale=(subscale*10)+(*num++ - '0')`.  `subscale` is an `int`; its overflow
(an exponent of ten digits or more) is undefined in C and not modelled. -/
def number_exp : Int → List Nat → Int × List Nat
  | subscale, [] => (subscale, [])
  | subscale, c :: rest =>
    if isdig c then number_exp (subscale * 10 + ((c : Int) - 48)) rest else (subscale, c :: rest)

/-- Line 112, `if (*num=='-') sign=-1,num++`: `sign` and the pointer. -/
def number_sign (num : List Nat) : ℚ × List Nat :=
  if peek num = 45 then (-1, num.tail) else (1, num)

/-- Line 113, `if (*num=='0') num++`. -/
def number_zero (num : List Nat) : List Nat :=
  if peek num = 48 then num.tail else num

/-- Line 114, the integer part: `n` and the pointer. -/
def number_intpart (num : List Nat) : ℚ × List Nat :=
  if 49 ≤ peek num ∧ peek num ≤ 57 then number_int 0 num else (0, num)

/-- Line 115, the fractional part: `n`, `scale` and the pointer. -/
def number_fracpart (n : ℚ) (num : List Nat) : ℚ × Int × List Nat :=
  if peek num = 46 ∧ isdig (peek num.tail) then number_frac n 0 num.tail else (n, 0, num)

/-- Lines 116-119, the exponent: `subscale`, `signsubscale` and the pointer. -/
def number_exppart (num : List Nat) : Int × Int × List Nat :=
  if peek num = 101 ∨ peek num = 69 then
    if peek num.tail = 43 then ((number_exp 0 num.tail.tail).1, 1, (number_exp 0 num.tail.tail).2)
    else if peek num.tail = 45 then
      ((number_exp 0 num.tail.tail).1, -1, (number_exp 0 num.tail.tail).2)
    else ((number_exp 0 num.tail).1, 1, (number_exp 0 num.tail).2)
  else (0, 1, num)

/-- The locals of `parse_number` when line 121 is reached, and the pointer. -/
structure NumScan where
  sign : ℚ
  n : ℚ
  scale : Int
  subscale : Int
  signsubscale : Int
  num : List Nat
  deriving DecidableEq

/-- Lines 110-119 of `parse_number`: the scan. -/
def number_scan (num : List Nat) : NumScan :=
  let a := number_sign num
  let c := number_intpart (number_zero a.2)
  let d := number_fracpart c.1 c.2
  let e := number_exppart d.2.2
  ⟨a.1, d.1, d.2.1, e.1, e.2.1, e.2.2⟩

/-- `parse_number`: the node filled and the pointer returned.  It never fails.
`valuedouble` is the exact value of `sign*n*pow(10.0,scale+subscale*signsubscale)`.
The code evaluates it in `double`: that is this value when the power is
`pow(10.0,0)` and the digits stay below 2^53 (every step of `n=(n*10.0)+digit`
is then exact), and a rounding of it otherwise.  What is stated of the stored
value is stated on such texts (`plain_number`). -/
def parse_number (item : cJSON) (num : List Nat) : cJSON × List Nat :=
  let s := number_scan num
  let n := s.sign * s.n * pow10 (s.scale + s.subscale * s.signsubscale)
  (((item.setValuedouble n).setValueint (int_of_double n)).setType cJSON_Number, s.num)

/-! ## parse_string -/

/-- One hex digit of `parse_hex4`, `none` for the `else return 0`. -/
def hexdigit (c : Nat) : Option Nat :=
  if 48 ≤ c ∧ c ≤ 57 then some (c - 48)
  else if 65 ≤ c ∧ c ≤ 70 then some (10 + c - 65)
  else if 97 ≤ c ∧ c ≤ 102 then some (10 + c - 97)
  else none

/-- `parse_hex4`: four hex digits, 0 at the first byte that is none. -/
def parse_hex4 (str : List Nat) : Nat :=
  match hexdigit (peek str) with
  | none => 0
  | some a =>
    match hexdigit (peek (str.drop 1)) with
    | none => 0
    | some b =>
      match hexdigit (peek (str.drop 2)) with
      | none => 0
      | some c =>
        match hexdigit (peek (str.drop 3)) with
        | none => 0
        | some d => ((((((a <<< 4) + b) <<< 4) + c) <<< 4) + d)

/-- `firstByteMark`. -/
def firstByteMark : List Nat := [0x00, 0x00, 0xC0, 0xE0, 0xF0, 0xF8, 0xFC]

/-- Lines 213-229: the bytes written for the code point `uc`, each stored
into a `char` (modulo 256). -/
def utf8_bytes (uc : Nat) : List Nat :=
  let len := if uc < 0x80 then 1 else if uc < 0x800 then 2 else if uc < 0x10000 then 3 else 4
  let cont := fun (u : Nat) => ((u ||| 0x80) &&& 0xBF) % 256
  let lead := fun (u : Nat) => (u ||| firstByteMark.getD len 0) % 256
  if len = 1 then [lead uc]
  else if len = 2 then [lead (uc >>> 6), cont uc]
  else if len = 3 then [lead (uc >>> 6 >>> 6), cont (uc >>> 6), cont uc]
  else [lead (uc >>> 6 >>> 6 >>> 6), cont (uc >>> 6 >>> 6), cont (uc >>> 6), cont uc]

/-- The prescan of line 177, `while (*ptr!='\"' && *ptr && ++len) if (*ptr++
== '\\') ptr++`: the length counted, `none` when the pointer passes the
terminator (a backslash as last byte).  The flag tells that the second
`ptr++` of the body is due. -/
def parse_string_len : Bool → List Nat → Nat → Option Nat
  | false, [], len => some len
  | false, c :: rest, len =>
    if c = 34 ∨ c = 0 then some len
    else if c = 92 then parse_string_len true rest (len + 1)
    else parse_string_len false rest (len + 1)
  | true, [], _ => none
  | true, c :: rest, len => if c = 0 then none else parse_string_len false rest len

/-- The `\u` case of the copy pass, with `str` the text after the `u`: the
bytes written and how many bytes of `str` the pointer passes before the loop
reads again (`ptr+=4`, or `ptr+=4` and `ptr+=6`, then the `ptr++` of line
235 taking it off the last of them). -/
def parse_string_u (str : List Nat) : List Nat × Nat :=
  let uc := parse_hex4 str
  if (0xDC00 ≤ uc ∧ uc ≤ 0xDFFF) ∨ uc = 0 then ([], 4)
  else if 0xD800 ≤ uc ∧ uc ≤ 0xDBFF then
    if peek (str.drop 4) ≠ 92 ∨ peek (str.drop 5) ≠ 117 then ([], 4)
    else
      let uc2 := parse_hex4 (str.drop 6)
      if uc2 < 0xDC00 ∨ uc2 > 0xDFFF then ([], 10)
      else (utf8_bytes (0x10000 + (((uc &&& 0x3FF) <<< 10) ||| (uc2 &&& 0x3FF))), 10)
  else (utf8_bytes uc, 4)

/-- Where the copy pass of `parse_string` is: at the test of its loop, at the
`switch` after the `ptr++` past a backslash, or with `k` more bytes for the
pointer to pass after a `\u` escape before the loop reads again. -/
inductive CopyAt where
  | scan : CopyAt
  | escape : CopyAt
  | pass (k : Nat) : CopyAt
  deriving DecidableEq, Repr

/-- The copy pass, lines 183-237, `while (*ptr!='\"' && *ptr)`: the bytes
written and the pointer when the loop ends, or `none` when the pointer is
moved past the terminator (the loop then reads there). -/
def parse_string_copy : CopyAt → List Nat → Option (List Nat × List Nat)
  | .scan, [] => some ([], [])
  | .scan, c :: rest =>
    if c = 34 ∨ c = 0 then some ([], c :: rest)
    else if c ≠ 92 then (parse_string_copy .scan rest).map (fun r => (c :: r.1, r.2))
    else parse_string_copy .escape rest
  | .escape, [] => none
  | .escape, e :: rest =>
    if e = 0 then none
    else if e = 98 then (parse_string_copy .scan rest).map (fun r => (8 :: r.1, r.2))
    else if e = 102 then (parse_string_copy .scan rest).map (fun r => (12 :: r.1, r.2))
    else if e = 110 then (parse_string_copy .scan rest).map (fun r => (10 :: r.1, r.2))
    else if e = 114 then (parse_string_copy .scan rest).map (fun r => (13 :: r.1, r.2))
    else if e = 116 then (parse_string_copy .scan rest).map (fun r => (9 :: r.1, r.2))
    else if e = 117 then
      (parse_string_copy (.pass (parse_string_u rest).2) rest).map
        (fun r => ((parse_string_u rest).1 ++ r.1, r.2))
    else (parse_string_copy .scan rest).map (fun r => (e :: r.1, r.2))
  | .pass _, [] => none
  | .pass k, c :: rest =>
    if c = 0 then none
    else if k ≤ 1 then parse_string_copy .scan rest
    else parse_string_copy (.pass (k - 1)) rest

/-- `parse_string`: fails (with `ep=str`) only when `*str` is not a quote.
The buffer `out` has `len+1` bytes, the written bytes and their terminator
must fit. -/
def parse_string (item : cJSON) (str : List Nat) : Parsed :=
  if peek str ≠ 34 then .fail str
  else
    match parse_string_len false str.tail 0 with
    | none => .overrun
    | some len =>
      match parse_string_copy .scan str.tail with
      | none => .overrun
      | some (out, ptr) =>
        if len < out.length then .overrun
        else .ok ((item.setValuestring (some out)).setType cJSON_String)
          (if peek ptr = 34 then ptr.tail else ptr)

/-! ## parse_value, parse_array, parse_object -/

mutual

/-- `parse_value`.  The first argument bounds the depth of the calls. -/
def parse_value : Nat → cJSON → List Nat → Parsed
  | 0, _, _ => .nofuel
  | fuel + 1, item, value =>
    if [110, 117, 108, 108] <+: value then .ok (item.setType cJSON_NULL) (value.drop 4)
    else if [102, 97, 108, 115, 101] <+: value then .ok (item.setType cJSON_False) (value.drop 5)
    else if [116, 114, 117, 101] <+: value then
      .ok ((item.setType cJSON_True).setValueint 1) (value.drop 4)
    else if peek value = 34 then parse_string item value
    else if peek value = 45 ∨ (48 ≤ peek value ∧ peek value ≤ 57) then
      .ok (parse_number item value).1 (parse_number item value).2
    else if peek value = 91 then parse_array fuel item value
    else if peek value = 123 then parse_object fuel item value
    else .fail value

/-- `parse_array`, lines 351-376. -/
def parse_array : Nat → cJSON → List Nat → Parsed
  | 0, _, _ => .nofuel
  | fuel + 1, item, value =>
    if peek value ≠ 91 then .fail value
    else if peek (skip value.tail) = 93 then .ok (item.setType cJSON_Array) (skip value.tail).tail
    else
      match parse_value fuel cJSON_New_Item (skip (skip value.tail)) with
      | .ok child v =>
        match parse_array_loop fuel (skip v) with
        | .ok siblings rest => .ok ((item.setType cJSON_Array).setChild (child.setNext siblings)) rest
        | r => r
      | r => r

/-- The loop of `parse_array`, lines 365-375, from its test on: the chain of
the items it appends and the pointer returned. -/
def parse_array_loop : Nat → List Nat → Parsed
  | 0, _ => .nofuel
  | fuel + 1, value =>
    if peek value = 44 then
      match parse_value fuel cJSON_New_Item (skip value.tail) with
      | .ok child v =>
        match parse_array_loop fuel (skip v) with
        | .ok siblings rest => .ok (child.setNext siblings) rest
        | r => r
      | r => r
    else if peek value = 93 then .ok .null value.tail
    else .fail value

/-- One member of an object, lines 448-453 and 460-465: the key by
`parse_string`, moved to `string`, the colon, the value.  The pointer
returned is before the `skip` that follows. -/
def parse_member : Nat → List Nat → Parsed
  | 0, _ => .nofuel
  | fuel + 1, value =>
    match parse_string cJSON_New_Item (skip value) with
    | .ok child v =>
      if peek (skip v) ≠ 58 then .fail (skip v)
      else
        parse_value fuel ((child.setString child.getValuestring).setValuestring none)
          (skip (skip v).tail)
    | r => r

/-- `parse_object`, lines 437-470. -/
def parse_object : Nat → cJSON → List Nat → Parsed
  | 0, _, _ => .nofuel
  | fuel + 1, item, value =>
    if peek value ≠ 123 then .fail value
    else if peek (skip value.tail) = 125 then
      .ok (item.setType cJSON_Object) (skip value.tail).tail
    else
      match parse_member fuel (skip value.tail) with
      | .ok child v =>
        match parse_object_loop fuel (skip v) with
        | .ok siblings rest =>
          .ok ((item.setType cJSON_Object).setChild (child.setNext siblings)) rest
        | r => r
      | r => r

/-- The loop of `parse_object`, lines 455-469, from its test on. -/
def parse_object_loop : Nat → List Nat → Parsed
  | 0, _ => .nofuel
  | fuel + 1, value =>
    if peek value = 44 then
      match parse_member fuel value.tail with
      | .ok child v =>
        match parse_object_loop fuel (skip v) with
        | .ok siblings rest => .ok (child.setNext siblings) rest
        | r => r
      | r => r
    else if peek value = 125 then .ok .null value.tail
    else .fail value

end

/-- Fuel that `parse_value` never exhausts on `value` (see
`parse_value_fuel`). -/
def fuel_for (value : List Nat) : Nat := 2 * value.length + 2

/-- `cJSON_ParseWithOpts`: on success the tree and `*return_parse_end`, on
failure `ep`. -/
def cJSON_ParseWithOpts (value : List Nat) (require_null_terminated : Bool) : Parsed :=
  match parse_value (fuel_for value) cJSON_New_Item (skip value) with
  | .ok c e =>
    if require_null_terminated then
      if peek (skip e) ≠ 0 then .fail (skip e) else .ok c (skip e)
    else .ok c e
  | r => r

/-- `cJSON_Parse`. -/
def cJSON_Parse (value : List Nat) : Parsed := cJSON_ParseWithOpts value false

/-! ## The printer -/

/-- Decimal digits of `n` in front of `acc`, most significant first; the
first argument bounds the number of digits. -/
def decimal_digits : Nat → Nat → List Nat → List Nat
  | 0, _, acc => acc
  | fuel + 1, n, acc =>
    if n < 10 then (48 + n) :: acc else decimal_digits fuel (n / 10) ((48 + n % 10) :: acc)

/-- The decimal representation of a natural number, as bytes. -/
def decimal (n : Nat) : List Nat := decimal_digits (n + 1) n []

/-- `sprintf(str,"%d",v)`. -/
def sprintf_d (v : Int) : List Nat :=
  if v < 0 then 45 :: decimal v.natAbs else decimal v.natAbs

/-- Rounding of a non-negative value to an integer, ties to even: the
rounding of `printf` conversions. -/
def round_half_even (q : ℚ) : Nat :=
  let f := ⌊q⌋.toNat
  if q - f < 1 / 2 then f
  else if 1 / 2 < q - f then f + 1
  else if f % 2 = 0 then f else f + 1

/-- Digits of `n` padded with zeros on the left to `width` digits. -/
def zero_pad (width n : Nat) : List Nat :=
  List.replicate (width - (decimal n).length) 48 ++ decimal n

/-- `sprintf` with `%.<prec>f`: fixed notation with `prec` decimals, of the
exact value. -/
def sprintf_fixed (prec : Nat) (d : ℚ) : List Nat :=
  let m := round_half_even (|d| * 10 ^ prec)
  (if d < 0 then [45] else []) ++ decimal (m / 10 ^ prec) ++
    (if prec = 0 then [] else 46 :: zero_pad prec (m % 10 ^ prec))

/-- The least `k` from `k0` on with `1 <= q * 10^k`, searched over `fuel`
candidates. -/
def neg_exponent : Nat → Nat → ℚ → Nat
  | 0, k, _ => k
  | fuel + 1, k, q => if 1 ≤ q * 10 ^ k then k else neg_exponent fuel (k + 1) q

/-- The decimal exponent of a positive value: `e` with `10^e <= q < 10^(e+1)`. -/
def exponent10 (q : ℚ) : Int :=
  if 1 ≤ q then ((decimal ⌊q⌋.toNat).length : Int) - 1
  else - (neg_exponent ((decimal q.den).length + 1) 0 q : Int)

/-- `sprintf` with `%e`: one digit, six decimals, exponent of two digits at
least, of the exact value. -/
def sprintf_e (d : ℚ) : List Nat :=
  let e0 := if d = 0 then 0 else exponent10 |d|
  let m0 := round_half_even (|d| / pow10 e0 * 1000000)
  let m := if 10000000 ≤ m0 then m0 / 10 else m0
  let e := if 10000000 ≤ m0 then e0 + 1 else e0
  (if d < 0 then [45] else []) ++ decimal (m / 1000000) ++ 46 :: zero_pad 6 (m % 1000000) ++
    101 :: (if e < 0 then 45 else 43) :: zero_pad 2 e.natAbs

/-- `print_number`, on the fields `valueint` and `valuedouble` of the item,
the tests and the conversions taken on the exact value.  For an integer of
magnitude below 2^53 this is what the code does on the `double`: the tests
compare integers, and `%d` and `%.0f` write the digits of the integer.  For
other values the digits `printf` writes are those of the binary `double`, and
they can differ from the ones here. -/
def print_number (valueint : Int) (d : ℚ) : List Nat :=
  if |(valueint : ℚ) - d| ≤ DBL_EPSILON ∧ d ≤ INT_MAX ∧ d ≥ INT_MIN then sprintf_d valueint
  else if |(⌊d⌋ : ℚ) - d| ≤ DBL_EPSILON ∧ |d| < 10 ^ 60 then sprintf_fixed 0 d
  else if |d| < 1 / 1000000 ∨ |d| > 1000000000 then sprintf_e d
  else sprintf_fixed 6 d

/-- A lower-case hex digit of `%04x`. -/
def hexchar (d : Nat) : Nat := if d < 10 then 48 + d else 87 + d

/-- The copy loop of `print_string_ptr`, lines 258-276. -/
def print_string_body : List Nat → List Nat
  | [] => []
  | c :: rest =>
    if c = 0 then []
    else if c > 31 ∧ c ≠ 34 ∧ c ≠ 92 then c :: print_string_body rest
    else
      92 :: ((if c = 92 then [92]
        else if c = 34 then [34]
        else if c = 8 then [98]
        else if c = 12 then [102]
        else if c = 10 then [110]
        else if c = 13 then [114]
        else if c = 9 then [116]
        else [117, hexchar (c / 4096 % 16), hexchar (c / 256 % 16), hexchar (c / 16 % 16),
          hexchar (c % 16)]) ++ print_string_body rest)

/-- `print_string_ptr`: a null `str` gives the empty text. -/
def print_string_ptr : Option (List Nat) → List Nat
  | none => []
  | some str => 34 :: (print_string_body str ++ [34])

/-- The renderings when none failed, `none` when one did (`fail=1`). -/
def collect : List (Option (List Nat)) → Option (List (List Nat))
  | [] => some []
  | none :: _ => none
  | some e :: rest => (collect rest).map (fun es => e :: es)

/-- The loop of lines 425-430: the entries, a comma (and a space when `fmt`)
after each but the last. -/
def array_entries : List (List Nat) → Bool → List Nat
  | [], _ => []
  | [e], _ => e
  | e :: e2 :: rest, fmt => e ++ (44 :: ((if fmt then [32] else []) ++ array_entries (e2 :: rest) fmt))

/-- `print_array`, given `entries`, the results of `print_value(child,
depth+1,fmt)` along the child chain. -/
def print_array (entries : List (Option (List Nat))) (fmt : Bool) : Option (List Nat) :=
  if entries = [] then some [91, 93]
  else (collect entries).map (fun es => 91 :: (array_entries es fmt ++ [93]))

/-- The loop of lines 523-532, `depth` already incremented. -/
def object_entries (depth : Nat) (fmt : Bool) : List (List Nat) → List (List Nat) → List Nat
  | name :: names, entry :: entries =>
    (if fmt then List.replicate depth 9 else []) ++ name ++
      (58 :: ((if fmt then [9] else []) ++ entry ++ (if entries = [] then [] else [44]) ++
        (if fmt then [10] else []) ++ object_entries depth fmt names entries))
  | _, _ => []

/-- `print_object`, given `names`, the `print_string_ptr(child->string)`, and
`entries`, the `print_value(child,depth+1,fmt)`, along the child chain;
`depth` is the argument of the call. -/
def print_object (names : List (List Nat)) (entries : List (Option (List Nat))) (depth : Nat)
    (fmt : Bool) : Option (List Nat) :=
  if entries = [] then
    some (123 :: ((if fmt then 10 :: List.replicate (depth - 1) 9 else []) ++ [125]))
  else
    (collect entries).map (fun es =>
      123 :: ((if fmt then [10] else []) ++ object_entries (depth + 1) fmt names es ++
        (if fmt then List.replicate (depth + 1 - 1) 9 else []) ++ [125]))

/-- The `switch ((item->type)&255)` of `print_value` on the fields of a
node, given the renderings of its children. -/
def print_item (type : Nat) (valuestring : Option (List Nat)) (valueint : Int) (valuedouble : ℚ)
    (names : List (List Nat)) (entries : List (Option (List Nat))) (depth : Nat) (fmt : Bool) :
    Option (List Nat) :=
  if type &&& 255 = cJSON_NULL then some [110, 117, 108, 108]
  else if type &&& 255 = cJSON_False then some [102, 97, 108, 115, 101]
  else if type &&& 255 = cJSON_True then some [116, 114, 117, 101]
  else if type &&& 255 = cJSON_Number then some (print_number valueint valuedouble)
  else if type &&& 255 = cJSON_String then some (print_string_ptr valuestring)
  else if type &&& 255 = cJSON_Array then print_array entries fmt
  else if type &&& 255 = cJSON_Object then print_object names entries depth fmt
  else none

/-- The `print_string_ptr(child->string)` along a chain. -/
def print_names : cJSON → List (List Nat)
  | .null => []
  | .node next _ _ _ _ _ s => print_string_ptr s :: print_names next

/-- The `print_value(child,depth,fmt)` along a chain. -/
def print_chain : cJSON → Nat → Bool → List (Option (List Nat))
  | .null, _, _ => []
  | .node next child type vs vi vd _, depth, fmt =>
    print_item type vs vi vd (print_names child) (print_chain child (depth + 1) fmt) depth fmt ::
      print_chain next depth fmt

/-- `print_value`: `none` is the null result. -/
def print_value (item : cJSON) (depth : Nat) (fmt : Bool) : Option (List Nat) :=
  match item with
  | .null => none
  | .node _ child type vs vi vd _ =>
    print_item type vs vi vd (print_names child) (print_chain child (depth + 1) fmt) depth fmt

/-- `cJSON_Print`. -/
def cJSON_Print (item : cJSON) : Option (List Nat) := print_value item 0 true

/-- `cJSON_PrintUnformatted`. -/
def cJSON_PrintUnformatted (item : cJSON) : Option (List Nat) := print_value item 0 false

/-- `cJSON_CreateNumber`. -/
def cJSON_CreateNumber (num : ℚ) : cJSON :=
  ((cJSON_New_Item.setType cJSON_Number).setValuedouble num).setValueint (int_of_double num)

/-! ## cJSON_Minify -/

/-- Where `cJSON_Minify` is in its text: the outer loop, the loop of a `//`
comment (line 621), the loop of a block comment (line 622), the `json+=2`
that ends it with `json` on the slash, the loop of a string literal (line
623), the second copy of its body after a backslash. -/
inductive MinifyAt where
  | outer : MinifyAt
  | line : MinifyAt
  | block : MinifyAt
  | close : MinifyAt
  | literal : MinifyAt
  | escape : MinifyAt
  deriving DecidableEq, Repr

/-- The pass of `cJSON_Minify` from a place in its text on: the bytes written
through `into`, or `none` when `json` is moved past the terminator (a block
comment or a string literal that is not closed). -/
def minify_from : MinifyAt → List Nat → Option (List Nat)
  | .outer, [] => some []
  | .outer, c :: rest =>
    if c = 0 then some []
    else if c = 32 ∨ c = 9 ∨ c = 13 ∨ c = 10 then minify_from .outer rest
    else if c = 47 ∧ peek rest = 47 then minify_from .line rest
    else if c = 47 ∧ peek rest = 42 then minify_from .block rest
    else if c = 34 then (minify_from .literal rest).map (fun out => c :: out)
    else (minify_from .outer rest).map (fun out => c :: out)
  | .line, [] => some []
  | .line, c :: rest =>
    if c = 0 then some []
    else if c = 10 then minify_from .outer rest
    else minify_from .line rest
  | .block, [] => none
  | .block, c :: rest =>
    if c = 0 then none
    else if c = 42 ∧ peek rest = 47 then minify_from .close rest
    else minify_from .block rest
  | .close, [] => none
  | .close, _ :: rest => minify_from .outer rest
  | .literal, [] => none
  | .literal, c :: rest =>
    if c = 0 then none
    else if c = 34 then (minify_from .outer rest).map (fun out => c :: out)
    else if c = 92 then (minify_from .escape rest).map (fun out => c :: out)
    else (minify_from .literal rest).map (fun out => c :: out)
  | .escape, [] => none
  | .escape, c :: rest =>
    if c = 0 then none else (minify_from .literal rest).map (fun out => c :: out)

/-- `cJSON_Minify`: the text left in the buffer. -/
def cJSON_Minify (json : List Nat) : Option (List Nat) := minify_from .outer json

/-! ## Access and mutation of containers

A container is passed as the node pointed at and returned as it is after the
call.  The functions dereference the container without a test, so a null
container is outside their contract.  Allocation never fails. -/

/-- `tolower` of the C library in the "C" locale: it maps the letters `A`-`Z`
only. -/
def tolower (c : Nat) : Nat := if 65 ≤ c ∧ c ≤ 90 then c + 32 else c

/-- The loop of `cJSON_strcasecmp` and the `return` after it, on two texts. -/
def strcasecmp_loop : List Nat → List Nat → Int
  | [], s2 =>
    if tolower 0 = tolower (peek s2) then 0 else (tolower 0 : Int) - (tolower (peek s2) : Int)
  | c :: s1, s2 =>
    if tolower c = tolower (peek s2) then (if c = 0 then 0 else strcasecmp_loop s1 s2.tail)
    else (tolower c : Int) - (tolower (peek s2) : Int)

/-- `cJSON_strcasecmp`; `none` is a null pointer. -/
def cJSON_strcasecmp : Option (List Nat) → Option (List Nat) → Int
  | none, none => 0
  | none, some _ => 1
  | some _, none => 1
  | some s1, some s2 => strcasecmp_loop s1 s2

/-- `cJSON_strdup`: the bytes of the text up to its terminator, in a new
buffer. -/
def cJSON_strdup (str : List Nat) : List Nat := str.takeWhile (fun c => c ≠ 0)

/-- The loop of `cJSON_GetArraySize` from the node `c` on, `i` counted so
far. -/
def array_size_from : cJSON → Int → Int
  | .null, i => i
  | .node n _ _ _ _ _ _, i => array_size_from n (i + 1)

/-- `cJSON_GetArraySize`. -/
def cJSON_GetArraySize (array : cJSON) : Int := array_size_from array.getChild 0

/-- The loop of `cJSON_GetArrayItem`, `while (c && item>0) item--,c=c->next`,
and the pointer it ends on. -/
def array_item_from : cJSON → Int → cJSON
  | .null, _ => .null
  | .node n c t vs vi vd s, item =>
    if item > 0 then array_item_from n (item - 1) else .node n c t vs vi vd s

/-- `cJSON_GetArrayItem`. -/
def cJSON_GetArrayItem (array : cJSON) (item : Int) : cJSON :=
  array_item_from array.getChild item

/-- The loop of `cJSON_GetObjectItem`, `while (c && cJSON_strcasecmp(c->string,
string)) c=c->next`, and the pointer it ends on. -/
def object_item_from : cJSON → Option (List Nat) → cJSON
  | .null, _ => .null
  | .node n c t vs vi vd s, string =>
    if cJSON_strcasecmp s string ≠ 0 then object_item_from n string
    else .node n c t vs vi vd s

/-- `cJSON_GetObjectItem`. -/
def cJSON_GetObjectItem (object : cJSON) (string : Option (List Nat)) : cJSON :=
  object_item_from object.getChild string

/-- The chain from `c` on after `while (c && c->next) c=c->next;
suffix_object(c,item)`: the `next` of its last node is `item`. -/
def suffix_last : cJSON → cJSON → cJSON
  | .null, item => item
  | .node n c t vs vi vd s, item => .node (suffix_last n item) c t vs vi vd s

/-- `cJSON_AddItemToArray`: the array after the call. -/
def cJSON_AddItemToArray (array item : cJSON) : cJSON :=
  match item with
  | .null => array
  | .node n c t vs vi vd s =>
    match array.getChild with
    | .null => array.setChild (.node n c t vs vi vd s)
    | .node n2 c2 t2 vs2 vi2 vd2 s2 =>
      array.setChild (suffix_last (.node n2 c2 t2 vs2 vi2 vd2 s2) (.node n c t vs vi vd s))

/-- `cJSON_AddItemToObject`: the object after the call. -/
def cJSON_AddItemToObject (object : cJSON) (string : List Nat) (item : cJSON) : cJSON :=
  match item with
  | .null => object
  | .node n c t vs vi vd _ =>
    cJSON_AddItemToArray object (.node n c t vs vi vd (some (cJSON_strdup string)))

/-- The walk and the unlinking of `cJSON_DetachItemFromArray` from the node
`c` on: the node detached (null when the walk ends on null) and the chain
left. -/
def detach_from : cJSON → Int → cJSON × cJSON
  | .null, _ => (.null, .null)
  | .node n c t vs vi vd s, which =>
    if which > 0 then
      ((detach_from n (which - 1)).1, .node (detach_from n (which - 1)).2 c t vs vi vd s)
    else (.node .null c t vs vi vd s, n)

/-- `cJSON_DetachItemFromArray`: the pointer returned and the array after the
call. -/
def cJSON_DetachItemFromArray (array : cJSON) (which : Int) : cJSON × cJSON :=
  ((detach_from array.getChild which).1, array.setChild (detach_from array.getChild which).2)

/-- The loop `while (c && cJSON_strcasecmp(c->string,string)) i++,c=c->next`
of the functions that take a key: the index it ends on, `none` when it ends on
null. -/
def object_index_from : cJSON → Option (List Nat) → Int → Option Int
  | .null, _, _ => none
  | .node n _ _ _ _ _ s, string, i =>
    if cJSON_strcasecmp s string ≠ 0 then object_index_from n string (i + 1) else some i

/-- `cJSON_DetachItemFromObject`: the pointer returned and the object after
the call. -/
def cJSON_DetachItemFromObject (object : cJSON) (string : Option (List Nat)) : cJSON × cJSON :=
  match object_index_from object.getChild string 0 with
  | some i => cJSON_DetachItemFromArray object i
  | none => (.null, object)

/-- The walk and the splice of `cJSON_ReplaceItemInArray` from the node `c`
on: the chain with `newitem` in the place the walk ends on. `newitem` is
dereferenced, it is not null. -/
def replace_from : cJSON → Int → cJSON → cJSON
  | .null, _, _ => .null
  | .node n c t vs vi vd s, which, newitem =>
    if which > 0 then .node (replace_from n (which - 1) newitem) c t vs vi vd s
    else newitem.setNext n

/-- `cJSON_ReplaceItemInArray`: the array after the call. -/
def cJSON_ReplaceItemInArray (array : cJSON) (which : Int) (newitem : cJSON) : cJSON :=
  array.setChild (replace_from array.getChild which newitem)

/-- `cJSON_ReplaceItemInObject`: the object after the call. -/
def cJSON_ReplaceItemInObject (object : cJSON) (string : List Nat) (newitem : cJSON) : cJSON :=
  match object_index_from object.getChild (some string) 0 with
  | some i =>
    cJSON_ReplaceItemInArray object i (newitem.setString (some (cJSON_strdup string)))
  | none => object

/-- The type of a copy, `item->type&(~cJSON_IsReference)`, the complement
taken on the 32 bits of an `int`. -/
def clear_reference (type : Nat) : Nat := type &&& (4294967295 - cJSON_IsReference)

/-- The loop of `cJSON_Duplicate` over a child chain: each node duplicated
with `recurse` set, the copies linked in the same order. -/
def duplicate_chain : cJSON → cJSON
  | .null => .null
  | .node n c t vs vi vd s =>
    .node (duplicate_chain n) (duplicate_chain c) (clear_reference t)
      (vs.map cJSON_strdup) vi vd (s.map cJSON_strdup)

/-- `cJSON_Duplicate`. -/
def cJSON_Duplicate (item : cJSON) (recurse : Bool) : cJSON :=
  match item with
  | .null => .null
  | .node _ c t vs vi vd s =>
    .node .null (if recurse then duplicate_chain c else .null) (clear_reference t)
      (vs.map cJSON_strdup) vi vd (s.map cJSON_strdup)

/-! ## Deletion and references: nodes in memory -/

/-- A `cJSON *` with the addresses that `cJSON_Delete` passes to
`cJSON_free`: null, or the node allocated at `addr`, with what its `next` and
`child` point at, its `type`, and the addresses of its buffers `valuestring`
and `string` (`none` when null).  Two nodes that hold the same address share
the block there.  The numbers of a node play no part in its deletion. -/
inductive Mem where
  | null : Mem
  | node (addr : Nat) (next child : Mem) (type : Nat) (valuestring string : Option Nat) : Mem
  deriving DecidableEq, Repr

/-- `cJSON_Delete`: the addresses passed to `cJSON_free`, in order. -/
def Mem.cJSON_Delete : Mem → List Nat
  | .null => []
  | .node addr next child type valuestring string =>
    (if type &&& cJSON_IsReference = 0 then Mem.cJSON_Delete child else []) ++
      (if type &&& cJSON_IsReference = 0 then valuestring.toList else []) ++
      string.toList ++ [addr] ++ Mem.cJSON_Delete next

/-- `create_reference`, with `ref` the address `cJSON_New_Item` returns: the
copy of the node with no key, the flag set and no sibling.  The item is
dereferenced, it is not null. -/
def Mem.create_reference (ref : Nat) : Mem → Mem
  | .null => .null
  | .node _ _ child type valuestring _ =>
    .node ref .null child (type ||| cJSON_IsReference) valuestring none

/-- The chain from `c` on after `while (c && c->next) c=c->next;
suffix_object(c,item)`, as `suffix_last`. -/
def Mem.suffix_last : Mem → Mem → Mem
  | .null, item => item
  | .node addr next child type vs s, item =>
    .node addr (Mem.suffix_last next item) child type vs s

/-- `cJSON_AddItemToArray`, as on `cJSON`: the array after the call. -/
def Mem.cJSON_AddItemToArray (array item : Mem) : Mem :=
  match item with
  | .null => array
  | .node a n c t vs s =>
    match array with
    | .null => .null
    | .node addr next .null type vs2 s2 => .node addr next (.node a n c t vs s) type vs2 s2
    | .node addr next (.node a3 n3 c3 t3 vs3 s3) type vs2 s2 =>
      .node addr next (Mem.suffix_last (.node a3 n3 c3 t3 vs3 s3) (.node a n c t vs s)) type vs2 s2

/-- `cJSON_AddItemToObject`, with `copy` the address `cJSON_strdup` returns:
the addresses passed to `cJSON_free` and the object after the call. -/
def Mem.cJSON_AddItemToObject (object : Mem) (copy : Nat) (item : Mem) : List Nat × Mem :=
  match item with
  | .null => ([], object)
  | .node a n c t vs s =>
    (s.toList, Mem.cJSON_AddItemToArray object (.node a n c t vs (some copy)))

/-- `cJSON_AddItemReferenceToArray`. -/
def Mem.cJSON_AddItemReferenceToArray (array : Mem) (ref : Nat) (item : Mem) : Mem :=
  Mem.cJSON_AddItemToArray array (Mem.create_reference ref item)

/-- `cJSON_AddItemReferenceToObject`. -/
def Mem.cJSON_AddItemReferenceToObject (object : Mem) (copy ref : Nat) (item : Mem) :
    List Nat × Mem :=
  Mem.cJSON_AddItemToObject object copy (Mem.create_reference ref item)

/-! ## The buffer sizes of the printer -/

/-- The scan of `print_string_ptr`, line 251, `while ((token=*ptr) && ++len)
{if (strchr("\"\\\b\f\n\r\t",token)) len++; else if (token<32) len+=5;
ptr++;}`: `len` after it. -/
def print_string_scan : List Nat → Nat → Nat
  | [], len => len
  | c :: rest, len =>
    if c = 0 then len
    else print_string_scan rest (len + 1 +
      (if c = 34 ∨ c = 92 ∨ c = 8 ∨ c = 12 ∨ c = 10 ∨ c = 13 ∨ c = 9 then 1
        else if c < 32 then 5 else 0))

/-- The size `print_string_ptr` allocates: `len+3`, or the one byte of
`cJSON_strdup("")` for a null `str`. -/
def print_string_alloc : Option (List Nat) → Nat
  | none => 1
  | some str => print_string_scan str 0 + 3

/-- The size `print_array` allocates, given the renderings `entries` of the
children: 3 for an empty array, else `len`, 5 and `strlen(ret)+2+(fmt?1:0)`
for each. -/
def print_array_alloc (entries : List (List Nat)) (fmt : Bool) : Nat :=
  if entries = [] then 3
  else entries.foldl (fun len ret => len + (ret.length + 2 + (if fmt then 1 else 0))) 5

/-- The size `print_object` allocates, given the renderings of the keys and
of the children and the `depth` of the call: `fmt?depth+4:3` for an empty
object, else `len`, 7, the incremented depth when `fmt`, and
`strlen(ret)+strlen(str)+2+(fmt?2+depth:0)` for each member. -/
def print_object_alloc (names entries : List (List Nat)) (depth : Nat) (fmt : Bool) : Nat :=
  if entries = [] then (if fmt then depth + 4 else 3)
  else (List.zip names entries).foldl
    (fun len p => len + (p.2.length + p.1.length + 2 + (if fmt then 2 + (depth + 1) else 0)))
    (7 + (if fmt then depth + 1 else 0))

/-! ## The constructors -/

/-- `cJSON_CreateNull`. -/
def cJSON_CreateNull : cJSON := cJSON_New_Item.setType cJSON_NULL

/-- `cJSON_CreateTrue`. -/
def cJSON_CreateTrue : cJSON := cJSON_New_Item.setType cJSON_True

/-- `cJSON_CreateFalse`. -/
def cJSON_CreateFalse : cJSON := cJSON_New_Item.setType cJSON_False

/-- `cJSON_CreateBool`. -/
def cJSON_CreateBool (b : Int) : cJSON :=
  cJSON_New_Item.setType (if b ≠ 0 then cJSON_True else cJSON_False)

/-- `cJSON_CreateString`. -/
def cJSON_CreateString (string : List Nat) : cJSON :=
  (cJSON_New_Item.setType cJSON_String).setValuestring (some (cJSON_strdup string))

/-- `cJSON_CreateArray`. -/
def cJSON_CreateArray : cJSON := cJSON_New_Item.setType cJSON_Array

/-- `cJSON_CreateObject`. -/
def cJSON_CreateObject : cJSON := cJSON_New_Item.setType cJSON_Object

/-! ## The sibling links: nodes in a heap

For the links `next`, `prev` and `child` the nodes are cells of a heap and a
`cJSON *` is an address, 0 for the null pointer.  A statement of the C code
that assigns a field is one update of the heap, in the order of the source.
`cJSON_malloc` hands out addresses never handed out before and never fails;
`cJSON_free` writes nothing, so `cJSON_Delete` leaves the heap as it is. -/

/-- The memory of the nodes, field by field: `next a` is `a->next`.  `top` is
the address the next `cJSON_New_Item` returns; the nodes allocated so far are
at the addresses from 1 up to `top`, excluded. -/
structure Heap where
  next : Nat → Nat
  prev : Nat → Nat
  child : Nat → Nat
  type : Nat → Nat
  valuestring : Nat → Option (List Nat)
  valueint : Nat → Int
  valuedouble : Nat → ℚ
  string : Nat → Option (List Nat)
  top : Nat

/-- The heap before any allocation. -/
def Heap.empty : Heap :=
  ⟨fun _ => 0, fun _ => 0, fun _ => 0, fun _ => 0, fun _ => none, fun _ => 0, fun _ => 0,
    fun _ => none, 1⟩

/-- Assignment `a->next = v`. -/
def Heap.setNext (h : Heap) (a v : Nat) : Heap :=
  ⟨Function.update h.next a v, h.prev, h.child, h.type, h.valuestring, h.valueint,
    h.valuedouble, h.string, h.top⟩

/-- Assignment `a->prev = v`. -/
def Heap.setPrev (h : Heap) (a v : Nat) : Heap :=
  ⟨h.next, Function.update h.prev a v, h.child, h.type, h.valuestring, h.valueint,
    h.valuedouble, h.string, h.top⟩

/-- Assignment `a->child = v`. -/
def Heap.setChild (h : Heap) (a v : Nat) : Heap :=
  ⟨h.next, h.prev, Function.update h.child a v, h.type, h.valuestring, h.valueint,
    h.valuedouble, h.string, h.top⟩

/-- Assignment `a->type = v`. -/
def Heap.setType (h : Heap) (a v : Nat) : Heap :=
  ⟨h.next, h.prev, h.child, Function.update h.type a v, h.valuestring, h.valueint,
    h.valuedouble, h.string, h.top⟩

/-- Assignment `a->valuestring = v`. -/
def Heap.setValuestring (h : Heap) (a : Nat) (v : Option (List Nat)) : Heap :=
  ⟨h.next, h.prev, h.child, h.type, Function.update h.valuestring a v, h.valueint,
    h.valuedouble, h.string, h.top⟩

/-- Assignment `a->valueint = v`. -/
def Heap.setValueint (h : Heap) (a : Nat) (v : Int) : Heap :=
  ⟨h.next, h.prev, h.child, h.type, h.valuestring, Function.update h.valueint a v,
    h.valuedouble, h.string, h.top⟩

/-- Assignment `a->valuedouble = v`. -/
def Heap.setValuedouble (h : Heap) (a : Nat) (v : ℚ) : Heap :=
  ⟨h.next, h.prev, h.child, h.type, h.valuestring, h.valueint,
    Function.update h.valuedouble a v, h.string, h.top⟩

/-- Assignment `a->string = v`. -/
def Heap.setString (h : Heap) (a : Nat) (v : Option (List Nat)) : Heap :=
  ⟨h.next, h.prev, h.child, h.type, h.valuestring, h.valueint, h.valuedouble,
    Function.update h.string a v, h.top⟩

/-- `cJSON_New_Item`: the heap with one more node, every field of it zero
(`memset(node,0,sizeof(cJSON))`), and its address. -/
def Heap.cJSON_New_Item (h : Heap) : Heap × Nat :=
  (⟨Function.update h.next h.top 0, Function.update h.prev h.top 0,
    Function.update h.child h.top 0, Function.update h.type h.top 0,
    Function.update h.valuestring h.top none, Function.update h.valueint h.top 0,
    Function.update h.valuedouble h.top 0, Function.update h.string h.top none,
    h.top + 1⟩, h.top)

/-- Result of a parser function on the heap: as `Parsed`, with the heap after
the call and the address of the node filled. -/
inductive HParsed where
  | ok (h : Heap) (item : Nat) (rest : List Nat) : HParsed
  | fail (ep : List Nat) : HParsed
  | overrun : HParsed
  | nofuel : HParsed

/-- `parse_string` on the node at `item`: `item->valuestring=out;
item->type=cJSON_String`. -/
def Heap.parse_string (h : Heap) (item : Nat) (str : List Nat) : HParsed :=
  if peek str ≠ 34 then .fail str
  else
    match parse_string_len false str.tail 0 with
    | none => .overrun
    | some len =>
      match parse_string_copy .scan str.tail with
      | none => .overrun
      | some (out, ptr) =>
        if len < out.length then .overrun
        else .ok ((h.setValuestring item (some out)).setType item cJSON_String) item
          (if peek ptr = 34 then ptr.tail else ptr)

/-- `parse_number` on the node at `item`: `item->valuedouble=n;
item->valueint=(int)n; item->type=cJSON_Number`, with the exact value for `n`
as in `parse_number` on values.  The links do not depend on it. -/
def Heap.parse_number (h : Heap) (item : Nat) (num : List Nat) : Heap × List Nat :=
  let s := number_scan num
  let n := s.sign * s.n * pow10 (s.scale + s.subscale * s.signsubscale)
  (((h.setValuedouble item n).setValueint item (int_of_double n)).setType item cJSON_Number,
    s.num)

mutual

/-- `parse_value` on the node at `item`.  The first argument bounds the depth
of the calls, as in the parser on values. -/
def Heap.parse_value : Nat → Heap → Nat → List Nat → HParsed
  | 0, _, _, _ => .nofuel
  | fuel + 1, h, item, value =>
    if [110, 117, 108, 108] <+: value then .ok (h.setType item cJSON_NULL) item (value.drop 4)
    else if [102, 97, 108, 115, 101] <+: value then
      .ok (h.setType item cJSON_False) item (value.drop 5)
    else if [116, 114, 117, 101] <+: value then
      .ok ((h.setType item cJSON_True).setValueint item 1) item (value.drop 4)
    else if peek value = 34 then h.parse_string item value
    else if peek value = 45 ∨ (48 ≤ peek value ∧ peek value ≤ 57) then
      .ok (h.parse_number item value).1 item (h.parse_number item value).2
    else if peek value = 91 then Heap.parse_array fuel h item value
    else if peek value = 123 then Heap.parse_object fuel h item value
    else .fail value

/-- `parse_array`: `item->type=cJSON_Array`, then
`item->child=child=cJSON_New_Item()`, the first value, and the loop. -/
def Heap.parse_array : Nat → Heap → Nat → List Nat → HParsed
  | 0, _, _, _ => .nofuel
  | fuel + 1, h, item, value =>
    if peek value ≠ 91 then .fail value
    else if peek (skip value.tail) = 93 then
      .ok (h.setType item cJSON_Array) item (skip value.tail).tail
    else
      match Heap.parse_value fuel
          (((h.setType item cJSON_Array).cJSON_New_Item).1.setChild item
            ((h.setType item cJSON_Array).cJSON_New_Item).2)
          ((h.setType item cJSON_Array).cJSON_New_Item).2 (skip (skip value.tail)) with
      | .ok h1 child v =>
        match Heap.parse_array_loop fuel h1 child (skip v) with
        | .ok h2 _ rest => .ok h2 item rest
        | r => r
      | r => r

/-- The loop of `parse_array` from its test on, `child` the last node of the
chain: `new_item=cJSON_New_Item(); child->next=new_item; new_item->prev=child;
child=new_item` and the next value. -/
def Heap.parse_array_loop : Nat → Heap → Nat → List Nat → HParsed
  | 0, _, _, _ => .nofuel
  | fuel + 1, h, child, value =>
    if peek value = 44 then
      match Heap.parse_value fuel
          (((h.cJSON_New_Item).1.setNext child (h.cJSON_New_Item).2).setPrev
            (h.cJSON_New_Item).2 child)
          (h.cJSON_New_Item).2 (skip value.tail) with
      | .ok h1 new_item v => Heap.parse_array_loop fuel h1 new_item (skip v)
      | r => r
    else if peek value = 93 then .ok h child value.tail
    else .fail value

/-- One member of an object on the node at `child`: the key by `parse_string`,
`child->string=child->valuestring; child->valuestring=0`, the colon, the
value. -/
def Heap.parse_member : Nat → Heap → Nat → List Nat → HParsed
  | 0, _, _, _ => .nofuel
  | fuel + 1, h, child, value =>
    match h.parse_string child (skip value) with
    | .ok h1 _ v =>
      if peek (skip v) ≠ 58 then .fail (skip v)
      else
        Heap.parse_value fuel
          ((h1.setString child (h1.valuestring child)).setValuestring child none) child
          (skip (skip v).tail)
    | r => r

/-- `parse_object`: `item->type=cJSON_Object`, then
`item->child=child=cJSON_New_Item()`, the first member, and the loop. -/
def Heap.parse_object : Nat → Heap → Nat → List Nat → HParsed
  | 0, _, _, _ => .nofuel
  | fuel + 1, h, item, value =>
    if peek value ≠ 123 then .fail value
    else if peek (skip value.tail) = 125 then
      .ok (h.setType item cJSON_Object) item (skip value.tail).tail
    else
      match Heap.parse_member fuel
          (((h.setType item cJSON_Object).cJSON_New_Item).1.setChild item
            ((h.setType item cJSON_Object).cJSON_New_Item).2)
          ((h.setType item cJSON_Object).cJSON_New_Item).2 (skip value.tail) with
      | .ok h1 child v =>
        match Heap.parse_object_loop fuel h1 child (skip v) with
        | .ok h2 _ rest => .ok h2 item rest
        | r => r
      | r => r

/-- The loop of `parse_object` from its test on, `child` the last node of the
chain. -/
def Heap.parse_object_loop : Nat → Heap → Nat → List Nat → HParsed
  | 0, _, _, _ => .nofuel
  | fuel + 1, h, child, value =>
    if peek value = 44 then
      match Heap.parse_member fuel
          (((h.cJSON_New_Item).1.setNext child (h.cJSON_New_Item).2).setPrev
            (h.cJSON_New_Item).2 child)
          (h.cJSON_New_Item).2 value.tail with
      | .ok h1 new_item v => Heap.parse_object_loop fuel h1 new_item (skip v)
      | r => r
    else if peek value = 125 then .ok h child value.tail
    else .fail value

end

/-- `cJSON_ParseWithOpts` on the heap: `c=cJSON_New_Item()`, `parse_value`,
and the test of the terminator. -/
def Heap.cJSON_ParseWithOpts (h : Heap) (value : List Nat) (require_null_terminated : Bool) :
    HParsed :=
  match Heap.parse_value (fuel_for value) (h.cJSON_New_Item).1 (h.cJSON_New_Item).2
      (skip value) with
  | .ok h1 c e =>
    if require_null_terminated then
      if peek (skip e) ≠ 0 then .fail (skip e) else .ok h1 c (skip e)
    else .ok h1 c e
  | r => r

/-- `cJSON_Parse` on the heap. -/
def Heap.cJSON_Parse (h : Heap) (value : List Nat) : HParsed :=
  h.cJSON_ParseWithOpts value false

/-- Static `suffix_object`: `prev->next=item; item->prev=prev`. -/
def Heap.suffix_object (h : Heap) (prev item : Nat) : Heap :=
  (h.setNext prev item).setPrev item prev

/-- The loop `while (c && c->next) c=c->next` of `cJSON_AddItemToArray` and
the node it ends on; `none` when it is still running after `fuel` steps. -/
def Heap.last_from (h : Heap) : Nat → Nat → Option Nat
  | 0, _ => none
  | fuel + 1, c => if c ≠ 0 ∧ h.next c ≠ 0 then h.last_from fuel (h.next c) else some c

/-- `cJSON_AddItemToArray`: the heap after the call.  A chain of nodes that
are all different has fewer than `top` nodes, which bounds the loop; `none`
when the loop does not end. -/
def Heap.cJSON_AddItemToArray (h : Heap) (array item : Nat) : Option Heap :=
  if item = 0 then some h
  else if h.child array = 0 then some (h.setChild array item)
  else (h.last_from h.top (h.child array)).map (fun c => h.suffix_object c item)

/-- `cJSON_AddItemToObject`: `item->string=cJSON_strdup(string)`, then
`cJSON_AddItemToArray`. -/
def Heap.cJSON_AddItemToObject (h : Heap) (object : Nat) (string : List Nat) (item : Nat) :
    Option Heap :=
  if item = 0 then some h
  else (h.setString item (some (cJSON_strdup string))).cJSON_AddItemToArray object item

/-- The loop `while (c && which>0) c=c->next,which--` of
`cJSON_DetachItemFromArray` and `cJSON_ReplaceItemInArray`, and the node it
ends on. -/
def Heap.index_from (h : Heap) : Nat → Nat → Nat
  | 0, c => c
  | which + 1, c => if c ≠ 0 then h.index_from which (h.next c) else c

/-- `cJSON_DetachItemFromArray`: the heap after the call and the pointer
returned.  `which` counts down while it is positive. -/
def Heap.cJSON_DetachItemFromArray (h : Heap) (array : Nat) (which : Int) : Heap × Nat :=
  let c := h.index_from which.toNat (h.child array)
  if c = 0 then (h, 0)
  else
    let h1 := if h.prev c ≠ 0 then h.setNext (h.prev c) (h.next c) else h
    let h2 := if h1.next c ≠ 0 then h1.setPrev (h1.next c) (h1.prev c) else h1
    let h3 := if c = h2.child array then h2.setChild array (h2.next c) else h2
    ((h3.setNext c 0).setPrev c 0, c)

/-- The loop `while (c && cJSON_strcasecmp(c->string,string)) i++,c=c->next`
of `cJSON_DetachItemFromObject` and `cJSON_ReplaceItemInObject`: the node it
ends on and `i`; `none` when it is still running after `fuel` steps. -/
def Heap.key_index_from (h : Heap) (string : Option (List Nat)) :
    Nat → Nat → Int → Option (Nat × Int)
  | 0, _, _ => none
  | fuel + 1, c, i =>
    if c ≠ 0 ∧ cJSON_strcasecmp (h.string c) string ≠ 0 then
      h.key_index_from string fuel (h.next c) (i + 1)
    else some (c, i)

/-- `cJSON_DetachItemFromObject`: the heap after the call and the pointer
returned; `none` when the loop does not end. -/
def Heap.cJSON_DetachItemFromObject (h : Heap) (object : Nat) (string : Option (List Nat)) :
    Option (Heap × Nat) :=
  (h.key_index_from string h.top (h.child object) 0).map
    (fun r => if r.1 ≠ 0 then h.cJSON_DetachItemFromArray object r.2 else (h, 0))

/-- `cJSON_ReplaceItemInArray`: the heap after the call.  `cJSON_Delete(c)`
writes no field. -/
def Heap.cJSON_ReplaceItemInArray (h : Heap) (array : Nat) (which : Int) (newitem : Nat) :
    Heap :=
  let c := h.index_from which.toNat (h.child array)
  if c = 0 then h
  else
    let h1 := h.setNext newitem (h.next c)
    let h2 := h1.setPrev newitem (h1.prev c)
    let h3 := if h2.next newitem ≠ 0 then h2.setPrev (h2.next newitem) newitem else h2
    let h4 :=
      if c = h3.child array then h3.setChild array newitem
      else h3.setNext (h3.prev newitem) newitem
    (h4.setPrev c 0).setNext c 0

/-- `cJSON_ReplaceItemInObject`: the heap after the call; `none` when the loop
does not end. -/
def Heap.cJSON_ReplaceItemInObject (h : Heap) (object : Nat) (string : List Nat)
    (newitem : Nat) : Option Heap :=
  (h.key_index_from (some string) h.top (h.child object) 0).map
    (fun r =>
      if r.1 ≠ 0 then
        (h.setString newitem (some (cJSON_strdup string))).cJSON_ReplaceItemInArray object r.2
          newitem
      else h)

/-- The first part of `cJSON_Duplicate`: `newitem=cJSON_New_Item()` and the
copy of `type` without the reference flag, `valueint`, `valuedouble`, and of
`valuestring` and `string` by `cJSON_strdup`.  The new node is at the address
`top` of the heap before the call. -/
def Heap.duplicate_node (h : Heap) (item : Nat) : Heap :=
  ((((((h.cJSON_New_Item).1.setType (h.cJSON_New_Item).2
    (clear_reference (h.type item))).setValueint (h.cJSON_New_Item).2
    (h.valueint item)).setValuedouble (h.cJSON_New_Item).2
    (h.valuedouble item)).setValuestring (h.cJSON_New_Item).2
    ((h.valuestring item).map cJSON_strdup)).setString (h.cJSON_New_Item).2
    ((h.string item).map cJSON_strdup))

mutual

/-- `cJSON_Duplicate`: the heap after the call and the new node, null for a
null `item`.  The first argument bounds the calls and the passes of the loop
together; `none` when it is used up. -/
def Heap.cJSON_Duplicate : Nat → Heap → Nat → Bool → Option (Heap × Nat)
  | 0, _, _, _ => none
  | fuel + 1, h, item, recurse =>
    if item = 0 then some (h, 0)
    else if recurse then
      Heap.duplicate_loop fuel (h.duplicate_node item) (h.cJSON_New_Item).2
        ((h.duplicate_node item).child item) 0
    else some (h.duplicate_node item, (h.cJSON_New_Item).2)

/-- The loop `while (cptr)` of `cJSON_Duplicate`: `newchild` is linked after
`nptr`, or made the child of `newitem` when `nptr` is null. -/
def Heap.duplicate_loop : Nat → Heap → Nat → Nat → Nat → Option (Heap × Nat)
  | 0, _, _, _, _ => none
  | fuel + 1, h, newitem, cptr, nptr =>
    if cptr = 0 then some (h, newitem)
    else
      match Heap.cJSON_Duplicate fuel h cptr true with
      | none => none
      | some (h1, newchild) =>
        if nptr ≠ 0 then
          Heap.duplicate_loop fuel ((h1.setNext nptr newchild).setPrev newchild nptr) newitem
            (((h1.setNext nptr newchild).setPrev newchild nptr).next cptr) newchild
        else
          Heap.duplicate_loop fuel (h1.setChild newitem newchild) newitem
            ((h1.setChild newitem newchild).next cptr) newchild

end
/-! ## Definitions of the specification side -/

/-- A place in a text for `no_comment_opener`: outside the string literals,
inside one, or inside one right after a backslash. -/
inductive TextAt where
  | code : TextAt
  | literal : TextAt
  | escaped : TextAt
  deriving DecidableEq, Repr

/-- No comment opener (`//` or `/*`) outside the string literals of a text
read from the given place on. -/
def no_comment_opener : TextAt → List Nat → Bool
  | _, [] => true
  | .code, c :: rest =>
    if c = 47 ∧ (peek rest = 47 ∨ peek rest = 42) then false
    else if c = 34 then no_comment_opener .literal rest
    else no_comment_opener .code rest
  | .literal, c :: rest =>
    if c = 34 then no_comment_opener .code rest
    else if c = 92 then no_comment_opener .escaped rest
    else no_comment_opener .literal rest
  | .escaped, _ :: rest => no_comment_opener .literal rest

/-- The place `cJSON_Minify` is at in its output. -/
def MinifyAt.written : MinifyAt → TextAt
  | .literal => .literal
  | .escape => .escaped
  | _ => .code

/-- The place `cJSON_Minify` resumes at in its own output. -/
def MinifyAt.resume : MinifyAt → MinifyAt
  | .literal => .literal
  | .escape => .escape
  | _ => .outer

/-- The UTF-8 encoding of a code point as the Unicode standard tabulates it:
one byte below 0x80, two below 0x800, three below 0x10000, four above, with
the lead marks 0xC0, 0xE0, 0xF0 and continuation bytes 0x80 + six bits. -/
def utf8_standard (cp : Nat) : List Nat :=
  if cp < 0x80 then [cp]
  else if cp < 0x800 then [0xC0 + cp / 64, 0x80 + cp % 64]
  else if cp < 0x10000 then [0xE0 + cp / 4096, 0x80 + cp / 64 % 64, 0x80 + cp % 64]
  else [0xF0 + cp / 262144, 0x80 + cp / 4096 % 64, 0x80 + cp / 64 % 64, 0x80 + cp % 64]

/-- The UTF-16 code unit written by four hex digits of values `x1 x2 x3 x4`. -/
def code_unit (x1 x2 x3 x4 : Nat) : Nat := x1 * 4096 + x2 * 256 + x3 * 16 + x4

/-- The code point C2 gives for a high surrogate `h` and a low surrogate `l`. -/
def pair_code_point (h l : Nat) : Nat := 0x10000 + (((h &&& 0x3FF) <<< 10) ||| (l &&& 0x3FF))

/-- The natural number written by a list of decimal digit bytes. -/
def digits_value (ds : List Nat) : Nat := ds.foldl (fun acc c => acc * 10 + (c - 48)) 0

/-- The tree of the text `{"a":1,"b":[true,false,null]}`. -/
def sample_tree : cJSON :=
  .node .null
    (.node
      (.node .null
        (.node (.node (.node .null .null cJSON_NULL none 0 0 none) .null cJSON_False none 0 0 none)
          .null cJSON_True none 1 0 none)
        cJSON_Array none 0 0 (some [98]))
      .null cJSON_Number none 1 1 (some [97]))
    cJSON_Object none 0 0 none

/-- A text after a number cannot continue it: its first byte is no digit,
point, exponent marker or sign (the end of the text is such a place). -/
def number_end (rest : List Nat) : Bool :=
  !isdig (peek rest) && decide (peek rest ≠ 46 ∧ peek rest ≠ 101 ∧ peek rest ≠ 69 ∧
    peek rest ≠ 43 ∧ peek rest ≠ 45)

/-- The text of a number from its parts, followed by `rest`: sign, leading
zero, integer digits, fraction digits (after a point, when there are any),
exponent marker, exponent sign, exponent digits. -/
def number_text (sgn z ip fd mk es ed rest : List Nat) : List Nat :=
  sgn ++ (z ++ (ip ++ ((if fd = [] then [] else 46 :: fd) ++ (mk ++ (es ++ (ed ++ rest))))))

/-- The value C8 gives a number text: sign x mantissa x 10^(exponent - f),
the mantissa formed by the integer and fraction digits, `f` the count of
fraction digits. -/
def number_value (sgn z ip fd es ed : List Nat) : ℚ :=
  (if sgn = [45] then -1 else 1) * (digits_value (z ++ ip ++ fd) : ℚ) *
    (10 : ℚ) ^ ((if es = [45] then -1 else 1) * (digits_value ed : Int) - (fd.length : Int))

/-- The places of a number grammar: nothing read, after the sign, after a
leading zero, in the integer digits, after the point, in the fraction digits,
after the exponent marker, after the exponent sign, in the exponent digits. -/
inductive NumAt where
  | start : NumAt
  | minus : NumAt
  | zero : NumAt
  | int : NumAt
  | point : NumAt
  | frac : NumAt
  | mark : NumAt
  | esign : NumAt
  | exp : NumAt
  deriving DecidableEq, Repr

/-- The number grammar of C7 (section 4.2 of the spec), one byte at a time:
optional `-`; `0` alone or a digit 1-9 followed by digits; optionally `.` and
digits; optionally `e` or `E`, an optional sign, digits. -/
def json_number_step : NumAt → Nat → Option NumAt
  | .start, c =>
    if c = 45 then some .minus else if c = 48 then some .zero
    else if 49 ≤ c ∧ c ≤ 57 then some .int else none
  | .minus, c =>
    if c = 48 then some .zero else if 49 ≤ c ∧ c ≤ 57 then some .int else none
  | .zero, c =>
    if c = 46 then some .point else if c = 101 ∨ c = 69 then some .mark else none
  | .int, c =>
    if isdig c then some .int else if c = 46 then some .point
    else if c = 101 ∨ c = 69 then some .mark else none
  | .point, c => if isdig c then some .frac else none
  | .frac, c =>
    if isdig c then some .frac else if c = 101 ∨ c = 69 then some .mark else none
  | .mark, c =>
    if c = 43 ∨ c = 45 then some .esign else if isdig c then some .exp else none
  | .esign, c => if isdig c then some .exp else none
  | .exp, c => if isdig c then some .exp else none

/-- Where a text of the grammar of C7 may end: after the integer part, after
a fraction digit, after an exponent digit. -/
def json_number_final : NumAt → Bool
  | .zero => true
  | .int => true
  | .frac => true
  | .exp => true
  | _ => false

/-- The grammar `parse_number` scans: every part is optional, digits may
follow a leading zero, the exponent may have no digit; only a point demands a
digit after it. -/
def lenient_number_step : NumAt → Nat → Option NumAt
  | .start, c =>
    if c = 45 then some .minus else if c = 48 then some .zero
    else if 49 ≤ c ∧ c ≤ 57 then some .int else if c = 46 then some .point
    else if c = 101 ∨ c = 69 then some .mark else none
  | .minus, c =>
    if c = 48 then some .zero else if 49 ≤ c ∧ c ≤ 57 then some .int
    else if c = 46 then some .point else if c = 101 ∨ c = 69 then some .mark else none
  | .zero, c =>
    if 49 ≤ c ∧ c ≤ 57 then some .int else if c = 46 then some .point
    else if c = 101 ∨ c = 69 then some .mark else none
  | .int, c =>
    if isdig c then some .int else if c = 46 then some .point
    else if c = 101 ∨ c = 69 then some .mark else none
  | .point, c => if isdig c then some .frac else none
  | .frac, c =>
    if isdig c then some .frac else if c = 101 ∨ c = 69 then some .mark else none
  | .mark, c =>
    if c = 43 ∨ c = 45 then some .esign else if isdig c then some .exp else none
  | .esign, c => if isdig c then some .exp else none
  | .exp, c => if isdig c then some .exp else none

/-- Where a text of the lenient grammar may end: anywhere but right after a
point. -/
def lenient_number_final : NumAt → Bool
  | .point => false
  | _ => true

/-- The place a grammar is at after a text, `none` when the text leaves the
grammar. -/
def run_number (step : NumAt → Nat → Option NumAt) : NumAt → List Nat → Option NumAt
  | q, [] => some q
  | q, c :: w => (step q c).bind (fun q2 => run_number step q2 w)

/-- The text is a number of the grammar of C7. -/
def json_number (w : List Nat) : Bool :=
  match run_number json_number_step .start w with
  | some q => json_number_final q
  | none => false

/-- The text is a number of the lenient grammar, read from a place on. -/
def lenient_number_from (q : NumAt) (w : List Nat) : Bool :=
  match run_number lenient_number_step q w with
  | some q2 => lenient_number_final q2
  | none => false

/-- The text is a number of the lenient grammar. -/
def lenient_number (w : List Nat) : Bool := lenient_number_from .start w

/-- The longest-match scan of the lenient grammar from a place on: what is
left of the text.  A point is taken only with a digit after it. -/
def lenient_scan : NumAt → List Nat → List Nat
  | _, [] => []
  | q, c :: w =>
    match lenient_number_step q c with
    | none => c :: w
    | some q2 => if q2 = .point ∧ isdig (peek w) = false then c :: w else lenient_scan q2 w

/-- The text does not start a value: it is neither `null`, `false` or `true`
nor does it start with a quote, a minus sign, a digit, `[` or `{`.  The end
of the text is such a place, and so is every byte other than `n`, `f`, `t`,
`"`, `-`, a digit, `[` and `{`. -/
def no_value_start (r : List Nat) : Bool :=
  decide (¬ [110, 117, 108, 108] <+: r ∧ ¬ [102, 97, 108, 115, 101] <+: r ∧
    ¬ [116, 114, 117, 101] <+: r ∧ peek r ≠ 34 ∧ peek r ≠ 45 ∧
    ¬ (48 ≤ peek r ∧ peek r ≤ 57) ∧ peek r ≠ 91 ∧ peek r ≠ 123)

/-- The calls of the parser a text is at: `parse_value`, the loop of
`parse_array` at its test, `parse_member`, the loop of `parse_object` at its
test. -/
inductive Site where
  | value : Site
  | elements : Site
  | member : Site
  | members : Site
  deriving DecidableEq, Repr

/-- `Expects site v r`: the call `site` on the text `v` comes to expect a
value at the text `r`, a suffix of `v`: at `v` itself, as the first or a later
element of an array, or as the value of the first or a later member of an
object, at any depth.  The elements and members before it are complete (they
parse). -/
inductive Expects : Site → List Nat → List Nat → Prop where
  | here (r : List Nat) : Expects .value r r
  | first_element (w r : List Nat) : peek (skip w) ≠ 93 → Expects .value (skip w) r →
      Expects .value (91 :: w) r
  | in_array (w r : List Nat) (fuel : Nat) (child : cJSON) (v1 : List Nat) :
      peek (skip w) ≠ 93 → parse_value fuel cJSON_New_Item (skip w) = .ok child v1 →
      Expects .elements (skip v1) r → Expects .value (91 :: w) r
  | next_element (w r : List Nat) : Expects .value (skip w) r → Expects .elements (44 :: w) r
  | later_element (w r : List Nat) (fuel : Nat) (child : cJSON) (v1 : List Nat) :
      parse_value fuel cJSON_New_Item (skip w) = .ok child v1 →
      Expects .elements (skip v1) r → Expects .elements (44 :: w) r
  | member_value (m r : List Nat) (key : cJSON) (v1 : List Nat) :
      parse_string cJSON_New_Item (skip m) = .ok key v1 → peek (skip v1) = 58 →
      Expects .value (skip (skip v1).tail) r → Expects .member m r
  | first_member (w r : List Nat) : peek (skip w) ≠ 125 → Expects .member (skip w) r →
      Expects .value (123 :: w) r
  | in_object (w r : List Nat) (fuel : Nat) (child : cJSON) (v1 : List Nat) :
      peek (skip w) ≠ 125 → parse_member fuel (skip w) = .ok child v1 →
      Expects .members (skip v1) r → Expects .value (123 :: w) r
  | next_member (w r : List Nat) : Expects .member w r → Expects .members (44 :: w) r
  | later_member (w r : List Nat) (fuel : Nat) (child : cJSON) (v1 : List Nat) :
      parse_member fuel w = .ok child v1 → Expects .members (skip v1) r →
      Expects .members (44 :: w) r

/-- The call a site stands for, on fresh items. -/
def Site.run : Site → Nat → cJSON → List Nat → Parsed
  | .value, fuel, item, v => parse_value fuel item v
  | .elements, fuel, _, v => parse_array_loop fuel v
  | .member, fuel, _, v => parse_member fuel v
  | .members, fuel, _, v => parse_object_loop fuel v

/-- The bytes of a string payload are all non-zero. -/
def nul_free (s : List Nat) : Prop := ∀ c ∈ s, c ≠ 0

/-- The key of a member of a chain: a string for the members of an object,
none for the elements of an array and for a root. -/
def key_canon (keyed : Bool) (s : Option (List Nat)) : Prop :=
  if keyed then ∃ k, s = some k ∧ nul_free k else s = none

/-- A chain of nodes as the parser builds them from fresh items: the kind is
one of the seven, without flag; only the fields of the kind are set (`valueint`
is 1 for True); only arrays and objects have children, unkeyed for an array,
keyed for an object. -/
def canon_chain : Bool → cJSON → Prop
  | _, .null => True
  | keyed, .node next child type vs vi vd s =>
    key_canon keyed s ∧
    ((type = cJSON_NULL ∧ child = .null ∧ vs = none ∧ vi = 0 ∧ vd = 0) ∨
     (type = cJSON_False ∧ child = .null ∧ vs = none ∧ vi = 0 ∧ vd = 0) ∨
     (type = cJSON_True ∧ child = .null ∧ vs = none ∧ vi = 1 ∧ vd = 0) ∨
     (type = cJSON_Number ∧ child = .null ∧ vs = none) ∨
     (type = cJSON_String ∧ child = .null ∧ (∃ str, vs = some str ∧ nul_free str) ∧
        vi = 0 ∧ vd = 0) ∨
     (type = cJSON_Array ∧ vs = none ∧ vi = 0 ∧ vd = 0 ∧ canon_chain false child) ∨
     (type = cJSON_Object ∧ vs = none ∧ vi = 0 ∧ vd = 0 ∧ canon_chain true child)) ∧
    canon_chain keyed next

/-- The fields of one node as the parser sets them (see `canon_chain`). -/
def payload_canon (child : cJSON) (type : Nat) (vs : Option (List Nat)) (vi : Int) (vd : ℚ) :
    Prop :=
  (type = cJSON_NULL ∧ child = .null ∧ vs = none ∧ vi = 0 ∧ vd = 0) ∨
  (type = cJSON_False ∧ child = .null ∧ vs = none ∧ vi = 0 ∧ vd = 0) ∨
  (type = cJSON_True ∧ child = .null ∧ vs = none ∧ vi = 1 ∧ vd = 0) ∨
  (type = cJSON_Number ∧ child = .null ∧ vs = none) ∨
  (type = cJSON_String ∧ child = .null ∧ (∃ str, vs = some str ∧ nul_free str) ∧
    vi = 0 ∧ vd = 0) ∨
  (type = cJSON_Array ∧ vs = none ∧ vi = 0 ∧ vd = 0 ∧ canon_chain false child) ∨
  (type = cJSON_Object ∧ vs = none ∧ vi = 0 ∧ vd = 0 ∧ canon_chain true child)

/-- Every Number of the tree holds an integer of the `int` range, the same in
`valuedouble` and `valueint`. -/
def integral : cJSON → Prop
  | .null => True
  | .node next child type _ vi vd _ =>
    (type = cJSON_Number → vd = (vi : ℚ) ∧ INT_MIN ≤ vi ∧ vi ≤ INT_MAX) ∧
      integral next ∧ integral child

/-- White space as `skip` passes it. -/
def blank (ws : List Nat) : Prop := ∀ b ∈ ws, b ≠ 0 ∧ b ≤ 32

/-- A rendering begins with a byte that `skip` keeps and that closes no
container. -/
def value_start (e : List Nat) : Prop := 32 < peek e ∧ peek e ≠ 93 ∧ peek e ≠ 125

/-- The renderings of a chain are read back as the chain: by the loop of
`parse_array` after the elements of an array, by the loop of `parse_object`
after the members of an object. -/
def chain_roundtrip (keyed : Bool) (c : cJSON) (depth : Nat) (fmt : Bool) : Prop :=
  ∃ es, collect (print_chain c depth fmt) = some es ∧ (∀ e ∈ es, value_start e) ∧ ∃ F,
    (keyed = false → ∀ ws rest, blank ws →
      parse_array_loop F ((if es = [] then [] else 44 :: (ws ++ array_entries es fmt)) ++
        93 :: rest) = .ok c rest) ∧
    (keyed = true → ∀ ws rest, blank ws →
      parse_object_loop F (skip ((if es = [] then [] else [44]) ++ ((if fmt then [10] else []) ++
        (object_entries depth fmt (print_names c) es ++ (ws ++ 125 :: rest))))) = .ok c rest)

/-- The text without the spaces, tabs, CRs and LFs that lie outside its
string literals, read from the given place on. -/
def strip_blanks : TextAt → List Nat → List Nat
  | _, [] => []
  | .code, c :: rest =>
    if c = 32 ∨ c = 9 ∨ c = 13 ∨ c = 10 then strip_blanks .code rest
    else if c = 34 then c :: strip_blanks .literal rest
    else c :: strip_blanks .code rest
  | .literal, c :: rest =>
    if c = 34 then c :: strip_blanks .code rest
    else if c = 92 then c :: strip_blanks .escaped rest
    else c :: strip_blanks .literal rest
  | .escaped, c :: rest => c :: strip_blanks .literal rest

/-- A byte that is copied as it is outside the string literals: no
terminator, white space, slash or quote. -/
def plain_byte (c : Nat) : Prop :=
  c ≠ 0 ∧ c ≠ 32 ∧ c ≠ 9 ∧ c ≠ 13 ∧ c ≠ 10 ∧ c ≠ 47 ∧ c ≠ 34

/-- The pass `g` over a text turns the piece `a`, wherever it stands outside
the string literals, into the piece `b`. -/
def Squeezes (g : List Nat → Option (List Nat)) (a b : List Nat) : Prop :=
  ∀ rest, g (a ++ rest) = (g rest).map (fun o => b ++ o)

/-- The body of a string literal, read after a backslash (`true`) or not: no
terminator, no quote but after a backslash, and no backslash at its end. -/
def literal_body : Bool → List Nat → Bool
  | false, [] => true
  | true, [] => false
  | false, c :: rest => decide (c ≠ 0) && decide (c ≠ 34) && literal_body (decide (c = 92)) rest
  | true, c :: rest => decide (c ≠ 0) && literal_body false rest

/-- What the two passes, `cJSON_Minify` and `strip_blanks`, have in common:
white space outside the literals is dropped, plain bytes are copied, a
literal is copied whole. -/
structure Pass (g : List Nat → Option (List Nat)) : Prop where
  blank : ∀ c rest, c = 32 ∨ c = 9 ∨ c = 13 ∨ c = 10 → g (c :: rest) = g rest
  plain : ∀ c rest, plain_byte c → g (c :: rest) = (g rest).map (fun o => c :: o)
  literal : ∀ b rest, literal_body false b = true → g (34 :: (b ++ 34 :: rest)) =
    (g rest).map (fun o => 34 :: (b ++ 34 :: o))

/-- The bytes of a text up to its terminator. -/
def c_string (s : List Nat) : List Nat := s.takeWhile (fun c => c ≠ 0)

/-- Two bytes are the same letter: equal, or an ASCII capital and its small
letter. -/
def same_letter (a b : Nat) : Prop :=
  a = b ∨ (65 ≤ a ∧ a ≤ 90 ∧ b = a + 32) ∨ (65 ≤ b ∧ b ≤ 90 ∧ a = b + 32)

/-- Two keys are equal under ASCII case-insensitive comparison: texts of the
same length with the same letter at every place; two null keys are equal, a
null key and a text are not. -/
def key_equal : Option (List Nat) → Option (List Nat) → Prop
  | none, none => True
  | some a, some b => List.Forall₂ same_letter (c_string a) (c_string b)
  | _, _ => False

/-- A node without its sibling link. -/
def cJSON.own (c : cJSON) : cJSON := c.setNext .null

/-- The children of a chain in order, each without its sibling link. -/
def cJSON.items (c : cJSON) : List cJSON := c.chain.map cJSON.own

/-- Two chains have the same structure: the same number of nodes, and node by
node the same kind, numbers, string payload and key (as texts), and children
of the same structure. -/
def same_structure : cJSON → cJSON → Prop
  | .null, .null => True
  | .node n c t vs vi vd s, .node n2 c2 t2 vs2 vi2 vd2 s2 =>
    t &&& 255 = t2 &&& 255 ∧ vi = vi2 ∧ vd = vd2 ∧ vs.map c_string = vs2.map c_string ∧
      s.map c_string = s2.map c_string ∧ same_structure c c2 ∧ same_structure n n2
  | .null, .node _ _ _ _ _ _ _ => False
  | .node _ _ _ _ _ _ _, .null => False

/-- No node of the chain or below it has the reference flag. -/
def no_reference : cJSON → Prop
  | .null => True
  | .node n c t _ _ _ _ => t &&& cJSON_IsReference = 0 ∧ no_reference c ∧ no_reference n

/-- Every block of a chain: its nodes, their buffers and all that is below
them. -/
def Mem.blocks : Mem → List Nat
  | .null => []
  | .node addr next child _ valuestring string =>
    addr :: (valuestring.toList ++ string.toList ++ Mem.blocks child ++ Mem.blocks next)

/-- Along a chain and below it, a node has a key exactly when it is a direct
member of the chain of an Object: `in_object` tells whether the chain is
one. -/
def keyed_chain : Bool → cJSON → Prop
  | _, .null => True
  | in_object, .node n c t _ _ _ s =>
    (s.isSome = in_object) ∧ keyed_chain (decide (t &&& 255 = cJSON_Object)) c ∧
      keyed_chain in_object n

/-- The key invariant of a node that is in no chain, with all below it: it has
no key, and the nodes below it have one exactly in the chains of Objects. -/
def key_invariant (root : cJSON) : Prop :=
  root.getString = none ∧
    keyed_chain (decide (root.getType &&& 255 = cJSON_Object)) root.getChild

/-- The key invariant of the members of a container, whatever chain the
container itself is in. -/
def members_keyed (container : cJSON) : Prop :=
  keyed_chain (decide (container.getType &&& 255 = cJSON_Object)) container.getChild

/-- A tree built from the constructors, every child of an Array added with
`cJSON_AddItemToArray` and every child of an Object with
`cJSON_AddItemToObject`; its numbers are integers of the `int` range. -/
inductive Constructed : cJSON → Prop where
  | null : Constructed cJSON_CreateNull
  | true : Constructed cJSON_CreateTrue
  | false : Constructed cJSON_CreateFalse
  | number (n : Int) : INT_MIN ≤ n → n ≤ INT_MAX → Constructed (cJSON_CreateNumber (n : ℚ))
  | string (s : List Nat) : Constructed (cJSON_CreateString s)
  | array : Constructed cJSON_CreateArray
  | object : Constructed cJSON_CreateObject
  | add_to_array (a item : cJSON) : Constructed a → a.getType = cJSON_Array →
      Constructed item → Constructed (cJSON_AddItemToArray a item)
  | add_to_object (o item : cJSON) (string : List Nat) : Constructed o →
      o.getType = cJSON_Object → Constructed item →
      Constructed (cJSON_AddItemToObject o string item)

/-- The tree with `valueint` 1 in its True nodes, as `parse_value` sets it;
`cJSON_CreateTrue` leaves it 0. -/
def parsed_form : cJSON → cJSON
  | .null => .null
  | .node n c t vs vi vd s =>
    .node (parsed_form n) (parsed_form c) t vs (if t = cJSON_True then 1 else vi) vd s

/-- Two chains have the same content: node by node the same kind, the same
numbers in the Number nodes, the same string payload and key, and children of
the same content in the same order. -/
def same_content : cJSON → cJSON → Prop
  | .null, .null => True
  | .node n c t vs vi vd s, .node n2 c2 t2 vs2 vi2 vd2 s2 =>
    t = t2 ∧ (t = cJSON_Number → vi = vi2 ∧ vd = vd2) ∧ vs = vs2 ∧ s = s2 ∧
      same_content c c2 ∧ same_content n n2
  | .null, .node _ _ _ _ _ _ _ => False
  | .node _ _ _ _ _ _ _, .null => False


/-- A node of the heap: a non-null address handed out by `cJSON_New_Item`. -/
def Heap.live (h : Heap) (a : Nat) : Prop := a ≠ 0 ∧ a < h.top

/-- The heap is well linked: the null address is no node, and of every node
`a` the `next` is null or a node whose `prev` is `a`, the `prev` is null or a
node whose `next` is `a`, and the `child` is null or a node without `prev`. -/
def Heap.linked (h : Heap) : Prop :=
  0 < h.top ∧ ∀ a, h.live a →
    (h.next a = 0 ∨ (h.live (h.next a) ∧ h.prev (h.next a) = a)) ∧
    (h.prev a = 0 ∨ (h.live (h.prev a) ∧ h.next (h.prev a) = a)) ∧
    (h.child a = 0 ∨ (h.live (h.child a) ∧ h.prev (h.child a) = 0))

/-- A stand-alone item: a node with no sibling that is the child of no
node. -/
def Heap.stand_alone (h : Heap) (item : Nat) : Prop :=
  h.live item ∧ h.next item = 0 ∧ h.prev item = 0 ∧ ∀ c, h.live c → h.child c ≠ item

/-- The chain from `c` on is the list `l` of nodes: each the `next` of the
one before, the `next` of the last null. -/
def Heap.chain (h : Heap) : Nat → List Nat → Prop
  | c, [] => c = 0
  | c, a :: l => c = a ∧ h.live a ∧ h.chain (h.next a) l

/-- The sibling-chain invariant in the words of the specification: for any
two nodes `a.next = b` iff `b.prev = a`; the `child` of a container, when not
null, is a node without previous sibling; and the chain from the `child` of a
node ends, in a node without next sibling. -/
def Heap.sibling_invariant (h : Heap) : Prop :=
  (∀ a b, h.live a → h.live b → (h.next a = b ↔ h.prev b = a)) ∧
  (∀ c, h.live c → h.child c ≠ 0 → h.live (h.child c) ∧ h.prev (h.child c) = 0) ∧
  (∀ c, h.live c → ∃ l, h.chain (h.child c) l)

/-- From `h` to `k` the nodes of `h` keep their links, but for the `next` of
`nx` and the `child` of `ch`; nodes are only added, and the `child` of an
added node, and of `ch` when it has changed, is an added node or null. -/
def Heap.keeps (h k : Heap) (nx ch : Nat) : Prop :=
  h.top ≤ k.top ∧
  (∀ a, h.live a →
    k.prev a = h.prev a ∧ (a ≠ nx → k.next a = h.next a) ∧
      (a ≠ ch → k.child a = h.child a) ∧ (k.child a = h.child a ∨ h.top ≤ k.child a)) ∧
  ∀ a, k.live a → h.top ≤ a → k.child a = 0 ∨ h.top ≤ k.child a

/-- The heaps have the same links and the same nodes. -/
def Heap.same_links (h k : Heap) : Prop :=
  k.next = h.next ∧ k.prev = h.prev ∧ k.child = h.child ∧ k.top = h.top

/-- The node `n` steps from `c` along `next`, null once the chain has ended. -/
def Heap.walk (h : Heap) : Nat → Nat → Nat
  | 0, c => c
  | n + 1, c => if c = 0 then 0 else h.walk n (h.next c)

/-- What a parser function returns, without the node: 0 and the pointer
returned, 1 and the error pointer, 2 for an overrun, 3 for no fuel. -/
def Parsed.trace : Parsed → Nat × List Nat
  | .ok _ rest => (0, rest)
  | .fail ep => (1, ep)
  | .overrun => (2, [])
  | .nofuel => (3, [])

/-- What a parser function on the heap returns, without the heap and the
node, as `Parsed.trace`. -/
def HParsed.trace : HParsed → Nat × List Nat
  | .ok _ _ rest => (0, rest)
  | .fail ep => (1, ep)
  | .overrun => (2, [])
  | .nofuel => (3, [])

/-- The nodes below `b` form trees: the `child` and the `next` of a node
below `b` are null or nodes below `b` of smaller rank. -/
def Heap.ranked (h : Heap) (b : Nat) (rank : Nat → Nat) : Prop :=
  ∀ a, a ≠ 0 → a < b →
    (h.child a = 0 ∨ (h.child a < b ∧ rank (h.child a) < rank a)) ∧
    (h.next a = 0 ∨ (h.next a < b ∧ rank (h.next a) < rank a))

/-- The links of every node are null or address a node. -/
def Heap.closed (h : Heap) : Prop :=
  ∀ a, h.live a →
    (h.next a = 0 ∨ h.live (h.next a)) ∧ (h.prev a = 0 ∨ h.live (h.prev a)) ∧
      (h.child a = 0 ∨ h.live (h.child a))

/-- The heap a parser function returns, the empty heap when it fails. -/
def HParsed.heap : HParsed → Heap
  | .ok h _ _ => h
  | _ => Heap.empty

/-- The node a parser function returns, null when it fails. -/
def HParsed.root : HParsed → Nat
  | .ok _ item _ => item
  | _ => 0

/-- The text `[1,[2,3]]` parsed on the empty heap. -/
def Heap.sample : HParsed := Heap.empty.cJSON_ParseWithOpts (bytes "[1,[2,3]]") true

/-- The heap is ordered: the `child` and the `next` of a node are null or
at a higher address, as in the heap the parser builds, where a node is
allocated before its children and its later siblings. -/
def Heap.ordered (h : Heap) : Prop :=
  ∀ a, h.live a → (h.child a = 0 ∨ a < h.child a) ∧ (h.next a = 0 ∨ a < h.next a)

/-! ## Specification: numbers read without rounding -/

/-- The number text at `num` is one that `parse_number` reads without
rounding: the power of ten is `pow(10.0,0)`, which is 1 (no fraction digit and
no exponent, or an exponent that takes the fraction digits back, as in
`1.50e2`), the digits read stay below 2^53, so that every `n*10.0+digit` is an
integer a `double` holds, and the exponent read is within an `int`.  The
number is then an integer. -/
def plain_number (num : List Nat) : Bool :=
  decide ((number_scan num).scale + (number_scan num).subscale * (number_scan num).signsubscale = 0 ∧
    (number_scan num).n < 9007199254740992 ∧ (number_scan num).subscale ≤ INT_MAX)

mutual

/-- Every number that `parse_value` reads in `value` is a plain integer
(`plain_number`).  The function goes through the text as `parse_value` does,
with the same tests in the same order; where `parse_value` calls
`parse_number` it tests the text there, and where the parser stops it has
nothing more to test. -/
def plain_value : Nat → List Nat → Bool
  | 0, _ => true
  | fuel + 1, value =>
    if [110, 117, 108, 108] <+: value then true
    else if [102, 97, 108, 115, 101] <+: value then true
    else if [116, 114, 117, 101] <+: value then true
    else if peek value = 34 then true
    else if peek value = 45 ∨ (48 ≤ peek value ∧ peek value ≤ 57) then plain_number value
    else if peek value = 91 then plain_array fuel value
    else if peek value = 123 then plain_object fuel value
    else true

/-- The numbers `parse_array` reads are plain integers (see `plain_value`). -/
def plain_array : Nat → List Nat → Bool
  | 0, _ => true
  | fuel + 1, value =>
    if peek value ≠ 91 then true
    else if peek (skip value.tail) = 93 then true
    else
      plain_value fuel (skip (skip value.tail)) &&
        match parse_value fuel cJSON_New_Item (skip (skip value.tail)) with
        | .ok _ v => plain_array_loop fuel (skip v)
        | _ => true

/-- The numbers the loop of `parse_array` reads are plain integers. -/
def plain_array_loop : Nat → List Nat → Bool
  | 0, _ => true
  | fuel + 1, value =>
    if peek value = 44 then
      plain_value fuel (skip value.tail) &&
        match parse_value fuel cJSON_New_Item (skip value.tail) with
        | .ok _ v => plain_array_loop fuel (skip v)
        | _ => true
    else true

/-- The number `parse_member` reads, if the value of the member is one, is a
plain integer. -/
def plain_member : Nat → List Nat → Bool
  | 0, _ => true
  | fuel + 1, value =>
    match parse_string cJSON_New_Item (skip value) with
    | .ok _ v => if peek (skip v) ≠ 58 then true else plain_value fuel (skip (skip v).tail)
    | _ => true

/-- The numbers `parse_object` reads are plain integers. -/
def plain_object : Nat → List Nat → Bool
  | 0, _ => true
  | fuel + 1, value =>
    if peek value ≠ 123 then true
    else if peek (skip value.tail) = 125 then true
    else
      plain_member fuel (skip value.tail) &&
        match parse_member fuel (skip value.tail) with
        | .ok _ v => plain_object_loop fuel (skip v)
        | _ => true

/-- The numbers the loop of `parse_object` reads are plain integers. -/
def plain_object_loop : Nat → List Nat → Bool
  | 0, _ => true
  | fuel + 1, value =>
    if peek value = 44 then
      plain_member fuel value.tail &&
        match parse_member fuel value.tail with
        | .ok _ v => plain_object_loop fuel (skip v)
        | _ => true
    else true

end

/-- Every Number of the tree holds an integer of magnitude below 2^53 in
`valuedouble`, and in `valueint` the conversion of it to `int`. -/
def whole : cJSON → Prop
  | .null => True
  | .node next child type _ vi vd _ =>
    (type = cJSON_Number → ∃ n : Int, vd = (n : ℚ) ∧ vi = int_of_double (n : ℚ) ∧
      -9007199254740992 < n ∧ n < 9007199254740992) ∧ whole next ∧ whole child

/-! ## Basic facts: text helpers -/

theorem peek_nil : peek [] = 0 := rfl

theorem peek_cons (c : Nat) (rest : List Nat) : peek (c :: rest) = c := rfl

theorem skip_decomp (e : List Nat) :
    ∃ ws, e = ws ++ skip e ∧ ∀ b ∈ ws, b ≠ 0 ∧ b ≤ 32 := by
  induction e with
  | nil => exact ⟨[], rfl, by simp⟩
  | cons c rest ih =>
    by_cases h : c ≠ 0 ∧ c ≤ 32
    · obtain ⟨ws, h1, h2⟩ := ih
      refine ⟨c :: ws, ?_, ?_⟩
      · simp only [skip, if_pos h, List.cons_append]; rw [← h1]
      · intro b hb
        rcases List.mem_cons.1 hb with rfl | hb
        · exact h
        · exact h2 b hb
    · exact ⟨[], by simp [skip, if_neg h], by simp⟩

theorem skip_head (e : List Nat) : peek (skip e) = 0 ∨ 32 < peek (skip e) := by
  induction e with
  | nil => left; rfl
  | cons c rest ih =>
    by_cases h : c ≠ 0 ∧ c ≤ 32
    · simpa [skip, if_pos h] using ih
    · simp only [skip, if_neg h, peek_cons]
      by_cases h0 : c = 0
      · exact Or.inl h0
      · right; by_contra hle; exact h ⟨h0, by omega⟩

theorem skip_idem (e : List Nat) : skip (skip e) = skip e := by
  induction e with
  | nil => rfl
  | cons c rest ih =>
    by_cases h : c ≠ 0 ∧ c ≤ 32
    · simpa [skip, if_pos h] using ih
    · simp [skip, if_neg h]

theorem skip_of_head {e : List Nat} (h : peek e = 0 ∨ 32 < peek e) : skip e = e := by
  cases e with
  | nil => rfl
  | cons c rest =>
    have : ¬(c ≠ 0 ∧ c ≤ 32) := by
      rintro ⟨h0, h1⟩
      rcases h with h | h
      · exact h0 h
      · simp only [peek_cons] at h; omega
    simp [skip, if_neg this]

theorem skip_length_le (e : List Nat) : (skip e).length ≤ e.length := by
  obtain ⟨ws, h1, _⟩ := skip_decomp e
  have := congrArg List.length h1
  simp only [List.length_append] at this
  omega

theorem trailing_iff (e : List Nat) :
    (∃ b ∈ e.takeWhile (fun b => decide (b ≠ 0)), 32 < b) ↔ peek (skip e) ≠ 0 := by
  induction e with
  | nil => simp [skip, peek]
  | cons c rest ih =>
    by_cases h0 : c = 0
    · subst h0; simp [skip, peek, List.takeWhile]
    · by_cases h : c ≤ 32
      · have hs : skip (c :: rest) = skip rest := by simp [skip, h0, h]
        rw [hs, ← ih]
        simp only [List.takeWhile, h0, ne_eq, not_false_eq_true, decide_True, List.mem_cons,
          exists_eq_or_imp]
        constructor
        · rintro (h1 | h1)
          · omega
          · exact h1
        · intro h1; exact Or.inr h1
      · have hs : skip (c :: rest) = c :: rest := by simp [skip, h]
        rw [hs]
        simp only [peek_cons, ne_eq, h0, not_false_eq_true, iff_true]
        exact ⟨c, by simp [List.takeWhile, h0], by omega⟩

/-! ## C3: cJSON_Minify -/

theorem minify_from_stable (x : List Nat) :
    ∀ m y, minify_from m x = some y → no_comment_opener m.written y = true →
      minify_from m.resume y = some y := by
  induction x with
  | nil =>
    intro m y h _
    cases m <;> simp [minify_from] at h <;> subst h <;> simp [MinifyAt.resume, minify_from]
  | cons c rest ih =>
    intro m y h hc
    cases m with
    | outer =>
      rw [minify_from] at h
      split_ifs at h with h0 hw hl hb hq
      · cases h; simp [MinifyAt.resume, minify_from]
      · exact ih .outer y h hc
      · exact ih .line y h hc
      · exact ih .block y h hc
      · obtain ⟨a, ha, rfl⟩ := Option.map_eq_some'.1 h
        have hc2 : no_comment_opener .literal a = true := by
          simpa [MinifyAt.written, no_comment_opener, hq] using hc
        have := ih _ a ha hc2
        simp only [MinifyAt.resume] at this
        simp [MinifyAt.resume, minify_from, this, hq]
      · obtain ⟨a, ha, rfl⟩ := Option.map_eq_some'.1 h
        simp only [MinifyAt.written, no_comment_opener] at hc
        split_ifs at hc with hop
        have h1 : ¬(c = 47 ∧ peek a = 47) := fun h => hop ⟨h.1, Or.inl h.2⟩
        have h2 : ¬(c = 47 ∧ peek a = 42) := fun h => hop ⟨h.1, Or.inr h.2⟩
        have := ih _ a ha hc
        simp only [MinifyAt.resume] at this ⊢
        rw [minify_from, if_neg h0, if_neg hw, if_neg h1, if_neg h2, if_neg hq, this]; rfl
    | line =>
      rw [minify_from] at h
      split_ifs at h with h0 hn
      · cases h; simp [MinifyAt.resume, minify_from]
      · exact ih .outer y h hc
      · exact ih .line y h hc
    | block =>
      rw [minify_from] at h
      split_ifs at h with h0 hs
      · exact ih .close y h hc
      · exact ih .block y h hc
    | close =>
      rw [minify_from] at h
      exact ih .outer y h hc
    | literal =>
      rw [minify_from] at h
      split_ifs at h with h0 hq hb
      · obtain ⟨a, ha, rfl⟩ := Option.map_eq_some'.1 h
        have hc2 : no_comment_opener .code a = true := by
          simpa [MinifyAt.written, no_comment_opener, hq] using hc
        have := ih _ a ha hc2
        simp only [MinifyAt.resume] at this
        simp [MinifyAt.resume, minify_from, this, hq]
      · obtain ⟨a, ha, rfl⟩ := Option.map_eq_some'.1 h
        have hc2 : no_comment_opener .escaped a = true := by
          simpa [MinifyAt.written, no_comment_opener, hq, hb] using hc
        have := ih _ a ha hc2
        simp only [MinifyAt.resume] at this
        simp [MinifyAt.resume, minify_from, this, hq, hb]
      · obtain ⟨a, ha, rfl⟩ := Option.map_eq_some'.1 h
        have hc2 : no_comment_opener .literal a = true := by
          simpa [MinifyAt.written, no_comment_opener, hq, hb] using hc
        have := ih _ a ha hc2
        simp only [MinifyAt.resume] at this
        simp [MinifyAt.resume, minify_from, this, hq, hb, h0]
    | escape =>
      rw [minify_from] at h
      split_ifs at h with h0
      obtain ⟨a, ha, rfl⟩ := Option.map_eq_some'.1 h
      have hc2 : no_comment_opener .literal a = true := by
        simpa [MinifyAt.written, no_comment_opener] using hc
      have := ih _ a ha hc2
      simp only [MinifyAt.resume] at this
      simp [MinifyAt.resume, minify_from, this, h0]

/-- C3, amended: on a text the pass stays inside of, and whose minified form
has no comment opener outside its string literals, `cJSON_Minify` gives a
text that it leaves unchanged. -/
theorem C3_minify_idempotent (x y : List Nat) (h : cJSON_Minify x = some y)
    (hc : no_comment_opener .code y = true) : cJSON_Minify y = some y :=
  minify_from_stable x .outer y h hc

/-- C3 as stated fails at the text `/ /`: minifying it gives `//`, and
minifying that gives the empty text. -/
theorem C3_counterexample :
    cJSON_Minify (bytes "/ /") = some (bytes "//") ∧
      cJSON_Minify (bytes "//") = some [] ∧
      (cJSON_Minify (bytes "/ /")).bind cJSON_Minify ≠ cJSON_Minify (bytes "/ /") := by
  decide

theorem C3_minify_idempotent_witness :
    cJSON_Minify (bytes "\x7b \"a b\" : [1, 2] /* c */ \x7d") = some (bytes "\x7b\"a b\":[1,2]\x7d") ∧
      cJSON_Minify (bytes "\x7b\"a b\":[1,2]\x7d") = some (bytes "\x7b\"a b\":[1,2]\x7d") :=
  ⟨by decide, C3_minify_idempotent (bytes "\x7b \"a b\" : [1, 2] /* c */ \x7d") _ (by decide) (by decide)⟩

/-! ## C4: cJSON_ParseWithOpts with require_null_terminated -/

/-- C4: with `require_null_terminated` the parse fails exactly when the parse
without the flag fails or a byte above 0x20 stands between the end of the
value and the terminator; a failure of the plain parse is kept with its
position, the failure for trailing data records the first such byte (the
place `skip` stops at), and a success returns the tree of the plain parse. -/
theorem C4_require_null_terminated (value : List Nat) :
    ((∃ ep, cJSON_ParseWithOpts value true = .fail ep) ↔
      ((∃ ep, cJSON_ParseWithOpts value false = .fail ep) ∨
        ∃ c e, cJSON_ParseWithOpts value false = .ok c e ∧
          ∃ b ∈ e.takeWhile (fun b => decide (b ≠ 0)), 32 < b)) ∧
    (∀ ep, cJSON_ParseWithOpts value false = .fail ep →
      cJSON_ParseWithOpts value true = .fail ep) ∧
    (∀ c e, cJSON_ParseWithOpts value false = .ok c e →
      (∃ b ∈ e.takeWhile (fun b => decide (b ≠ 0)), 32 < b) →
        cJSON_ParseWithOpts value true = .fail (skip e) ∧ 32 < peek (skip e) ∧
          ∃ ws, e = ws ++ skip e ∧ ∀ b ∈ ws, b ≠ 0 ∧ b ≤ 32) ∧
    (∀ c e, cJSON_ParseWithOpts value false = .ok c e →
      (¬ ∃ b ∈ e.takeWhile (fun b => decide (b ≠ 0)), 32 < b) →
        cJSON_ParseWithOpts value true = .ok c (skip e)) ∧
    (∀ c e, cJSON_ParseWithOpts value true = .ok c e →
      ∃ e0, cJSON_ParseWithOpts value false = .ok c e0 ∧ e = skip e0) := by
  unfold cJSON_ParseWithOpts
  cases hp : parse_value (fuel_for value) cJSON_New_Item (skip value) with
  | ok c e =>
    have key := trailing_iff e
    by_cases ht : peek (skip e) ≠ 0
    · have hb := key.2 ht
      have h32 : 32 < peek (skip e) := by
        rcases skip_head e with h | h
        · exact absurd h ht
        · exact h
      simp only [if_true, if_pos ht, Bool.false_eq_true, if_false, Parsed.ok.injEq,
        Parsed.fail.injEq, exists_eq', true_iff, false_or, reduceCtorEq, exists_false,
        false_implies, implies_true, true_and, forall_const, and_true]
      refine ⟨⟨c, e, ⟨rfl, rfl⟩, hb⟩, ?_, ?_⟩
      · rintro c' e' ⟨rfl, rfl⟩ _
        exact ⟨rfl, h32, skip_decomp _⟩
      · rintro c' e' ⟨rfl, rfl⟩ hn
        exact absurd hb hn
    · have hb : ¬ ∃ b ∈ e.takeWhile (fun b => decide (b ≠ 0)), 32 < b := fun h => ht (key.1 h)
      simp only [if_true, if_neg ht, Bool.false_eq_true, if_false, Parsed.ok.injEq,
        reduceCtorEq, exists_false, false_or, false_iff, not_exists, not_and,
        false_implies, implies_true, true_and]
      refine ⟨?_, ?_, ?_, ?_⟩
      · rintro c' e' ⟨rfl, rfl⟩ b hb1 hb2
        exact hb ⟨b, hb1, hb2⟩
      · rintro c' e' ⟨rfl, rfl⟩ hex
        exact absurd hex hb
      · rintro c' e' ⟨rfl, rfl⟩ _
        exact ⟨rfl, rfl⟩
      · rintro c' e' ⟨rfl, rfl⟩
        exact ⟨e, ⟨rfl, rfl⟩, rfl⟩
  | fail ep => simp
  | overrun => simp
  | nofuel => simp

/-! ## C6: unterminated string literals -/

theorem parse_string_len_raw (body : List Nat) :
    ∀ len, (∀ c ∈ body, c ≠ 0 ∧ c ≠ 34 ∧ c ≠ 92) →
      parse_string_len false body len = some (len + body.length) := by
  induction body with
  | nil => intro len _; simp [parse_string_len]
  | cons c rest ih =>
    intro len h
    obtain ⟨h0, h1, h2⟩ := h c (List.mem_cons_self _ _)
    have hr := ih (len + 1) (fun d hd => h d (List.mem_cons_of_mem _ hd))
    rw [parse_string_len, if_neg (by simp [h0, h1]), if_neg h2, hr]
    simp only [List.length_cons]; congr 1; omega

theorem parse_string_copy_raw (body : List Nat) :
    (∀ c ∈ body, c ≠ 0 ∧ c ≠ 34 ∧ c ≠ 92) → parse_string_copy .scan body = some (body, []) := by
  induction body with
  | nil => intro _; simp [parse_string_copy]
  | cons c rest ih =>
    intro h
    obtain ⟨h0, h1, h2⟩ := h c (List.mem_cons_self _ _)
    have hr := ih (fun d hd => h d (List.mem_cons_of_mem _ hd))
    rw [parse_string_copy, if_neg (by simp [h0, h1]), if_pos h2, hr]
    rfl

theorem parse_string_never_fails (item : cJSON) (body ep : List Nat) :
    parse_string item (34 :: body) ≠ .fail ep := by
  unfold parse_string
  simp only [peek_cons, ne_eq, not_true_eq_false, if_false, List.tail_cons]
  cases parse_string_len false body 0 with
  | none => simp
  | some len =>
    cases parse_string_copy .scan body with
    | none => simp
    | some r =>
      obtain ⟨out, ptr⟩ := r
      by_cases hl : len < out.length <;> simp [hl]

/-- C6, amended: a string literal that is not closed is no syntax error.
`parse_string` records an error only when the text does not start with a
quote; a literal without escapes that runs to the end of input is read whole,
and `cJSON_Parse` of it returns a String node holding every byte after the
opening quote. -/
theorem C6_unterminated_string (item : cJSON) (body : List Nat) :
    (∀ ep, parse_string item (34 :: body) ≠ .fail ep) ∧
    ((∀ c ∈ body, c ≠ 0 ∧ c ≠ 34 ∧ c ≠ 92) →
      parse_string item (34 :: body) =
          .ok ((item.setValuestring (some body)).setType cJSON_String) [] ∧
        cJSON_Parse (34 :: body) =
          .ok (.node .null .null cJSON_String (some body) 0 0 none) []) := by
  refine ⟨fun ep => parse_string_never_fails item body ep, fun h => ?_⟩
  have hs : parse_string item (34 :: body) =
      .ok ((item.setValuestring (some body)).setType cJSON_String) [] := by
    unfold parse_string
    simp only [peek_cons, ne_eq, not_true_eq_false, if_false, List.tail_cons]
    rw [parse_string_len_raw body 0 h, parse_string_copy_raw body h]
    simp [peek]
  refine ⟨hs, ?_⟩
  have hs2 : parse_string cJSON_New_Item (34 :: body) =
      .ok ((cJSON_New_Item.setValuestring (some body)).setType cJSON_String) [] := by
    unfold parse_string
    simp only [peek_cons, ne_eq, not_true_eq_false, if_false, List.tail_cons]
    rw [parse_string_len_raw body 0 h, parse_string_copy_raw body h]
    simp [peek]
  unfold cJSON_Parse cJSON_ParseWithOpts fuel_for
  have hk : skip (34 :: body) = 34 :: body := by simp [skip]
  rw [hk, show 2 * (34 :: body).length + 2 = (2 * (34 :: body).length + 1) + 1 from rfl,
    parse_value]
  simp only [List.cons_prefix_cons, peek_cons, if_true]
  rw [if_neg (by simp), if_neg (by simp), if_neg (by simp), hs2]
  rfl

/-- C6 as stated fails at the text `"abc`: the parse succeeds with the String
`abc` and the pointer at the end of input. -/
theorem C6_counterexample :
    cJSON_Parse (bytes "\"abc") =
      .ok (.node .null .null cJSON_String (some (bytes "abc")) 0 0 none) [] := by
  decide

/-! ## C2: `\\u` escapes and UTF-8 -/

theorem or_128_small : ∀ y, y < 64 → y ||| 128 = 128 + y := by decide

theorem testBit_128 : ∀ k, k < 8 → Nat.testBit 128 k = decide (k = 7) := by decide

theorem testBit_191 : ∀ k, k < 8 → Nat.testBit 191 k = decide (k ≠ 6) := by decide

theorem cont_byte (x : Nat) : ((x ||| 0x80) &&& 0xBF) % 256 = 0x80 + x % 64 := by
  have h1 : ((x ||| 128) &&& 191) % 2 ^ 8 = (x % 2 ^ 6) ||| 128 := by
    apply Nat.eq_of_testBit_eq
    intro i
    simp only [Nat.testBit_mod_two_pow, Nat.testBit_and, Nat.testBit_or]
    by_cases hi : i < 8
    · rw [testBit_128 i hi, testBit_191 i hi]
      interval_cases i <;> simp
    · have h128 : Nat.testBit 128 i = false :=
        Nat.testBit_lt_two_pow (Nat.lt_of_lt_of_le (by norm_num : 128 < 2 ^ 8)
          (Nat.pow_le_pow_right (by norm_num) (by omega)))
      have h6 : ¬ i < 6 := by omega
      simp [hi, h6, h128]
  have h2 := or_128_small (x % 2 ^ 6) (Nat.mod_lt _ (by norm_num))
  have e1 : (0x80 : Nat) = 128 := rfl
  have e2 : (0xBF : Nat) = 191 := rfl
  rw [e1, e2, show (256 : Nat) = 2 ^ 8 from rfl, h1, h2]; rfl

theorem lead2 : ∀ y, y < 32 → (y ||| 0xC0) % 256 = 0xC0 + y := by decide
theorem lead3 : ∀ y, y < 16 → (y ||| 0xE0) % 256 = 0xE0 + y := by decide
theorem lead4 : ∀ y, y < 8 → (y ||| 0xF0) % 256 = 0xF0 + y := by decide

theorem utf8_bytes_standard (uc : Nat) (h : uc < 0x200000) : utf8_bytes uc = utf8_standard uc := by
  unfold utf8_bytes utf8_standard
  simp only [cont_byte, Nat.shiftRight_eq_div_pow, Nat.div_div_eq_div_mul]
  by_cases h1 : uc < 0x80
  · simp [h1, firstByteMark]; omega
  · by_cases h2 : uc < 0x800
    · have := lead2 (uc / 64) (by omega)
      simp [h1, h2, firstByteMark]
      simpa using this
    · by_cases h3 : uc < 0x10000
      · have := lead3 (uc / 4096) (by omega)
        simp [h1, h2, h3, firstByteMark]
        simpa using this
      · have := lead4 (uc / 262144) (by omega)
        simp [h1, h2, h3, firstByteMark]
        simpa using this

theorem hexdigit_spec {c x : Nat} (h : hexdigit c = some x) : x < 16 ∧ c ≠ 0 := by
  unfold hexdigit at h
  split_ifs at h with h1 h2 h3 <;> simp at h <;> omega

theorem parse_hex4_value {a b c d x1 x2 x3 x4 : Nat} (rest : List Nat)
    (ha : hexdigit a = some x1) (hb : hexdigit b = some x2) (hc : hexdigit c = some x3)
    (hd : hexdigit d = some x4) :
    parse_hex4 (a :: b :: c :: d :: rest) = x1 * 4096 + x2 * 256 + x3 * 16 + x4 := by
  simp only [parse_hex4, peek_cons, List.drop_succ_cons, List.drop_zero, ha, hb, hc, hd,
    Nat.shiftLeft_eq]
  ring

theorem copy_pass4 {a b c d : Nat} (rest : List Nat) (ha : a ≠ 0) (hb : b ≠ 0) (hc : c ≠ 0)
    (hd : d ≠ 0) :
    parse_string_copy (.pass 4) (a :: b :: c :: d :: rest) = parse_string_copy .scan rest := by
  simp [parse_string_copy, ha, hb, hc, hd]

theorem copy_bmp_escape {a b c d x1 x2 x3 x4 : Nat} (rest : List Nat)
    (ha : hexdigit a = some x1) (hb : hexdigit b = some x2) (hc : hexdigit c = some x3)
    (hd : hexdigit d = some x4) (h0 : x1 * 4096 + x2 * 256 + x3 * 16 + x4 ≠ 0)
    (hs : x1 * 4096 + x2 * 256 + x3 * 16 + x4 < 0xD800 ∨
      0xDFFF < x1 * 4096 + x2 * 256 + x3 * 16 + x4) :
    parse_string_copy .scan (92 :: 117 :: a :: b :: c :: d :: rest) =
      (parse_string_copy .scan rest).map
        (fun r => (utf8_standard (x1 * 4096 + x2 * 256 + x3 * 16 + x4) ++ r.1, r.2)) := by
  have hv := parse_hex4_value rest ha hb hc hd
  have hlt : x1 * 4096 + x2 * 256 + x3 * 16 + x4 < 0x200000 := by
    have := (hexdigit_spec ha).1; have := (hexdigit_spec hb).1
    have := (hexdigit_spec hc).1; have := (hexdigit_spec hd).1
    omega
  have hu : parse_string_u (a :: b :: c :: d :: rest) =
      (utf8_standard (x1 * 4096 + x2 * 256 + x3 * 16 + x4), 4) := by
    unfold parse_string_u
    simp only [hv]
    rw [if_neg (by omega), if_neg (by omega), utf8_bytes_standard _ hlt]
  rw [parse_string_copy, if_neg (by decide), if_neg (by decide), parse_string_copy,
    if_neg (by decide), if_neg (by decide), if_neg (by decide), if_neg (by decide),
    if_neg (by decide), if_neg (by decide), if_pos rfl, hu]
  simp only
  rw [copy_pass4 rest (hexdigit_spec ha).2 (hexdigit_spec hb).2 (hexdigit_spec hc).2
    (hexdigit_spec hd).2]

theorem surrogate_value {h l : Nat} (hh : 0xD800 ≤ h ∧ h ≤ 0xDBFF) (hl : 0xDC00 ≤ l ∧ l ≤ 0xDFFF) :
    0x10000 + (((h &&& 0x3FF) <<< 10) ||| (l &&& 0x3FF)) =
      0x10000 + (h - 0xD800) * 1024 + (l - 0xDC00) := by
  have e : (0x3FF : Nat) = 2 ^ 10 - 1 := by norm_num
  rw [e, Nat.and_pow_two_sub_one_eq_mod, Nat.and_pow_two_sub_one_eq_mod, Nat.shiftLeft_eq,
    Nat.mul_comm, ← Nat.mul_add_lt_is_or (Nat.mod_lt _ (by norm_num))]
  omega

theorem copy_surrogate_escape {a b c d x1 x2 x3 x4 a2 b2 c2 d2 y1 y2 y3 y4 : Nat}
    (rest : List Nat)
    (ha : hexdigit a = some x1) (hb : hexdigit b = some x2) (hc : hexdigit c = some x3)
    (hd : hexdigit d = some x4) (ha2 : hexdigit a2 = some y1) (hb2 : hexdigit b2 = some y2)
    (hc2 : hexdigit c2 = some y3) (hd2 : hexdigit d2 = some y4)
    (hh : 0xD800 ≤ x1 * 4096 + x2 * 256 + x3 * 16 + x4 ∧
      x1 * 4096 + x2 * 256 + x3 * 16 + x4 ≤ 0xDBFF)
    (hl : 0xDC00 ≤ y1 * 4096 + y2 * 256 + y3 * 16 + y4 ∧
      y1 * 4096 + y2 * 256 + y3 * 16 + y4 ≤ 0xDFFF) :
    parse_string_copy .scan
        (92 :: 117 :: a :: b :: c :: d :: 92 :: 117 :: a2 :: b2 :: c2 :: d2 :: rest) =
      (parse_string_copy .scan rest).map
        (fun r => (utf8_standard (0x10000 +
          ((((x1 * 4096 + x2 * 256 + x3 * 16 + x4) &&& 0x3FF) <<< 10) |||
            ((y1 * 4096 + y2 * 256 + y3 * 16 + y4) &&& 0x3FF))) ++ r.1, r.2)) := by
  have hv := parse_hex4_value (92 :: 117 :: a2 :: b2 :: c2 :: d2 :: rest) ha hb hc hd
  have hv2 := parse_hex4_value rest ha2 hb2 hc2 hd2
  have hcp := surrogate_value hh hl
  have hu : parse_string_u (a :: b :: c :: d :: 92 :: 117 :: a2 :: b2 :: c2 :: d2 :: rest) =
      (utf8_standard (0x10000 +
          ((((x1 * 4096 + x2 * 256 + x3 * 16 + x4) &&& 0x3FF) <<< 10) |||
            ((y1 * 4096 + y2 * 256 + y3 * 16 + y4) &&& 0x3FF))), 10) := by
    unfold parse_string_u
    simp only [hv, List.drop_succ_cons, List.drop_zero, peek_cons, hv2]
    rw [if_neg (by omega), if_pos hh, if_neg (by simp), if_neg (by omega),
      utf8_bytes_standard _ (by rw [hcp]; omega)]
  rw [parse_string_copy, if_neg (by decide), if_neg (by decide), parse_string_copy,
    if_neg (by decide), if_neg (by decide), if_neg (by decide), if_neg (by decide),
    if_neg (by decide), if_neg (by decide), if_pos rfl, hu]
  simp only
  congr 1
  simp [parse_string_copy, (hexdigit_spec ha).2, (hexdigit_spec hb).2, (hexdigit_spec hc).2,
    (hexdigit_spec hd).2, (hexdigit_spec ha2).2, (hexdigit_spec hb2).2, (hexdigit_spec hc2).2,
    (hexdigit_spec hd2).2]

theorem hexdigit_plain {c x : Nat} (h : hexdigit c = some x) : c ≠ 0 ∧ c ≠ 34 ∧ c ≠ 92 := by
  unfold hexdigit at h
  split_ifs at h with h1 h2 h3 <;> simp at h <;> omega

theorem utf8_standard_length (cp : Nat) :
    (utf8_standard cp).length =
      if cp < 0x80 then 1 else if cp < 0x800 then 2 else if cp < 0x10000 then 3 else 4 := by
  unfold utf8_standard
  split_ifs <;> rfl

theorem parse_string_of_copy (item : cJSON) (body out rest : List Nat) (len : Nat)
    (hl : parse_string_len false body 0 = some len)
    (hc : parse_string_copy .scan body = some (out, 34 :: rest)) (hlen : out.length ≤ len) :
    parse_string item (34 :: body) =
      .ok ((item.setValuestring (some out)).setType cJSON_String) rest := by
  unfold parse_string
  simp only [peek_cons, ne_eq, not_true_eq_false, if_false, List.tail_cons, hl, hc]
  rw [if_neg (by omega)]
  simp [peek]

/-- C2: a `\uXXXX` escape whose code unit `u` is neither 0 nor a surrogate is
copied as the UTF-8 encoding of `u`, of 1 byte below 0x80, 2 below 0x800 and 3
otherwise; a high surrogate `u` followed by the escape of a low surrogate `l`
is copied as the 4-byte encoding of `0x10000 + (((u & 0x3FF) << 10) | (l &
0x3FF))`, the code point of the pair; and `"\ud83d\ude00"` parses to the
bytes F0 9F 98 80. -/
theorem C2_unicode_escape_utf8 (a b c d x1 x2 x3 x4 : Nat) (rest : List Nat)
    (ha : hexdigit a = some x1) (hb : hexdigit b = some x2) (hc : hexdigit c = some x3)
    (hd : hexdigit d = some x4) :
    (code_unit x1 x2 x3 x4 ≠ 0 →
      (code_unit x1 x2 x3 x4 < 0xD800 ∨ 0xDFFF < code_unit x1 x2 x3 x4) →
        parse_string_copy .scan (92 :: 117 :: a :: b :: c :: d :: rest) =
            (parse_string_copy .scan rest).map
              (fun r => (utf8_standard (code_unit x1 x2 x3 x4) ++ r.1, r.2)) ∧
          (utf8_standard (code_unit x1 x2 x3 x4)).length =
            (if code_unit x1 x2 x3 x4 < 0x80 then 1
              else if code_unit x1 x2 x3 x4 < 0x800 then 2 else 3) ∧
          ∀ item, parse_string item (34 :: 92 :: 117 :: a :: b :: c :: d :: 34 :: rest) =
            .ok ((item.setValuestring (some (utf8_standard (code_unit x1 x2 x3 x4)))).setType
              cJSON_String) rest) ∧
    (∀ a2 b2 c2 d2 y1 y2 y3 y4, hexdigit a2 = some y1 → hexdigit b2 = some y2 →
      hexdigit c2 = some y3 → hexdigit d2 = some y4 →
      (0xD800 ≤ code_unit x1 x2 x3 x4 ∧ code_unit x1 x2 x3 x4 ≤ 0xDBFF) →
      (0xDC00 ≤ code_unit y1 y2 y3 y4 ∧ code_unit y1 y2 y3 y4 ≤ 0xDFFF) →
        parse_string_copy .scan
            (92 :: 117 :: a :: b :: c :: d :: 92 :: 117 :: a2 :: b2 :: c2 :: d2 :: rest) =
          (parse_string_copy .scan rest).map
            (fun r => (utf8_standard
              (pair_code_point (code_unit x1 x2 x3 x4) (code_unit y1 y2 y3 y4)) ++ r.1, r.2)) ∧
          (utf8_standard
            (pair_code_point (code_unit x1 x2 x3 x4) (code_unit y1 y2 y3 y4))).length = 4 ∧
          pair_code_point (code_unit x1 x2 x3 x4) (code_unit y1 y2 y3 y4) =
            0x10000 + (code_unit x1 x2 x3 x4 - 0xD800) * 1024 +
              (code_unit y1 y2 y3 y4 - 0xDC00) ∧
          ∀ item, parse_string item
              (34 :: 92 :: 117 :: a :: b :: c :: d :: 92 :: 117 :: a2 :: b2 :: c2 :: d2 ::
                34 :: rest) =
            .ok ((item.setValuestring (some (utf8_standard
              (pair_code_point (code_unit x1 x2 x3 x4) (code_unit y1 y2 y3 y4))))).setType
                cJSON_String) rest) ∧
    cJSON_Parse (bytes "\"\\ud83d\\ude00\"") =
      .ok (.node .null .null cJSON_String (some [0xF0, 0x9F, 0x98, 0x80]) 0 0 none) [] := by
  obtain ⟨pa0, pa1, pa2⟩ := hexdigit_plain ha
  obtain ⟨pb0, pb1, pb2⟩ := hexdigit_plain hb
  obtain ⟨pc0, pc1, pc2⟩ := hexdigit_plain hc
  obtain ⟨pd0, pd1, pd2⟩ := hexdigit_plain hd
  refine ⟨?_, ?_, by decide⟩
  · intro h0 hs
    unfold code_unit at h0 hs ⊢
    have hcopy := copy_bmp_escape (34 :: rest) ha hb hc hd h0 hs
    have hcopy2 := copy_bmp_escape rest ha hb hc hd h0 hs
    have hlen := utf8_standard_length (x1 * 4096 + x2 * 256 + x3 * 16 + x4)
    refine ⟨hcopy2, ?_, ?_⟩
    · rw [hlen]
      have := (hexdigit_spec ha).1; have := (hexdigit_spec hb).1
      have := (hexdigit_spec hc).1; have := (hexdigit_spec hd).1
      split_ifs <;> first | rfl | omega
    · intro item
      refine parse_string_of_copy item _ _ rest 5 ?_ ?_ ?_
      · simp [parse_string_len, pa0, pa1, pa2, pb0, pb1, pb2, pc0, pc1, pc2, pd0, pd1, pd2]
      · rw [hcopy]; simp [parse_string_copy]
      · rw [hlen]; split_ifs <;> omega
  · intro a2 b2 c2 d2 y1 y2 y3 y4 ha2 hb2 hc2 hd2 hh hl
    obtain ⟨qa0, qa1, qa2⟩ := hexdigit_plain ha2
    obtain ⟨qb0, qb1, qb2⟩ := hexdigit_plain hb2
    obtain ⟨qc0, qc1, qc2⟩ := hexdigit_plain hc2
    obtain ⟨qd0, qd1, qd2⟩ := hexdigit_plain hd2
    unfold pair_code_point
    unfold code_unit at hh hl ⊢
    have hcopy := copy_surrogate_escape (34 :: rest) ha hb hc hd ha2 hb2 hc2 hd2 hh hl
    have hcopy2 := copy_surrogate_escape rest ha hb hc hd ha2 hb2 hc2 hd2 hh hl
    have hcp := surrogate_value hh hl
    have hlen : (utf8_standard (0x10000 + ((((x1 * 4096 + x2 * 256 + x3 * 16 + x4) &&& 0x3FF)
        <<< 10) ||| ((y1 * 4096 + y2 * 256 + y3 * 16 + y4) &&& 0x3FF)))).length = 4 := by
      rw [utf8_standard_length, hcp]
      rw [if_neg (by omega), if_neg (by omega), if_neg (by omega)]
    refine ⟨hcopy2, hlen, hcp, ?_⟩
    intro item
    refine parse_string_of_copy item _ _ rest 10 ?_ ?_ ?_
    · simp [parse_string_len, pa0, pa1, pa2, pb0, pb1, pb2, pc0, pc1, pc2, pd0, pd1, pd2,
        qa0, qa1, qa2, qb0, qb1, qb2, qc0, qc1, qc2, qd0, qd1, qd2]
    · rw [hcopy]; simp [parse_string_copy]
    · rw [hlen]; omega

theorem C2_unicode_escape_utf8_witness :
    parse_string_copy .scan (bytes "\\u00e9\"") = some ([0xC3, 0xA9], [34]) ∧
    parse_string_copy .scan (bytes "\\uD83D\\uDE00\"") = some ([0xF0, 0x9F, 0x98, 0x80], [34]) := by
  have h := C2_unicode_escape_utf8 48 48 101 57 0 0 14 9 [34] (by decide) (by decide)
    (by decide) (by decide)
  have h2 := C2_unicode_escape_utf8 68 56 51 68 13 8 3 13 [34] (by decide) (by decide)
    (by decide) (by decide)
  refine ⟨?_, ?_⟩
  · have := (h.1 (by decide) (by decide)).1
    rw [show bytes "\\u00e9\"" = 92 :: 117 :: 48 :: 48 :: 101 :: 57 :: [34] from by decide, this]
    decide
  · have := (h2.2.1 68 69 48 48 13 14 0 0 (by decide) (by decide) (by decide) (by decide)
      (by decide) (by decide)).1
    rw [show bytes "\\uD83D\\uDE00\"" =
      92 :: 117 :: 68 :: 56 :: 51 :: 68 :: 92 :: 117 :: 68 :: 69 :: 48 :: 48 :: [34]
      from by decide, this]
    decide

theorem decimal_digits_fuel (fuel : Nat) :
    ∀ n acc, n < fuel → decimal_digits fuel n acc = decimal_digits (fuel + 1) n acc := by
  induction fuel with
  | zero => intro n acc h; omega
  | succ f ih =>
    intro n acc h
    rw [decimal_digits, decimal_digits]
    by_cases h10 : n < 10
    · simp [h10]
    · simp only [h10, if_false]
      exact ih _ _ (by omega)

theorem decimal_digits_fuel_le (n : Nat) (acc : List Nat) :
    ∀ k, decimal_digits (n + 1 + k) n acc = decimal_digits (n + 1) n acc := by
  intro k
  induction k with
  | zero => rfl
  | succ k ih => rw [← ih, ← Nat.add_assoc, ← decimal_digits_fuel _ _ _ (by omega)]

theorem decimal_digits_acc (fuel : Nat) :
    ∀ n acc, decimal_digits fuel n acc = decimal_digits fuel n [] ++ acc := by
  induction fuel with
  | zero => intro n acc; simp [decimal_digits]
  | succ f ih =>
    intro n acc
    rw [decimal_digits, decimal_digits]
    by_cases h10 : n < 10
    · simp [h10]
    · simp only [h10, if_false]
      rw [ih _ (_ :: acc), ih _ [_]]
      simp

theorem decimal_small {n : Nat} (h : n < 10) : decimal n = [48 + n] := by
  simp [decimal, decimal_digits, h]

theorem decimal_large {n : Nat} (h : ¬ n < 10) : decimal n = decimal (n / 10) ++ [48 + n % 10] := by
  unfold decimal
  rw [decimal_digits, if_neg h, decimal_digits_acc]
  congr 1
  have hk : n = n / 10 + 1 + (n - (n / 10 + 1)) := by omega
  have := decimal_digits_fuel_le (n / 10) [] (n - (n / 10 + 1))
  rw [← hk] at this
  exact this

theorem decimal_isdig (n : Nat) : ∀ c ∈ decimal n, isdig c = true := by
  induction n using Nat.strong_induction_on with
  | _ n ih =>
    by_cases h : n < 10
    · rw [decimal_small h]; intro c hc; simp at hc; subst hc; simp [isdig]; omega
    · rw [decimal_large h]
      intro c hc
      rcases List.mem_append.1 hc with hc | hc
      · exact ih (n / 10) (by omega) c hc
      · simp at hc; subst hc; simp [isdig]; omega

theorem decimal_ne_nil (n : Nat) : decimal n ≠ [] := by
  by_cases h : n < 10
  · rw [decimal_small h]; simp
  · rw [decimal_large h]; simp

theorem digits_value_append (ds : List Nat) (c : Nat) :
    digits_value (ds ++ [c]) = digits_value ds * 10 + (c - 48) := by
  simp [digits_value, List.foldl_append]

theorem digits_value_decimal (n : Nat) : digits_value (decimal n) = n := by
  induction n using Nat.strong_induction_on with
  | _ n ih =>
    by_cases h : n < 10
    · rw [decimal_small h]; simp [digits_value]
    · rw [decimal_large h, digits_value_append, ih (n / 10) (by omega)]
      omega

theorem decimal_head (n : Nat) (h : 0 < n) : 49 ≤ peek (decimal n) ∧ peek (decimal n) ≤ 57 := by
  induction n using Nat.strong_induction_on with
  | _ n ih =>
    by_cases h10 : n < 10
    · rw [decimal_small h10]; simp [peek]; omega
    · rw [decimal_large h10]
      have := ih (n / 10) (by omega) (by omega)
      cases hd : decimal (n / 10) with
      | nil => exact absurd hd (decimal_ne_nil _)
      | cons c t => rw [hd] at this; simpa [peek] using this

theorem decimal_zero : decimal 0 = [48] := by decide

theorem digitChar_toNat : ∀ d, d < 10 → (Nat.digitChar d).toNat = 48 + d := by decide

theorem toDigitsCore_decimal (fuel : Nat) :
    ∀ n ds, (Nat.toDigitsCore 10 fuel n ds).map Char.toNat =
      decimal_digits fuel n (ds.map Char.toNat) := by
  induction fuel with
  | zero => intro n ds; simp [Nat.toDigitsCore, decimal_digits]
  | succ f ih =>
    intro n ds
    rw [Nat.toDigitsCore, decimal_digits]
    by_cases h10 : n < 10
    · have hz : n / 10 = 0 := by omega
      have hm : n % 10 = n := by omega
      simp [h10, hz, hm, digitChar_toNat n h10]
    · have hz : ¬ n / 10 = 0 := by omega
      simp only [hz, h10, if_false]
      rw [ih]
      simp [digitChar_toNat (n % 10) (Nat.mod_lt _ (by norm_num))]

theorem decimal_eq_repr (n : Nat) : decimal n = bytes (toString n) := by
  show decimal n = (Nat.repr n).toList.map Char.toNat
  unfold Nat.repr Nat.toDigits decimal
  rw [show ((Nat.toDigitsCore 10 (n + 1) n []).asString).toList =
    Nat.toDigitsCore 10 (n + 1) n [] from rfl, toDigitsCore_decimal]
  rfl
theorem sprintf_d_eq_repr (n : Int) : sprintf_d n = bytes (toString n) := by
  cases n with
  | ofNat m =>
    have : ¬ (Int.ofNat m < 0) := by simp
    rw [sprintf_d, if_neg this]
    exact decimal_eq_repr m
  | negSucc m =>
    have : Int.negSucc m < 0 := Int.negSucc_lt_zero m
    rw [sprintf_d, if_pos this]
    show 45 :: decimal (m + 1) = _
    rw [decimal_eq_repr]
    rfl

theorem int_of_double_int (n : Int) (hlo : INT_MIN ≤ n) (hhi : n ≤ INT_MAX) :
    int_of_double (n : ℚ) = n := by
  unfold int_of_double
  simp only [Rat.num_intCast, Rat.den_intCast, Nat.cast_one, Int.tdiv_one]
  rw [if_pos ⟨hlo, hhi⟩]

theorem print_number_int (n : Int) (hlo : INT_MIN ≤ n) (hhi : n ≤ INT_MAX) :
    print_number n (n : ℚ) = sprintf_d n := by
  unfold print_number
  have h1 : |((n : Int) : ℚ) - (n : ℚ)| ≤ DBL_EPSILON := by
    simp [DBL_EPSILON]
  have h2 : ((n : Int) : ℚ) ≤ ((INT_MAX : Int) : ℚ) := by exact_mod_cast hhi
  have h3 : ((n : Int) : ℚ) ≥ ((INT_MIN : Int) : ℚ) := by exact_mod_cast hlo
  rw [if_pos ⟨h1, h2, h3⟩]

/-- C9: a Number node holding an integer `n` of the `int` range in both
`valuedouble` and `valueint` prints, in both modes and at every depth, as the
decimal representation of `n`: a minus sign when `n` is negative, then the
digits of its magnitude, no leading zero, nothing else (no point, no
exponent).  `cJSON_CreateNumber` makes such a node, and 1920 prints as
`1920`. -/
theorem C9_integer_prints_plain (n : Int) (type : Nat) (next child : cJSON)
    (vs s : Option (List Nat)) (depth : Nat) (fmt : Bool)
    (hlo : INT_MIN ≤ n) (hhi : n ≤ INT_MAX) (ht : type &&& 255 = cJSON_Number) :
    print_value (.node next child type vs n (n : ℚ) s) depth fmt = some (bytes (toString n)) ∧
    bytes (toString n) = (if n < 0 then [45] else []) ++ decimal n.natAbs ∧
    (∀ c ∈ decimal n.natAbs, isdig c = true) ∧
    digits_value (decimal n.natAbs) = n.natAbs ∧
    (n ≠ 0 → peek (decimal n.natAbs) ≠ 48) ∧
    cJSON_CreateNumber (n : ℚ) = .node .null .null cJSON_Number none n (n : ℚ) none ∧
    cJSON_Print (cJSON_CreateNumber 1920) = some (bytes "1920") ∧
    cJSON_PrintUnformatted (cJSON_CreateNumber 1920) = some (bytes "1920") := by
  have hp : ∀ (m : Int) (d : Nat) (f : Bool) (t : Nat) (nx ch : cJSON) (v k : Option (List Nat)),
      INT_MIN ≤ m → m ≤ INT_MAX → t &&& 255 = cJSON_Number →
      print_value (.node nx ch t v m (m : ℚ) k) d f = some (bytes (toString m)) := by
    intro m d f t nx ch v k h1 h2 h3
    rw [print_value, print_item, h3]
    rw [if_neg (by decide), if_neg (by decide), if_neg (by decide), if_pos (by decide),
      print_number_int m h1 h2, sprintf_d_eq_repr]
  have hc : ∀ m : Int, INT_MIN ≤ m → m ≤ INT_MAX →
      cJSON_CreateNumber (m : ℚ) = .node .null .null cJSON_Number none m (m : ℚ) none := by
    intro m h1 h2
    simp [cJSON_CreateNumber, cJSON_New_Item, cJSON.setType, cJSON.setValuedouble,
      cJSON.setValueint, int_of_double_int m h1 h2]
  have h1920 : ∀ f, print_value (cJSON_CreateNumber 1920) 0 f = some (bytes "1920") := by
    intro f
    have := hc 1920 (by decide) (by decide)
    rw [show ((1920 : Int) : ℚ) = 1920 from by norm_num] at this
    rw [this]
    have h := hp 1920 0 f cJSON_Number .null .null none none (by decide) (by decide) (by decide)
    rw [show ((1920 : Int) : ℚ) = 1920 from by norm_num] at h
    rw [h]; decide
  refine ⟨hp n depth fmt type next child vs s hlo hhi ht, ?_, decimal_isdig _,
    digits_value_decimal _, ?_, hc n hlo hhi, h1920 true, h1920 false⟩
  · rw [← sprintf_d_eq_repr, sprintf_d]; split_ifs <;> simp
  · intro hn
    have := decimal_head n.natAbs (by omega)
    omega

theorem C9_integer_prints_plain_witness :
    print_value (.node .null .null cJSON_Number none (-2147483648) ((-2147483648 : Int) : ℚ) none)
      3 true = some (bytes "-2147483648") :=
  (C9_integer_prints_plain (-2147483648) cJSON_Number .null .null none none 3 true
    (by decide) (by decide) (by decide)).1.trans (by decide)

/-! ## C10: compact printing -/

theorem print_chain_eq_map (c : cJSON) (depth : Nat) (fmt : Bool) :
    print_chain c depth fmt = c.chain.map (fun x => print_value x depth fmt) := by
  induction c with
  | null => rfl
  | node next child type vs vi vd s ihn _ =>
    simp only [print_chain, cJSON.chain, List.map_cons, ihn, print_value]

theorem print_names_eq_map (c : cJSON) :
    print_names c = c.chain.map (fun x => print_string_ptr x.getString) := by
  induction c with
  | null => rfl
  | node next child type vs vi vd s ihn _ =>
    simp only [print_names, cJSON.chain, List.map_cons, ihn, cJSON.getString]

theorem collect_length (l : List (Option (List Nat))) :
    ∀ es, collect l = some es → es.length = l.length := by
  induction l with
  | nil => intro es h; simp [collect] at h; subst h; rfl
  | cons a rest ih =>
    intro es h
    cases a with
    | none => simp [collect] at h
    | some e =>
      simp only [collect, Option.map_eq_some'] at h
      obtain ⟨es', h1, rfl⟩ := h
      simp [ih es' h1]

theorem array_entries_compact (es : List (List Nat)) :
    array_entries es false = List.intercalate [44] es := by
  induction es with
  | nil => rfl
  | cons e rest ih =>
    cases rest with
    | nil => simp [array_entries, List.intercalate]
    | cons e2 rest2 =>
      rw [array_entries, ih]
      simp [List.intercalate, List.intersperse]

theorem object_entries_compact (depth : Nat) (names : List (List Nat)) :
    ∀ es : List (List Nat), names.length = es.length →
      object_entries depth false names es =
        List.intercalate [44] (List.zipWith (fun k e => k ++ 58 :: e) names es) := by
  induction names with
  | nil => intro es h; cases es <;> simp [object_entries, List.intercalate]
  | cons k names ih =>
    intro es h
    cases es with
    | nil => simp at h
    | cons e es =>
      simp only [List.length_cons, add_left_inj] at h
      rw [object_entries, ih es h]
      cases es with
      | nil =>
        cases names with
        | nil => simp [List.intercalate]
        | cons _ _ => simp at h
      | cons e2 es2 =>
        cases names with
        | nil => simp at h
        | cons k2 names2 => simp [List.intercalate, List.intersperse]

/-- C10: `cJSON_PrintUnformatted` writes null, false and true as their
keywords, an array as `[`, the renderings of its children in chain order
joined by `,`, and `]`, an object as `{`, the entries key `:` value in chain
order joined by `,`, and `}`, with no other byte in between; parsing
`{"a":1,"b":[true,false,null]}` and printing it compactly gives the same
text. -/
theorem C10_compact_print (next child : cJSON) (type : Nat) (vs s : Option (List Nat))
    (vi : Int) (vd : ℚ) (depth : Nat) :
    (type &&& 255 = cJSON_NULL →
      print_value (.node next child type vs vi vd s) depth false = some (bytes "null")) ∧
    (type &&& 255 = cJSON_False →
      print_value (.node next child type vs vi vd s) depth false = some (bytes "false")) ∧
    (type &&& 255 = cJSON_True →
      print_value (.node next child type vs vi vd s) depth false = some (bytes "true")) ∧
    (type &&& 255 = cJSON_Array →
      print_value (.node next child type vs vi vd s) depth false =
        (collect (child.chain.map (fun c => print_value c (depth + 1) false))).map
          (fun es => 91 :: (List.intercalate [44] es ++ [93]))) ∧
    (type &&& 255 = cJSON_Object →
      print_value (.node next child type vs vi vd s) depth false =
        (collect (child.chain.map (fun c => print_value c (depth + 1) false))).map
          (fun es => 123 :: (List.intercalate [44]
            (List.zipWith (fun k e => k ++ 58 :: e)
              (child.chain.map (fun c => print_string_ptr c.getString)) es) ++ [125]))) ∧
    (cJSON_Parse (bytes "\x7b\"a\":1,\"b\":[true,false,null]\x7d") = .ok sample_tree [] ∧
      cJSON_PrintUnformatted sample_tree =
        some (bytes "\x7b\"a\":1,\"b\":[true,false,null]\x7d")) := by
  refine ⟨?_, ?_, ?_, ?_, ?_, ?_⟩
  · intro h; rw [print_value, print_item, h, if_pos rfl]; rfl
  · intro h; rw [print_value, print_item, h, if_neg (by decide), if_pos rfl]; rfl
  · intro h
    rw [print_value, print_item, h, if_neg (by decide), if_neg (by decide), if_pos rfl]; rfl
  · intro h
    rw [print_value, print_item, h, if_neg (by decide), if_neg (by decide), if_neg (by decide),
      if_neg (by decide), if_neg (by decide), if_pos rfl, print_chain_eq_map, print_array]
    by_cases hc : child.chain.map (fun c => print_value c (depth + 1) false) = []
    · rw [if_pos hc, hc]; rfl
    · rw [if_neg hc]
      congr 1
      funext es
      rw [array_entries_compact]
  · intro h
    rw [print_value, print_item, h, if_neg (by decide), if_neg (by decide), if_neg (by decide),
      if_neg (by decide), if_neg (by decide), if_neg (by decide), if_pos rfl,
      print_chain_eq_map, print_names_eq_map, print_object]
    by_cases hc : child.chain.map (fun c => print_value c (depth + 1) false) = []
    · rw [if_pos hc, hc]
      simp [collect, List.intercalate]
    · rw [if_neg hc]
      cases hcol : collect (child.chain.map (fun c => print_value c (depth + 1) false)) with
      | none => rfl
      | some es =>
        have hl := collect_length _ es hcol
        simp only [Option.map_some', Bool.false_eq_true, if_false, List.nil_append,
          List.append_nil]
        rw [object_entries_compact]
        simp [hl]
  · exact ⟨by decide!, by decide!⟩

/-! ## parse_number on digit runs -/

theorem isdig_iff (c : Nat) : isdig c = true ↔ 48 ≤ c ∧ c ≤ 57 := by simp [isdig]

theorem isdig_false_iff (c : Nat) : isdig c = false ↔ ¬(48 ≤ c ∧ c ≤ 57) := by
  rw [← isdig_iff]; simp

theorem digit_cast_rat {c : Nat} (h : isdig c = true) : ((c : ℚ) - 48) = ((c - 48 : Nat) : ℚ) := by
  have := (isdig_iff c).1 h
  rw [Nat.cast_sub this.1]; norm_num

theorem digit_cast_int {c : Nat} (h : isdig c = true) : ((c : Int) - 48) = ((c - 48 : Nat) : Int) := by
  have := (isdig_iff c).1 h
  omega

theorem peek_append (a b : List Nat) : peek (a ++ b) = if a = [] then peek b else peek a := by
  cases a <;> simp [peek]

theorem number_int_digits (ds : List Nat) :
    ∀ (a : Nat) (r : List Nat), (∀ c ∈ ds, isdig c = true) → isdig (peek r) = false →
      number_int (a : ℚ) (ds ++ r) =
        (((ds.foldl (fun acc c => acc * 10 + (c - 48)) a : Nat) : ℚ), r) := by
  induction ds with
  | nil =>
    intro a r _ hr
    cases r with
    | nil => simp [number_int]
    | cons c t => simp only [peek_cons] at hr; simp [number_int, hr]
  | cons c ds ih =>
    intro a r hd hr
    have hc := hd c (List.mem_cons_self _ _)
    simp only [List.cons_append, number_int, hc, if_true, List.foldl_cons]
    rw [digit_cast_rat hc, ← ih (a * 10 + (c - 48)) r (fun x hx => hd x (List.mem_cons_of_mem _ hx)) hr]
    push_cast
    rfl

theorem number_frac_digits (ds : List Nat) :
    ∀ (a : Nat) (scale : Int) (r : List Nat), (∀ c ∈ ds, isdig c = true) →
      isdig (peek r) = false →
      number_frac (a : ℚ) scale (ds ++ r) =
        (((ds.foldl (fun acc c => acc * 10 + (c - 48)) a : Nat) : ℚ), scale - ds.length, r) := by
  induction ds with
  | nil =>
    intro a scale r _ hr
    cases r with
    | nil => simp [number_frac]
    | cons c t => simp only [peek_cons] at hr; simp [number_frac, hr]
  | cons c ds ih =>
    intro a scale r hd hr
    have hc := hd c (List.mem_cons_self _ _)
    simp only [List.cons_append, number_frac, hc, if_true, List.foldl_cons]
    rw [digit_cast_rat hc]
    have := ih (a * 10 + (c - 48)) (scale - 1) r (fun x hx => hd x (List.mem_cons_of_mem _ hx)) hr
    push_cast at this ⊢
    show number_frac _ _ (ds ++ r) = _
    rw [this]
    simp only [List.length_cons, Nat.cast_add, Nat.cast_one, Prod.mk.injEq, true_and, and_true]
    ring

theorem number_exp_digits (ds : List Nat) :
    ∀ (a : Nat) (r : List Nat), (∀ c ∈ ds, isdig c = true) → isdig (peek r) = false →
      number_exp (a : Int) (ds ++ r) =
        (((ds.foldl (fun acc c => acc * 10 + (c - 48)) a : Nat) : Int), r) := by
  induction ds with
  | nil =>
    intro a r _ hr
    cases r with
    | nil => simp [number_exp]
    | cons c t => simp only [peek_cons] at hr; simp [number_exp, hr]
  | cons c ds ih =>
    intro a r hd hr
    have hc := hd c (List.mem_cons_self _ _)
    simp only [List.cons_append, number_exp, hc, if_true, List.foldl_cons]
    rw [digit_cast_int hc, ← ih (a * 10 + (c - 48)) r (fun x hx => hd x (List.mem_cons_of_mem _ hx)) hr]
    push_cast
    rfl

theorem number_end_spec {rest : List Nat} (h : number_end rest = true) :
    isdig (peek rest) = false ∧ peek rest ≠ 46 ∧ peek rest ≠ 101 ∧ peek rest ≠ 69 ∧
      peek rest ≠ 43 ∧ peek rest ≠ 45 := by
  simpa [number_end] using h

theorem stage_exp (mk es ed rest : List Nat)
    (hmk : mk = [] ∨ mk = [101] ∨ mk = [69]) (hes : es = [] ∨ es = [43] ∨ es = [45])
    (hed : ∀ c ∈ ed, isdig c = true) (hex : mk = [] → es = [] ∧ ed = [])
    (hrest : number_end rest = true) :
    number_exppart (mk ++ (es ++ (ed ++ rest))) =
      ((digits_value ed : Int), (if es = [45] then -1 else 1), rest) := by
  obtain ⟨r0, r1, r2, r3, r4, r5⟩ := number_end_spec hrest
  have hdig := number_exp_digits ed 0 rest hed r0
  simp only [Nat.cast_zero] at hdig
  have hpk : peek (ed ++ rest) ≠ 43 ∧ peek (ed ++ rest) ≠ 45 := by
    rw [peek_append]
    split_ifs with he
    · exact ⟨r4, r5⟩
    · cases ed with
      | nil => exact absurd rfl he
      | cons c t =>
        have := (isdig_iff c).1 (hed c (List.mem_cons_self _ _))
        simp only [peek_cons]; omega
  unfold number_exppart
  rcases hmk with rfl | rfl | rfl
  · obtain ⟨rfl, rfl⟩ := hex rfl
    simp [r2, r3, digits_value]
  · rcases hes with rfl | rfl | rfl
    · simp [peek_cons, hpk.1, hpk.2, hdig, digits_value]
    · simp [peek_cons, hdig, digits_value]
    · simp [peek_cons, hdig, digits_value]
  · rcases hes with rfl | rfl | rfl
    · simp [peek_cons, hpk.1, hpk.2, hdig, digits_value]
    · simp [peek_cons, hdig, digits_value]
    · simp [peek_cons, hdig, digits_value]

theorem stage_frac (a : Nat) (fd t : List Nat) (hfd : ∀ c ∈ fd, isdig c = true)
    (ht : isdig (peek t) = false) (ht2 : peek t ≠ 46) :
    number_fracpart (a : ℚ) ((if fd = [] then [] else 46 :: fd) ++ t) =
      (((fd.foldl (fun acc c => acc * 10 + (c - 48)) a : Nat) : ℚ), -(fd.length : Int), t) := by
  unfold number_fracpart
  cases fd with
  | nil => simp [ht2]
  | cons c fs =>
    have hc := hfd c (List.mem_cons_self _ _)
    have := number_frac_digits (c :: fs) a 0 t hfd ht
    simp only [List.cons_append] at this
    simp [peek_cons, hc, this]

theorem stage_int (ip t : List Nat) (hip : ∀ c ∈ ip, isdig c = true)
    (hip1 : ip = [] ∨ 49 ≤ peek ip) (ht : isdig (peek t) = false) :
    number_intpart (ip ++ t) = ((digits_value ip : ℚ), t) := by
  unfold number_intpart
  cases ip with
  | nil =>
    have := (isdig_false_iff _).1 ht
    have h : ¬(49 ≤ peek t ∧ peek t ≤ 57) := fun h => this ⟨by omega, h.2⟩
    simp [h, digits_value]
  | cons c cs =>
    have hc := (isdig_iff c).1 (hip c (List.mem_cons_self _ _))
    have h1 : 49 ≤ c := by
      rcases hip1 with h | h
      · exact absurd h (by simp)
      · simpa [peek] using h
    have := number_int_digits (c :: cs) 0 t hip ht
    simp only [List.cons_append, Nat.cast_zero] at this
    simp only [List.cons_append, peek_cons, h1, hc.2, and_self, if_true, this, digits_value]

theorem foldl_digits_zero (z l : List Nat) (hz : z = [] ∨ z = [48]) :
    digits_value (z ++ l) = digits_value l := by
  rcases hz with rfl | rfl <;> simp [digits_value]

theorem digits_value_append_foldl (a b : List Nat) :
    digits_value (a ++ b) = b.foldl (fun acc c => acc * 10 + (c - 48)) (digits_value a) := by
  simp [digits_value, List.foldl_append]

theorem number_scan_parts (sgn z ip fd mk es ed rest : List Nat)
    (hsgn : sgn = [] ∨ sgn = [45]) (hz : z = [] ∨ z = [48])
    (hip : ∀ c ∈ ip, isdig c = true) (hip1 : ip = [] ∨ 49 ≤ peek ip)
    (hfd : ∀ c ∈ fd, isdig c = true)
    (hmk : mk = [] ∨ mk = [101] ∨ mk = [69]) (hes : es = [] ∨ es = [43] ∨ es = [45])
    (hed : ∀ c ∈ ed, isdig c = true) (hex : mk = [] → es = [] ∧ ed = [])
    (hrest : number_end rest = true) :
    number_scan (number_text sgn z ip fd mk es ed rest) =
      ⟨(if sgn = [45] then -1 else 1), (digits_value (z ++ ip ++ fd) : ℚ), -(fd.length : Int),
        (digits_value ed : Int), (if es = [45] then -1 else 1), rest⟩ := by
  obtain ⟨r0, r1, r2, r3, r4, r5⟩ := number_end_spec hrest
  -- the first byte of what follows each part
  have h5 : isdig (peek (mk ++ (es ++ (ed ++ rest)))) = false ∧
      peek (mk ++ (es ++ (ed ++ rest))) ≠ 46 ∧ peek (mk ++ (es ++ (ed ++ rest))) ≠ 45 := by
    rcases hmk with rfl | rfl | rfl
    · obtain ⟨rfl, rfl⟩ := hex rfl
      exact ⟨r0, r1, r5⟩
    · simp [peek, isdig]
    · simp [peek, isdig]
  have h4 : isdig (peek ((if fd = [] then [] else 46 :: fd) ++ (mk ++ (es ++ (ed ++ rest))))) = false ∧
      peek ((if fd = [] then [] else 46 :: fd) ++ (mk ++ (es ++ (ed ++ rest)))) ≠ 45 := by
    by_cases hf : fd = []
    · simp only [hf, if_true, List.nil_append]; exact ⟨h5.1, h5.2.2⟩
    · simp [hf, peek, isdig]
  have h3 : peek (ip ++ ((if fd = [] then [] else 46 :: fd) ++ (mk ++ (es ++ (ed ++ rest))))) ≠ 48 ∧
      peek (ip ++ ((if fd = [] then [] else 46 :: fd) ++ (mk ++ (es ++ (ed ++ rest))))) ≠ 45 := by
    cases ip with
    | nil =>
      simp only [List.nil_append]
      have := (isdig_false_iff _).1 h4.1
      exact ⟨fun h => this (by omega), h4.2⟩
    | cons c t =>
      have := (isdig_iff c).1 (hip c (List.mem_cons_self _ _))
      have h1 : 49 ≤ c := by
        rcases hip1 with h | h
        · exact absurd h (by simp)
        · simpa [peek] using h
      simp only [List.cons_append, peek_cons]
      omega
  have h2 : peek (z ++ (ip ++ ((if fd = [] then [] else 46 :: fd) ++
      (mk ++ (es ++ (ed ++ rest)))))) ≠ 45 := by
    rcases hz with rfl | rfl
    · exact h3.2
    · simp [peek]
  have e1 : number_sign (number_text sgn z ip fd mk es ed rest) =
      ((if sgn = [45] then -1 else 1), z ++ (ip ++ ((if fd = [] then [] else 46 :: fd) ++
        (mk ++ (es ++ (ed ++ rest)))))) := by
    unfold number_sign number_text
    rcases hsgn with rfl | rfl
    · simp [h2]
    · simp [peek]
  have e2 : number_zero (z ++ (ip ++ ((if fd = [] then [] else 46 :: fd) ++
      (mk ++ (es ++ (ed ++ rest)))))) =
      ip ++ ((if fd = [] then [] else 46 :: fd) ++ (mk ++ (es ++ (ed ++ rest)))) := by
    unfold number_zero
    rcases hz with rfl | rfl
    · simp [h3.1]
    · simp [peek]
  have e3 := stage_int ip _ hip hip1 h4.1
  have e4 := stage_frac (digits_value ip) fd _ hfd h5.1 h5.2.1
  have e5 := stage_exp mk es ed rest hmk hes hed hex hrest
  unfold number_scan
  simp only [e1, e2, e3, e4, e5]
  rw [List.append_assoc, foldl_digits_zero _ _ hz, digits_value_append_foldl]

theorem int_of_double_range (q : ℚ) : INT_MIN ≤ int_of_double q ∧ int_of_double q ≤ INT_MAX := by
  unfold int_of_double
  split_ifs with h
  · exact h
  · exact ⟨le_refl _, by decide⟩

theorem parse_number_parts (item : cJSON) (sgn z ip fd mk es ed rest : List Nat)
    (hsgn : sgn = [] ∨ sgn = [45]) (hz : z = [] ∨ z = [48])
    (hip : ∀ c ∈ ip, isdig c = true) (hip1 : ip = [] ∨ 49 ≤ peek ip)
    (hfd : ∀ c ∈ fd, isdig c = true)
    (hmk : mk = [] ∨ mk = [101] ∨ mk = [69]) (hes : es = [] ∨ es = [43] ∨ es = [45])
    (hed : ∀ c ∈ ed, isdig c = true) (hex : mk = [] → es = [] ∧ ed = [])
    (hrest : number_end rest = true) :
    parse_number item (number_text sgn z ip fd mk es ed rest) =
      (((item.setValuedouble (number_value sgn z ip fd es ed)).setValueint
        (int_of_double (number_value sgn z ip fd es ed))).setType cJSON_Number, rest) := by
  have hs := number_scan_parts sgn z ip fd mk es ed rest hsgn hz hip hip1 hfd hmk hes hed hex hrest
  have hv : (if sgn = [45] then (-1 : ℚ) else 1) * (digits_value (z ++ ip ++ fd) : ℚ) *
      pow10 (-(fd.length : Int) + (digits_value ed : Int) * (if es = [45] then -1 else 1)) =
      number_value sgn z ip fd es ed := by
    unfold number_value pow10
    congr 2
    ring
  unfold parse_number
  simp only [hs, hv]

theorem sprintf_d_parts (n : Int) :
    ∃ sgn z ip, (sgn = [] ∨ sgn = [45]) ∧ (z = [] ∨ z = [48]) ∧ (∀ c ∈ ip, isdig c = true) ∧
      (ip = [] ∨ 49 ≤ peek ip) ∧ (∀ rest, sprintf_d n ++ rest = number_text sgn z ip [] [] [] [] rest) ∧
      number_value sgn z ip [] [] [] = (n : ℚ) := by
  have key : ∀ m : Nat, ∃ z ip, (z = [] ∨ z = [48]) ∧ (∀ c ∈ ip, isdig c = true) ∧
      (ip = [] ∨ 49 ≤ peek ip) ∧ decimal m = z ++ ip ∧ digits_value (z ++ ip) = m := by
    intro m
    by_cases hm : m = 0
    · subst hm
      exact ⟨[48], [], Or.inr rfl, by simp, Or.inl rfl, by decide, by decide⟩
    · refine ⟨[], decimal m, Or.inl rfl, decimal_isdig m, Or.inr (decimal_head m (by omega)).1,
        rfl, ?_⟩
      simpa using digits_value_decimal m
  obtain ⟨z, ip, hz, hip, hip1, hdec, hval⟩ := key n.natAbs
  by_cases hn : n < 0
  · refine ⟨[45], z, ip, Or.inr rfl, hz, hip, hip1, ?_, ?_⟩
    · intro rest
      simp [sprintf_d, hn, number_text, hdec]
    · simp only [number_value, if_true, List.append_nil, hval, List.length_nil]
      have : ((n.natAbs : Int) : ℚ) = -(n : ℚ) := by
        rw [← Int.cast_neg]; congr 1; omega
      simp only [Int.cast_natCast] at this
      rw [this]; simp [digits_value]
  · refine ⟨[], z, ip, Or.inl rfl, hz, hip, hip1, ?_, ?_⟩
    · intro rest
      simp [sprintf_d, hn, number_text, hdec]
    · simp only [number_value, List.append_nil, hval, List.length_nil]
      have : ((n.natAbs : Int) : ℚ) = (n : ℚ) := by
        congr 1; omega
      simp only [Int.cast_natCast] at this
      rw [this]; simp [digits_value]

theorem sprintf_fixed_int (n : Int) : sprintf_fixed 0 (n : ℚ) = sprintf_d n := by
  have hr : round_half_even |(n : ℚ)| = n.natAbs := by
    have e : |(n : ℚ)| = ((n.natAbs : Nat) : ℚ) := by
      rw [Nat.cast_natAbs, Int.cast_abs]
    unfold round_half_even
    simp only [e, Int.floor_natCast, Int.toNat_ofNat, sub_self]
    norm_num
  unfold sprintf_fixed sprintf_d
  simp only [pow_zero, mul_one, hr, Nat.div_one, if_true, List.append_nil]
  by_cases h : n < 0
  · have : (n : ℚ) < 0 := by exact_mod_cast h
    simp [h, this]
  · have : ¬ (n : ℚ) < 0 := by exact_mod_cast h
    simp [h, this]

theorem print_number_whole (n : Int) (hlo : -9007199254740992 < n) (hhi : n < 9007199254740992) :
    print_number (int_of_double (n : ℚ)) (n : ℚ) = sprintf_d n := by
  by_cases h : INT_MIN ≤ n ∧ n ≤ INT_MAX
  · rw [int_of_double_int n h.1 h.2, print_number_int n h.1 h.2]
  · unfold print_number
    have h1 : ¬ (|((int_of_double (n : ℚ) : Int) : ℚ) - (n : ℚ)| ≤ DBL_EPSILON ∧
        (n : ℚ) ≤ ((INT_MAX : Int) : ℚ) ∧ (n : ℚ) ≥ ((INT_MIN : Int) : ℚ)) := by
      rintro ⟨_, h2, h3⟩
      exact h ⟨by exact_mod_cast h3, by exact_mod_cast h2⟩
    have h2 : |((⌊(n : ℚ)⌋ : Int) : ℚ) - (n : ℚ)| ≤ DBL_EPSILON ∧ |(n : ℚ)| < 10 ^ 60 := by
      refine ⟨by simp [DBL_EPSILON], ?_⟩
      rw [abs_lt]
      constructor
      · have : ((-9007199254740992 : Int) : ℚ) < (n : ℚ) := by exact_mod_cast hlo
        refine lt_trans ?_ this
        norm_num
      · have : (n : ℚ) < ((9007199254740992 : Int) : ℚ) := by exact_mod_cast hhi
        refine lt_trans this ?_
        norm_num
    rw [if_neg h1, if_pos h2, sprintf_fixed_int]

theorem parse_number_whole (item : cJSON) (n : Int) (rest : List Nat)
    (hrest : number_end rest = true) :
    parse_number item (sprintf_d n ++ rest) =
      (((item.setValuedouble (n : ℚ)).setValueint (int_of_double (n : ℚ))).setType cJSON_Number,
        rest) := by
  obtain ⟨sgn, z, ip, hsgn, hz, hip, hip1, htext, hval⟩ := sprintf_d_parts n
  rw [htext rest, parse_number_parts item sgn z ip [] [] [] [] rest hsgn hz hip hip1 (by simp)
    (Or.inl rfl) (Or.inl rfl) (by simp) (fun _ => ⟨rfl, rfl⟩) hrest, hval]

theorem whole_number_of_int (vi : Int) (vd : ℚ)
    (h : vd = (vi : ℚ) ∧ INT_MIN ≤ vi ∧ vi ≤ INT_MAX) :
    ∃ n : Int, vd = (n : ℚ) ∧ vi = int_of_double (n : ℚ) ∧
      -9007199254740992 < n ∧ n < 9007199254740992 := by
  obtain ⟨h1, h2, h3⟩ := h
  refine ⟨vi, h1, (int_of_double_int vi h2 h3).symm, ?_, ?_⟩
  · have : INT_MIN = -2147483648 := rfl
    omega
  · have : INT_MAX = 2147483647 := rfl
    omega

theorem whole_of_integral (c : cJSON) (h : integral c) : whole c := by
  induction c with
  | null => exact True.intro
  | node n ch t vs vi vd s ihn ihc =>
    rw [integral] at h
    rw [whole]
    exact ⟨fun ht => whole_number_of_int vi vd (h.1 ht), ihn h.2.1, ihc h.2.2⟩

theorem lenient_scan_longest (s : List Nat) :
    ∀ q, (q = .point → isdig (peek s) = true) →
      ∃ c, s = c ++ lenient_scan q s ∧ lenient_number_from q c = true ∧
        ∀ w, w <+: s → lenient_number_from q w = true → w.length ≤ c.length := by
  induction s with
  | nil =>
    intro q hq
    refine ⟨[], rfl, ?_, ?_⟩
    · cases q <;> first | rfl | (simp [peek, isdig] at hq)
    · intro w hw _; simp at hw; simp [hw]
  | cons x t ih =>
    intro q hq
    have hfin : q ≠ .point → lenient_number_from q [] = true := by
      intro h; cases q <;> first | rfl | exact absurd rfl h
    cases hstep : lenient_number_step q x with
    | none =>
      have hqp : q ≠ .point := by
        rintro rfl
        simp only [peek_cons, forall_const] at hq
        simp [lenient_number_step, hq] at hstep
      refine ⟨[], by simp [lenient_scan, hstep], hfin hqp, ?_⟩
      intro w hw hacc
      cases w with
      | nil => simp
      | cons y w' =>
        have hy : y = x := by
          have := List.cons_prefix_cons.1 hw; exact this.1
        subst hy
        simp [lenient_number_from, run_number, hstep] at hacc
    | some q2 =>
      by_cases hstop : q2 = .point ∧ isdig (peek t) = false
      · have hqp : q ≠ .point := by
          rintro rfl
          simp only [peek_cons, forall_const] at hq
          simp [lenient_number_step, hq] at hstep
          rw [← hstep] at hstop; exact absurd hstop.1 (by decide)
        refine ⟨[], by simp [lenient_scan, hstep, hstop], hfin hqp, ?_⟩
        intro w hw hacc
        cases w with
        | nil => simp
        | cons y w' =>
          obtain ⟨hy, hw'⟩ := List.cons_prefix_cons.1 hw
          subst hy
          obtain ⟨rfl, hnd⟩ := hstop
          cases w' with
          | nil => simp [lenient_number_from, run_number, hstep, lenient_number_final] at hacc
          | cons z w'' =>
            cases t with
            | nil => simp at hw'
            | cons z' t' =>
              obtain ⟨hz, _⟩ := List.cons_prefix_cons.1 hw'
              subst hz
              simp only [peek_cons] at hnd
              have hz : lenient_number_step .point z = none := by
                simp [lenient_number_step, hnd]
              have h1 : run_number lenient_number_step q (y :: z :: w'') = none := by
                rw [run_number, hstep, Option.some_bind, run_number, hz]; rfl
              simp [lenient_number_from, h1] at hacc
      · have hpre : q2 = .point → isdig (peek t) = true := by
          intro h
          by_contra hne
          exact hstop ⟨h, by simpa using hne⟩
        obtain ⟨c, hc1, hc2, hc3⟩ := ih q2 hpre
        refine ⟨x :: c, ?_, ?_, ?_⟩
        · simp only [lenient_scan, hstep, hstop, if_false, List.cons_append]
          rw [← hc1]
        · simpa [lenient_number_from, run_number, hstep] using hc2
        · intro w hw hacc
          cases w with
          | nil => simp
          | cons y w' =>
            obtain ⟨hy, hw'⟩ := List.cons_prefix_cons.1 hw
            subst hy
            have : lenient_number_from q2 w' = true := by
              simpa [lenient_number_from, run_number, hstep] using hacc
            have := hc3 w' hw' this
            simp only [List.length_cons]; omega

theorem lenient_scan_congr (q1 q2 : NumAt) (s : List Nat)
    (h : lenient_number_step q1 (peek s) = lenient_number_step q2 (peek s)) :
    lenient_scan q1 s = lenient_scan q2 s := by
  cases s with
  | nil => rfl
  | cons c t => simp only [peek_cons] at h; simp only [lenient_scan, h]

theorem scan_exp (s : List Nat) : ∀ k, (number_exp k s).2 = lenient_scan .exp s := by
  induction s with
  | nil => intro k; rfl
  | cons c t ih =>
    intro k
    by_cases hc : isdig c = true
    · simp [number_exp, lenient_scan, lenient_number_step, hc, ih]
    · simp [number_exp, lenient_scan, lenient_number_step, hc]

theorem scan_esign (s : List Nat) (k : Int) : (number_exp k s).2 = lenient_scan .esign s := by
  cases s with
  | nil => rfl
  | cons c t =>
    by_cases hc : isdig c = true
    · simp [number_exp, lenient_scan, lenient_number_step, hc, scan_exp]
    · simp [number_exp, lenient_scan, lenient_number_step, hc]

theorem scan_mark (c : Nat) (t : List Nat) (hc : c = 101 ∨ c = 69) :
    (number_exppart (c :: t)).2.2 = lenient_scan .mark t := by
  unfold number_exppart
  simp only [peek_cons, hc, if_true, List.tail_cons]
  cases t with
  | nil => simp [peek, number_exp, lenient_scan]
  | cons d u =>
    simp only [peek_cons, List.tail_cons]
    by_cases h43 : d = 43
    · subst h43; simp [lenient_scan, lenient_number_step, scan_esign]
    · by_cases h45 : d = 45
      · subst h45; simp [lenient_scan, lenient_number_step, scan_esign]
      · simp only [h43, h45, if_false]
        by_cases hd : isdig d = true
        · simp [number_exp, lenient_scan, lenient_number_step, hd, scan_exp, h43, h45]
        · simp [number_exp, lenient_scan, lenient_number_step, hd, h43, h45]

theorem exppart_other (s : List Nat) (h : ¬(peek s = 101 ∨ peek s = 69)) :
    (number_exppart s).2.2 = s := by
  simp [number_exppart, h]

theorem scan_frac (s : List Nat) :
    ∀ n scale, (number_exppart (number_frac n scale s).2.2).2.2 = lenient_scan .frac s := by
  induction s with
  | nil => intro n scale; simp [number_frac, number_exppart, peek, lenient_scan]
  | cons c t ih =>
    intro n scale
    by_cases hc : isdig c = true
    · simp [number_frac, lenient_scan, lenient_number_step, hc, ih]
    · have hc' : isdig c = false := by simpa using hc
      simp only [number_frac, hc', Bool.false_eq_true, if_false]
      by_cases he : c = 101 ∨ c = 69
      · rw [scan_mark c t he]
        simp [lenient_scan, lenient_number_step, hc', he]
      · rw [exppart_other _ (by simpa [peek] using he)]
        simp [lenient_scan, lenient_number_step, hc', he]

theorem scan_point (s : List Nat) (h : isdig (peek s) = true) :
    lenient_scan .point s = lenient_scan .frac s := by
  cases s with
  | nil => rfl
  | cons c t =>
    simp only [peek_cons] at h
    simp [lenient_scan, lenient_number_step, h]

theorem scan_after_int (s : List Nat) (n : ℚ) (h : isdig (peek s) = false) :
    (number_exppart (number_fracpart n s).2.2).2.2 = lenient_scan .int s := by
  cases s with
  | nil => simp [number_fracpart, number_exppart, peek, lenient_scan]
  | cons c t =>
    simp only [peek_cons] at h
    unfold number_fracpart
    simp only [peek_cons, List.tail_cons]
    by_cases hp : c = 46
    · subst hp
      by_cases hd : isdig (peek t) = true
      · simp only [hd, and_self, if_true]
        rw [scan_frac]
        simp [lenient_scan, lenient_number_step, h, hd, scan_point]
      · have hd' : isdig (peek t) = false := by simpa using hd
        simp only [hd', Bool.false_eq_true, and_false, if_false]
        rw [exppart_other _ (by simp [peek])]
        simp [lenient_scan, lenient_number_step, h, hd']
    · simp only [hp, false_and, if_false]
      by_cases he : c = 101 ∨ c = 69
      · rw [scan_mark c t he]
        simp [lenient_scan, lenient_number_step, h, hp, he]
      · rw [exppart_other _ (by simpa [peek] using he)]
        simp [lenient_scan, lenient_number_step, h, hp, he]

theorem number_int_head (s : List Nat) : ∀ n, isdig (peek (number_int n s).2) = false := by
  induction s with
  | nil => intro n; simp [number_int, peek, isdig]
  | cons c t ih =>
    intro n
    by_cases hc : isdig c = true
    · simp [number_int, hc, ih]
    · simp [number_int, hc, peek]

theorem scan_int (s : List Nat) :
    ∀ n m, (number_exppart (number_fracpart m (number_int n s).2).2.2).2.2 =
      lenient_scan .int s := by
  induction s with
  | nil => intro n m; simp [number_int, number_fracpart, number_exppart, peek, lenient_scan]
  | cons c t ih =>
    intro n m
    by_cases hc : isdig c = true
    · simp [number_int, lenient_scan, lenient_number_step, hc, ih]
    · have hc' : isdig c = false := by simpa using hc
      simp only [number_int, hc', Bool.false_eq_true, if_false]
      exact scan_after_int (c :: t) m (by simpa [peek] using hc')

theorem scan_zero (s : List Nat) :
    (number_exppart (number_fracpart (number_intpart s).1 (number_intpart s).2).2.2).2.2 =
      lenient_scan .zero s := by
  unfold number_intpart
  by_cases h : 49 ≤ peek s ∧ peek s ≤ 57
  · simp only [h, and_self, if_true]
    rw [scan_int]
    apply lenient_scan_congr
    have hd : isdig (peek s) = true := by simp [isdig]; omega
    simp [lenient_number_step, h, hd]
  · simp only [h, if_false]
    by_cases h0 : peek s = 48
    · cases s with
      | nil => simp [peek] at h0
      | cons c t =>
        simp only [peek_cons] at h0
        subst h0
        simp [number_fracpart, number_exppart, peek, lenient_scan, lenient_number_step]
    · have hd : isdig (peek s) = false := by simp [isdig]; omega
      rw [scan_after_int s 0 hd]
      apply lenient_scan_congr
      simp [lenient_number_step, h, hd]

theorem scan_minus (s : List Nat) :
    lenient_scan .zero (number_zero s) = lenient_scan .minus s := by
  unfold number_zero
  by_cases h0 : peek s = 48
  · cases s with
    | nil => simp [peek] at h0
    | cons c t =>
      simp only [peek_cons] at h0
      subst h0
      simp [peek, lenient_scan, lenient_number_step]
  · simp only [h0, if_false]
    apply lenient_scan_congr
    simp [lenient_number_step, h0]

theorem scan_start (s : List Nat) :
    lenient_scan .minus (number_sign s).2 = lenient_scan .start s := by
  unfold number_sign
  by_cases h : peek s = 45
  · cases s with
    | nil => simp [peek] at h
    | cons c t =>
      simp only [peek_cons] at h
      subst h
      simp [peek, lenient_scan, lenient_number_step]
  · simp only [h, if_false]
    apply lenient_scan_congr
    simp [lenient_number_step, h]

theorem number_scan_lenient (s : List Nat) : (number_scan s).num = lenient_scan .start s := by
  unfold number_scan
  simp only
  rw [scan_zero, scan_minus, scan_start]

/-- C7, amended: `parse_number` consumes exactly the longest prefix of its
input that matches the lenient grammar: optional `-`, optional `0`, optional
digits starting with a digit 1-9, optional `.` followed by at least one digit
(a `.` not followed by a digit is left unconsumed), optional exponent made of
`e` or `E`, an optional sign and any number of digits, none included. -/
theorem C7_number_longest_match (item : cJSON) (input : List Nat) :
    ∃ c, input = c ++ (parse_number item input).2 ∧ lenient_number c = true ∧
      ∀ w, w <+: input → lenient_number w = true → w.length ≤ c.length := by
  have h : (parse_number item input).2 = lenient_scan .start input := by
    rw [← number_scan_lenient]; rfl
  rw [h]
  exact lenient_scan_longest input .start (by simp)

/-- C7 as stated fails at the text `01`: both bytes are consumed (as the
number 1), while the longest prefix in the grammar of the claim is `0`; so do
`-` and `1e`, consumed whole and not in the grammar. -/
theorem C7_counterexample :
    (parse_number cJSON_New_Item (bytes "01")).2 = [] ∧
    json_number (bytes "01") = false ∧ json_number (bytes "0") = true ∧
    (parse_number cJSON_New_Item (bytes "-")).2 = [] ∧ json_number (bytes "-") = false ∧
    (parse_number cJSON_New_Item (bytes "1e")).2 = [] ∧ json_number (bytes "1e") = false := by
  decide

/-! ## The parser: lengths, fuel -/

theorem parse_string_copy_length (s : List Nat) :
    ∀ m out ptr, parse_string_copy m s = some (out, ptr) → ptr.length ≤ s.length := by
  induction s with
  | nil =>
    intro m out ptr h
    cases m <;> simp [parse_string_copy] at h
    simp [h.2.symm]
  | cons c t ih =>
    intro m out ptr h
    cases m with
    | scan =>
      rw [parse_string_copy] at h
      split_ifs at h with h1 h2
      · simp only [Option.some.injEq, Prod.mk.injEq] at h
        rw [← h.2]
      · obtain ⟨r, hr, hfr⟩ := Option.map_eq_some'.1 h
        have := ih _ r.1 r.2 hr
        simp only [Prod.mk.injEq] at hfr
        rw [← hfr.2]; simp only [List.length_cons]; omega
      · have := ih _ _ _ h; simp only [List.length_cons]; omega
    | escape =>
      rw [parse_string_copy] at h
      split_ifs at h
      all_goals
        obtain ⟨r, hr, hfr⟩ := Option.map_eq_some'.1 h
        have := ih _ r.1 r.2 hr
        simp only [Prod.mk.injEq] at hfr
        rw [← hfr.2]; simp only [List.length_cons]; omega
    | pass k =>
      rw [parse_string_copy] at h
      split_ifs at h
      · have := ih _ _ _ h; simp only [List.length_cons]; omega
      · have := ih _ _ _ h; simp only [List.length_cons]; omega

theorem parse_string_shrinks (item it : cJSON) (s rest : List Nat)
    (h : parse_string item s = .ok it rest) : rest.length < s.length := by
  unfold parse_string at h
  split_ifs at h with h1
  cases s with
  | nil => simp [peek] at h1
  | cons c body =>
    simp only [List.tail_cons] at h
    cases hl : parse_string_len false body 0 with
    | none => simp [hl] at h
    | some len =>
      cases hc : parse_string_copy .scan body with
      | none => simp [hl, hc] at h
      | some r =>
        obtain ⟨out, ptr⟩ := r
        simp only [hl, hc] at h
        split_ifs at h with h2 h3
        · simp only [Parsed.ok.injEq] at h
          have := parse_string_copy_length body _ _ _ hc
          rw [← h.2]
          simp only [List.length_tail, List.length_cons]; omega
        · simp only [Parsed.ok.injEq] at h
          have := parse_string_copy_length body _ _ _ hc
          rw [← h.2]
          simp only [List.length_cons]; omega

theorem number_int_length (s : List Nat) : ∀ n, (number_int n s).2.length ≤ s.length := by
  induction s with
  | nil => intro n; simp [number_int]
  | cons c t ih =>
    intro n
    by_cases hc : isdig c = true
    · simp only [number_int, hc, if_true, List.length_cons]; have := ih (n * 10 + ((c : ℚ) - 48)); omega
    · simp [number_int, hc]

theorem lenient_scan_length (s : List Nat) : ∀ q, (lenient_scan q s).length ≤ s.length := by
  induction s with
  | nil => intro q; simp [lenient_scan]
  | cons c t ih =>
    intro q
    rw [lenient_scan]
    cases lenient_number_step q c with
    | none => simp
    | some q2 =>
      simp only
      split_ifs
      · simp
      · have := ih q2; simp only [List.length_cons]; omega

theorem parse_number_shrinks (item : cJSON) (s : List Nat)
    (h : peek s = 45 ∨ (48 ≤ peek s ∧ peek s ≤ 57)) :
    (parse_number item s).2.length < s.length := by
  have hp : (parse_number item s).2 = lenient_scan .start s := by
    rw [← number_scan_lenient]; rfl
  rw [hp]
  cases s with
  | nil => simp [peek] at h
  | cons c t =>
    simp only [peek_cons] at h
    rw [lenient_scan]
    have hstep : ∃ q2, lenient_number_step .start c = some q2 ∧ q2 ≠ .point := by
      simp only [lenient_number_step]
      split_ifs <;> first | exact ⟨_, rfl, by decide⟩ | omega
    obtain ⟨q2, h1, h2⟩ := hstep
    simp only [h1, h2, false_and, if_false]
    have := lenient_scan_length t q2
    simp only [List.length_cons]; omega

theorem prefix_drop_length {p v : List Nat} (h : p <+: v) (hp : 0 < p.length) :
    (v.drop p.length).length < v.length := by
  have := h.length_le
  simp only [List.length_drop]; omega

theorem parse_shrinks (fuel : Nat) :
    (∀ item v it rest, parse_value fuel item v = .ok it rest → rest.length < v.length) ∧
    (∀ item v it rest, parse_array fuel item v = .ok it rest → rest.length < v.length) ∧
    (∀ v it rest, parse_array_loop fuel v = .ok it rest → rest.length < v.length) ∧
    (∀ v it rest, parse_member fuel v = .ok it rest → rest.length < v.length) ∧
    (∀ item v it rest, parse_object fuel item v = .ok it rest → rest.length < v.length) ∧
    (∀ v it rest, parse_object_loop fuel v = .ok it rest → rest.length < v.length) := by
  induction fuel with
  | zero => simp [parse_value, parse_array, parse_array_loop, parse_member, parse_object,
      parse_object_loop]
  | succ f ih =>
    obtain ⟨ihv, iha, ihl, ihm, iho, ihol⟩ := ih
    have tail_lt : ∀ (v : List Nat) (c : Nat), peek v = c → c ≠ 0 → v.tail.length < v.length := by
      intro v c h hc
      cases v with
      | nil => simp [peek] at h; exact absurd h.symm hc
      | cons _ _ => simp
    refine ⟨?_, ?_, ?_, ?_, ?_, ?_⟩
    · intro item v it rest h
      rw [parse_value] at h
      split_ifs at h with h1 h2 h3 h4 h5 h6 h7
      · simp only [Parsed.ok.injEq] at h; rw [← h.2]; exact prefix_drop_length h1 (by simp)
      · simp only [Parsed.ok.injEq] at h; rw [← h.2]; exact prefix_drop_length h2 (by simp)
      · simp only [Parsed.ok.injEq] at h; rw [← h.2]; exact prefix_drop_length h3 (by simp)
      · exact parse_string_shrinks _ _ _ _ h
      · simp only [Parsed.ok.injEq] at h; rw [← h.2]; exact parse_number_shrinks item v h5
      · exact iha _ _ _ _ h
      · exact iho _ _ _ _ h
    · intro item v it rest h
      rw [parse_array] at h
      split_ifs at h with h1 h2
      · simp only [Parsed.ok.injEq] at h
        rw [← h.2]
        have a1 := tail_lt (skip v.tail) 93 h2 (by decide)
        have a2 := skip_length_le v.tail
        have a3 := tail_lt v 91 (by simpa using h1) (by decide)
        omega
      · cases hv : parse_value f cJSON_New_Item (skip (skip v.tail)) with
        | ok child v1 =>
          simp only [hv] at h
          cases hl : parse_array_loop f (skip v1) with
          | ok sibs r =>
            simp only [hl, Parsed.ok.injEq] at h
            rw [← h.2]
            have a1 := ihv _ _ _ _ hv
            have a2 := ihl _ _ _ hl
            have a3 := skip_length_le v1
            have a4 := skip_length_le (skip v.tail)
            have a5 := skip_length_le v.tail
            have a6 := tail_lt v 91 (by simpa using h1) (by decide)
            omega
          | fail e => simp [hl] at h
          | overrun => simp [hl] at h
          | nofuel => simp [hl] at h
        | fail e => simp [hv] at h
        | overrun => simp [hv] at h
        | nofuel => simp [hv] at h
    · intro v it rest h
      rw [parse_array_loop] at h
      split_ifs at h with h1 h2
      · cases hv : parse_value f cJSON_New_Item (skip v.tail) with
        | ok child v1 =>
          simp only [hv] at h
          cases hl : parse_array_loop f (skip v1) with
          | ok sibs r =>
            simp only [hl, Parsed.ok.injEq] at h
            rw [← h.2]
            have a1 := ihv _ _ _ _ hv
            have a2 := ihl _ _ _ hl
            have a3 := skip_length_le v1
            have a5 := skip_length_le v.tail
            have a6 := tail_lt v 44 h1 (by decide)
            omega
          | fail e => simp [hl] at h
          | overrun => simp [hl] at h
          | nofuel => simp [hl] at h
        | fail e => simp [hv] at h
        | overrun => simp [hv] at h
        | nofuel => simp [hv] at h
      · simp only [Parsed.ok.injEq] at h
        rw [← h.2]
        exact tail_lt v 93 h2 (by decide)
    · intro v it rest h
      rw [parse_member] at h
      cases hs : parse_string cJSON_New_Item (skip v) with
      | ok child v1 =>
        simp only [hs] at h
        split_ifs at h with h1
        have a1 := parse_string_shrinks _ _ _ _ hs
        have a2 := ihv _ _ _ _ h
        have a3 := skip_length_le (skip v1).tail
        have a4 := skip_length_le v1
        have a5 := skip_length_le v
        have a6 : (skip v1).tail.length ≤ (skip v1).length := by simp
        omega
      | fail e => simp [hs] at h
      | overrun => simp [hs] at h
      | nofuel => simp [hs] at h
    · intro item v it rest h
      rw [parse_object] at h
      split_ifs at h with h1 h2
      · simp only [Parsed.ok.injEq] at h
        rw [← h.2]
        have a1 := tail_lt (skip v.tail) 125 h2 (by decide)
        have a2 := skip_length_le v.tail
        have a3 := tail_lt v 123 (by simpa using h1) (by decide)
        omega
      · cases hv : parse_member f (skip v.tail) with
        | ok child v1 =>
          simp only [hv] at h
          cases hl : parse_object_loop f (skip v1) with
          | ok sibs r =>
            simp only [hl, Parsed.ok.injEq] at h
            rw [← h.2]
            have a1 := ihm _ _ _ hv
            have a2 := ihol _ _ _ hl
            have a3 := skip_length_le v1
            have a5 := skip_length_le v.tail
            have a6 := tail_lt v 123 (by simpa using h1) (by decide)
            omega
          | fail e => simp [hl] at h
          | overrun => simp [hl] at h
          | nofuel => simp [hl] at h
        | fail e => simp [hv] at h
        | overrun => simp [hv] at h
        | nofuel => simp [hv] at h
    · intro v it rest h
      rw [parse_object_loop] at h
      split_ifs at h with h1 h2
      · cases hv : parse_member f v.tail with
        | ok child v1 =>
          simp only [hv] at h
          cases hl : parse_object_loop f (skip v1) with
          | ok sibs r =>
            simp only [hl, Parsed.ok.injEq] at h
            rw [← h.2]
            have a1 := ihm _ _ _ hv
            have a2 := ihol _ _ _ hl
            have a3 := skip_length_le v1
            have a6 := tail_lt v 44 h1 (by decide)
            omega
          | fail e => simp [hl] at h
          | overrun => simp [hl] at h
          | nofuel => simp [hl] at h
        | fail e => simp [hv] at h
        | overrun => simp [hv] at h
        | nofuel => simp [hv] at h
      · simp only [Parsed.ok.injEq] at h
        rw [← h.2]
        exact tail_lt v 125 h2 (by decide)

theorem parse_fuel_enough (fuel : Nat) :
    (∀ item v, 2 * v.length + 2 ≤ fuel → parse_value fuel item v ≠ .nofuel) ∧
    (∀ item v, 2 * v.length + 1 ≤ fuel → parse_array fuel item v ≠ .nofuel) ∧
    (∀ v, 2 * v.length + 1 ≤ fuel → parse_array_loop fuel v ≠ .nofuel) ∧
    (∀ v, 2 * v.length + 1 ≤ fuel → parse_member fuel v ≠ .nofuel) ∧
    (∀ item v, 2 * v.length + 1 ≤ fuel → parse_object fuel item v ≠ .nofuel) ∧
    (∀ v, 2 * v.length + 1 ≤ fuel → parse_object_loop fuel v ≠ .nofuel) := by
  induction fuel with
  | zero => refine ⟨?_, ?_, ?_, ?_, ?_, ?_⟩ <;> intros <;> omega
  | succ f ih =>
    obtain ⟨ihv, iha, ihl, ihm, iho, ihol⟩ := ih
    obtain ⟨shv, -, -, shm, -, -⟩ := parse_shrinks f
    have tail_lt : ∀ (v : List Nat) (c : Nat), peek v = c → c ≠ 0 → v.tail.length < v.length := by
      intro v c h hc
      cases v with
      | nil => simp [peek] at h; exact absurd h.symm hc
      | cons _ _ => simp
    refine ⟨?_, ?_, ?_, ?_, ?_, ?_⟩
    · intro item v hf
      rw [parse_value]
      split_ifs with h1 h2 h3 h4 h5 h6 h7
      any_goals simp
      · unfold parse_string
        split_ifs <;> try simp
        cases parse_string_len false v.tail 0 with
        | none => simp
        | some len =>
          cases parse_string_copy .scan v.tail with
          | none => simp
          | some r => simp only; split_ifs <;> simp
      · exact iha item v (by omega)
      · exact iho item v (by omega)
    · intro item v hf
      rw [parse_array]
      split_ifs with h1 h2
      any_goals simp
      have a5 := skip_length_le v.tail
      have a4 := skip_length_le (skip v.tail)
      have a6 := tail_lt v 91 (by simpa using h1) (by decide)
      cases hv : parse_value f cJSON_New_Item (skip (skip v.tail)) with
      | ok child v1 =>
        simp only
        have a1 := shv _ _ _ _ hv
        have a3 := skip_length_le v1
        cases hl : parse_array_loop f (skip v1) with
        | nofuel => exact absurd hl (ihl _ (by omega))
        | _ => simp
      | nofuel => exact absurd hv (ihv _ _ (by omega))
      | _ => simp
    · intro v hf
      rw [parse_array_loop]
      split_ifs with h1 h2
      any_goals simp
      have a5 := skip_length_le v.tail
      have a6 := tail_lt v 44 h1 (by decide)
      cases hv : parse_value f cJSON_New_Item (skip v.tail) with
      | ok child v1 =>
        simp only
        have a1 := shv _ _ _ _ hv
        have a3 := skip_length_le v1
        cases hl : parse_array_loop f (skip v1) with
        | nofuel => exact absurd hl (ihl _ (by omega))
        | _ => simp
      | nofuel => exact absurd hv (ihv _ _ (by omega))
      | _ => simp
    · intro v hf
      rw [parse_member]
      cases hs : parse_string cJSON_New_Item (skip v) with
      | ok child v1 =>
        simp only
        split_ifs with h1
        · simp
        · have a1 := parse_string_shrinks _ _ _ _ hs
          have a3 := skip_length_le (skip v1).tail
          have a4 := skip_length_le v1
          have a5 := skip_length_le v
          have a6 : (skip v1).tail.length ≤ (skip v1).length := by simp
          exact ihv _ _ (by omega)
      | nofuel =>
        exfalso
        unfold parse_string at hs
        split_ifs at hs
        cases h1 : parse_string_len false (skip v).tail 0 with
        | none => simp [h1] at hs
        | some len =>
          cases h2 : parse_string_copy .scan (skip v).tail with
          | none => simp [h1, h2] at hs
          | some r => simp only [h1, h2] at hs; split_ifs at hs
      | _ => simp
    · intro item v hf
      rw [parse_object]
      split_ifs with h1 h2
      any_goals simp
      have a5 := skip_length_le v.tail
      have a6 := tail_lt v 123 (by simpa using h1) (by decide)
      cases hv : parse_member f (skip v.tail) with
      | ok child v1 =>
        simp only
        have a1 := shm _ _ _ hv
        have a3 := skip_length_le v1
        cases hl : parse_object_loop f (skip v1) with
        | nofuel => exact absurd hl (ihol _ (by omega))
        | _ => simp
      | nofuel => exact absurd hv (ihm _ (by omega))
      | _ => simp
    · intro v hf
      rw [parse_object_loop]
      split_ifs with h1 h2
      any_goals simp
      have a6 := tail_lt v 44 h1 (by decide)
      cases hv : parse_member f v.tail with
      | ok child v1 =>
        simp only
        have a1 := shm _ _ _ hv
        have a3 := skip_length_le v1
        cases hl : parse_object_loop f (skip v1) with
        | nofuel => exact absurd hl (ihol _ (by omega))
        | _ => simp
      | nofuel => exact absurd hv (ihm _ (by omega))
      | _ => simp

theorem parse_fuel_step (fuel : Nat) :
    (∀ item v, parse_value fuel item v ≠ .nofuel →
      parse_value (fuel + 1) item v = parse_value fuel item v) ∧
    (∀ item v, parse_array fuel item v ≠ .nofuel →
      parse_array (fuel + 1) item v = parse_array fuel item v) ∧
    (∀ v, parse_array_loop fuel v ≠ .nofuel →
      parse_array_loop (fuel + 1) v = parse_array_loop fuel v) ∧
    (∀ v, parse_member fuel v ≠ .nofuel → parse_member (fuel + 1) v = parse_member fuel v) ∧
    (∀ item v, parse_object fuel item v ≠ .nofuel →
      parse_object (fuel + 1) item v = parse_object fuel item v) ∧
    (∀ v, parse_object_loop fuel v ≠ .nofuel →
      parse_object_loop (fuel + 1) v = parse_object_loop fuel v) := by
  induction fuel with
  | zero =>
    refine ⟨?_, ?_, ?_, ?_, ?_, ?_⟩ <;> intros <;>
      simp_all [parse_value, parse_array, parse_array_loop, parse_member, parse_object,
        parse_object_loop]
  | succ f ih =>
    obtain ⟨ihv, iha, ihl, ihm, iho, ihol⟩ := ih
    refine ⟨?_, ?_, ?_, ?_, ?_, ?_⟩
    · intro item v h
      rw [parse_value] at h
      rw [parse_value, parse_value]
      split_ifs at h ⊢ with h1 h2 h3 h4 h5 h6 h7
      any_goals rfl
      · exact iha _ _ h
      · exact iho _ _ h
    · intro item v h
      rw [parse_array] at h
      rw [parse_array, parse_array]
      split_ifs at h ⊢ with h1 h2
      any_goals rfl
      cases hv : parse_value f cJSON_New_Item (skip (skip v.tail)) with
      | nofuel => simp [hv] at h
      | ok child v1 =>
        rw [ihv _ _ (by rw [hv]; simp), hv]
        simp only [hv] at h ⊢
        cases hl : parse_array_loop f (skip v1) with
        | nofuel => simp [hl] at h
        | ok a b => rw [ihl _ (by rw [hl]; simp), hl]
        | fail e => rw [ihl _ (by rw [hl]; simp), hl]
        | overrun => rw [ihl _ (by rw [hl]; simp), hl]
      | fail e => rw [ihv _ _ (by rw [hv]; simp), hv]
      | overrun => rw [ihv _ _ (by rw [hv]; simp), hv]
    · intro v h
      rw [parse_array_loop] at h
      rw [parse_array_loop, parse_array_loop]
      split_ifs at h ⊢ with h1 h2
      any_goals rfl
      cases hv : parse_value f cJSON_New_Item (skip v.tail) with
      | nofuel => simp [hv] at h
      | ok child v1 =>
        rw [ihv _ _ (by rw [hv]; simp), hv]
        simp only [hv] at h ⊢
        cases hl : parse_array_loop f (skip v1) with
        | nofuel => simp [hl] at h
        | ok a b => rw [ihl _ (by rw [hl]; simp), hl]
        | fail e => rw [ihl _ (by rw [hl]; simp), hl]
        | overrun => rw [ihl _ (by rw [hl]; simp), hl]
      | fail e => rw [ihv _ _ (by rw [hv]; simp), hv]
      | overrun => rw [ihv _ _ (by rw [hv]; simp), hv]
    · intro v h
      rw [parse_member] at h
      rw [parse_member, parse_member]
      cases hs : parse_string cJSON_New_Item (skip v) with
      | ok child v1 =>
        simp only [hs] at h ⊢
        split_ifs at h ⊢ with h1
        any_goals rfl
        exact ihv _ _ h
      | _ => rfl
    · intro item v h
      rw [parse_object] at h
      rw [parse_object, parse_object]
      split_ifs at h ⊢ with h1 h2
      any_goals rfl
      cases hv : parse_member f (skip v.tail) with
      | nofuel => simp [hv] at h
      | ok child v1 =>
        rw [ihm _ (by rw [hv]; simp), hv]
        simp only [hv] at h ⊢
        cases hl : parse_object_loop f (skip v1) with
        | nofuel => simp [hl] at h
        | ok a b => rw [ihol _ (by rw [hl]; simp), hl]
        | fail e => rw [ihol _ (by rw [hl]; simp), hl]
        | overrun => rw [ihol _ (by rw [hl]; simp), hl]
      | fail e => rw [ihm _ (by rw [hv]; simp), hv]
      | overrun => rw [ihm _ (by rw [hv]; simp), hv]
    · intro v h
      rw [parse_object_loop] at h
      rw [parse_object_loop, parse_object_loop]
      split_ifs at h ⊢ with h1 h2
      any_goals rfl
      cases hv : parse_member f v.tail with
      | nofuel => simp [hv] at h
      | ok child v1 =>
        rw [ihm _ (by rw [hv]; simp), hv]
        simp only [hv] at h ⊢
        cases hl : parse_object_loop f (skip v1) with
        | nofuel => simp [hl] at h
        | ok a b => rw [ihol _ (by rw [hl]; simp), hl]
        | fail e => rw [ihol _ (by rw [hl]; simp), hl]
        | overrun => rw [ihol _ (by rw [hl]; simp), hl]
      | fail e => rw [ihm _ (by rw [hv]; simp), hv]
      | overrun => rw [ihm _ (by rw [hv]; simp), hv]

theorem parse_value_fuel_le (item : cJSON) (v : List Nat) (f : Nat)
    (h : parse_value f item v ≠ .nofuel) :
    ∀ k, parse_value (f + k) item v = parse_value f item v := by
  intro k
  induction k with
  | zero => rfl
  | succ k ih =>
    rw [← Nat.add_assoc, (parse_fuel_step (f + k)).1 item v (by rw [ih]; exact h), ih]

/-- With the fuel `cJSON_ParseWithOpts` gives it, `parse_value` never runs
out, and any fuel that gives a result gives the result of the parse. -/
theorem parse_value_fuel (item : cJSON) (v : List Nat) :
    parse_value (fuel_for v) item v ≠ .nofuel ∧
      ∀ f, parse_value f item v ≠ .nofuel →
        parse_value (fuel_for v) item v = parse_value f item v := by
  have h0 : parse_value (fuel_for v) item v ≠ .nofuel :=
    (parse_fuel_enough (fuel_for v)).1 item v (by simp [fuel_for])
  refine ⟨h0, fun f hf => ?_⟩
  by_cases hle : f ≤ fuel_for v
  · have := parse_value_fuel_le item v f hf (fuel_for v - f)
    rw [← this]; congr 1; omega
  · have := parse_value_fuel_le item v (fuel_for v) h0 (f - fuel_for v)
    rw [← this]; congr 1; omega

/-! ## C5: a value is expected and none starts -/

theorem parse_value_no_start (fuel : Nat) (item : cJSON) (r : List Nat)
    (h : no_value_start r = true) : parse_value (fuel + 1) item r = .fail r := by
  simp only [no_value_start, decide_eq_true_eq] at h
  obtain ⟨h1, h2, h3, h4, h5, h6, h7, h8⟩ := h
  rw [parse_value, if_neg h1, if_neg h2, if_neg h3, if_neg h4, if_neg (by tauto), if_neg h7,
    if_neg h8]

theorem parse_member_fuel_le (v : List Nat) (f : Nat) (h : parse_member f v ≠ .nofuel) :
    ∀ k, parse_member (f + k) v = parse_member f v := by
  intro k
  induction k with
  | zero => rfl
  | succ k ih =>
    rw [← Nat.add_assoc, (parse_fuel_step (f + k)).2.2.2.1 v (by rw [ih]; exact h), ih]

theorem expects_fail (site : Site) (v r : List Nat) (h : Expects site v r)
    (hbad : no_value_start r = true) :
    ∃ f0, ∀ k item, site.run (f0 + k) item v = .fail r := by
  induction h with
  | here r =>
    refine ⟨1, fun k item => ?_⟩
    rw [Nat.add_comm]
    exact parse_value_no_start k item r hbad
  | first_element w r h93 _ ih =>
    obtain ⟨f0, hf⟩ := ih hbad
    refine ⟨f0 + 2, fun k item => ?_⟩
    have e : f0 + 2 + k = (f0 + k) + 1 + 1 := by omega
    simp only [Site.run] at hf ⊢
    rw [e, parse_value, if_neg (by simp), if_neg (by simp), if_neg (by simp),
      if_neg (by simp [peek]), if_neg (by simp [peek]), if_pos (by simp [peek]), parse_array,
      if_neg (by simp [peek]), List.tail_cons, if_neg h93, skip_idem, hf]
  | in_array w r fuel child v1 h93 hv _ ih =>
    obtain ⟨f0, hf⟩ := ih hbad
    refine ⟨f0 + fuel + 2, fun k item => ?_⟩
    have e : f0 + fuel + 2 + k = (f0 + fuel + k) + 1 + 1 := by omega
    simp only [Site.run] at hf ⊢
    have hv2 : parse_value (f0 + fuel + k) cJSON_New_Item (skip w) = .ok child v1 := by
      have := parse_value_fuel_le cJSON_New_Item (skip w) fuel (by rw [hv]; simp) (f0 + k)
      rw [← hv, ← this]; congr 1; omega
    have hl : parse_array_loop (f0 + fuel + k) (skip v1) = .fail r := by
      have := hf (fuel + k) item
      rw [← this]; congr 1; omega
    rw [e, parse_value, if_neg (by simp), if_neg (by simp), if_neg (by simp),
      if_neg (by simp [peek]), if_neg (by simp [peek]), if_pos (by simp [peek]), parse_array,
      if_neg (by simp [peek]), List.tail_cons, if_neg h93, skip_idem, hv2]
    simp only [hl]
  | next_element w r _ ih =>
    obtain ⟨f0, hf⟩ := ih hbad
    refine ⟨f0 + 1, fun k item => ?_⟩
    have e : f0 + 1 + k = (f0 + k) + 1 := by omega
    simp only [Site.run] at hf ⊢
    rw [e, parse_array_loop, if_pos (by simp [peek]), List.tail_cons, hf]
  | later_element w r fuel child v1 hv _ ih =>
    obtain ⟨f0, hf⟩ := ih hbad
    refine ⟨f0 + fuel + 1, fun k item => ?_⟩
    have e : f0 + fuel + 1 + k = (f0 + fuel + k) + 1 := by omega
    simp only [Site.run] at hf ⊢
    have hv2 : parse_value (f0 + fuel + k) cJSON_New_Item (skip w) = .ok child v1 := by
      have := parse_value_fuel_le cJSON_New_Item (skip w) fuel (by rw [hv]; simp) (f0 + k)
      rw [← hv, ← this]; congr 1; omega
    have hl : parse_array_loop (f0 + fuel + k) (skip v1) = .fail r := by
      have := hf (fuel + k) item
      rw [← this]; congr 1; omega
    rw [e, parse_array_loop, if_pos (by simp [peek]), List.tail_cons, hv2]
    simp only [hl]
  | member_value m r key v1 hs h58 _ ih =>
    obtain ⟨f0, hf⟩ := ih hbad
    refine ⟨f0 + 1, fun k item => ?_⟩
    have e : f0 + 1 + k = (f0 + k) + 1 := by omega
    simp only [Site.run] at hf ⊢
    rw [e, parse_member, hs]
    simp only [h58, ne_eq, not_true_eq_false, if_false, hf]
  | first_member w r h125 _ ih =>
    obtain ⟨f0, hf⟩ := ih hbad
    refine ⟨f0 + 2, fun k item => ?_⟩
    have e : f0 + 2 + k = (f0 + k) + 1 + 1 := by omega
    simp only [Site.run] at hf ⊢
    rw [e, parse_value, if_neg (by simp), if_neg (by simp), if_neg (by simp),
      if_neg (by simp [peek]), if_neg (by simp [peek]), if_neg (by simp [peek]),
      if_pos (by simp [peek]), parse_object, if_neg (by simp [peek]), List.tail_cons,
      if_neg h125, hf _ item]
  | in_object w r fuel child v1 h125 hv _ ih =>
    obtain ⟨f0, hf⟩ := ih hbad
    refine ⟨f0 + fuel + 2, fun k item => ?_⟩
    have e : f0 + fuel + 2 + k = (f0 + fuel + k) + 1 + 1 := by omega
    simp only [Site.run] at hf ⊢
    have hv2 : parse_member (f0 + fuel + k) (skip w) = .ok child v1 := by
      have := parse_member_fuel_le (skip w) fuel (by rw [hv]; simp) (f0 + k)
      rw [← hv, ← this]; congr 1; omega
    have hl : parse_object_loop (f0 + fuel + k) (skip v1) = .fail r := by
      have := hf (fuel + k) item
      rw [← this]; congr 1; omega
    rw [e, parse_value, if_neg (by simp), if_neg (by simp), if_neg (by simp),
      if_neg (by simp [peek]), if_neg (by simp [peek]), if_neg (by simp [peek]),
      if_pos (by simp [peek]), parse_object, if_neg (by simp [peek]), List.tail_cons,
      if_neg h125, hv2]
    simp only [hl]
  | next_member w r _ ih =>
    obtain ⟨f0, hf⟩ := ih hbad
    refine ⟨f0 + 1, fun k item => ?_⟩
    have e : f0 + 1 + k = (f0 + k) + 1 := by omega
    simp only [Site.run] at hf ⊢
    rw [e, parse_object_loop, if_pos (by simp [peek]), List.tail_cons, hf _ item]
  | later_member w r fuel child v1 hv _ ih =>
    obtain ⟨f0, hf⟩ := ih hbad
    refine ⟨f0 + fuel + 1, fun k item => ?_⟩
    have e : f0 + fuel + 1 + k = (f0 + fuel + k) + 1 := by omega
    simp only [Site.run] at hf ⊢
    have hv2 : parse_member (f0 + fuel + k) w = .ok child v1 := by
      have := parse_member_fuel_le w fuel (by rw [hv]; simp) (f0 + k)
      rw [← hv, ← this]; congr 1; omega
    have hl : parse_object_loop (f0 + fuel + k) (skip v1) = .fail r := by
      have := hf (fuel + k) item
      rw [← this]; congr 1; omega
    rw [e, parse_object_loop, if_pos (by simp [peek]), List.tail_cons, hv2]
    simp only [hl]

theorem parse_top (text : List Nat) (item : cJSON) (f : Nat) (r : Parsed)
    (h : parse_value f item (skip text) = r) (hr : r ≠ .nofuel) :
    parse_value (fuel_for text) item (skip text) = r := by
  have h1 := (parse_value_fuel item (skip text)).2 f (by rw [h]; exact hr)
  have h2 : parse_value (fuel_for text) item (skip text) ≠ .nofuel :=
    (parse_fuel_enough (fuel_for text)).1 item (skip text) (by
      have := skip_length_le text; simp only [fuel_for]; omega)
  rw [← h, ← h1]
  exact ((parse_value_fuel item (skip text)).2 _ h2).symm

/-- C5: whenever a value is expected, at top level after the skipped bytes or
as an element of an array or the value of a member of an object, and the text
there is at its end or starts no value, the whole parse fails, no tree is
returned, and the error position is that place; `[1,2,` fails at its end, at
offset 5. -/
theorem C5_no_value_start (text r : List Nat) (require_null_terminated : Bool)
    (h : Expects .value (skip text) r) (hbad : no_value_start r = true) :
    cJSON_ParseWithOpts text require_null_terminated = .fail r ∧
    cJSON_Parse (bytes "[1,2,") = .fail [] ∧ (bytes "[1,2,").length - ([] : List Nat).length = 5 := by
  refine ⟨?_, by decide, by decide⟩
  obtain ⟨f0, hf⟩ := expects_fail .value (skip text) r h hbad
  have := parse_top text cJSON_New_Item f0 (.fail r) (hf 0 cJSON_New_Item) (by simp)
  unfold cJSON_ParseWithOpts
  rw [this]

theorem C5_no_value_start_witness :
    cJSON_ParseWithOpts (bytes "[1,2,") true = .fail [] ∧
    cJSON_ParseWithOpts (bytes " \x7b\"k\": [true, x]\x7d") false = .fail (bytes "x]\x7d") := by
  have e1 : Expects .value (skip (bytes "[1,2,")) [] := by
    refine Expects.in_array (bytes "1,2,") [] 1 (.node .null .null cJSON_Number none 1 1 none)
      (bytes ",2,") (by decide) (by decide!) ?_
    refine Expects.later_element (bytes "2,") [] 1 (.node .null .null cJSON_Number none 2 2 none)
      (bytes ",") (by decide!) ?_
    exact Expects.next_element [] [] (Expects.here [])
  have e2 : Expects .value (skip (bytes " \x7b\"k\": [true, x]\x7d")) (bytes "x]\x7d") := by
    refine Expects.first_member (bytes "\"k\": [true, x]\x7d") _ (by decide) ?_
    refine Expects.member_value _ _ (.node .null .null cJSON_String (some [107]) 0 0 none)
      (bytes ": [true, x]\x7d") (by decide) (by decide) ?_
    refine Expects.in_array (bytes "true, x]\x7d") _ 1 (.node .null .null cJSON_True none 1 0 none)
      (bytes ", x]\x7d") (by decide) (by decide) ?_
    exact Expects.next_element (bytes " x]\x7d") _ (Expects.here _)
  exact ⟨(C5_no_value_start _ _ true e1 (by decide)).1,
    (C5_no_value_start _ _ false e2 (by decide)).1⟩

theorem canon_chain_node (keyed : Bool) (next child : cJSON) (type : Nat)
    (vs s : Option (List Nat)) (vi : Int) (vd : ℚ) :
    canon_chain keyed (.node next child type vs vi vd s) ↔
      key_canon keyed s ∧ payload_canon child type vs vi vd ∧ canon_chain keyed next := by
  rw [canon_chain, payload_canon]

theorem utf8_standard_ne_zero (cp : Nat) (h : cp ≠ 0) : ∀ c ∈ utf8_standard cp, c ≠ 0 := by
  unfold utf8_standard
  split_ifs
  all_goals simp
  all_goals omega

theorem hexdigit_lt (c : Nat) : ∀ x, hexdigit c = some x → x < 16 :=
  fun _ h => (hexdigit_spec h).1

theorem parse_hex4_lt (str : List Nat) : parse_hex4 str < 65536 := by
  unfold parse_hex4
  cases ha : hexdigit (peek str) with
  | none => simp
  | some a =>
    cases hb : hexdigit (peek (str.drop 1)) with
    | none => simp
    | some b =>
      cases hc : hexdigit (peek (str.drop 2)) with
      | none => simp
      | some c =>
        cases hd : hexdigit (peek (str.drop 3)) with
        | none => simp
        | some d =>
          have := hexdigit_lt _ _ ha; have := hexdigit_lt _ _ hb
          have := hexdigit_lt _ _ hc; have := hexdigit_lt _ _ hd
          simp only [Nat.shiftLeft_eq]
          omega

theorem parse_string_u_nul_free (str : List Nat) : ∀ c ∈ (parse_string_u str).1, c ≠ 0 := by
  unfold parse_string_u
  have hlt := parse_hex4_lt str
  simp only
  split_ifs with h1 h2 h3 h4
  · simp
  · simp
  · simp
  · have hl : 0xDC00 ≤ parse_hex4 (str.drop 6) ∧ parse_hex4 (str.drop 6) ≤ 0xDFFF := by omega
    have hcp := surrogate_value h2 hl
    rw [utf8_bytes_standard _ (by rw [hcp]; omega)]
    exact utf8_standard_ne_zero _ (by omega)
  · rw [utf8_bytes_standard _ (by omega)]
    exact utf8_standard_ne_zero _ (by omega)

theorem parse_string_copy_nul_free (s : List Nat) :
    ∀ m out ptr, parse_string_copy m s = some (out, ptr) → nul_free out := by
  induction s with
  | nil =>
    intro m out ptr h
    cases m <;> simp [parse_string_copy] at h
    rw [h.1]; intro c hc; simp at hc
  | cons c t ih =>
    intro m out ptr h
    have step : ∀ (m2 : CopyAt) (pre : List Nat), (∀ x ∈ pre, x ≠ 0) →
        (parse_string_copy m2 t).map (fun r => (pre ++ r.1, r.2)) = some (out, ptr) →
        nul_free out := by
      intro m2 pre hpre hm
      obtain ⟨r, hr, hfr⟩ := Option.map_eq_some'.1 hm
      have := ih m2 r.1 r.2 hr
      simp only [Prod.mk.injEq] at hfr
      rw [← hfr.1]
      intro x hx
      rcases List.mem_append.1 hx with hx | hx
      · exact hpre x hx
      · exact this x hx
    cases m with
    | scan =>
      rw [parse_string_copy] at h
      split_ifs at h with h1 h2
      · simp only [Option.some.injEq, Prod.mk.injEq] at h
        rw [← h.1]; intro x hx; simp at hx
      · exact step .scan [c] (by simp; omega) h
      · exact ih _ _ _ h
    | escape =>
      rw [parse_string_copy] at h
      split_ifs at h with h0
      · exact step .scan [8] (by simp) h
      · exact step .scan [12] (by simp) h
      · exact step .scan [10] (by simp) h
      · exact step .scan [13] (by simp) h
      · exact step .scan [9] (by simp) h
      · exact step _ _ (parse_string_u_nul_free t) h
      · exact step .scan [c] (by simpa using h0) h
    | pass k =>
      rw [parse_string_copy] at h
      split_ifs at h
      · exact ih _ _ _ h
      · exact ih _ _ _ h

theorem parse_string_canon (ty : Nat) (s : Option (List Nat)) (v rest : List Nat) (it : cJSON)
    (h : parse_string (.node .null .null ty none 0 0 s) v = .ok it rest) :
    ∃ str, it = .node .null .null cJSON_String (some str) 0 0 s ∧ nul_free str := by
  unfold parse_string at h
  split_ifs at h with h1
  cases hl : parse_string_len false v.tail 0 with
  | none => simp [hl] at h
  | some len =>
    cases hc : parse_string_copy .scan v.tail with
    | none => simp [hl, hc] at h
    | some r =>
      obtain ⟨out, ptr⟩ := r
      simp only [hl, hc] at h
      split_ifs at h with h2 h3
      · simp only [Parsed.ok.injEq] at h
        exact ⟨out, h.1.symm, parse_string_copy_nul_free _ _ _ _ hc⟩
      · simp only [Parsed.ok.injEq] at h
        exact ⟨out, h.1.symm, parse_string_copy_nul_free _ _ _ _ hc⟩

theorem parse_canon (fuel : Nat) :
    (∀ ty s v it rest, parse_value fuel (.node .null .null ty none 0 0 s) v = .ok it rest →
      ∃ child type vs vi vd, it = .node .null child type vs vi vd s ∧
        payload_canon child type vs vi vd) ∧
    (∀ ty s v it rest, parse_array fuel (.node .null .null ty none 0 0 s) v = .ok it rest →
      ∃ child, it = .node .null child cJSON_Array none 0 0 s ∧ canon_chain false child) ∧
    (∀ v c rest, parse_array_loop fuel v = .ok c rest → canon_chain false c) ∧
    (∀ v it rest, parse_member fuel v = .ok it rest →
      ∃ child type vs vi vd key, it = .node .null child type vs vi vd (some key) ∧
        nul_free key ∧ payload_canon child type vs vi vd) ∧
    (∀ ty s v it rest, parse_object fuel (.node .null .null ty none 0 0 s) v = .ok it rest →
      ∃ child, it = .node .null child cJSON_Object none 0 0 s ∧ canon_chain true child) ∧
    (∀ v c rest, parse_object_loop fuel v = .ok c rest → canon_chain true c) := by
  induction fuel with
  | zero => simp [parse_value, parse_array, parse_array_loop, parse_member, parse_object,
      parse_object_loop]
  | succ f ih =>
    obtain ⟨ihv, iha, ihl, ihm, iho, ihol⟩ := ih
    refine ⟨?_, ?_, ?_, ?_, ?_, ?_⟩
    · intro ty s v it rest h
      rw [parse_value] at h
      split_ifs at h with h1 h2 h3 h4 h5 h6 h7
      · simp only [Parsed.ok.injEq] at h
        exact ⟨_, _, _, _, _, h.1.symm, by simp [payload_canon]⟩
      · simp only [Parsed.ok.injEq] at h
        exact ⟨_, _, _, _, _, h.1.symm, by simp [payload_canon]⟩
      · simp only [Parsed.ok.injEq] at h
        exact ⟨_, _, _, _, _, h.1.symm, by simp [payload_canon]⟩
      · obtain ⟨str, hit, hn⟩ := parse_string_canon _ _ _ _ _ h
        exact ⟨_, _, _, _, _, hit, by simp [payload_canon, hn]⟩
      · simp only [Parsed.ok.injEq] at h
        refine ⟨.null, cJSON_Number, none, (parse_number (.node .null .null ty none 0 0 s) v).1.getValueint,
          (parse_number (.node .null .null ty none 0 0 s) v).1.getValuedouble, ?_,
          Or.inr (Or.inr (Or.inr (Or.inl ⟨rfl, rfl, rfl⟩)))⟩
        rw [← h.1]
        simp [parse_number, cJSON.setValuedouble, cJSON.setValueint, cJSON.setType,
          cJSON.getValueint, cJSON.getValuedouble]
      · obtain ⟨child, hit, hc⟩ := iha _ _ _ _ _ h
        exact ⟨_, _, _, _, _, hit, by simp [payload_canon, hc]⟩
      · obtain ⟨child, hit, hc⟩ := iho _ _ _ _ _ h
        exact ⟨_, _, _, _, _, hit, by simp [payload_canon, hc]⟩
    · intro ty s v it rest h
      rw [parse_array] at h
      split_ifs at h with h1 h2
      · simp only [Parsed.ok.injEq] at h
        exact ⟨.null, h.1.symm, by simp [canon_chain]⟩
      · cases hv : parse_value f cJSON_New_Item (skip (skip v.tail)) with
        | ok child v1 =>
          simp only [hv] at h
          cases hl : parse_array_loop f (skip v1) with
          | ok sibs r =>
            simp only [hl, Parsed.ok.injEq] at h
            obtain ⟨ch, t2, vs, vi, vd, hit, hp⟩ := ihv _ _ _ _ _ hv
            have hs := ihl _ _ _ hl
            refine ⟨_, h.1.symm, ?_⟩
            rw [hit, cJSON.setNext, canon_chain_node]
            exact ⟨by simp [key_canon], hp, hs⟩
          | fail e => simp [hl] at h
          | overrun => simp [hl] at h
          | nofuel => simp [hl] at h
        | fail e => simp [hv] at h
        | overrun => simp [hv] at h
        | nofuel => simp [hv] at h
    · intro v c rest h
      rw [parse_array_loop] at h
      split_ifs at h with h1 h2
      · cases hv : parse_value f cJSON_New_Item (skip v.tail) with
        | ok child v1 =>
          simp only [hv] at h
          cases hl : parse_array_loop f (skip v1) with
          | ok sibs r =>
            simp only [hl, Parsed.ok.injEq] at h
            obtain ⟨ch, t2, vs, vi, vd, hit, hp⟩ := ihv _ _ _ _ _ hv
            have hs := ihl _ _ _ hl
            rw [← h.1, hit, cJSON.setNext, canon_chain_node]
            exact ⟨by simp [key_canon], hp, hs⟩
          | fail e => simp [hl] at h
          | overrun => simp [hl] at h
          | nofuel => simp [hl] at h
        | fail e => simp [hv] at h
        | overrun => simp [hv] at h
        | nofuel => simp [hv] at h
      · simp only [Parsed.ok.injEq] at h
        rw [← h.1]; simp [canon_chain]
    · intro v it rest h
      rw [parse_member] at h
      cases hs : parse_string cJSON_New_Item (skip v) with
      | ok child v1 =>
        simp only [hs] at h
        split_ifs at h with h1
        obtain ⟨key, hk, hn⟩ := parse_string_canon _ _ _ _ _ hs
        rw [hk] at h
        obtain ⟨ch, t2, vs, vi, vd, hit, hp⟩ := ihv _ _ _ _ _ h
        exact ⟨_, _, _, _, _, key, hit, hn, hp⟩
      | fail e => simp [hs] at h
      | overrun => simp [hs] at h
      | nofuel => simp [hs] at h
    · intro ty s v it rest h
      rw [parse_object] at h
      split_ifs at h with h1 h2
      · simp only [Parsed.ok.injEq] at h
        exact ⟨.null, h.1.symm, by simp [canon_chain]⟩
      · cases hv : parse_member f (skip v.tail) with
        | ok child v1 =>
          simp only [hv] at h
          cases hl : parse_object_loop f (skip v1) with
          | ok sibs r =>
            simp only [hl, Parsed.ok.injEq] at h
            obtain ⟨ch, t2, vs, vi, vd, key, hit, hn, hp⟩ := ihm _ _ _ hv
            have hs := ihol _ _ _ hl
            refine ⟨_, h.1.symm, ?_⟩
            rw [hit, cJSON.setNext, canon_chain_node]
            exact ⟨by simp [key_canon, hn], hp, hs⟩
          | fail e => simp [hl] at h
          | overrun => simp [hl] at h
          | nofuel => simp [hl] at h
        | fail e => simp [hv] at h
        | overrun => simp [hv] at h
        | nofuel => simp [hv] at h
    · intro v c rest h
      rw [parse_object_loop] at h
      split_ifs at h with h1 h2
      · cases hv : parse_member f v.tail with
        | ok child v1 =>
          simp only [hv] at h
          cases hl : parse_object_loop f (skip v1) with
          | ok sibs r =>
            simp only [hl, Parsed.ok.injEq] at h
            obtain ⟨ch, t2, vs, vi, vd, key, hit, hn, hp⟩ := ihm _ _ _ hv
            have hs := ihol _ _ _ hl
            rw [← h.1, hit, cJSON.setNext, canon_chain_node]
            exact ⟨by simp [key_canon, hn], hp, hs⟩
          | fail e => simp [hl] at h
          | overrun => simp [hl] at h
          | nofuel => simp [hl] at h
        | fail e => simp [hv] at h
        | overrun => simp [hv] at h
        | nofuel => simp [hv] at h
      · simp only [Parsed.ok.injEq] at h
        rw [← h.1]; simp [canon_chain]

theorem hexdigit_hexchar (d : Nat) (h : d < 16) : hexdigit (hexchar d) = some d := by
  interval_cases d <;> decide

theorem hexchar_plain (d : Nat) (h : d < 16) :
    hexchar d ≠ 34 ∧ hexchar d ≠ 0 ∧ hexchar d ≠ 92 := by
  interval_cases d <;> decide

theorem copy_print (s : List Nat) (hn : nul_free s) (rest : List Nat) :
    parse_string_copy .scan (print_string_body s ++ 34 :: rest) = some (s, 34 :: rest) := by
  induction s with
  | nil => simp [print_string_body, parse_string_copy]
  | cons c t ih =>
    have hc : c ≠ 0 := hn c (List.mem_cons_self _ _)
    have ht := ih (fun x hx => hn x (List.mem_cons_of_mem _ hx))
    rw [print_string_body, if_neg hc]
    split_ifs with h1 h2 h3 h4 h5 h6 h7 h8
    · simp [parse_string_copy, h1.2.1, h1.2.2, hc, ht]
    · simp [parse_string_copy, h2, ht]
    · simp [parse_string_copy, h3, ht]
    · simp [parse_string_copy, h4, ht]
    · simp [parse_string_copy, h5, ht]
    · simp [parse_string_copy, h6, ht]
    · simp [parse_string_copy, h7, ht]
    · simp [parse_string_copy, h8, ht]
    · have hlt : c ≤ 31 := by
        by_contra hgt
        exact h1 ⟨by omega, h3, h2⟩
      have e1 : c / 4096 % 16 = 0 := by omega
      have e2 : c / 256 % 16 = 0 := by omega
      have hcopy := copy_bmp_escape (print_string_body t ++ 34 :: rest)
        (hexdigit_hexchar 0 (by omega)) (hexdigit_hexchar 0 (by omega))
        (hexdigit_hexchar (c / 16 % 16) (by omega)) (hexdigit_hexchar (c % 16) (by omega))
        (by omega) (by omega)
      have hv : 0 * 4096 + 0 * 256 + c / 16 % 16 * 16 + c % 16 = c := by omega
      rw [hv] at hcopy
      rw [e1, e2]
      simp only [List.cons_append, List.nil_append]
      rw [hcopy, ht]
      have : utf8_standard c = [c] := by
        unfold utf8_standard
        rw [if_pos (by omega)]
      simp [this]

theorem len_print (s : List Nat) (hn : nul_free s) (rest : List Nat) :
    ∀ n, ∃ len, parse_string_len false (print_string_body s ++ 34 :: rest) n = some len ∧
      n + s.length ≤ len := by
  induction s with
  | nil => intro n; exact ⟨n, by simp [print_string_body, parse_string_len]⟩
  | cons c t ih =>
    intro n
    have hc : c ≠ 0 := hn c (List.mem_cons_self _ _)
    have ht := ih (fun x hx => hn x (List.mem_cons_of_mem _ hx))
    rw [print_string_body, if_neg hc]
    have two : ∀ e, e ≠ 0 → ∃ len, parse_string_len false
        (92 :: ([e] ++ print_string_body t) ++ 34 :: rest) n = some len ∧
        n + (c :: t).length ≤ len := by
      intro e he
      obtain ⟨len, hl, hle⟩ := ht (n + 1)
      refine ⟨len, ?_, by simp; omega⟩
      simp [parse_string_len, he, hl]
    split_ifs with h1 h2 h3 h4 h5 h6 h7 h8
    · obtain ⟨len, hl, hle⟩ := ht (n + 1)
      refine ⟨len, ?_, by simp; omega⟩
      simp [parse_string_len, h1.2.1, h1.2.2, hc, hl]
    · exact two 92 (by decide)
    · exact two 34 (by decide)
    · exact two 98 (by decide)
    · exact two 102 (by decide)
    · exact two 110 (by decide)
    · exact two 114 (by decide)
    · exact two 116 (by decide)
    · obtain ⟨len, hl, hle⟩ := ht (n + 1 + 1 + 1 + 1 + 1)
      refine ⟨len, ?_, by simp; omega⟩
      have a1 := hexchar_plain (c / 4096 % 16) (by omega)
      have a2 := hexchar_plain (c / 256 % 16) (by omega)
      have a3 := hexchar_plain (c / 16 % 16) (by omega)
      have a4 := hexchar_plain (c % 16) (by omega)
      simp [parse_string_len, a1, a2, a3, a4, hl]

theorem parse_string_print (item : cJSON) (s : List Nat) (hn : nul_free s) (rest : List Nat) :
    parse_string item (print_string_ptr (some s) ++ rest) =
      .ok ((item.setValuestring (some s)).setType cJSON_String) rest := by
  obtain ⟨len, hl, hle⟩ := len_print s hn rest 0
  have := parse_string_of_copy item (print_string_body s ++ 34 :: rest) s rest len hl
    (copy_print s hn rest) (by omega)
  simpa [print_string_ptr] using this
theorem skip_blank (ws t : List Nat) (h : blank ws) : skip (ws ++ t) = skip t := by
  induction ws with
  | nil => rfl
  | cons b r ih =>
    have hb := h b (List.mem_cons_self _ _)
    rw [List.cons_append, skip, if_pos hb]
    exact ih (fun x hx => h x (List.mem_cons_of_mem _ hx))

theorem skip_blank_start (ws t : List Nat) (h : blank ws) (ht : 32 < peek t) :
    skip (ws ++ t) = t := by
  rw [skip_blank ws t h, skip_of_head (Or.inr ht)]

theorem blank_tabs (n : Nat) : blank (List.replicate n 9) := by
  intro b hb
  rw [List.mem_replicate] at hb
  omega

theorem blank_append {a b : List Nat} (ha : blank a) (hb : blank b) : blank (a ++ b) := by
  intro x hx
  rcases List.mem_append.1 hx with h | h
  · exact ha x h
  · exact hb x h

theorem blank_nil : blank [] := by
  intro b hb; simp at hb

theorem blank_nl (fmt : Bool) : blank (if fmt then [10] else []) := by
  intro b hb
  cases fmt <;> simp at hb
  omega

theorem blank_sp (fmt : Bool) : blank (if fmt then [32] else []) := by
  intro b hb
  cases fmt <;> simp at hb
  omega

theorem blank_tab (fmt : Bool) : blank (if fmt then [9] else []) := by
  intro b hb
  cases fmt <;> simp at hb
  omega

theorem number_end_head (r : List Nat)
    (h : peek r ≤ 32 ∨ peek r = 44 ∨ peek r = 93 ∨ peek r = 125) : number_end r = true := by
  simp only [number_end, isdig, Bool.and_eq_true, Bool.not_eq_true', decide_eq_false_iff_not,
    decide_eq_true_eq]
  omega

theorem number_end_skip (r : List Nat)
    (h : peek (skip r) = 0 ∨ peek (skip r) = 44 ∨ peek (skip r) = 93 ∨ peek (skip r) = 125) :
    number_end r = true := by
  cases r with
  | nil => exact number_end_head _ (Or.inl (by simp [peek]))
  | cons c t =>
    by_cases hc : c ≠ 0 ∧ c ≤ 32
    · exact number_end_head _ (Or.inl (by simp [peek]; exact hc.2))
    · rw [skip, if_neg hc] at h
      exact number_end_head _ (by omega)

theorem array_entries_cons (e : List Nat) (es : List (List Nat)) (fmt : Bool) :
    array_entries (e :: es) fmt =
      e ++ (if es = [] then [] else 44 :: ((if fmt then [32] else []) ++ array_entries es fmt)) := by
  cases es with
  | nil => simp [array_entries]
  | cons e2 r => simp [array_entries]

theorem parse_member_skip (f : Nat) (v : List Nat) : parse_member f (skip v) = parse_member f v := by
  cases f with
  | zero => simp [parse_member]
  | succ f => rw [parse_member, parse_member, skip_idem]

theorem parse_array_as_loop (f : Nat) (item : cJSON) (x : List Nat) (c : cJSON) (rest : List Nat)
    (hx : peek (skip x) ≠ 93) (h : parse_array_loop (f + 1) (44 :: x) = .ok c rest) :
    parse_array (f + 1) item (91 :: x) = .ok ((item.setType cJSON_Array).setChild c) rest := by
  rw [parse_array_loop, if_pos (by simp [peek])] at h
  rw [parse_array, if_neg (by simp [peek]), List.tail_cons, if_neg hx, skip_idem]
  rw [List.tail_cons] at h
  cases hv : parse_value f cJSON_New_Item (skip x) with
  | ok child v1 =>
    simp only [hv] at h ⊢
    cases hl : parse_array_loop f (skip v1) with
    | ok sibs r =>
      simp only [hl, Parsed.ok.injEq] at h ⊢
      rw [← h.1, ← h.2]; exact ⟨rfl, rfl⟩
    | fail e => simp [hl] at h
    | overrun => simp [hl] at h
    | nofuel => simp [hl] at h
  | fail e => simp [hv] at h
  | overrun => simp [hv] at h
  | nofuel => simp [hv] at h

theorem parse_object_as_loop (f : Nat) (item : cJSON) (x : List Nat) (c : cJSON) (rest : List Nat)
    (hx : peek (skip x) ≠ 125) (h : parse_object_loop (f + 1) (44 :: x) = .ok c rest) :
    parse_object (f + 1) item (123 :: x) = .ok ((item.setType cJSON_Object).setChild c) rest := by
  rw [parse_object_loop, if_pos (by simp [peek])] at h
  rw [parse_object, if_neg (by simp [peek]), List.tail_cons, if_neg hx, parse_member_skip]
  rw [List.tail_cons] at h
  cases hv : parse_member f x with
  | ok child v1 =>
    simp only [hv] at h ⊢
    cases hl : parse_object_loop f (skip v1) with
    | ok sibs r =>
      simp only [hl, Parsed.ok.injEq] at h ⊢
      rw [← h.1, ← h.2]; exact ⟨rfl, rfl⟩
    | fail e => simp [hl] at h
    | overrun => simp [hl] at h
    | nofuel => simp [hl] at h
  | fail e => simp [hv] at h
  | overrun => simp [hv] at h
  | nofuel => simp [hv] at h

theorem parse_array_loop_fuel_le (v : List Nat) (f : Nat) (h : parse_array_loop f v ≠ .nofuel) :
    ∀ k, parse_array_loop (f + k) v = parse_array_loop f v := by
  intro k
  induction k with
  | zero => rfl
  | succ k ih =>
    rw [← Nat.add_assoc, (parse_fuel_step (f + k)).2.2.1 v (by rw [ih]; exact h), ih]

theorem parse_object_loop_fuel_le (v : List Nat) (f : Nat) (h : parse_object_loop f v ≠ .nofuel) :
    ∀ k, parse_object_loop (f + k) v = parse_object_loop f v := by
  intro k
  induction k with
  | zero => rfl
  | succ k ih =>
    rw [← Nat.add_assoc, (parse_fuel_step (f + k)).2.2.2.2.2 v (by rw [ih]; exact h), ih]

theorem sprintf_d_head (n : Int) :
    ∃ c tl, sprintf_d n = c :: tl ∧ (c = 45 ∨ (48 ≤ c ∧ c ≤ 57)) := by
  unfold sprintf_d
  split_ifs with h
  · exact ⟨45, _, rfl, Or.inl rfl⟩
  · cases hd : decimal n.natAbs with
    | nil => exact absurd hd (decimal_ne_nil _)
    | cons c tl =>
      refine ⟨c, tl, rfl, Or.inr ?_⟩
      have := decimal_isdig n.natAbs c (by rw [hd]; exact List.mem_cons_self _ _)
      simpa [isdig] using this
theorem value_start_append {e : List Nat} (h : value_start e) (t : List Nat) :
    skip (e ++ t) = e ++ t ∧ peek (e ++ t) = peek e := by
  cases e with
  | nil => simp [value_start, peek] at h
  | cons c tl =>
    have hc : 32 < c := h.1
    refine ⟨?_, rfl⟩
    rw [List.cons_append, skip, if_neg (by omega)]

theorem value_roundtrip (child : cJSON) (type : Nat) (vs : Option (List Nat)) (vi : Int) (vd : ℚ)
    (hp : payload_canon child type vs vi vd)
    (hi : type = cJSON_Number → ∃ n : Int, vd = (n : ℚ) ∧ vi = int_of_double (n : ℚ) ∧
      -9007199254740992 < n ∧ n < 9007199254740992)
    (hch : ∀ keyed, canon_chain keyed child → ∀ depth fmt, chain_roundtrip keyed child depth fmt)
    (depth : Nat) (fmt : Bool) :
    ∃ out, print_item type vs vi vd (print_names child) (print_chain child (depth + 1) fmt)
        depth fmt = some out ∧ value_start out ∧
      ∃ F, ∀ nx ty0 s0 rest, number_end rest = true →
        parse_value F (.node nx .null ty0 none 0 0 s0) (out ++ rest) =
          .ok (.node nx child type vs vi vd s0) rest := by
  rcases hp with ⟨rfl, rfl, rfl, rfl, rfl⟩ | ⟨rfl, rfl, rfl, rfl, rfl⟩ | ⟨rfl, rfl, rfl, rfl, rfl⟩ |
    ⟨rfl, rfl, rfl⟩ | ⟨rfl, rfl, ⟨str, rfl, hn⟩, rfl, rfl⟩ | ⟨rfl, rfl, rfl, rfl, hc⟩ |
    ⟨rfl, rfl, rfl, rfl, hc⟩
  · refine ⟨[110, 117, 108, 108], by rw [print_item, if_pos (by decide)],
      by simp [value_start, peek], 1, ?_⟩
    intro nx ty0 s0 rest _
    rw [parse_value, if_pos (by simp)]
    simp [cJSON.setType, cJSON_NULL]
  · refine ⟨[102, 97, 108, 115, 101],
      by rw [print_item, if_neg (by decide), if_pos (by decide)],
      by simp [value_start, peek], 1, ?_⟩
    intro nx ty0 s0 rest _
    rw [parse_value, if_neg (by simp), if_pos (by simp)]
    simp [cJSON.setType, cJSON_False]
  · refine ⟨[116, 114, 117, 101],
      by rw [print_item, if_neg (by decide), if_neg (by decide), if_pos (by decide)],
      by simp [value_start, peek], 1, ?_⟩
    intro nx ty0 s0 rest _
    rw [parse_value, if_neg (by simp), if_neg (by simp), if_pos (by simp)]
    simp [cJSON.setType, cJSON.setValueint, cJSON_True]
  · obtain ⟨n, hvd, hvi, hlo, hhi⟩ := hi rfl
    subst hvd hvi
    obtain ⟨c, tl, hs, hc⟩ := sprintf_d_head n
    refine ⟨sprintf_d n, by
      rw [print_item, if_neg (by decide), if_neg (by decide), if_neg (by decide),
        if_pos (by decide), print_number_whole n hlo hhi], by
      rw [hs]; simp only [value_start, peek_cons]; omega, 1, ?_⟩
    intro nx ty0 s0 rest hrest
    have e : sprintf_d n ++ rest = c :: (tl ++ rest) := by rw [hs]; rfl
    have hpk : peek (sprintf_d n ++ rest) = c := by rw [e]; rfl
    rw [parse_value, if_neg (by rw [e, List.cons_prefix_cons]; omega),
      if_neg (by rw [e, List.cons_prefix_cons]; omega),
      if_neg (by rw [e, List.cons_prefix_cons]; omega),
      if_neg (by rw [hpk]; omega), if_pos (by rw [hpk]; omega),
      parse_number_whole _ n rest hrest]
    rfl
  · refine ⟨print_string_ptr (some str), by
      rw [print_item, if_neg (by decide), if_neg (by decide), if_neg (by decide),
        if_neg (by decide), if_pos (by decide)], by simp [value_start, peek, print_string_ptr],
      1, ?_⟩
    intro nx ty0 s0 rest _
    have e : print_string_ptr (some str) ++ rest = 34 :: (print_string_body str ++ [34] ++ rest) := by
      simp [print_string_ptr]
    have hpk : peek (print_string_ptr (some str) ++ rest) = 34 := by rw [e]; rfl
    rw [parse_value, if_neg (by rw [e, List.cons_prefix_cons]; omega),
      if_neg (by rw [e, List.cons_prefix_cons]; omega),
      if_neg (by rw [e, List.cons_prefix_cons]; omega), if_pos hpk,
      parse_string_print _ str hn rest]
    rfl
  · obtain ⟨es, hcol, hst, F, hA, _⟩ := hch false hc (depth + 1) fmt
    have hitem : ∀ entries, print_item cJSON_Array none 0 0 (print_names child) entries depth fmt =
        print_array entries fmt := by
      intro entries
      rw [print_item, if_neg (by decide), if_neg (by decide), if_neg (by decide),
        if_neg (by decide), if_neg (by decide), if_pos (by decide)]
    cases child with
    | null =>
      refine ⟨[91, 93], by rw [hitem]; simp [print_chain, print_array],
        by simp [value_start, peek], 2, ?_⟩
      intro nx ty0 s0 rest _
      rw [parse_value, if_neg (by simp), if_neg (by simp), if_neg (by simp),
        if_neg (by simp [peek]), if_neg (by simp [peek]), if_pos (by simp [peek]), parse_array,
        if_neg (by simp [peek]), if_pos (by simp [skip, peek])]
      simp [skip, cJSON.setType]
    | node nx2 ch2 ty2 vs2 vi2 vd2 s2 =>
      have hlen := collect_length _ _ hcol
      cases es with
      | nil => simp [print_chain] at hlen
      | cons e es2 =>
        refine ⟨91 :: (array_entries (e :: es2) fmt ++ [93]), by
          rw [hitem, print_array, if_neg (by simp [print_chain]), hcol]; rfl,
          by simp [value_start, peek], F + 1 + 1, ?_⟩
        intro nx ty0 s0 rest _
        have hloop := hA rfl [] rest blank_nil
        rw [if_neg (by simp)] at hloop
        have hloop1 := parse_array_loop_fuel_le _ F (by rw [hloop]; simp) 1
        rw [hloop] at hloop1
        have he := value_start_append (hst e (List.mem_cons_self _ _))
          ((if es2 = [] then [] else 44 :: ((if fmt then [32] else []) ++ array_entries es2 fmt)) ++
            93 :: rest)
        have hx : peek (skip (array_entries (e :: es2) fmt ++ 93 :: rest)) ≠ 93 := by
          rw [array_entries_cons, List.append_assoc, he.1, he.2]
          exact (hst e (List.mem_cons_self _ _)).2.1
        have hloop2 : parse_array_loop (F + 1) (44 :: (array_entries (e :: es2) fmt ++ 93 :: rest)) =
            .ok (.node nx2 ch2 ty2 vs2 vi2 vd2 s2) rest := by
          rw [← hloop1]; simp
        have := parse_array_as_loop F (.node nx .null ty0 none 0 0 s0) _ _ _ hx hloop2
        rw [parse_value, if_neg (by simp), if_neg (by simp), if_neg (by simp),
          if_neg (by simp [peek]), if_neg (by simp [peek]), if_pos (by simp [peek])]
        simp only [List.cons_append, List.append_assoc, List.singleton_append, List.nil_append]
        rw [this]
        rfl
  · obtain ⟨es, hcol, hst, F, _, hO⟩ := hch true hc (depth + 1) fmt
    have hitem : ∀ entries, print_item cJSON_Object none 0 0 (print_names child) entries depth fmt =
        print_object (print_names child) entries depth fmt := by
      intro entries
      rw [print_item, if_neg (by decide), if_neg (by decide), if_neg (by decide),
        if_neg (by decide), if_neg (by decide), if_neg (by decide), if_pos (by decide)]
    cases child with
    | null =>
      refine ⟨123 :: ((if fmt then 10 :: List.replicate (depth - 1) 9 else []) ++ [125]), by
        rw [hitem]; simp [print_chain, print_object], by simp [value_start, peek], 2, ?_⟩
      intro nx ty0 s0 rest _
      have hb : blank (if fmt then 10 :: List.replicate (depth - 1) 9 else []) := by
        intro b hb
        cases fmt
        · simp at hb
        · simp only [if_true, List.mem_cons, List.mem_replicate] at hb
          omega
      have hsk : skip ((if fmt then 10 :: List.replicate (depth - 1) 9 else []) ++ 125 :: rest) =
          125 :: rest := skip_blank_start _ _ hb (by simp [peek])
      rw [parse_value, if_neg (by simp), if_neg (by simp), if_neg (by simp),
        if_neg (by simp [peek]), if_neg (by simp [peek]), if_neg (by simp [peek]),
        if_pos (by simp [peek]), parse_object, if_neg (by simp [peek])]
      simp only [List.cons_append, List.append_assoc, List.singleton_append, List.tail_cons, List.nil_append]
      rw [hsk, if_pos (by simp [peek])]
      rfl
    | node nx2 ch2 ty2 vs2 vi2 vd2 s2 =>
      have hlen := collect_length _ _ hcol
      rw [canon_chain_node] at hc
      obtain ⟨key, rfl, hkey⟩ : ∃ k, s2 = some k ∧ nul_free k := by
        simpa [key_canon] using hc.1
      cases es with
      | nil => simp [print_chain] at hlen
      | cons e es2 =>
        refine ⟨123 :: ((if fmt then [10] else []) ++
          object_entries (depth + 1) fmt (print_names (.node nx2 ch2 ty2 vs2 vi2 vd2 (some key)))
            (e :: es2) ++ (if fmt then List.replicate (depth + 1 - 1) 9 else []) ++ [125]), by
          rw [hitem, print_object, if_neg (by simp [print_chain]), hcol]; rfl,
          by simp [value_start, peek], F + 1 + 1, ?_⟩
        intro nx ty0 s0 rest _
        have hws : blank (if fmt then List.replicate (depth + 1 - 1) 9 else []) := by
          cases fmt
          · exact blank_nil
          · exact blank_tabs _
        have hloop := hO rfl _ rest hws
        rw [if_neg (by simp), List.singleton_append, skip, if_neg (by omega)] at hloop
        have hloop1 := parse_object_loop_fuel_le _ F (by rw [hloop]; simp) 1
        rw [hloop] at hloop1
        have hx : peek (skip ((if fmt then [10] else []) ++
            (object_entries (depth + 1) fmt (print_names (.node nx2 ch2 ty2 vs2 vi2 vd2 (some key)))
              (e :: es2) ++ ((if fmt then List.replicate (depth + 1 - 1) 9 else []) ++
                125 :: rest)))) ≠ 125 := by
          rw [print_names, object_entries, print_string_ptr]
          simp only [List.append_assoc, List.cons_append]
          rw [skip_blank _ _ (blank_nl fmt), skip_blank _ _ (by
            cases fmt
            · exact blank_nil
            · exact blank_tabs _)]
          simp [skip, peek]
        have := parse_object_as_loop F (.node nx .null ty0 none 0 0 s0) _ _ _ hx hloop1
        rw [parse_value, if_neg (by simp), if_neg (by simp), if_neg (by simp),
          if_neg (by simp [peek]), if_neg (by simp [peek]), if_neg (by simp [peek]),
          if_pos (by simp [peek])]
        simp only [List.cons_append, List.append_assoc, List.singleton_append, List.nil_append] at this ⊢
        rw [this]
        rfl
theorem parse_array_loop_head (f : Nat) (v : List Nat) (c : cJSON) (r : List Nat)
    (h : parse_array_loop f v = .ok c r) : peek v = 44 ∨ peek v = 93 := by
  cases f with
  | zero => simp [parse_array_loop] at h
  | succ f =>
    rw [parse_array_loop] at h
    split_ifs at h with h1 h2
    · exact Or.inl h1
    · exact Or.inr h2

theorem parse_object_loop_head (f : Nat) (v : List Nat) (c : cJSON) (r : List Nat)
    (h : parse_object_loop f v = .ok c r) : peek v = 44 ∨ peek v = 125 := by
  cases f with
  | zero => simp [parse_object_loop] at h
  | succ f =>
    rw [parse_object_loop] at h
    split_ifs at h with h1 h2
    · exact Or.inl h1
    · exact Or.inr h2

theorem object_entries_nil (depth : Nat) (fmt : Bool) (names : List (List Nat)) :
    object_entries depth fmt names [] = [] := by
  cases names <;> rfl

theorem chain_roundtrip_all (c : cJSON) :
    ∀ keyed, canon_chain keyed c → whole c → ∀ depth fmt, chain_roundtrip keyed c depth fmt := by
  induction c with
  | null =>
    intro keyed _ _ depth fmt
    refine ⟨[], by simp [print_chain, collect], by simp, 1, ?_, ?_⟩
    · intro _ ws rest _
      simp [parse_array_loop, peek]
    · intro _ ws rest hws
      rw [if_pos rfl, List.nil_append, object_entries_nil, List.nil_append,
        skip_blank _ _ (blank_nl fmt), skip_blank_start _ _ hws (by simp [peek])]
      simp [parse_object_loop, peek]
  | node next child type vs vi vd s ihn ihc =>
    intro keyed hc hi depth fmt
    rw [canon_chain_node] at hc
    obtain ⟨hkey, hp, hnext⟩ := hc
    rw [whole] at hi
    obtain ⟨hnum, hin, hich⟩ := hi
    obtain ⟨e, he, hse, FV, hV⟩ := value_roundtrip child type vs vi vd hp hnum
      (fun k hk d f => ihc k hk hich d f) depth fmt
    obtain ⟨es, hes, hst, FN, hA, hO⟩ := ihn keyed hnext hin depth fmt
    refine ⟨e :: es, by rw [print_chain, he, collect, hes]; rfl, ?_, FV + FN + 1 + 1, ?_, ?_⟩
    · intro x hx
      rcases List.mem_cons.1 hx with h | h
      · rw [h]; exact hse
      · exact hst x h
    · intro hk ws rest hws
      subst hk
      have hs : s = none := by simpa [key_canon] using hkey
      subst hs
      have hN := hA rfl (if fmt then [32] else []) rest (blank_sp fmt)
      have hhead := parse_array_loop_head _ _ _ _ hN
      have hR := number_end_head _
        (hhead.elim (fun h => Or.inr (Or.inl h)) (fun h => Or.inr (Or.inr (Or.inl h))))
      have hskip := skip_of_head (Or.inr (show 32 <
        peek ((if es = [] then [] else 44 :: ((if fmt then [32] else []) ++ array_entries es fmt)) ++
          93 :: rest) by omega))
      have hVl := parse_value_fuel_le _ _ FV (by rw [hV .null 0 none _ hR]; simp) (FN + 1)
      rw [hV .null 0 none _ hR] at hVl
      have hNl := parse_array_loop_fuel_le _ FN (by rw [hN]; simp) (FV + 1)
      rw [hN] at hNl
      have f1 : FV + (FN + 1) = FV + FN + 1 := by omega
      have f2 : FN + (FV + 1) = FV + FN + 1 := by omega
      rw [f1] at hVl
      rw [f2] at hNl
      rw [if_neg (List.cons_ne_nil _ _), array_entries_cons, parse_array_loop,
        if_pos (by simp [peek])]
      simp only [List.cons_append, List.append_assoc, List.tail_cons]
      rw [skip_blank _ _ hws, (value_start_append hse _).1]
      have hV2 : parse_value (FV + FN + 1) cJSON_New_Item (e ++
          ((if es = [] then [] else 44 :: ((if fmt then [32] else []) ++ array_entries es fmt)) ++
            93 :: rest)) = .ok (.node .null child type vs vi vd none)
          ((if es = [] then [] else 44 :: ((if fmt then [32] else []) ++ array_entries es fmt)) ++
            93 :: rest) := hVl
      simp only [List.cons_append, List.append_assoc] at hV2 hskip hNl
      rw [hV2]
      simp only
      rw [hskip, hNl]
      rfl
    · intro hk ws rest hws
      subst hk
      obtain ⟨key, rfl, hkn⟩ : ∃ k, s = some k ∧ nul_free k := by simpa [key_canon] using hkey
      have hN := hO rfl ws rest hws
      have hhead := parse_object_loop_head _ _ _ _ hN
      have hR := number_end_skip _
        (hhead.elim (fun h => Or.inr (Or.inl h)) (fun h => Or.inr (Or.inr (Or.inr h))))
      have hVl := parse_value_fuel_le _ _ FV
        (by rw [hV .null cJSON_String (some key) _ hR]; simp) FN
      rw [hV .null cJSON_String (some key) _ hR] at hVl
      have hNl := parse_object_loop_fuel_le _ FN (by rw [hN]; simp) (FV + 1)
      rw [hN] at hNl
      have f2 : FN + (FV + 1) = FV + FN + 1 := by omega
      rw [f2] at hNl
      have hb : blank ((if fmt then [10] else []) ++ (if fmt then List.replicate depth 9 else [])) := by
        refine blank_append (blank_nl fmt) ?_
        cases fmt
        · exact blank_nil
        · exact blank_tabs _
      have htab : blank (if fmt then [9] else []) := blank_tab fmt
      rw [if_neg (List.cons_ne_nil _ _), print_names, object_entries, List.singleton_append, skip,
        if_neg (by omega), parse_object_loop, if_pos (by simp [peek]), List.tail_cons, parse_member]
      have htxt : (if fmt then [10] else []) ++
          ((if fmt then List.replicate depth 9 else []) ++ print_string_ptr (some key) ++
            58 :: ((if fmt then [9] else []) ++ e ++ (if es = [] then [] else [44]) ++
              (if fmt then [10] else []) ++ object_entries depth fmt (print_names next) es) ++
            (ws ++ 125 :: rest)) =
          ((if fmt then [10] else []) ++ (if fmt then List.replicate depth 9 else [])) ++
            (print_string_ptr (some key) ++ 58 :: ((if fmt then [9] else []) ++ (e ++
              ((if es = [] then [] else [44]) ++ ((if fmt then [10] else []) ++
                (object_entries depth fmt (print_names next) es ++ (ws ++ 125 :: rest))))))) := by
        simp only [List.append_assoc, List.cons_append]
      rw [htxt, skip_blank_start _ _ hb (by simp [print_string_ptr, peek]),
        parse_string_print _ key hkn]
      simp only
      rw [skip, if_neg (show ¬((58 : Nat) ≠ 0 ∧ 58 ≤ 32) by omega), if_neg (by simp [peek]),
        List.tail_cons, skip_blank _ _ htab,
        (value_start_append hse _).1]
      have hV2 : parse_value (FV + FN)
          (((cJSON_New_Item.setValuestring (some key)).setType cJSON_String).setString
            ((cJSON_New_Item.setValuestring (some key)).setType cJSON_String).getValuestring
            |>.setValuestring none) _ = _ := hVl
      rw [hV2]
      simp only
      rw [hNl]
      rfl
/-- C11: for every NUL-free byte string `s`, `print_string_ptr(s)` is a
literal between two quotes, and `parse_string` on it, whatever text follows,
succeeds, stops right after the closing quote, and stores a String payload
equal to `s`: every escape the printer wrote is undone. -/
theorem C11_string_print_parse (s : List Nat) (hn : nul_free s) (item : cJSON) (rest : List Nat) :
    print_string_ptr (some s) = 34 :: (print_string_body s ++ [34]) ∧
    parse_string item (print_string_ptr (some s) ++ rest) =
      .ok ((item.setValuestring (some s)).setType cJSON_String) rest ∧
    parse_string cJSON_New_Item (print_string_ptr (some s)) =
      .ok (.node .null .null cJSON_String (some s) 0 0 none) [] := by
  refine ⟨rfl, parse_string_print item s hn rest, ?_⟩
  have := parse_string_print cJSON_New_Item s hn []
  rw [List.append_nil] at this
  rw [this]
  rfl

theorem C11_string_print_parse_witness :
    print_string_ptr (some (bytes "Jack (\"Bee\") \\ Nimble\n\x01\x1f\t")) =
      bytes "\"Jack (\\\"Bee\\\") \\\\ Nimble\\n\\u0001\\u001f\\t\"" ∧
    parse_string cJSON_New_Item
        (bytes "\"Jack (\\\"Bee\\\") \\\\ Nimble\\n\\u0001\\u001f\\t\"") =
      .ok (.node .null .null cJSON_String (some (bytes "Jack (\"Bee\") \\ Nimble\n\x01\x1f\t"))
        0 0 none) [] := by
  have h := C11_string_print_parse (bytes "Jack (\"Bee\") \\ Nimble\n\x01\x1f\t")
    (by unfold nul_free; decide) cJSON_New_Item []
  have e : print_string_ptr (some (bytes "Jack (\"Bee\") \\ Nimble\n\x01\x1f\t")) =
      bytes "\"Jack (\\\"Bee\\\") \\\\ Nimble\\n\\u0001\\u001f\\t\"" := by decide
  rw [e] at h
  exact ⟨e, h.2.2⟩
theorem squeezes_nil (g : List Nat → Option (List Nat)) : Squeezes g [] [] := by
  intro rest
  cases h : g rest <;> simp [h]

theorem squeezes_append {g : List Nat → Option (List Nat)} {a b a2 b2 : List Nat}
    (h1 : Squeezes g a b) (h2 : Squeezes g a2 b2) : Squeezes g (a ++ a2) (b ++ b2) := by
  intro rest
  rw [List.append_assoc, h1, h2]
  cases h : g rest <;> simp [h]

theorem squeezes_blank {g : List Nat → Option (List Nat)} (hg : Pass g) (ws : List Nat)
    (h : ∀ c ∈ ws, c = 32 ∨ c = 9 ∨ c = 13 ∨ c = 10) : Squeezes g ws [] := by
  induction ws with
  | nil => exact squeezes_nil g
  | cons c t ih =>
    intro rest
    rw [List.cons_append, hg.blank c _ (h c (List.mem_cons_self _ _)),
      ih (fun x hx => h x (List.mem_cons_of_mem _ hx))]

theorem squeezes_plain {g : List Nat → Option (List Nat)} (hg : Pass g) (a : List Nat)
    (h : ∀ c ∈ a, plain_byte c) : Squeezes g a a := by
  induction a with
  | nil => exact squeezes_nil g
  | cons c t ih =>
    intro rest
    rw [List.cons_append, hg.plain c _ (h c (List.mem_cons_self _ _)),
      ih (fun x hx => h x (List.mem_cons_of_mem _ hx))]
    cases h2 : g rest <;> simp [h2]

theorem literal_body_print (s : List Nat) : literal_body false (print_string_body s) = true := by
  induction s with
  | nil => rfl
  | cons c t ih =>
    rw [print_string_body]
    by_cases h0 : c = 0
    · rw [if_pos h0]; rfl
    rw [if_neg h0]
    by_cases h1 : c > 31 ∧ c ≠ 34 ∧ c ≠ 92
    · rw [if_pos h1]
      simp [literal_body, h0, h1.2.1, h1.2.2, ih]
    rw [if_neg h1]
    have two : ∀ e, e ≠ 0 →
        literal_body false (92 :: ([e] ++ print_string_body t)) = true := by
      intro e he
      simp [literal_body, he, ih]
    by_cases h2 : c = 92
    · rw [if_pos h2]; exact two 92 (by decide)
    rw [if_neg h2]
    by_cases h3 : c = 34
    · rw [if_pos h3]; exact two 34 (by decide)
    rw [if_neg h3]
    by_cases h4 : c = 8
    · rw [if_pos h4]; exact two 98 (by decide)
    rw [if_neg h4]
    by_cases h5 : c = 12
    · rw [if_pos h5]; exact two 102 (by decide)
    rw [if_neg h5]
    by_cases h6 : c = 10
    · rw [if_pos h6]; exact two 110 (by decide)
    rw [if_neg h6]
    by_cases h7 : c = 13
    · rw [if_pos h7]; exact two 114 (by decide)
    rw [if_neg h7]
    by_cases h8 : c = 9
    · rw [if_pos h8]; exact two 116 (by decide)
    rw [if_neg h8]
    have a1 := hexchar_plain (c / 4096 % 16) (by omega)
    have a2 := hexchar_plain (c / 256 % 16) (by omega)
    have a3 := hexchar_plain (c / 16 % 16) (by omega)
    have a4 := hexchar_plain (c % 16) (by omega)
    simp [literal_body, a1, a2, a3, a4, ih]

theorem squeezes_string {g : List Nat → Option (List Nat)} (hg : Pass g)
    (s : Option (List Nat)) : Squeezes g (print_string_ptr s) (print_string_ptr s) := by
  cases s with
  | none => exact squeezes_nil g
  | some s =>
    intro rest
    have := hg.literal (print_string_body s) rest (literal_body_print s)
    simp only [print_string_ptr, List.cons_append, List.append_assoc, List.singleton_append,
      List.nil_append]
    rw [this]

theorem minify_literal (b : List Nat) :
    ∀ (e : Bool) (rest : List Nat), literal_body e b = true →
      minify_from (if e then .escape else .literal) (b ++ 34 :: rest) =
        (minify_from .outer rest).map (fun o => b ++ 34 :: o) := by
  induction b with
  | nil =>
    intro e rest h
    cases e
    · simp only [Bool.false_eq_true, if_false, List.nil_append]
      rw [minify_from, if_neg (by decide), if_pos rfl]
    · simp [literal_body] at h
  | cons c t ih =>
    intro e rest h
    cases e
    · simp only [literal_body, Bool.and_eq_true, decide_eq_true_eq] at h
      obtain ⟨⟨h0, h34⟩, ht⟩ := h
      have := ih _ rest ht
      simp only [Bool.false_eq_true, if_false, List.cons_append]
      rw [minify_from, if_neg h0, if_neg h34]
      by_cases h92 : c = 92
      · rw [if_pos h92]
        simp only [h92, decide_True, if_true] at this
        rw [this]
        cases h2 : minify_from .outer rest <;> simp [h2]
      · rw [if_neg h92]
        simp only [h92, decide_False, Bool.false_eq_true, if_false] at this
        rw [this]
        cases h2 : minify_from .outer rest <;> simp [h2]
    · simp only [literal_body, Bool.and_eq_true, decide_eq_true_eq] at h
      obtain ⟨h0, ht⟩ := h
      have := ih false rest ht
      simp only [Bool.false_eq_true, if_false] at this
      simp only [if_true, List.cons_append]
      rw [minify_from, if_neg h0, this]
      cases h2 : minify_from .outer rest <;> simp [h2]

theorem minify_pass : Pass cJSON_Minify := by
  refine ⟨?_, ?_, ?_⟩
  · intro c rest h
    unfold cJSON_Minify
    rw [minify_from, if_neg (by omega), if_pos h]
  · intro c rest h
    unfold cJSON_Minify
    obtain ⟨h0, h1, h2, h3, h4, h5, h6⟩ := h
    rw [minify_from, if_neg h0, if_neg (by omega), if_neg (by omega), if_neg (by omega),
      if_neg h6]
  · intro b rest hb
    unfold cJSON_Minify
    have := minify_literal b false rest hb
    simp only [Bool.false_eq_true, if_false] at this
    rw [minify_from, if_neg (by decide), if_neg (by decide), if_neg (by simp), if_neg (by simp),
      if_pos rfl, this]
    cases h2 : minify_from .outer rest <;> simp [h2]
theorem strip_literal (b : List Nat) :
    ∀ (e : Bool) (rest : List Nat), literal_body e b = true →
      strip_blanks (if e then .escaped else .literal) (b ++ 34 :: rest) =
        b ++ 34 :: strip_blanks .code rest := by
  induction b with
  | nil =>
    intro e rest h
    cases e
    · simp only [Bool.false_eq_true, if_false, List.nil_append]
      rw [strip_blanks, if_pos rfl]
    · simp [literal_body] at h
  | cons c t ih =>
    intro e rest h
    cases e
    · simp only [literal_body, Bool.and_eq_true, decide_eq_true_eq] at h
      obtain ⟨⟨h0, h34⟩, ht⟩ := h
      have := ih _ rest ht
      simp only [Bool.false_eq_true, if_false, List.cons_append]
      rw [strip_blanks, if_neg h34]
      by_cases h92 : c = 92
      · rw [if_pos h92]
        simp only [h92, decide_True, if_true] at this
        rw [this]
      · rw [if_neg h92]
        simp only [h92, decide_False, Bool.false_eq_true, if_false] at this
        rw [this]
    · simp only [literal_body, Bool.and_eq_true, decide_eq_true_eq] at h
      obtain ⟨h0, ht⟩ := h
      have := ih false rest ht
      simp only [Bool.false_eq_true, if_false] at this
      simp only [if_true, List.cons_append]
      rw [strip_blanks, this]

theorem strip_pass : Pass (fun t => some (strip_blanks .code t)) := by
  refine ⟨?_, ?_, ?_⟩
  · intro c rest h
    show some (strip_blanks .code (c :: rest)) = some (strip_blanks .code rest)
    rw [strip_blanks, if_pos h]
  · intro c rest h
    obtain ⟨h0, h1, h2, h3, h4, h5, h6⟩ := h
    simp only [Option.map_some']
    rw [strip_blanks, if_neg (by omega), if_neg h6]
  · intro b rest hb
    have := strip_literal b false rest hb
    simp only [Bool.false_eq_true, if_false] at this
    simp only [Option.map_some']
    rw [strip_blanks, if_neg (by decide), if_pos rfl, this]

/-- A byte of a printed number: a digit, a sign, the point or the exponent
marker. -/
theorem number_byte_plain (c : Nat)
    (h : isdig c = true ∨ c = 45 ∨ c = 46 ∨ c = 101 ∨ c = 43) : plain_byte c := by
  simp only [isdig, decide_eq_true_eq] at h
  unfold plain_byte
  omega

theorem zero_pad_isdig (w n : Nat) : ∀ c ∈ zero_pad w n, isdig c = true := by
  intro c hc
  unfold zero_pad at hc
  rcases List.mem_append.1 hc with h | h
  · rw [List.mem_replicate] at h
    rw [h.2]; rfl
  · exact decimal_isdig n c h

theorem sign_byte (b : Prop) [Decidable b] (c : Nat) (h : c ∈ (if b then [45] else [])) :
    c = 45 := by
  split_ifs at h
  · simpa using h
  · simp at h

theorem esign_byte (b : Prop) [Decidable b] (c : Nat) (h : c = if b then 45 else 43) :
    c = 45 ∨ c = 43 := by
  split_ifs at h
  · exact Or.inl h
  · exact Or.inr h

theorem print_number_plain (vi : Int) (vd : ℚ) : ∀ c ∈ print_number vi vd, plain_byte c := by
  intro c hc
  apply number_byte_plain
  unfold print_number at hc
  split_ifs at hc
  · unfold sprintf_d at hc
    split_ifs at hc
    · rcases List.mem_cons.1 hc with h | h
      · right; left; exact h
      · left; exact decimal_isdig _ c h
    · left; exact decimal_isdig _ c hc
  · unfold sprintf_fixed at hc
    simp only [List.mem_append] at hc
    rcases hc with (h | h) | h
    · right; left; exact sign_byte _ c h
    · left; exact decimal_isdig _ c h
    · simp at h
  · unfold sprintf_e at hc
    simp only [List.mem_append, List.mem_cons] at hc
    rcases hc with ((h | h) | h | h) | h | h | h
    · right; left; exact sign_byte _ c h
    · left; exact decimal_isdig _ c h
    · right; right; left; exact h
    · left; exact zero_pad_isdig _ _ c h
    · right; right; right; left; exact h
    · rcases esign_byte _ c h with h2 | h2
      · right; left; exact h2
      · right; right; right; right; exact h2
    · left; exact zero_pad_isdig _ _ c h
  · unfold sprintf_fixed at hc
    simp only [List.mem_append] at hc
    rcases hc with (h | h) | h
    · right; left; exact sign_byte _ c h
    · left; exact decimal_isdig _ c h
    · rw [if_neg (by decide)] at h
      rcases List.mem_cons.1 h with h | h
      · right; right; left; exact h
      · left; exact zero_pad_isdig _ _ c h
theorem squeezes_cons {g : List Nat → Option (List Nat)} (hg : Pass g) {c : Nat}
    {a b : List Nat} (hc : plain_byte c) (h : Squeezes g a b) : Squeezes g (c :: a) (c :: b) :=
  squeezes_append (squeezes_plain hg [c] (by simpa using hc)) h

theorem squeezes_cons_blank {g : List Nat → Option (List Nat)} (hg : Pass g) {c : Nat}
    {a b : List Nat} (hc : c = 32 ∨ c = 9 ∨ c = 13 ∨ c = 10) (h : Squeezes g a b) :
    Squeezes g (c :: a) b :=
  squeezes_append (squeezes_blank hg [c] (by simpa using hc)) h

theorem squeezes_tabs {g : List Nat → Option (List Nat)} (hg : Pass g) (n : Nat) :
    Squeezes g (List.replicate n 9) [] :=
  squeezes_blank hg _ (by
    intro c hc
    rw [List.mem_replicate] at hc
    exact Or.inr (Or.inl hc.2))

theorem squeezes_array_entries {g : List Nat → Option (List Nat)} (hg : Pass g)
    (es es2 : List (List Nat)) (h : List.Forall₂ (Squeezes g) es es2) :
    Squeezes g (array_entries es true) (array_entries es2 false) := by
  induction h with
  | nil => exact squeezes_nil g
  | cons h1 ht ih =>
    rw [array_entries_cons, array_entries_cons]
    refine squeezes_append h1 ?_
    cases ht with
    | nil => exact squeezes_nil g
    | cons h2 ht2 =>
      rw [if_neg (List.cons_ne_nil _ _), if_neg (List.cons_ne_nil _ _)]
      simp only [if_true, Bool.false_eq_true, if_false, List.nil_append, List.singleton_append]
      exact squeezes_cons hg (by unfold plain_byte; omega)
        (squeezes_cons_blank hg (Or.inl rfl) ih)

theorem squeezes_object_entries {g : List Nat → Option (List Nat)} (hg : Pass g) (d : Nat)
    (names : List (List Nat)) (hn : ∀ n ∈ names, Squeezes g n n) :
    ∀ es es2, List.Forall₂ (Squeezes g) es es2 →
      Squeezes g (object_entries d true names es) (object_entries d false names es2) := by
  induction names with
  | nil =>
    intro es es2 _
    have e1 : object_entries d true [] es = [] := by cases es <;> rfl
    have e2 : object_entries d false [] es2 = [] := by cases es2 <;> rfl
    rw [e1, e2]
    exact squeezes_nil g
  | cons n ns ih =>
    intro es es2 h
    cases h with
    | nil => exact squeezes_nil g
    | cons h1 ht =>
      rw [object_entries, object_entries]
      simp only [if_true, Bool.false_eq_true, if_false, List.nil_append, List.append_nil]
      have hrest := ih (fun x hx => hn x (List.mem_cons_of_mem _ hx)) _ _ ht
      refine squeezes_append (squeezes_append (squeezes_tabs hg d)
        (hn n (List.mem_cons_self _ _))) ?_
      refine squeezes_cons hg (by unfold plain_byte; omega) ?_
      simp only [List.append_assoc, List.singleton_append]
      refine squeezes_cons_blank hg (Or.inr (Or.inl rfl)) (squeezes_append h1 ?_)
      cases ht with
      | nil =>
        simp only [if_true, List.nil_append]
        exact squeezes_cons_blank hg (Or.inr (Or.inr (Or.inr rfl))) hrest
      | cons h2 ht2 =>
        rw [if_neg (List.cons_ne_nil _ _), if_neg (List.cons_ne_nil _ _)]
        simp only [List.singleton_append]
        exact squeezes_cons hg (by unfold plain_byte; omega)
          (squeezes_cons_blank hg (Or.inr (Or.inr (Or.inr rfl))) hrest)

theorem squeezes_names {g : List Nat → Option (List Nat)} (hg : Pass g) (c : cJSON) :
    ∀ n ∈ print_names c, Squeezes g n n := by
  induction c with
  | null => intro n hn; simp [print_names] at hn
  | node next child type vs vi vd s ihn _ =>
    intro n hn
    rw [print_names] at hn
    rcases List.mem_cons.1 hn with h | h
    · rw [h]; exact squeezes_string hg s
    · exact ihn n h
theorem collect_cons_some (x : Option (List Nat)) (l : List (Option (List Nat)))
    (es : List (List Nat)) (h : collect (x :: l) = some es) :
    ∃ e es2, x = some e ∧ collect l = some es2 ∧ es = e :: es2 := by
  cases x with
  | none => simp [collect] at h
  | some e =>
    rw [collect] at h
    obtain ⟨es2, h1, h2⟩ := Option.map_eq_some'.1 h
    exact ⟨e, es2, rfl, h1, h2.symm⟩

theorem squeezes_item {g : List Nat → Option (List Nat)} (hg : Pass g) (child : cJSON)
    (type : Nat) (vs : Option (List Nat)) (vi : Int) (vd : ℚ)
    (hch : ∀ depth es, collect (print_chain child depth true) = some es →
      ∃ es2, collect (print_chain child depth false) = some es2 ∧
        List.Forall₂ (Squeezes g) es es2)
    (depth : Nat) (out : List Nat)
    (h : print_item type vs vi vd (print_names child) (print_chain child (depth + 1) true)
      depth true = some out) :
    ∃ out2, print_item type vs vi vd (print_names child) (print_chain child (depth + 1) false)
      depth false = some out2 ∧ Squeezes g out out2 := by
  unfold print_item at h ⊢
  have key : ∀ l : List Nat, (∀ c ∈ l, 97 ≤ c ∧ c ≤ 122) → Squeezes g l l := by
    intro l hl
    refine squeezes_plain hg l ?_
    intro c hc
    have := hl c hc
    unfold plain_byte
    omega
  split_ifs at h ⊢ with h1 h2 h3 h4 h5 h6 h7
  · simp only [Option.some.injEq] at h
    rw [← h]
    exact ⟨_, rfl, key _ (by simp)⟩
  · simp only [Option.some.injEq] at h
    rw [← h]
    exact ⟨_, rfl, key _ (by simp)⟩
  · simp only [Option.some.injEq] at h
    rw [← h]
    exact ⟨_, rfl, key _ (by simp)⟩
  · simp only [Option.some.injEq] at h
    rw [← h]
    exact ⟨_, rfl, squeezes_plain hg _ (print_number_plain vi vd)⟩
  · simp only [Option.some.injEq] at h
    rw [← h]
    exact ⟨_, rfl, squeezes_string hg vs⟩
  · cases child with
    | null =>
      simp only [print_chain, print_array, if_true, Option.some.injEq] at h ⊢
      rw [← h]
      exact ⟨_, rfl, squeezes_plain hg _ (by
        intro c hc
        simp only [List.mem_cons, List.mem_singleton, List.not_mem_nil, or_false] at hc
        unfold plain_byte; omega)⟩
    | node nx ch ty vs2 vi2 vd2 s2 =>
      rw [print_array, if_neg (by simp [print_chain])] at h
      obtain ⟨es, hes, hout⟩ := Option.map_eq_some'.1 h
      obtain ⟨es2, hes2, hf⟩ := hch _ es hes
      refine ⟨91 :: (array_entries es2 false ++ [93]), ?_, ?_⟩
      · rw [print_array, if_neg (by simp [print_chain]), hes2]
        rfl
      · rw [← hout]
        exact squeezes_cons hg (by unfold plain_byte; omega)
          (squeezes_append (squeezes_array_entries hg es es2 hf)
            (squeezes_plain hg [93] (by
              intro c hc
              simp only [List.mem_singleton] at hc
              unfold plain_byte; omega)))
  · have hclose : Squeezes g [125] [125] := squeezes_plain hg [125] (by
      intro c hc
      simp only [List.mem_singleton] at hc
      unfold plain_byte; omega)
    cases child with
    | null =>
      simp only [print_chain, print_object, if_true, Option.some.injEq, Bool.false_eq_true,
        if_false, List.nil_append] at h ⊢
      rw [← h]
      refine ⟨_, rfl, squeezes_cons hg (by unfold plain_byte; omega) ?_⟩
      exact squeezes_append (squeezes_cons_blank hg (Or.inr (Or.inr (Or.inr rfl)))
        (squeezes_tabs hg _)) hclose
    | node nx ch ty vs2 vi2 vd2 s2 =>
      rw [print_object, if_neg (by simp [print_chain])] at h
      obtain ⟨es, hes, hout⟩ := Option.map_eq_some'.1 h
      obtain ⟨es2, hes2, hf⟩ := hch _ es hes
      refine ⟨123 :: (([] : List Nat) ++ object_entries (depth + 1) false
        (print_names (.node nx ch ty vs2 vi2 vd2 s2)) es2 ++ [] ++ [125]), ?_, ?_⟩
      · rw [print_object, if_neg (by simp [print_chain]), hes2]
        rfl
      · rw [← hout]
        simp only [if_true, List.append_assoc, List.nil_append, List.singleton_append]
        refine squeezes_cons hg (by unfold plain_byte; omega) ?_
        refine squeezes_cons_blank hg (Or.inr (Or.inr (Or.inr rfl))) ?_
        refine squeezes_append (squeezes_object_entries hg _ _ (squeezes_names hg _) es es2 hf) ?_
        have := squeezes_append (squeezes_tabs hg (depth + 1 - 1)) hclose
        simpa using this

theorem squeezes_chain {g : List Nat → Option (List Nat)} (hg : Pass g) (c : cJSON) :
    ∀ depth es, collect (print_chain c depth true) = some es →
      ∃ es2, collect (print_chain c depth false) = some es2 ∧
        List.Forall₂ (Squeezes g) es es2 := by
  induction c with
  | null =>
    intro depth es h
    simp only [print_chain, collect, Option.some.injEq] at h
    rw [← h]
    exact ⟨[], rfl, List.Forall₂.nil⟩
  | node next child type vs vi vd s ihn ihc =>
    intro depth es h
    rw [print_chain] at h
    obtain ⟨e, es1, he, hes1, rfl⟩ := collect_cons_some _ _ _ h
    obtain ⟨e2, he2, hsq⟩ := squeezes_item hg child type vs vi vd ihc depth e he
    obtain ⟨es2, hes2, hf⟩ := ihn depth es1 hes1
    refine ⟨e2 :: es2, ?_, List.Forall₂.cons hsq hf⟩
    rw [print_chain, he2, collect, hes2]
    rfl

theorem squeezes_print {g : List Nat → Option (List Nat)} (hg : Pass g) (item : cJSON)
    (out : List Nat) (h : cJSON_Print item = some out) :
    ∃ out2, cJSON_PrintUnformatted item = some out2 ∧ Squeezes g out out2 := by
  cases item with
  | null => simp [cJSON_Print, print_value] at h
  | node next child type vs vi vd s =>
    exact squeezes_item hg child type vs vi vd (squeezes_chain hg child) 0 out h

/-- C12: for every tree that `cJSON_Print` renders, `cJSON_PrintUnformatted`
renders it too, its output is the pretty output without the spaces, tabs, CRs
and LFs outside the string literals, and it is what `cJSON_Minify` leaves of
the pretty output. -/
theorem C12_pretty_compact (item : cJSON) (out : List Nat) (h : cJSON_Print item = some out) :
    cJSON_PrintUnformatted item = some (strip_blanks .code out) ∧
    cJSON_Minify out = cJSON_PrintUnformatted item := by
  obtain ⟨o1, h1, s1⟩ := squeezes_print minify_pass item out h
  obtain ⟨o2, h2, s2⟩ := squeezes_print strip_pass item out h
  have e1 := s1 []
  have e2 := s2 []
  simp only [List.append_nil] at e1 e2
  have m0 : cJSON_Minify [] = some [] := rfl
  rw [m0] at e1
  simp only [Option.map_some', List.append_nil, Option.some.injEq, strip_blanks] at e1 e2
  have e3 : o1 = o2 := by
    rw [h1] at h2
    exact Option.some.inj h2
  rw [h2, e2, e1, e3]
  exact ⟨rfl, rfl⟩

theorem C12_pretty_compact_witness :
    cJSON_Print sample_tree =
      some (bytes "\x7b\n\t\"a\":\t1,\n\t\"b\":\t[true, false, null]\n\x7d") ∧
    cJSON_PrintUnformatted sample_tree =
      some (strip_blanks .code (bytes "\x7b\n\t\"a\":\t1,\n\t\"b\":\t[true, false, null]\n\x7d")) ∧
    cJSON_Minify (bytes "\x7b\n\t\"a\":\t1,\n\t\"b\":\t[true, false, null]\n\x7d") =
      cJSON_PrintUnformatted sample_tree :=
  have hp : cJSON_Print sample_tree =
      some (bytes "\x7b\n\t\"a\":\t1,\n\t\"b\":\t[true, false, null]\n\x7d") := by decide!
  ⟨hp, C12_pretty_compact sample_tree _ hp⟩
theorem tolower_eq_iff (a b : Nat) : tolower a = tolower b ↔ same_letter a b := by
  unfold tolower same_letter
  split_ifs <;> omega

theorem tolower_eq_zero (c : Nat) : tolower c = 0 ↔ c = 0 := by
  unfold tolower
  by_cases h : 65 ≤ c ∧ c ≤ 90
  · rw [if_pos h]
    constructor <;> intro h2 <;> omega
  · rw [if_neg h]

theorem c_string_nil_iff (b : List Nat) : c_string b = [] ↔ peek b = 0 := by
  cases b with
  | nil => simp [c_string, peek]
  | cons d t =>
    by_cases hd : d = 0
    · simp [c_string, peek, hd]
    · simp [c_string, peek, hd, List.takeWhile_cons]

theorem c_string_cons (d : Nat) (t : List Nat) (hd : d ≠ 0) :
    c_string (d :: t) = d :: c_string t := by
  simp [c_string, List.takeWhile_cons, hd]

theorem strcasecmp_loop_zero (a : List Nat) :
    ∀ b, strcasecmp_loop a b = 0 ↔ List.Forall₂ same_letter (c_string a) (c_string b) := by
  induction a with
  | nil =>
    intro b
    have e : c_string ([] : List Nat) = [] := rfl
    rw [strcasecmp_loop, e, List.forall₂_nil_left_iff, c_string_nil_iff]
    have t0 : tolower 0 = 0 := rfl
    rw [t0]
    by_cases hb : peek b = 0
    · rw [hb, t0]; simp
    · have : tolower (peek b) ≠ 0 := fun h => hb ((tolower_eq_zero _).1 h)
      rw [if_neg (fun h => this h.symm)]
      constructor
      · intro h; exfalso; omega
      · intro h; exact absurd h hb
  | cons c s1 ih =>
    intro b
    rw [strcasecmp_loop]
    by_cases hc : c = 0
    · have e : c_string (c :: s1) = [] := (c_string_nil_iff _).2 (by simp [peek, hc])
      rw [e, List.forall₂_nil_left_iff, c_string_nil_iff]
      by_cases hb : peek b = 0
      · rw [hb, hc]; simp
      · have : tolower (peek b) ≠ 0 := fun h => hb ((tolower_eq_zero _).1 h)
        have t0 : tolower c = 0 := by rw [hc]; rfl
        rw [t0, if_neg (fun h => this h.symm)]
        constructor
        · intro h; exfalso; omega
        · intro h; exact absurd h hb
    · rw [c_string_cons c s1 hc]
      have tc : tolower c ≠ 0 := fun h => hc ((tolower_eq_zero _).1 h)
      cases b with
      | nil =>
        have e : c_string ([] : List Nat) = [] := rfl
        have t0 : tolower (peek ([] : List Nat)) = 0 := rfl
        rw [e, t0, if_neg tc]
        constructor
        · intro h; exfalso; omega
        · intro h; cases h
      | cons d t =>
        rw [peek_cons, List.tail_cons]
        by_cases hd : d = 0
        · have e : c_string (d :: t) = [] := (c_string_nil_iff _).2 (by simp [peek, hd])
          have t0 : tolower d = 0 := by rw [hd]; rfl
          rw [e, t0, if_neg tc]
          constructor
          · intro h; exfalso; omega
          · intro h; cases h
        · rw [c_string_cons d t hd, List.forall₂_cons]
          by_cases hl : tolower c = tolower d
          · rw [if_pos hl, if_neg hc, ih t]
            exact ⟨fun h => ⟨(tolower_eq_iff c d).1 hl, h⟩, fun h => h.2⟩
          · rw [if_neg hl]
            constructor
            · intro h; exfalso; omega
            · intro h; exact absurd ((tolower_eq_iff c d).2 h.1) hl

theorem strcasecmp_zero (s1 s2 : Option (List Nat)) :
    cJSON_strcasecmp s1 s2 = 0 ↔ key_equal s1 s2 := by
  cases s1 with
  | none => cases s2 <;> simp [cJSON_strcasecmp, key_equal]
  | some a =>
    cases s2 with
    | none => simp [cJSON_strcasecmp, key_equal]
    | some b => exact strcasecmp_loop_zero a b

theorem object_item_from_spec (c : cJSON) (key : Option (List Nat)) :
    (object_item_from c key = .null ↔ ∀ x ∈ c.chain, ¬ key_equal x.getString key) ∧
    (object_item_from c key ≠ .null →
      ∃ before after, c.chain = before ++ object_item_from c key :: after ∧
        key_equal (object_item_from c key).getString key ∧
        ∀ x ∈ before, ¬ key_equal x.getString key) := by
  induction c with
  | null => simp [object_item_from, cJSON.chain]
  | node n ch t vs vi vd s ihn _ =>
    rw [object_item_from, cJSON.chain]
    by_cases hm : cJSON_strcasecmp s key ≠ 0
    · have hk : ¬ key_equal s key := fun h => hm ((strcasecmp_zero s key).2 h)
      rw [if_pos hm]
      constructor
      · rw [ihn.1]
        simp [cJSON.getString, hk]
      · intro hne
        obtain ⟨before, after, h1, h2, h3⟩ := ihn.2 hne
        refine ⟨.node n ch t vs vi vd s :: before, after, by rw [h1]; rfl, h2, ?_⟩
        intro x hx
        rcases List.mem_cons.1 hx with h | h
        · rw [h]; exact hk
        · exact h3 x h
    · have hk : key_equal s key := (strcasecmp_zero s key).1 (not_not.1 hm)
      rw [if_neg hm]
      constructor
      · simp [cJSON.getString, hk]
      · intro _
        exact ⟨[], n.chain, rfl, hk, by simp⟩

/-- C14: `cJSON_GetObjectItem(object, key)` returns null exactly when no child
has a key equal to `key` under ASCII case-insensitive comparison; otherwise it
returns the first child of the chain with such a key: every child before it
has a different key, so a later match is never returned.  With the keys `a`,
`B`, `b` in this order, the key `b` gives the second child. -/
theorem C14_get_object_item (object : cJSON) (key : Option (List Nat)) :
    (cJSON_GetObjectItem object key = .null ↔
      ∀ c ∈ object.getChild.chain, ¬ key_equal c.getString key) ∧
    (cJSON_GetObjectItem object key ≠ .null →
      ∃ before after,
        object.getChild.chain = before ++ cJSON_GetObjectItem object key :: after ∧
        key_equal (cJSON_GetObjectItem object key).getString key ∧
        ∀ c ∈ before, ¬ key_equal c.getString key) ∧
    cJSON_GetObjectItem (.node .null
        (.node (.node (.node .null .null cJSON_True none 1 0 (some [98])) .null cJSON_False
          none 0 0 (some [66])) .null cJSON_NULL none 0 0 (some [97]))
        cJSON_Object none 0 0 none) (some [98]) =
      .node (.node .null .null cJSON_True none 1 0 (some [98])) .null cJSON_False none 0 0
        (some [66]) := by
  refine ⟨(object_item_from_spec _ key).1, (object_item_from_spec _ key).2, by decide!⟩
theorem own_null : cJSON.own .null = .null := rfl

theorem items_null : cJSON.items .null = [] := rfl

theorem items_node (n c : cJSON) (t : Nat) (vs s : Option (List Nat)) (vi : Int) (vd : ℚ) :
    cJSON.items (.node n c t vs vi vd s) = .node .null c t vs vi vd s :: cJSON.items n := rfl

theorem array_size_from_eq (c : cJSON) : ∀ i, array_size_from c i = i + (c.items.length : Int) := by
  induction c with
  | null => intro i; simp [array_size_from, items_null]
  | node n ch t vs vi vd s ihn _ =>
    intro i
    rw [array_size_from, ihn, items_node, List.length_cons]
    push_cast
    ring

theorem array_size_eq (array : cJSON) :
    cJSON_GetArraySize array = (array.getChild.items.length : Int) := by
  rw [cJSON_GetArraySize, array_size_from_eq]
  simp

theorem array_item_from_own (c : cJSON) :
    ∀ i : Int, (array_item_from c i).own = c.items.getD i.toNat .null := by
  induction c with
  | null => intro i; simp [array_item_from, items_null, own_null]
  | node n ch t vs vi vd s ihn _ =>
    intro i
    rw [array_item_from, items_node]
    by_cases hi : i > 0
    · rw [if_pos hi, ihn]
      have : i.toNat = (i - 1).toNat + 1 := by omega
      rw [this, List.getD_cons_succ]
    · rw [if_neg hi]
      have : i.toNat = 0 := by omega
      rw [this]
      rfl

theorem add_item_child (next child : cJSON) (type : Nat) (vs s : Option (List Nat)) (vi : Int)
    (vd : ℚ) (n2 c2 : cJSON) (t2 : Nat) (vs2 s2 : Option (List Nat)) (vi2 : Int) (vd2 : ℚ) :
    cJSON_AddItemToArray (.node next child type vs vi vd s) (.node n2 c2 t2 vs2 vi2 vd2 s2) =
      .node next (suffix_last child (.node n2 c2 t2 vs2 vi2 vd2 s2)) type vs vi vd s := by
  cases child <;> rfl

theorem items_getD_ne_null (c : cJSON) :
    ∀ k, k < c.items.length → c.items.getD k .null ≠ .null := by
  induction c with
  | null => intro k h; simp [items_null] at h
  | node n ch t vs vi vd s ihn _ =>
    intro k h
    rw [items_node] at h ⊢
    cases k with
    | zero => simp
    | succ k =>
      rw [List.getD_cons_succ]
      exact ihn k (by simpa using h)

theorem detach_from_spec (c : cJSON) :
    ∀ i : Int, (detach_from c i).1 = c.items.getD i.toNat .null ∧
      (detach_from c i).2.items = c.items.eraseIdx i.toNat := by
  induction c with
  | null => intro i; simp [detach_from, items_null]
  | node n ch t vs vi vd s ihn _ =>
    intro i
    rw [detach_from, items_node]
    by_cases hi : i > 0
    · rw [if_pos hi]
      have e : i.toNat = (i - 1).toNat + 1 := by omega
      rw [e, List.getD_cons_succ, List.eraseIdx_cons_succ, items_node, (ihn (i - 1)).1,
        (ihn (i - 1)).2]
      exact ⟨rfl, rfl⟩
    · rw [if_neg hi]
      have e : i.toNat = 0 := by omega
      rw [e]
      exact ⟨rfl, rfl⟩

theorem detach_from_head (c : cJSON) : (detach_from c 0).2 = c.getNext := by
  cases c <;> rfl

theorem object_index_none (c : cJSON) (key : Option (List Nat)) :
    ∀ i0, object_index_from c key i0 = none ↔ object_item_from c key = .null := by
  induction c with
  | null => intro i0; simp [object_index_from, object_item_from]
  | node n ch t vs vi vd s ihn _ =>
    intro i0
    rw [object_index_from, object_item_from]
    by_cases hm : cJSON_strcasecmp s key ≠ 0
    · rw [if_pos hm, if_pos hm]; exact ihn (i0 + 1)
    · rw [if_neg hm, if_neg hm]; simp

theorem object_index_some (c : cJSON) (key : Option (List Nat)) :
    ∀ i0 j, object_index_from c key i0 = some j →
      i0 ≤ j ∧ j - i0 < (c.items.length : Int) ∧
        array_item_from c (j - i0) = object_item_from c key := by
  induction c with
  | null => intro i0 j h; simp [object_index_from] at h
  | node n ch t vs vi vd s ihn _ =>
    intro i0 j h
    rw [object_index_from] at h
    rw [object_item_from, array_item_from, items_node, List.length_cons]
    by_cases hm : cJSON_strcasecmp s key ≠ 0
    · rw [if_pos hm] at h ⊢
      obtain ⟨h1, h2, h3⟩ := ihn (i0 + 1) j h
      rw [if_pos (by omega)]
      have e : j - i0 - 1 = j - (i0 + 1) := by ring
      rw [e, h3]
      refine ⟨by omega, ?_, rfl⟩
      push_cast
      omega
    · rw [if_neg hm] at h ⊢
      simp only [Option.some.injEq] at h
      rw [← h, sub_self, if_neg (by decide)]
      refine ⟨le_refl _, ?_, rfl⟩
      push_cast
      omega

/-- C16: on a container with `n` children and an index `0 <= i < n`,
`cJSON_DetachItemFromArray` returns the child that was at index `i`, with its
sibling link cleared and nothing else changed, and leaves a container that
differs in its chain only, which holds the other `n-1` children in their
order (its head is the former second child when `i = 0`).
`cJSON_DetachItemFromObject(key)` returns null and leaves the object as it was
when `cJSON_GetObjectItem(key)` is null; otherwise it is
`cJSON_DetachItemFromArray` at the index of the node `cJSON_GetObjectItem(key)`
returns, and returns that node. -/
theorem C16_detach_item (next child : cJSON) (type : Nat) (vs s : Option (List Nat)) (vi : Int)
    (vd : ℚ) (i : Int) (key : Option (List Nat)) (h0 : 0 ≤ i)
    (hlt : i < cJSON_GetArraySize (.node next child type vs vi vd s)) :
    (cJSON_DetachItemFromArray (.node next child type vs vi vd s) i).1 =
      (cJSON_GetArrayItem (.node next child type vs vi vd s) i).own ∧
    (cJSON_DetachItemFromArray (.node next child type vs vi vd s) i).1 ≠ .null ∧
    (cJSON_DetachItemFromArray (.node next child type vs vi vd s) i).2.setChild .null =
      (cJSON.node next child type vs vi vd s).setChild .null ∧
    (cJSON_DetachItemFromArray (.node next child type vs vi vd s) i).2.getChild.items =
      child.items.eraseIdx i.toNat ∧
    cJSON_GetArraySize (cJSON_DetachItemFromArray (.node next child type vs vi vd s) i).2 =
      cJSON_GetArraySize (.node next child type vs vi vd s) - 1 ∧
    (i = 0 → (cJSON_DetachItemFromArray (.node next child type vs vi vd s) i).2.getChild =
      child.getNext) ∧
    (cJSON_GetObjectItem (.node next child type vs vi vd s) key = .null →
      cJSON_DetachItemFromObject (.node next child type vs vi vd s) key =
        (.null, .node next child type vs vi vd s)) ∧
    (cJSON_GetObjectItem (.node next child type vs vi vd s) key ≠ .null →
      ∃ j : Int, 0 ≤ j ∧ j < cJSON_GetArraySize (.node next child type vs vi vd s) ∧
        cJSON_GetArrayItem (.node next child type vs vi vd s) j =
          cJSON_GetObjectItem (.node next child type vs vi vd s) key ∧
        cJSON_DetachItemFromObject (.node next child type vs vi vd s) key =
          cJSON_DetachItemFromArray (.node next child type vs vi vd s) j ∧
        (cJSON_DetachItemFromObject (.node next child type vs vi vd s) key).1 =
          (cJSON_GetObjectItem (.node next child type vs vi vd s) key).own) := by
  rw [array_size_eq] at hlt
  simp only [cJSON.getChild] at hlt
  have hk : i.toNat < child.items.length := by omega
  have hd := detach_from_spec child i
  refine ⟨?_, ?_, rfl, hd.2, ?_, ?_, ?_, ?_⟩
  · rw [cJSON_DetachItemFromArray, cJSON_GetArrayItem, array_item_from_own]
    exact hd.1
  · rw [cJSON_DetachItemFromArray]
    simp only [cJSON.getChild]
    rw [hd.1]
    exact items_getD_ne_null child _ hk
  · rw [array_size_eq, array_size_eq, cJSON_DetachItemFromArray]
    simp only [cJSON.getChild, cJSON.setChild]
    rw [hd.2, List.length_eraseIdx_of_lt hk]
    omega
  · intro hi
    rw [hi, cJSON_DetachItemFromArray]
    exact detach_from_head child
  · intro hnull
    rw [cJSON_DetachItemFromObject, (object_index_none _ key 0).2 hnull]
  · intro hne
    cases hidx : object_index_from child key 0 with
    | none => exact absurd ((object_index_none _ key 0).1 hidx) hne
    | some j =>
      obtain ⟨h1, h2, h3⟩ := object_index_some child key 0 j hidx
      rw [sub_zero] at h2 h3
      have hdo : cJSON_DetachItemFromObject (.node next child type vs vi vd s) key =
          cJSON_DetachItemFromArray (.node next child type vs vi vd s) j := by
        rw [cJSON_DetachItemFromObject]
        simp only [cJSON.getChild]
        rw [hidx]
      refine ⟨j, h1, by rw [array_size_eq]; exact h2, h3, hdo, ?_⟩
      rw [hdo, cJSON_DetachItemFromArray, cJSON_GetObjectItem]
      simp only [cJSON.getChild]
      rw [← h3, array_item_from_own]
      exact (detach_from_spec child j).1

theorem C16_detach_item_witness :
    (1 : Int) < cJSON_GetArraySize sample_tree ∧
    (cJSON_DetachItemFromArray sample_tree 1).1 = (cJSON_GetArrayItem sample_tree 1).own ∧
    (cJSON_DetachItemFromArray sample_tree 1).1 =
      .node .null
        (.node (.node (.node .null .null cJSON_NULL none 0 0 none) .null cJSON_False none 0 0
          none) .null cJSON_True none 1 0 none) cJSON_Array none 0 0 (some [98]) ∧
    (cJSON_DetachItemFromArray sample_tree 1).2 =
      .node .null (.node .null .null cJSON_Number none 1 1 (some [97])) cJSON_Object none 0 0
        none ∧
    cJSON_DetachItemFromObject sample_tree (some [66]) =
      cJSON_DetachItemFromArray sample_tree 1 :=
  have hlt : (1 : Int) < cJSON_GetArraySize sample_tree := by decide
  ⟨hlt, (C16_detach_item .null
    (.node
      (.node .null
        (.node (.node (.node .null .null cJSON_NULL none 0 0 none) .null cJSON_False none 0 0 none)
          .null cJSON_True none 1 0 none)
        cJSON_Array none 0 0 (some [98]))
      .null cJSON_Number none 1 1 (some [97])) cJSON_Object none none 0 0 1 (some [66])
    (by decide) hlt).1, by decide!, by decide!, by decide!⟩
theorem replace_from_items (c : cJSON) (n2 c2 : cJSON) (t2 : Nat) (vs2 s2 : Option (List Nat))
    (vi2 : Int) (vd2 : ℚ) :
    ∀ i : Int, (replace_from c i (.node n2 c2 t2 vs2 vi2 vd2 s2)).items =
      c.items.set i.toNat (.node .null c2 t2 vs2 vi2 vd2 s2) := by
  induction c with
  | null => intro i; simp [replace_from, items_null]
  | node n ch t vs vi vd s ihn _ =>
    intro i
    rw [replace_from, items_node]
    by_cases hi : i > 0
    · rw [if_pos hi]
      have e : i.toNat = (i - 1).toNat + 1 := by omega
      rw [e, List.set_cons_succ, items_node, ihn (i - 1)]
    · rw [if_neg hi]
      have e : i.toNat = 0 := by omega
      rw [e]
      rfl

theorem c_string_idem (s : List Nat) : c_string (c_string s) = c_string s := by
  induction s with
  | nil => rfl
  | cons c t ih =>
    by_cases hc : c = 0
    · have : c_string (c :: t) = [] := (c_string_nil_iff _).2 (by simp [peek, hc])
      rw [this]; rfl
    · rw [c_string_cons c t hc, c_string_cons c _ hc, ih]

theorem key_equal_strdup (string : List Nat) :
    cJSON_strcasecmp (some (cJSON_strdup string)) (some string) = 0 := by
  rw [strcasecmp_zero]
  show List.Forall₂ same_letter (c_string (c_string string)) (c_string string)
  rw [c_string_idem, List.forall₂_same]
  intro x _
  exact Or.inl rfl

theorem replace_first (c : cJSON) (string : List Nat) (n2 c2 : cJSON) (t2 : Nat)
    (vs2 : Option (List Nat)) (vi2 : Int) (vd2 : ℚ) :
    ∀ i0 j, object_index_from c (some string) i0 = some j →
      (object_item_from (replace_from c (j - i0)
        (.node n2 c2 t2 vs2 vi2 vd2 (some (cJSON_strdup string)))) (some string)).own =
      .node .null c2 t2 vs2 vi2 vd2 (some (cJSON_strdup string)) := by
  induction c with
  | null => intro i0 j h; simp [object_index_from] at h
  | node n ch t vs vi vd s ihn _ =>
    intro i0 j h
    rw [object_index_from] at h
    by_cases hm : cJSON_strcasecmp s (some string) ≠ 0
    · rw [if_pos hm] at h
      have hj := (object_index_some n (some string) (i0 + 1) j h).1
      rw [replace_from, if_pos (by omega), object_item_from, if_pos hm]
      have e : j - i0 - 1 = j - (i0 + 1) := by ring
      rw [e]
      exact ihn (i0 + 1) j h
    · rw [if_neg hm] at h
      simp only [Option.some.injEq] at h
      rw [← h, sub_self, replace_from, if_neg (by decide), cJSON.setNext, object_item_from,
        if_neg (by rw [key_equal_strdup]; simp)]
      rfl

/-- C17: on a container with `n` children, an index `0 <= i < n` and a new
item, `cJSON_ReplaceItemInArray` leaves a container that differs in its chain
only, of the same size, with the new item at index `i` and the former child at
every other index.  `cJSON_ReplaceItemInObject(string, new)` leaves the object
as it was when no key matches; otherwise it replaces the node that
`cJSON_GetObjectItem(string)` returns by the new item under the key
`cJSON_strdup(string)`, and `cJSON_GetObjectItem(string)` then returns the new
item. -/
theorem C17_replace_item (next child : cJSON) (type : Nat) (vs s : Option (List Nat)) (vi : Int)
    (vd : ℚ) (i : Int) (n2 c2 : cJSON) (t2 : Nat) (vs2 s2 : Option (List Nat)) (vi2 : Int)
    (vd2 : ℚ) (string : List Nat) (h0 : 0 ≤ i)
    (hlt : i < cJSON_GetArraySize (.node next child type vs vi vd s)) :
    (cJSON_ReplaceItemInArray (.node next child type vs vi vd s) i
        (.node n2 c2 t2 vs2 vi2 vd2 s2)).setChild .null =
      (cJSON.node next child type vs vi vd s).setChild .null ∧
    cJSON_GetArraySize (cJSON_ReplaceItemInArray (.node next child type vs vi vd s) i
        (.node n2 c2 t2 vs2 vi2 vd2 s2)) =
      cJSON_GetArraySize (.node next child type vs vi vd s) ∧
    (cJSON_ReplaceItemInArray (.node next child type vs vi vd s) i
        (.node n2 c2 t2 vs2 vi2 vd2 s2)).getChild.items =
      child.items.set i.toNat (.node .null c2 t2 vs2 vi2 vd2 s2) ∧
    (cJSON_GetArrayItem (cJSON_ReplaceItemInArray (.node next child type vs vi vd s) i
        (.node n2 c2 t2 vs2 vi2 vd2 s2)) i).own = .node .null c2 t2 vs2 vi2 vd2 s2 ∧
    (∀ j : Int, 0 ≤ j → j < cJSON_GetArraySize (.node next child type vs vi vd s) → j ≠ i →
      (cJSON_GetArrayItem (cJSON_ReplaceItemInArray (.node next child type vs vi vd s) i
        (.node n2 c2 t2 vs2 vi2 vd2 s2)) j).own =
      (cJSON_GetArrayItem (.node next child type vs vi vd s) j).own) ∧
    (cJSON_GetObjectItem (.node next child type vs vi vd s) (some string) = .null →
      cJSON_ReplaceItemInObject (.node next child type vs vi vd s) string
        (.node n2 c2 t2 vs2 vi2 vd2 s2) = .node next child type vs vi vd s) ∧
    (cJSON_GetObjectItem (.node next child type vs vi vd s) (some string) ≠ .null →
      ∃ j : Int, 0 ≤ j ∧ j < cJSON_GetArraySize (.node next child type vs vi vd s) ∧
        cJSON_GetArrayItem (.node next child type vs vi vd s) j =
          cJSON_GetObjectItem (.node next child type vs vi vd s) (some string) ∧
        cJSON_ReplaceItemInObject (.node next child type vs vi vd s) string
            (.node n2 c2 t2 vs2 vi2 vd2 s2) =
          cJSON_ReplaceItemInArray (.node next child type vs vi vd s) j
            (.node n2 c2 t2 vs2 vi2 vd2 (some (c_string string))) ∧
        (cJSON_GetObjectItem (cJSON_ReplaceItemInObject (.node next child type vs vi vd s) string
            (.node n2 c2 t2 vs2 vi2 vd2 s2)) (some string)).own =
          .node .null c2 t2 vs2 vi2 vd2 (some (c_string string))) := by
  rw [array_size_eq] at hlt
  simp only [cJSON.getChild] at hlt
  have hk : i.toNat < child.items.length := by omega
  have hitems := replace_from_items child n2 c2 t2 vs2 s2 vi2 vd2 i
  refine ⟨rfl, ?_, hitems, ?_, ?_, ?_, ?_⟩
  · rw [array_size_eq, array_size_eq, cJSON_ReplaceItemInArray]
    simp only [cJSON.getChild, cJSON.setChild]
    rw [hitems, List.length_set]
  · rw [cJSON_GetArrayItem, array_item_from_own, cJSON_ReplaceItemInArray]
    simp only [cJSON.getChild, cJSON.setChild]
    rw [hitems]
    simp [hk]
  · intro j hj0 hjlt hne
    rw [cJSON_GetArrayItem, cJSON_GetArrayItem, array_item_from_own, array_item_from_own,
      cJSON_ReplaceItemInArray]
    simp only [cJSON.getChild, cJSON.setChild]
    rw [hitems]
    have : i.toNat ≠ j.toNat := by omega
    simp [List.getElem?_set, this]
  · intro hnull
    rw [cJSON_ReplaceItemInObject, (object_index_none _ _ 0).2 hnull]
  · intro hne
    cases hidx : object_index_from child (some string) 0 with
    | none => exact absurd ((object_index_none _ _ 0).1 hidx) hne
    | some j =>
      obtain ⟨h1, h2, h3⟩ := object_index_some child (some string) 0 j hidx
      rw [sub_zero] at h2 h3
      have hro : cJSON_ReplaceItemInObject (.node next child type vs vi vd s) string
            (.node n2 c2 t2 vs2 vi2 vd2 s2) =
          cJSON_ReplaceItemInArray (.node next child type vs vi vd s) j
            (.node n2 c2 t2 vs2 vi2 vd2 (some (c_string string))) := by
        rw [cJSON_ReplaceItemInObject]
        simp only [cJSON.getChild]
        rw [hidx]
        rfl
      refine ⟨j, h1, by rw [array_size_eq]; exact h2, h3, hro, ?_⟩
      rw [hro, cJSON_ReplaceItemInArray, cJSON_GetObjectItem]
      simp only [cJSON.getChild, cJSON.setChild]
      have := replace_first child string n2 c2 t2 vs2 vi2 vd2 0 j hidx
      rw [sub_zero] at this
      exact this

theorem C17_replace_item_witness :
    (0 : Int) < cJSON_GetArraySize sample_tree ∧
    (cJSON_ReplaceItemInArray sample_tree 0
      (.node .null .null cJSON_Number none 5 5 none)).getChild.items =
      sample_tree.getChild.items.set 0 (.node .null .null cJSON_Number none 5 5 none) ∧
    cJSON_GetObjectItem (cJSON_ReplaceItemInObject sample_tree [65]
      (.node .null .null cJSON_Number none 5 5 none)) (some [65]) =
      .node (.node .null
        (.node (.node (.node .null .null cJSON_NULL none 0 0 none) .null cJSON_False none 0 0
          none) .null cJSON_True none 1 0 none) cJSON_Array none 0 0 (some [98]))
        .null cJSON_Number none 5 5 (some [65]) :=
  have hlt : (0 : Int) < cJSON_GetArraySize sample_tree := by decide
  ⟨hlt, (C17_replace_item .null
    (.node
      (.node .null
        (.node (.node (.node .null .null cJSON_NULL none 0 0 none) .null cJSON_False none 0 0 none)
          .null cJSON_True none 1 0 none)
        cJSON_Array none 0 0 (some [98]))
      .null cJSON_Number none 1 1 (some [97])) cJSON_Object none none 0 0 0
    .null .null cJSON_Number none none 5 5 [65] (by decide) hlt).2.2.1, by decide!⟩
theorem clear_reference_kind (t : Nat) : clear_reference t &&& 255 = t &&& 255 := by
  unfold clear_reference
  rw [Nat.and_assoc]
  rfl

theorem clear_reference_flag (t : Nat) : clear_reference t &&& cJSON_IsReference = 0 := by
  unfold clear_reference
  rw [Nat.and_assoc]
  have : (4294967295 - cJSON_IsReference) &&& cJSON_IsReference = 0 := by decide
  rw [this]
  exact Nat.and_zero t

theorem print_string_body_c_string (s : List Nat) :
    print_string_body (c_string s) = print_string_body s := by
  induction s with
  | nil => rfl
  | cons c t ih =>
    by_cases hc : c = 0
    · have : c_string (c :: t) = [] := (c_string_nil_iff _).2 (by simp [peek, hc])
      rw [this, print_string_body, print_string_body, if_pos hc]
    · rw [c_string_cons c t hc, print_string_body, print_string_body, ih]

theorem print_string_ptr_strdup (s : Option (List Nat)) :
    print_string_ptr (s.map cJSON_strdup) = print_string_ptr s := by
  cases s with
  | none => rfl
  | some s =>
    show print_string_ptr (some (c_string s)) = print_string_ptr (some s)
    rw [print_string_ptr, print_string_ptr, print_string_body_c_string]

theorem print_item_duplicate (t : Nat) (vs : Option (List Nat)) (vi : Int) (vd : ℚ)
    (names : List (List Nat)) (entries : List (Option (List Nat))) (depth : Nat) (fmt : Bool) :
    print_item (clear_reference t) (vs.map cJSON_strdup) vi vd names entries depth fmt =
      print_item t vs vi vd names entries depth fmt := by
  unfold print_item
  rw [clear_reference_kind, print_string_ptr_strdup]

theorem print_names_duplicate (c : cJSON) : print_names (duplicate_chain c) = print_names c := by
  induction c with
  | null => rfl
  | node n ch t vs vi vd s ihn _ =>
    rw [duplicate_chain, print_names, print_names, ihn, print_string_ptr_strdup]

theorem print_chain_duplicate (c : cJSON) :
    ∀ depth fmt, print_chain (duplicate_chain c) depth fmt = print_chain c depth fmt := by
  induction c with
  | null => intro depth fmt; rfl
  | node n ch t vs vi vd s ihn ihc =>
    intro depth fmt
    rw [duplicate_chain, print_chain, print_chain, ihn, ihc, print_names_duplicate,
      print_item_duplicate]

theorem option_c_string_strdup (s : Option (List Nat)) :
    s.map c_string = (s.map cJSON_strdup).map c_string := by
  cases s with
  | none => rfl
  | some s =>
    show some (c_string s) = some (c_string (c_string s))
    rw [c_string_idem]

theorem same_structure_duplicate (c : cJSON) : same_structure c (duplicate_chain c) := by
  induction c with
  | null => exact True.intro
  | node n ch t vs vi vd s ihn ihc =>
    rw [duplicate_chain, same_structure]
    exact ⟨(clear_reference_kind t).symm, rfl, rfl, option_c_string_strdup vs,
      option_c_string_strdup s, ihc, ihn⟩

theorem no_reference_duplicate (c : cJSON) : no_reference (duplicate_chain c) := by
  induction c with
  | null => exact True.intro
  | node n ch t vs vi vd s ihn ihc =>
    rw [duplicate_chain, no_reference]
    exact ⟨clear_reference_flag t, ihc, ihn⟩

/-- C18: `cJSON_Duplicate(node, 1)` returns a node without sibling link, of
the same structure as the node with its subtree (kinds, numbers, string
payloads, keys, order of the children at every level), with the reference
flag on none of its nodes, and every rendering of it is the rendering of the
original.  `cJSON_Duplicate(node, 0)` returns a node without sibling link and
without children that has the kind, the numbers, the string payload and the
key of the original, and no reference flag. -/
theorem C18_duplicate (next child : cJSON) (type : Nat) (vs s : Option (List Nat)) (vi : Int)
    (vd : ℚ) :
    (cJSON_Duplicate (.node next child type vs vi vd s) true).getNext = .null ∧
    same_structure (.node .null child type vs vi vd s)
      (cJSON_Duplicate (.node next child type vs vi vd s) true) ∧
    no_reference (cJSON_Duplicate (.node next child type vs vi vd s) true) ∧
    (∀ depth fmt, print_value (cJSON_Duplicate (.node next child type vs vi vd s) true) depth fmt =
      print_value (.node next child type vs vi vd s) depth fmt) ∧
    cJSON_Duplicate (.node next child type vs vi vd s) false =
      .node .null .null (clear_reference type) (vs.map c_string) vi vd (s.map c_string) ∧
    same_structure (.node .null .null type vs vi vd s)
      (cJSON_Duplicate (.node next child type vs vi vd s) false) ∧
    no_reference (cJSON_Duplicate (.node next child type vs vi vd s) false) := by
  refine ⟨rfl, ?_, ?_, ?_, rfl, ?_, ?_⟩
  · simp only [cJSON_Duplicate, if_true]
    rw [same_structure]
    exact ⟨(clear_reference_kind type).symm, rfl, rfl, option_c_string_strdup vs,
      option_c_string_strdup s, same_structure_duplicate child, True.intro⟩
  · simp only [cJSON_Duplicate, if_true]
    rw [no_reference]
    exact ⟨clear_reference_flag type, no_reference_duplicate child, True.intro⟩
  · intro depth fmt
    simp only [cJSON_Duplicate, if_true]
    rw [print_value, print_value, print_chain_duplicate, print_names_duplicate,
      print_item_duplicate]
  · simp only [cJSON_Duplicate, Bool.false_eq_true, if_false]
    rw [same_structure]
    exact ⟨(clear_reference_kind type).symm, rfl, rfl, option_c_string_strdup vs,
      option_c_string_strdup s, True.intro, True.intro⟩
  · simp only [cJSON_Duplicate, Bool.false_eq_true, if_false]
    rw [no_reference]
    exact ⟨clear_reference_flag type, True.intro, True.intro⟩
theorem copy_escape_u (rest : List Nat) :
    parse_string_copy .scan (92 :: 117 :: rest) =
      (parse_string_copy (.pass (parse_string_u rest).2) rest).map
        (fun r => ((parse_string_u rest).1 ++ r.1, r.2)) := by
  rw [parse_string_copy, if_neg (by decide), if_neg (by decide), parse_string_copy,
    if_neg (by decide), if_neg (by decide), if_neg (by decide), if_neg (by decide),
    if_neg (by decide), if_neg (by decide), if_pos rfl]

theorem map_nil_append (o : Option (List Nat × List Nat)) :
    o.map (fun r => (([] : List Nat) ++ r.1, r.2)) = o := by
  cases o <;> simp

theorem copy_dropped_unit {a b c d x1 x2 x3 x4 : Nat} (rest : List Nat)
    (ha : hexdigit a = some x1) (hb : hexdigit b = some x2) (hc : hexdigit c = some x3)
    (hd : hexdigit d = some x4)
    (hu : code_unit x1 x2 x3 x4 = 0 ∨
      (0xDC00 ≤ code_unit x1 x2 x3 x4 ∧ code_unit x1 x2 x3 x4 ≤ 0xDFFF)) :
    parse_string_copy .scan (92 :: 117 :: a :: b :: c :: d :: rest) =
      parse_string_copy .scan rest := by
  have hv := parse_hex4_value rest ha hb hc hd
  unfold code_unit at hu
  have hpu : parse_string_u (a :: b :: c :: d :: rest) = ([], 4) := by
    unfold parse_string_u
    simp only [hv]
    rw [if_pos (by omega)]
  rw [copy_escape_u, hpu]
  simp only
  rw [map_nil_append, copy_pass4 rest (hexdigit_spec ha).2 (hexdigit_spec hb).2
    (hexdigit_spec hc).2 (hexdigit_spec hd).2]

theorem copy_lone_high {a b c d x1 x2 x3 x4 : Nat} (rest : List Nat)
    (ha : hexdigit a = some x1) (hb : hexdigit b = some x2) (hc : hexdigit c = some x3)
    (hd : hexdigit d = some x4)
    (hh : 0xD800 ≤ code_unit x1 x2 x3 x4 ∧ code_unit x1 x2 x3 x4 ≤ 0xDBFF)
    (hn : peek rest ≠ 92 ∨ peek (rest.drop 1) ≠ 117) :
    parse_string_copy .scan (92 :: 117 :: a :: b :: c :: d :: rest) =
      parse_string_copy .scan rest := by
  have hv := parse_hex4_value rest ha hb hc hd
  unfold code_unit at hh
  have hpu : parse_string_u (a :: b :: c :: d :: rest) = ([], 4) := by
    unfold parse_string_u
    simp only [hv, List.drop_succ_cons, List.drop_zero]
    rw [if_neg (by omega), if_pos hh, if_pos hn]
  rw [copy_escape_u, hpu]
  simp only
  rw [map_nil_append, copy_pass4 rest (hexdigit_spec ha).2 (hexdigit_spec hb).2
    (hexdigit_spec hc).2 (hexdigit_spec hd).2]

theorem copy_bad_pair {a b c d x1 x2 x3 x4 e1 e2 e3 e4 : Nat} (rest : List Nat)
    (ha : hexdigit a = some x1) (hb : hexdigit b = some x2) (hc : hexdigit c = some x3)
    (hd : hexdigit d = some x4)
    (hh : 0xD800 ≤ code_unit x1 x2 x3 x4 ∧ code_unit x1 x2 x3 x4 ≤ 0xDBFF)
    (h1 : e1 ≠ 0) (h2 : e2 ≠ 0) (h3 : e3 ≠ 0) (h4 : e4 ≠ 0)
    (hl : parse_hex4 (e1 :: e2 :: e3 :: e4 :: rest) < 0xDC00 ∨
      0xDFFF < parse_hex4 (e1 :: e2 :: e3 :: e4 :: rest)) :
    parse_string_copy .scan
        (92 :: 117 :: a :: b :: c :: d :: 92 :: 117 :: e1 :: e2 :: e3 :: e4 :: rest) =
      parse_string_copy .scan rest := by
  have hv := parse_hex4_value (92 :: 117 :: e1 :: e2 :: e3 :: e4 :: rest) ha hb hc hd
  unfold code_unit at hh
  have hpu : parse_string_u (a :: b :: c :: d :: 92 :: 117 :: e1 :: e2 :: e3 :: e4 :: rest) =
      ([], 10) := by
    unfold parse_string_u
    simp only [hv, List.drop_succ_cons, List.drop_zero, peek_cons]
    rw [if_neg (by omega), if_pos hh, if_neg (by simp), if_pos (by omega)]
  rw [copy_escape_u, hpu]
  simp only
  rw [map_nil_append]
  simp [parse_string_copy, (hexdigit_spec ha).2, (hexdigit_spec hb).2, (hexdigit_spec hc).2,
    (hexdigit_spec hd).2, h1, h2, h3, h4]

/-- C19: at the literal `"\ud800\u"` the claim fails: after the high surrogate
and the `\u` the copy pass moves its pointer six bytes on, past the closing
quote and the terminator, and reads outside the text.  Where the text is long
enough the escapes are dropped as the claim says: an escape of the unit 0 or
of a low surrogate writes nothing and the copy goes on after it, so does the
escape of a high surrogate that no `\u` follows, and the escape of a high
surrogate followed by `\u` and four bytes that are not a low surrogate is
dropped together with these six bytes. -/
theorem C19_malformed_surrogate :
    parse_string cJSON_New_Item (bytes "\"\\ud800\\u\"") = .overrun ∧
    cJSON_Parse (bytes "\"\\ud800\\u12\"") = .overrun ∧
    (∀ a b c d x1 x2 x3 x4 rest, hexdigit a = some x1 → hexdigit b = some x2 →
      hexdigit c = some x3 → hexdigit d = some x4 →
      (code_unit x1 x2 x3 x4 = 0 ∨
        (0xDC00 ≤ code_unit x1 x2 x3 x4 ∧ code_unit x1 x2 x3 x4 ≤ 0xDFFF)) →
      parse_string_copy .scan (92 :: 117 :: a :: b :: c :: d :: rest) =
        parse_string_copy .scan rest) ∧
    (∀ a b c d x1 x2 x3 x4 rest, hexdigit a = some x1 → hexdigit b = some x2 →
      hexdigit c = some x3 → hexdigit d = some x4 →
      (0xD800 ≤ code_unit x1 x2 x3 x4 ∧ code_unit x1 x2 x3 x4 ≤ 0xDBFF) →
      (peek rest ≠ 92 ∨ peek (rest.drop 1) ≠ 117) →
      parse_string_copy .scan (92 :: 117 :: a :: b :: c :: d :: rest) =
        parse_string_copy .scan rest) ∧
    (∀ a b c d x1 x2 x3 x4 e1 e2 e3 e4 rest, hexdigit a = some x1 → hexdigit b = some x2 →
      hexdigit c = some x3 → hexdigit d = some x4 →
      (0xD800 ≤ code_unit x1 x2 x3 x4 ∧ code_unit x1 x2 x3 x4 ≤ 0xDBFF) →
      e1 ≠ 0 → e2 ≠ 0 → e3 ≠ 0 → e4 ≠ 0 →
      (parse_hex4 (e1 :: e2 :: e3 :: e4 :: rest) < 0xDC00 ∨
        0xDFFF < parse_hex4 (e1 :: e2 :: e3 :: e4 :: rest)) →
      parse_string_copy .scan
          (92 :: 117 :: a :: b :: c :: d :: 92 :: 117 :: e1 :: e2 :: e3 :: e4 :: rest) =
        parse_string_copy .scan rest) ∧
    parse_string cJSON_New_Item (bytes "\"a\\udc00\\u0000\\ud800b\\udbff\\u0041c\"") =
      .ok (.node .null .null cJSON_String (some (bytes "abc")) 0 0 none) [] := by
  refine ⟨by decide, by decide!, ?_, ?_, ?_, by decide⟩
  · intro a b c d x1 x2 x3 x4 rest ha hb hc hd hu
    exact copy_dropped_unit rest ha hb hc hd hu
  · intro a b c d x1 x2 x3 x4 rest ha hb hc hd hh hn
    exact copy_lone_high rest ha hb hc hd hh hn
  · intro a b c d x1 x2 x3 x4 e1 e2 e3 e4 rest ha hb hc hd hh h1 h2 h3 h4 hl
    exact copy_bad_pair rest ha hb hc hd hh h1 h2 h3 h4 hl
theorem reference_flag (t : Nat) : (t ||| cJSON_IsReference) &&& cJSON_IsReference ≠ 0 := by
  have h : (t ||| cJSON_IsReference) &&& cJSON_IsReference = cJSON_IsReference := by
    apply Nat.eq_of_testBit_eq
    intro i
    simp only [Nat.testBit_and, Nat.testBit_or]
    cases Nat.testBit t i <;> cases Nat.testBit cJSON_IsReference i <;> rfl
  rw [h]
  decide

theorem delete_suffix_last (c item : Mem) :
    Mem.cJSON_Delete (Mem.suffix_last c item) = Mem.cJSON_Delete c ++ Mem.cJSON_Delete item := by
  induction c with
  | null => rfl
  | node a n ch t vs s ihn _ =>
    rw [Mem.suffix_last, Mem.cJSON_Delete, Mem.cJSON_Delete, ihn]
    simp only [List.append_assoc]

theorem delete_subset_blocks (c : Mem) : ∀ x ∈ Mem.cJSON_Delete c, x ∈ Mem.blocks c := by
  induction c with
  | null => intro x hx; simp [Mem.cJSON_Delete] at hx
  | node a n ch t vs s ihn ihc =>
    intro x hx
    rw [Mem.cJSON_Delete] at hx
    rw [Mem.blocks]
    simp only [List.mem_append, List.mem_cons, List.mem_singleton, List.not_mem_nil,
      or_false] at hx ⊢
    rcases hx with (((h | h) | h) | h) | h
    · split_ifs at h
      · exact Or.inr (Or.inl (Or.inr (ihc x h)))
      · simp at h
    · split_ifs at h
      · exact Or.inr (Or.inl (Or.inl (Or.inl h)))
      · simp at h
    · exact Or.inr (Or.inl (Or.inl (Or.inr h)))
    · exact Or.inl h
    · exact Or.inr (Or.inr (ihn x h))

theorem delete_add_item (addr : Nat) (next child : Mem) (type : Nat) (vs s : Option Nat)
    (a : Nat) (c : Mem) (t : Nat) (vs2 s2 : Option Nat) :
    Mem.cJSON_Delete (Mem.cJSON_AddItemToArray (.node addr next child type vs s)
        (.node a .null c t vs2 s2)) =
      (if type &&& cJSON_IsReference = 0 then
        Mem.cJSON_Delete child ++ Mem.cJSON_Delete (.node a .null c t vs2 s2) else []) ++
      (if type &&& cJSON_IsReference = 0 then vs.toList else []) ++ s.toList ++ [addr] ++
        Mem.cJSON_Delete next := by
  cases child with
  | null =>
    simp only [Mem.cJSON_AddItemToArray]
    rw [Mem.cJSON_Delete]
    rfl
  | node a3 n3 c3 t3 vs3 s3 =>
    simp only [Mem.cJSON_AddItemToArray]
    rw [Mem.cJSON_Delete, delete_suffix_last]
theorem delete_reference_node (ref : Nat) (cx : Mem) (tx : Nat) (vsx : Option Nat) :
    Mem.cJSON_Delete (.node ref .null cx (tx ||| cJSON_IsReference) vsx none) = [ref] := by
  rw [Mem.cJSON_Delete, if_neg (reference_flag tx), if_neg (reference_flag tx)]
  rfl

theorem delete_keyed_reference_node (ref copy : Nat) (cx : Mem) (tx : Nat) (vsx : Option Nat) :
    Mem.cJSON_Delete (.node ref .null cx (tx ||| cJSON_IsReference) vsx (some copy)) =
      [copy, ref] := by
  rw [Mem.cJSON_Delete, if_neg (reference_flag tx), if_neg (reference_flag tx)]
  rfl

/-- C20: a reference to a node X made by `create_reference` at the address
`ref` holds the child and the string payload of X, and `cJSON_Delete` of it
frees the address `ref` alone.  Deleting a container to which the reference
was added by `cJSON_AddItemReferenceToArray` frees what deleting the container
freed before, and `ref`; with `cJSON_AddItemReferenceToObject`, which frees
nothing itself, also the copy of the key.  So when `ref` and the copy are
fresh no block of X is freed by deleting the reference, none is freed by
deleting the container unless the container owned it, and deleting X after
the reference frees every address once. -/
theorem C20_delete_reference (ax : Nat) (nx cx : Mem) (tx : Nat) (vsx sx : Option Nat)
    (addr : Nat) (next child : Mem) (type : Nat) (vs s : Option Nat) (ref copy : Nat) :
    Mem.create_reference ref (.node ax nx cx tx vsx sx) =
      .node ref .null cx (tx ||| cJSON_IsReference) vsx none ∧
    Mem.cJSON_Delete (Mem.create_reference ref (.node ax nx cx tx vsx sx)) = [ref] ∧
    (type &&& cJSON_IsReference = 0 →
      Mem.cJSON_Delete (Mem.cJSON_AddItemReferenceToArray (.node addr next child type vs s) ref
          (.node ax nx cx tx vsx sx)) =
        Mem.cJSON_Delete child ++ [ref] ++ vs.toList ++ s.toList ++ [addr] ++
          Mem.cJSON_Delete next) ∧
    (Mem.cJSON_AddItemReferenceToObject (.node addr next child type vs s) copy ref
        (.node ax nx cx tx vsx sx)).1 = [] ∧
    (type &&& cJSON_IsReference = 0 →
      Mem.cJSON_Delete (Mem.cJSON_AddItemReferenceToObject (.node addr next child type vs s)
          copy ref (.node ax nx cx tx vsx sx)).2 =
        Mem.cJSON_Delete child ++ [copy, ref] ++ vs.toList ++ s.toList ++ [addr] ++
          Mem.cJSON_Delete next) ∧
    (∀ x ∈ Mem.cJSON_Delete (Mem.cJSON_AddItemReferenceToArray (.node addr next child type vs s)
        ref (.node ax nx cx tx vsx sx)),
      x ∈ Mem.cJSON_Delete (.node addr next child type vs s) ∨ x = ref) ∧
    (∀ x ∈ Mem.cJSON_Delete (Mem.cJSON_AddItemReferenceToObject
        (.node addr next child type vs s) copy ref (.node ax nx cx tx vsx sx)).2,
      x ∈ Mem.cJSON_Delete (.node addr next child type vs s) ∨ x = ref ∨ x = copy) ∧
    (ref ∉ Mem.blocks (.node ax nx cx tx vsx sx) →
      (∀ x ∈ Mem.blocks (.node ax nx cx tx vsx sx),
        x ∉ Mem.cJSON_Delete (Mem.create_reference ref (.node ax nx cx tx vsx sx))) ∧
      ((Mem.cJSON_Delete (.node ax nx cx tx vsx sx)).Nodup →
        (Mem.cJSON_Delete (Mem.create_reference ref (.node ax nx cx tx vsx sx)) ++
          Mem.cJSON_Delete (.node ax nx cx tx vsx sx)).Nodup)) ∧
    (ref ∉ Mem.blocks (.node ax nx cx tx vsx sx) → copy ∉ Mem.blocks (.node ax nx cx tx vsx sx) →
      ∀ x ∈ Mem.blocks (.node ax nx cx tx vsx sx),
        x ∉ Mem.cJSON_Delete (.node addr next child type vs s) →
        x ∉ Mem.cJSON_Delete (Mem.cJSON_AddItemReferenceToArray
          (.node addr next child type vs s) ref (.node ax nx cx tx vsx sx)) ∧
        x ∉ Mem.cJSON_Delete (Mem.cJSON_AddItemReferenceToObject
          (.node addr next child type vs s) copy ref (.node ax nx cx tx vsx sx)).2) ∧
    Mem.cJSON_Delete (Mem.cJSON_AddItemReferenceToArray (.node 10 .null .null cJSON_Array none none)
        20 (.node 1 .null (.node 2 .null .null cJSON_True none (some 3)) cJSON_Object none
          (some 4))) = [20, 10] ∧
    Mem.cJSON_Delete (.node 1 .null (.node 2 .null .null cJSON_True none (some 3)) cJSON_Object
      none (some 4)) = [3, 2, 4, 1] := by
  have harr : Mem.cJSON_Delete (Mem.cJSON_AddItemReferenceToArray
        (.node addr next child type vs s) ref (.node ax nx cx tx vsx sx)) =
      (if type &&& cJSON_IsReference = 0 then Mem.cJSON_Delete child ++ [ref] else []) ++
      (if type &&& cJSON_IsReference = 0 then vs.toList else []) ++ s.toList ++ [addr] ++
        Mem.cJSON_Delete next := by
    rw [Mem.cJSON_AddItemReferenceToArray, Mem.create_reference, delete_add_item,
      delete_reference_node]
  have hobj : Mem.cJSON_Delete (Mem.cJSON_AddItemReferenceToObject
        (.node addr next child type vs s) copy ref (.node ax nx cx tx vsx sx)).2 =
      (if type &&& cJSON_IsReference = 0 then Mem.cJSON_Delete child ++ [copy, ref] else []) ++
      (if type &&& cJSON_IsReference = 0 then vs.toList else []) ++ s.toList ++ [addr] ++
        Mem.cJSON_Delete next := by
    rw [Mem.cJSON_AddItemReferenceToObject, Mem.create_reference, Mem.cJSON_AddItemToObject]
    simp only
    rw [delete_add_item, delete_keyed_reference_node]
  have hA : Mem.cJSON_Delete (.node addr next child type vs s) =
      (if type &&& cJSON_IsReference = 0 then Mem.cJSON_Delete child else []) ++
      (if type &&& cJSON_IsReference = 0 then vs.toList else []) ++ s.toList ++ [addr] ++
        Mem.cJSON_Delete next := by
    rw [Mem.cJSON_Delete]
  have hR : Mem.cJSON_Delete (Mem.create_reference ref (.node ax nx cx tx vsx sx)) = [ref] :=
    delete_reference_node ref cx tx vsx
  have garr : ∀ x ∈ Mem.cJSON_Delete (Mem.cJSON_AddItemReferenceToArray
      (.node addr next child type vs s) ref (.node ax nx cx tx vsx sx)),
      x ∈ Mem.cJSON_Delete (.node addr next child type vs s) ∨ x = ref := by
    intro x hx
    rw [harr] at hx
    rw [hA]
    by_cases ht : type &&& cJSON_IsReference = 0
    · simp only [if_pos ht, List.mem_append, List.mem_singleton] at hx ⊢
      tauto
    · simp only [if_neg ht, List.mem_append, List.mem_singleton] at hx ⊢
      tauto
  have gobj : ∀ x ∈ Mem.cJSON_Delete (Mem.cJSON_AddItemReferenceToObject
      (.node addr next child type vs s) copy ref (.node ax nx cx tx vsx sx)).2,
      x ∈ Mem.cJSON_Delete (.node addr next child type vs s) ∨ x = ref ∨ x = copy := by
    intro x hx
    rw [hobj] at hx
    rw [hA]
    by_cases ht : type &&& cJSON_IsReference = 0
    · simp only [if_pos ht, List.mem_append, List.mem_singleton, List.mem_cons,
        List.not_mem_nil, or_false] at hx ⊢
      tauto
    · simp only [if_neg ht, List.mem_append, List.mem_singleton] at hx ⊢
      tauto
  refine ⟨rfl, hR, ?_, rfl, ?_, garr, gobj, ?_, ?_, by decide, by decide⟩
  · intro ht
    rw [harr, if_pos ht, if_pos ht]
  · intro ht
    rw [hobj, if_pos ht, if_pos ht]
  · intro hfresh
    rw [hR]
    constructor
    · intro x hx hmem
      rw [List.mem_singleton] at hmem
      rw [hmem] at hx
      exact hfresh hx
    · intro hnd
      rw [List.singleton_append, List.nodup_cons]
      exact ⟨fun h => hfresh (delete_subset_blocks _ ref h), hnd⟩
  · intro hfresh hcopy x hx hnot
    constructor
    · intro h
      rcases garr x h with h1 | h1
      · exact hnot h1
      · rw [h1] at hx; exact hfresh hx
    · intro h
      rcases gobj x h with h1 | h1 | h1
      · exact hnot h1
      · rw [h1] at hx; exact hfresh hx
      · rw [h1] at hx; exact hcopy hx
theorem canon_keyed (c : cJSON) : ∀ k, canon_chain k c → keyed_chain k c := by
  induction c with
  | null => intro k _; exact True.intro
  | node n ch t vs vi vd s ihn ihc =>
    intro k h
    rw [canon_chain_node] at h
    obtain ⟨hk, hp, hn⟩ := h
    rw [keyed_chain]
    refine ⟨?_, ?_, ihn k hn⟩
    · cases k
      · have : s = none := by simpa [key_canon] using hk
        rw [this]; rfl
      · obtain ⟨key, rfl, _⟩ : ∃ key, s = some key ∧ nul_free key := by
          simpa [key_canon] using hk
        rfl
    · rcases hp with ⟨rfl, rfl, _⟩ | ⟨rfl, rfl, _⟩ | ⟨rfl, rfl, _⟩ | ⟨rfl, rfl, _⟩ |
        ⟨rfl, rfl, _⟩ | ⟨rfl, _, _, _, hc⟩ | ⟨rfl, _, _, _, hc⟩
      · exact True.intro
      · exact True.intro
      · exact True.intro
      · exact True.intro
      · exact True.intro
      · exact ihc _ hc
      · exact ihc _ hc

theorem suffix_last_keyed (c item : cJSON) (k : Bool) (hc : keyed_chain k c)
    (hi : keyed_chain k item) : keyed_chain k (suffix_last c item) := by
  induction c with
  | null => exact hi
  | node n ch t vs vi vd s ihn _ =>
    rw [suffix_last, keyed_chain]
    rw [keyed_chain] at hc
    exact ⟨hc.1, hc.2.1, ihn hc.2.2⟩

theorem detach_keyed (c : cJSON) (k : Bool) :
    ∀ i : Int, keyed_chain k c →
      keyed_chain k (detach_from c i).1 ∧ keyed_chain k (detach_from c i).2 := by
  induction c with
  | null => intro i _; exact ⟨True.intro, True.intro⟩
  | node n ch t vs vi vd s ihn _ =>
    intro i h
    rw [keyed_chain] at h
    rw [detach_from]
    by_cases hi : i > 0
    · rw [if_pos hi]
      have := ihn (i - 1) h.2.2
      exact ⟨this.1, by rw [keyed_chain]; exact ⟨h.1, h.2.1, this.2⟩⟩
    · rw [if_neg hi]
      exact ⟨by rw [keyed_chain]; exact ⟨h.1, h.2.1, True.intro⟩, h.2.2⟩

theorem replace_keyed (c : cJSON) (k : Bool) (n2 c2 : cJSON) (t2 : Nat)
    (vs2 s2 : Option (List Nat)) (vi2 : Int) (vd2 : ℚ) (hs : s2.isSome = k)
    (hc2 : keyed_chain (decide (t2 &&& 255 = cJSON_Object)) c2) :
    ∀ i : Int, keyed_chain k c →
      keyed_chain k (replace_from c i (.node n2 c2 t2 vs2 vi2 vd2 s2)) := by
  induction c with
  | null => intro i _; exact True.intro
  | node n ch t vs vi vd s ihn _ =>
    intro i h
    rw [keyed_chain] at h
    rw [replace_from]
    by_cases hi : i > 0
    · rw [if_pos hi, keyed_chain]
      exact ⟨h.1, h.2.1, ihn (i - 1) h.2.2⟩
    · rw [if_neg hi, cJSON.setNext, keyed_chain]
      exact ⟨hs, hc2, h.2.2⟩

theorem duplicate_keyed (c : cJSON) : ∀ k, keyed_chain k c → keyed_chain k (duplicate_chain c) := by
  induction c with
  | null => intro k _; exact True.intro
  | node n ch t vs vi vd s ihn ihc =>
    intro k h
    rw [keyed_chain] at h
    rw [duplicate_chain, keyed_chain, clear_reference_kind]
    refine ⟨?_, ihc _ h.2.1, ihn k h.2.2⟩
    rw [← h.1]
    cases s <;> rfl
theorem parse_key_invariant (text : List Nat) (t : cJSON) (rest : List Nat)
    (h : cJSON_Parse text = .ok t rest) : key_invariant t := by
  have hv : parse_value (fuel_for text) cJSON_New_Item (skip text) = .ok t rest := by
    unfold cJSON_Parse cJSON_ParseWithOpts at h
    cases hp : parse_value (fuel_for text) cJSON_New_Item (skip text) with
    | ok c e => simpa [hp] using h
    | fail e => simp [hp] at h
    | overrun => simp [hp] at h
    | nofuel => simp [hp] at h
  obtain ⟨child, type, vs, vi, vd, rfl, hp⟩ := (parse_canon (fuel_for text)).1 0 none _ _ _ hv
  refine ⟨rfl, ?_⟩
  simp only [cJSON.getType, cJSON.getChild]
  rcases hp with ⟨rfl, rfl, _⟩ | ⟨rfl, rfl, _⟩ | ⟨rfl, rfl, _⟩ | ⟨rfl, rfl, _⟩ |
    ⟨rfl, rfl, _⟩ | ⟨rfl, _, _, _, hc⟩ | ⟨rfl, _, _, _, hc⟩
  · exact True.intro
  · exact True.intro
  · exact True.intro
  · exact True.intro
  · exact True.intro
  · have e : decide (cJSON_Array &&& 255 = cJSON_Object) = false := by decide
    rw [e]
    exact canon_keyed _ _ hc
  · have e : decide (cJSON_Object &&& 255 = cJSON_Object) = true := by decide
    rw [e]
    exact canon_keyed _ _ hc

/-- C21 (amended): a node has a key exactly when it is a direct member of the
chain of an Object, and a root has none, in every tree the parser returns and
in every node a constructor returns; and the members of a container keep this
after `cJSON_AddItemToArray` of a keyless stand-alone item to a container
that is no Object, `cJSON_AddItemToObject` to an Object, detaching by index
from a container that is no Object (the node detached is then a keyless
root), `cJSON_ReplaceItemInArray` by a keyless item in a container that is no
Object, `cJSON_ReplaceItemInObject` in an Object, and `cJSON_Duplicate` of a
keyless root.  Detaching from an Object leaves its members so too. -/
theorem C21_key_invariant :
    (∀ text t rest, cJSON_Parse text = .ok t rest → key_invariant t) ∧
    (key_invariant cJSON_CreateNull ∧ key_invariant cJSON_CreateTrue ∧
      key_invariant cJSON_CreateFalse ∧ key_invariant cJSON_CreateArray ∧
      key_invariant cJSON_CreateObject ∧ (∀ b, key_invariant (cJSON_CreateBool b)) ∧
      (∀ num, key_invariant (cJSON_CreateNumber num)) ∧
      (∀ string, key_invariant (cJSON_CreateString string))) ∧
    (∀ a c2 t2 vs2 vi2 vd2, a.getType &&& 255 ≠ cJSON_Object → members_keyed a →
      key_invariant (.node .null c2 t2 vs2 vi2 vd2 none) →
      members_keyed (cJSON_AddItemToArray a (.node .null c2 t2 vs2 vi2 vd2 none))) ∧
    (∀ o string c2 t2 vs2 vi2 vd2 s2, o.getType &&& 255 = cJSON_Object → members_keyed o →
      members_keyed (.node .null c2 t2 vs2 vi2 vd2 s2) →
      members_keyed (cJSON_AddItemToObject o string (.node .null c2 t2 vs2 vi2 vd2 s2))) ∧
    (∀ a i, a.getType &&& 255 ≠ cJSON_Object → members_keyed a →
      key_invariant (cJSON_DetachItemFromArray a i).1 ∧
      members_keyed (cJSON_DetachItemFromArray a i).2) ∧
    (∀ o i string, members_keyed o → members_keyed (cJSON_DetachItemFromArray o i).2 ∧
      members_keyed (cJSON_DetachItemFromObject o string).2) ∧
    (∀ a i n2 c2 t2 vs2 vi2 vd2, a.getType &&& 255 ≠ cJSON_Object → members_keyed a →
      key_invariant (.node n2 c2 t2 vs2 vi2 vd2 none) →
      members_keyed (cJSON_ReplaceItemInArray a i (.node n2 c2 t2 vs2 vi2 vd2 none))) ∧
    (∀ o string n2 c2 t2 vs2 vi2 vd2 s2, o.getType &&& 255 = cJSON_Object → members_keyed o →
      members_keyed (.node n2 c2 t2 vs2 vi2 vd2 s2) →
      members_keyed (cJSON_ReplaceItemInObject o string (.node n2 c2 t2 vs2 vi2 vd2 s2))) ∧
    (∀ t recurse, key_invariant t → key_invariant (cJSON_Duplicate t recurse)) := by
  have hdet : ∀ o i, members_keyed o → members_keyed (cJSON_DetachItemFromArray o i).2 := by
    intro o i ho
    cases o with
    | null => exact True.intro
    | node n c t vs vi vd s =>
      exact (detach_keyed c _ i ho).2
  refine ⟨parse_key_invariant, ⟨⟨rfl, True.intro⟩, ⟨rfl, True.intro⟩, ⟨rfl, True.intro⟩,
    ⟨rfl, True.intro⟩, ⟨rfl, True.intro⟩, fun b => ⟨rfl, True.intro⟩,
    fun num => ⟨rfl, True.intro⟩, fun string => ⟨rfl, True.intro⟩⟩, ?_, ?_, ?_, ?_, ?_, ?_, ?_⟩
  · intro a c2 t2 vs2 vi2 vd2 hty ha hitem
    cases a with
    | null => exact True.intro
    | node n c t vs vi vd s =>
      rw [add_item_child]
      simp only [members_keyed, cJSON.getType, cJSON.getChild] at ha hty ⊢
      refine suffix_last_keyed c _ _ ha ?_
      rw [decide_eq_false hty, keyed_chain]
      exact ⟨rfl, hitem.2, True.intro⟩
  · intro o string c2 t2 vs2 vi2 vd2 s2 hty ho hitem
    cases o with
    | null => exact True.intro
    | node n c t vs vi vd s =>
      rw [cJSON_AddItemToObject, add_item_child]
      simp only [members_keyed, cJSON.getType, cJSON.getChild] at ho hty hitem ⊢
      refine suffix_last_keyed c _ _ ho ?_
      rw [decide_eq_true hty, keyed_chain]
      exact ⟨rfl, hitem, True.intro⟩
  · intro a i hty ha
    refine ⟨?_, hdet a i ha⟩
    cases a with
    | null => exact ⟨rfl, True.intro⟩
    | node n c t vs vi vd s =>
      simp only [members_keyed, cJSON.getType, cJSON.getChild] at ha hty
      rw [decide_eq_false hty] at ha
      have hd := (detach_keyed c false i ha).1
      rw [cJSON_DetachItemFromArray]
      simp only [cJSON.getChild]
      cases hdn : (detach_from c i).1 with
      | null => exact ⟨rfl, True.intro⟩
      | node n3 c3 t3 vs3 vi3 vd3 s3 =>
        rw [hdn, keyed_chain] at hd
        refine ⟨?_, hd.2.1⟩
        simp only [cJSON.getString]
        cases s3 with
        | none => rfl
        | some k => simp at hd
  · intro o i string ho
    refine ⟨hdet o i ho, ?_⟩
    rw [cJSON_DetachItemFromObject]
    cases object_index_from o.getChild string 0 with
    | none => exact ho
    | some j => exact hdet o j ho
  · intro a i n2 c2 t2 vs2 vi2 vd2 hty ha hnew
    cases a with
    | null => exact True.intro
    | node n c t vs vi vd s =>
      simp only [members_keyed, cJSON.getType, cJSON.getChild] at ha hty
      rw [decide_eq_false hty] at ha
      simp only [cJSON_ReplaceItemInArray, members_keyed, cJSON.getType, cJSON.getChild,
        cJSON.setChild]
      rw [decide_eq_false hty]
      exact replace_keyed c false n2 c2 t2 vs2 none vi2 vd2 rfl hnew.2 i ha
  · intro o string n2 c2 t2 vs2 vi2 vd2 s2 hty ho hnew
    cases o with
    | null => exact True.intro
    | node n c t vs vi vd s =>
      rw [cJSON_ReplaceItemInObject]
      cases object_index_from (cJSON.node n c t vs vi vd s).getChild (some string) 0 with
      | none => exact ho
      | some j =>
        simp only [members_keyed, cJSON.getType, cJSON.getChild] at ho hty hnew
        rw [decide_eq_true hty] at ho
        simp only [cJSON_ReplaceItemInArray, members_keyed, cJSON.getType, cJSON.getChild,
          cJSON.setChild, cJSON.setString]
        rw [decide_eq_true hty]
        exact replace_keyed c true n2 c2 t2 vs2 (some (cJSON_strdup string)) vi2 vd2 rfl hnew j ho
  · intro t recurse ht
    cases t with
    | null => exact ⟨rfl, True.intro⟩
    | node n c ty vs vi vd s =>
      obtain ⟨hs, hc⟩ := ht
      simp only [cJSON.getString] at hs
      simp only [cJSON.getType, cJSON.getChild] at hc
      refine ⟨by rw [cJSON_Duplicate, hs]; rfl, ?_⟩
      simp only [cJSON_Duplicate, cJSON.getType, cJSON.getChild, clear_reference_kind]
      cases recurse
      · exact True.intro
      · exact duplicate_keyed c _ hc

/-- C21 as stated fails after `cJSON_DetachItemFromObject`: the member `a`
detached from the parsed object `{"a":1,"b":[true,false,null]}` is in no chain
and still has its key; and `cJSON_Duplicate` of that member inside the object
is a root with the key. -/
theorem C21_counterexample :
    cJSON_Parse (bytes "\x7b\"a\":1,\"b\":[true,false,null]\x7d") = .ok sample_tree [] ∧
    (cJSON_DetachItemFromObject sample_tree (some [97])).1 =
      .node .null .null cJSON_Number none 1 1 (some [97]) ∧
    (cJSON_DetachItemFromObject sample_tree (some [97])).1.getString ≠ none ∧
    (cJSON_Duplicate (cJSON_GetObjectItem sample_tree (some [97])) true).getString ≠ none := by
  decide!
/-! ## C22: the sibling links -/

@[simp] theorem Heap.setNext_next (h : Heap) (a v b : Nat) :
    (h.setNext a v).next b = if b = a then v else h.next b := by
  simp [Heap.setNext, Function.update_apply]

@[simp] theorem Heap.setNext_prev (h : Heap) (a v : Nat) : (h.setNext a v).prev = h.prev := rfl

@[simp] theorem Heap.setNext_child (h : Heap) (a v : Nat) : (h.setNext a v).child = h.child := rfl

@[simp] theorem Heap.setNext_top (h : Heap) (a v : Nat) : (h.setNext a v).top = h.top := rfl

@[simp] theorem Heap.setPrev_prev (h : Heap) (a v b : Nat) :
    (h.setPrev a v).prev b = if b = a then v else h.prev b := by
  simp [Heap.setPrev, Function.update_apply]

@[simp] theorem Heap.setPrev_next (h : Heap) (a v : Nat) : (h.setPrev a v).next = h.next := rfl

@[simp] theorem Heap.setPrev_child (h : Heap) (a v : Nat) : (h.setPrev a v).child = h.child := rfl

@[simp] theorem Heap.setPrev_top (h : Heap) (a v : Nat) : (h.setPrev a v).top = h.top := rfl

@[simp] theorem Heap.setChild_child (h : Heap) (a v b : Nat) :
    (h.setChild a v).child b = if b = a then v else h.child b := by
  simp [Heap.setChild, Function.update_apply]

@[simp] theorem Heap.setChild_next (h : Heap) (a v : Nat) : (h.setChild a v).next = h.next := rfl

@[simp] theorem Heap.setChild_prev (h : Heap) (a v : Nat) : (h.setChild a v).prev = h.prev := rfl

@[simp] theorem Heap.setChild_top (h : Heap) (a v : Nat) : (h.setChild a v).top = h.top := rfl

@[simp] theorem Heap.new_next (h : Heap) (b : Nat) :
    (h.cJSON_New_Item).1.next b = if b = h.top then 0 else h.next b := by
  simp [Heap.cJSON_New_Item, Function.update_apply]

@[simp] theorem Heap.new_prev (h : Heap) (b : Nat) :
    (h.cJSON_New_Item).1.prev b = if b = h.top then 0 else h.prev b := by
  simp [Heap.cJSON_New_Item, Function.update_apply]

@[simp] theorem Heap.new_child (h : Heap) (b : Nat) :
    (h.cJSON_New_Item).1.child b = if b = h.top then 0 else h.child b := by
  simp [Heap.cJSON_New_Item, Function.update_apply]

@[simp] theorem Heap.new_top (h : Heap) : (h.cJSON_New_Item).1.top = h.top + 1 := rfl

@[simp] theorem Heap.new_addr (h : Heap) : (h.cJSON_New_Item).2 = h.top := rfl

theorem Heap.same_links_refl (h : Heap) : h.same_links h := ⟨rfl, rfl, rfl, rfl⟩

theorem Heap.linked_of_same (h k : Heap) (e : h.same_links k) (hl : h.linked) : k.linked := by
  obtain ⟨e1, e2, e3, e4⟩ := e
  unfold Heap.linked Heap.live at *
  rw [e1, e2, e3, e4]
  exact hl

theorem Heap.live_mono (h k : Heap) (a : Nat) (ht : h.top ≤ k.top) (ha : h.live a) :
    k.live a := ⟨ha.1, lt_of_lt_of_le ha.2 ht⟩

theorem Heap.keeps_refl (h : Heap) (nx ch : Nat) : h.keeps h nx ch :=
  ⟨le_refl _, fun _ _ => ⟨rfl, fun _ => rfl, fun _ => rfl, Or.inl rfl⟩,
    fun _ h1 h2 => absurd h1.2 (not_lt.mpr h2)⟩

theorem Heap.keeps_trans (h k m : Heap) (nx ch nx2 ch2 : Nat) (h1 : h.keeps k nx ch)
    (h2 : k.keeps m nx2 ch2) (hn : nx2 = nx ∨ nx2 = 0 ∨ h.top ≤ nx2)
    (hc : ch2 = ch ∨ ch2 = 0 ∨ h.top ≤ ch2) : h.keeps m nx ch := by
  obtain ⟨t1, f1, g1⟩ := h1
  obtain ⟨t2, f2, g2⟩ := h2
  refine ⟨le_trans t1 t2, fun a ha => ?_, fun a ha hb => ?_⟩
  · obtain ⟨p1, n1, c1, d1⟩ := f1 a ha
    obtain ⟨p2, n2, c2, d2⟩ := f2 a ⟨ha.1, lt_of_lt_of_le ha.2 t1⟩
    have ha0 := ha.1
    have ha1 := ha.2
    refine ⟨by rw [p2, p1], fun hne => ?_, fun hne => ?_, ?_⟩
    · rw [n2 (by omega), n1 hne]
    · rw [c2 (by omega), c1 hne]
    · rcases d2 with d2 | d2
      · rw [d2]; exact d1
      · exact Or.inr (by omega)
  · by_cases hk : a < k.top
    · obtain ⟨_, _, _, d2⟩ := f2 a ⟨ha.1, hk⟩
      rcases d2 with d2 | d2
      · rw [d2]; exact g1 a ⟨ha.1, hk⟩ hb
      · exact Or.inr (by omega)
    · rcases g2 a ha (by omega) with d | d
      · exact Or.inl d
      · exact Or.inr (by omega)

theorem Heap.keeps_of_same (h k : Heap) (nx ch : Nat) (e : h.same_links k) :
    h.keeps k nx ch := by
  obtain ⟨e1, e2, e3, e4⟩ := e
  exact ⟨by omega, fun a _ => ⟨by rw [e2], fun _ => by rw [e1], fun _ => by rw [e3],
    Or.inl (by rw [e3])⟩, fun a h1 h2 => absurd h1.2 (by omega)⟩

theorem Heap.keeps_new (h : Heap) (nx ch : Nat) : h.keeps (h.cJSON_New_Item).1 nx ch := by
  refine ⟨by simp, fun a ha => ?_, fun a h1 h2 => ?_⟩
  · have := ha.2
    have e : a ≠ h.top := by omega
    simp only [Heap.new_next, Heap.new_prev, Heap.new_child, if_neg e]
    exact ⟨trivial, fun _ => trivial, fun _ => trivial, Or.inl trivial⟩
  · have h3 := h1.2
    simp only [Heap.new_top] at h3
    have e : a = h.top := by omega
    simp [e]

theorem Heap.keeps_first (h : Heap) (item : Nat) (hi : h.live item) :
    h.keeps ((h.cJSON_New_Item).1.setChild item h.top) 0 item := by
  have hi2 := hi.2
  refine ⟨by simp, fun a ha => ?_, fun a h1 h2 => ?_⟩
  · have := ha.2
    have e : a ≠ h.top := by omega
    simp only [Heap.setChild_next, Heap.setChild_prev, Heap.setChild_child, Heap.new_next,
      Heap.new_prev, Heap.new_child, if_neg e]
    refine ⟨trivial, fun _ => trivial, fun hne => by rw [if_neg hne], ?_⟩
    by_cases e2 : a = item
    · rw [if_pos e2]; exact Or.inr (le_refl _)
    · rw [if_neg e2]; exact Or.inl rfl
  · have h3 := h1.2
    simp only [Heap.setChild_top, Heap.new_top] at h3
    have e : a = h.top := by omega
    have e2 : h.top ≠ item := by omega
    simp [e2, e]

theorem Heap.keeps_link_new (h : Heap) (p ch : Nat) :
    h.keeps (((h.cJSON_New_Item).1.setNext p h.top).setPrev h.top p) p ch := by
  refine ⟨by simp, fun a ha => ?_, fun a h1 h2 => ?_⟩
  · have := ha.2
    have e : a ≠ h.top := by omega
    simp only [Heap.setPrev_next, Heap.setPrev_prev, Heap.setPrev_child, Heap.setNext_next,
      Heap.setNext_prev, Heap.setNext_child, Heap.new_next, Heap.new_prev, Heap.new_child,
      if_neg e]
    exact ⟨trivial, fun hne => by rw [if_neg hne], fun _ => trivial, Or.inl trivial⟩
  · have h3 := h1.2
    simp only [Heap.setPrev_top, Heap.setNext_top, Heap.new_top] at h3
    have e : a = h.top := by omega
    simp [e]

/-- `cJSON_New_Item` keeps the heap well linked; the new node has no link and
no node links to it. -/
theorem Heap.linked_new (h : Heap) (hl : h.linked) :
    (h.cJSON_New_Item).1.linked ∧ (h.cJSON_New_Item).1.stand_alone h.top ∧
      (∀ a, (h.cJSON_New_Item).1.live a → (h.cJSON_New_Item).1.next a ≠ h.top) ∧
      (h.cJSON_New_Item).1.child h.top = 0 := by
  obtain ⟨ht, hl⟩ := hl
  have key : ∀ a, a ≠ 0 → a < h.top + 1 → a ≠ h.top → h.live a := fun a h0 h1 h2 =>
    ⟨h0, by omega⟩
  refine ⟨⟨by simp, fun a ha => ?_⟩, ⟨⟨by omega, by simp⟩, by simp, by simp, fun c hc => ?_⟩,
    fun a ha => ?_, by simp⟩
  · obtain ⟨ha0, ha1⟩ := ha
    simp only [Heap.new_top] at ha1
    by_cases e : a = h.top
    · subst e; simp
    · obtain ⟨x, y, z⟩ := hl a (key a ha0 ha1 e)
      simp only [Heap.new_next, Heap.new_prev, Heap.new_child, if_neg e, Heap.live,
        Heap.new_top]
      refine ⟨?_, ?_, ?_⟩
      · rcases x with x | ⟨⟨x0, x1⟩, x2⟩
        · exact Or.inl x
        · exact Or.inr ⟨⟨x0, by omega⟩, by rw [if_neg (by omega)]; exact x2⟩
      · rcases y with y | ⟨⟨y0, y1⟩, y2⟩
        · exact Or.inl y
        · exact Or.inr ⟨⟨y0, by omega⟩, by rw [if_neg (by omega)]; exact y2⟩
      · rcases z with z | ⟨⟨z0, z1⟩, z2⟩
        · exact Or.inl z
        · exact Or.inr ⟨⟨z0, by omega⟩, by rw [if_neg (by omega)]; exact z2⟩
  · obtain ⟨hc0, hc1⟩ := hc
    simp only [Heap.new_top] at hc1
    simp only [Heap.new_child]
    by_cases e : c = h.top
    · rw [if_pos e]; omega
    · rw [if_neg e]
      rcases (hl c (key c hc0 hc1 e)).2.2 with z | ⟨⟨_, z1⟩, _⟩ <;> omega
  · obtain ⟨ha0, ha1⟩ := ha
    simp only [Heap.new_top] at ha1
    simp only [Heap.new_next]
    by_cases e : a = h.top
    · rw [if_pos e]; omega
    · rw [if_neg e]
      rcases (hl a (key a ha0 ha1 e)).1 with z | ⟨⟨_, z1⟩, _⟩ <;> omega

/-- Linking a stand-alone item after a node without next sibling,
`p->next=i; i->prev=p`, keeps the heap well linked. -/
theorem Heap.linked_link (h : Heap) (p i : Nat) (hl : h.linked) (hp : h.live p)
    (hpn : h.next p = 0) (hi : h.live i) (hip : h.prev i = 0)
    (hic : ∀ c, h.live c → h.child c ≠ i) :
    ((h.setNext p i).setPrev i p).linked := by
  obtain ⟨ht, hl⟩ := hl
  refine ⟨ht, fun a ha => ?_⟩
  have ha' : h.live a := ha
  obtain ⟨x, y, z⟩ := hl a ha'
  simp only [Heap.setPrev_next, Heap.setPrev_prev, Heap.setPrev_child, Heap.setNext_next,
    Heap.setNext_prev, Heap.setNext_child]
  refine ⟨?_, ?_, ?_⟩
  · by_cases e : a = p
    · subst e
      rw [if_pos rfl]
      exact Or.inr ⟨hi, by simp⟩
    · rw [if_neg e]
      rcases x with x | ⟨x1, x2⟩
      · exact Or.inl x
      · refine Or.inr ⟨x1, ?_⟩
        by_cases e2 : h.next a = i
        · rw [e2] at x2; rw [hip] at x2; exact absurd x2.symm ha'.1
        · rw [if_neg e2]; exact x2
  · by_cases e : a = i
    · subst e
      rw [if_pos rfl]
      exact Or.inr ⟨hp, by simp⟩
    · rw [if_neg e]
      rcases y with y | ⟨y1, y2⟩
      · exact Or.inl y
      · refine Or.inr ⟨y1, ?_⟩
        by_cases e2 : h.prev a = p
        · rw [e2] at y2; rw [hpn] at y2; exact absurd y2.symm ha'.1
        · rw [if_neg e2]; exact y2
  · rcases z with z | ⟨z1, z2⟩
    · exact Or.inl z
    · refine Or.inr ⟨z1, ?_⟩
      rw [if_neg (hic a ha')]
      exact z2

/-- Making a node without previous sibling the child of a node keeps the heap
well linked. -/
theorem Heap.linked_child (h : Heap) (c i : Nat) (hl : h.linked)
    (hi : i = 0 ∨ (h.live i ∧ h.prev i = 0)) : (h.setChild c i).linked := by
  obtain ⟨ht, hl⟩ := hl
  refine ⟨ht, fun a ha => ?_⟩
  have ha' : h.live a := ha
  obtain ⟨x, y, z⟩ := hl a ha'
  simp only [Heap.setChild_next, Heap.setChild_prev, Heap.setChild_child]
  refine ⟨x, y, ?_⟩
  by_cases e : a = c
  · rw [if_pos e]; exact hi
  · rw [if_neg e]; exact z

theorem Heap.parse_string_same (h : Heap) (item : Nat) (str : List Nat) (k : Heap) (it : Nat)
    (rest : List Nat) (e : h.parse_string item str = .ok k it rest) :
    h.same_links k ∧ it = item := by
  unfold Heap.parse_string at e
  split_ifs at e
  cases h1 : parse_string_len false str.tail 0 with
  | none => simp [h1] at e
  | some len =>
    cases h2 : parse_string_copy .scan str.tail with
    | none => simp [h1, h2] at e
    | some r =>
      simp only [h1, h2] at e
      split_ifs at e <;>
      · injection e with e1 e2 e3
        subst e1
        exact ⟨⟨rfl, rfl, rfl, rfl⟩, e2.symm⟩

theorem Heap.parse_number_same (h : Heap) (item : Nat) (num : List Nat) :
    h.same_links (h.parse_number item num).1 := ⟨rfl, rfl, rfl, rfl⟩

/-- The parser functions keep the heap well linked.  `parse_value` and the
functions it calls for a container leave the links of the nodes there before
as they were, but for the `child` of `item`; the loops but for the `next` of
the last node of the chain. -/
theorem Heap.parse_linked (fuel : Nat) :
    (∀ h item v k it rest, h.linked → h.live item →
      Heap.parse_value fuel h item v = .ok k it rest →
      k.linked ∧ it = item ∧ h.keeps k 0 item) ∧
    (∀ h item v k it rest, h.linked → h.live item →
      Heap.parse_array fuel h item v = .ok k it rest →
      k.linked ∧ it = item ∧ h.keeps k 0 item) ∧
    (∀ h child v k it rest, h.linked → h.live child → h.next child = 0 →
      Heap.parse_array_loop fuel h child v = .ok k it rest →
      k.linked ∧ h.keeps k child 0) ∧
    (∀ h item v k it rest, h.linked → h.live item →
      Heap.parse_member fuel h item v = .ok k it rest →
      k.linked ∧ it = item ∧ h.keeps k 0 item) ∧
    (∀ h item v k it rest, h.linked → h.live item →
      Heap.parse_object fuel h item v = .ok k it rest →
      k.linked ∧ it = item ∧ h.keeps k 0 item) ∧
    (∀ h child v k it rest, h.linked → h.live child → h.next child = 0 →
      Heap.parse_object_loop fuel h child v = .ok k it rest →
      k.linked ∧ h.keeps k child 0) := by
  induction fuel with
  | zero =>
    refine ⟨?_, ?_, ?_, ?_, ?_, ?_⟩ <;> intros <;>
      simp_all [Heap.parse_value, Heap.parse_array, Heap.parse_array_loop, Heap.parse_member,
        Heap.parse_object, Heap.parse_object_loop]
  | succ f ih =>
    obtain ⟨ihv, iha, ihl, ihm, iho, ihol⟩ := ih
    -- the first node of a chain: `item->child=child=cJSON_New_Item()`
    have first : ∀ (h : Heap) (item : Nat), h.linked → h.live item →
        ((h.cJSON_New_Item).1.setChild item h.top).linked ∧
        ((h.cJSON_New_Item).1.setChild item h.top).live h.top ∧
        ((h.cJSON_New_Item).1.setChild item h.top).next h.top = 0 ∧
        h.keeps ((h.cJSON_New_Item).1.setChild item h.top) 0 item := by
      intro h item hl hi
      obtain ⟨n1, n2, n3, n4⟩ := h.linked_new hl
      exact ⟨Heap.linked_child _ _ _ n1 (Or.inr ⟨n2.1, n2.2.2.1⟩), n2.1, n2.2.1,
        h.keeps_first item hi⟩
    -- one more node: `child->next=new_item; new_item->prev=child`
    have more : ∀ (h : Heap) (child : Nat), h.linked → h.live child → h.next child = 0 →
        (((h.cJSON_New_Item).1.setNext child h.top).setPrev h.top child).linked ∧
        (((h.cJSON_New_Item).1.setNext child h.top).setPrev h.top child).live h.top ∧
        (((h.cJSON_New_Item).1.setNext child h.top).setPrev h.top child).next h.top = 0 := by
      intro h child hl hc hn
      obtain ⟨n1, n2, n3, n4⟩ := h.linked_new hl
      have hc1 := hc.1
      have hc2 := hc.2
      have hne : child ≠ h.top := by omega
      refine ⟨Heap.linked_link _ _ _ n1 (Heap.live_mono h _ _ (by simp) hc) ?_ n2.1 n2.2.2.1
        n2.2.2.2, n2.1, ?_⟩
      · simp [hne, hn]
      · simp [hne.symm]
    refine ⟨?_, ?_, ?_, ?_, ?_, ?_⟩
    · intro h item v k it rest hl hi e
      rw [Heap.parse_value] at e
      split_ifs at e with h1 h2 h3 h4 h5 h6 h7
      · injection e with e1 e2 e3
        subst e1
        exact ⟨hl, e2.symm, h.keeps_refl 0 item⟩
      · injection e with e1 e2 e3
        subst e1
        exact ⟨hl, e2.symm, h.keeps_refl 0 item⟩
      · injection e with e1 e2 e3
        subst e1
        exact ⟨hl, e2.symm, h.keeps_refl 0 item⟩
      · obtain ⟨s1, s2⟩ := Heap.parse_string_same _ _ _ _ _ _ e
        exact ⟨Heap.linked_of_same _ _ s1 hl, s2, Heap.keeps_of_same _ _ _ _ s1⟩
      · injection e with e1 e2 e3
        subst e1
        exact ⟨hl, e2.symm, h.keeps_refl 0 item⟩
      · exact iha _ _ _ _ _ _ hl hi e
      · exact iho _ _ _ _ _ _ hl hi e
    · intro h item v k it rest hl hi e
      rw [Heap.parse_array] at e
      split_ifs at e with h1 h2
      · injection e with e1 e2 e3
        subst e1
        exact ⟨hl, e2.symm, h.keeps_refl 0 item⟩
      · simp only [Heap.new_addr] at e
        have hl0 : (h.setType item cJSON_Array).linked := hl
        obtain ⟨f1, f2, f3, f4⟩ := first (h.setType item cJSON_Array) item hl0 hi
        cases hv : Heap.parse_value f
            (((h.setType item cJSON_Array).cJSON_New_Item).1.setChild item
              (h.setType item cJSON_Array).top)
            (h.setType item cJSON_Array).top (skip (skip v.tail)) with
        | ok h1 child v1 =>
          rw [hv] at e
          simp only at e
          obtain ⟨g1, g2, g3⟩ := ihv _ _ _ _ _ _ f1 f2 hv
          subst g2
          have gl : h1.live (h.setType item cJSON_Array).top := Heap.live_mono _ _ _ g3.1 f2
          have gn : h1.next (h.setType item cJSON_Array).top = 0 := by
            rw [(g3.2.1 _ f2).2.1 f2.1]; exact f3
          cases hw : Heap.parse_array_loop f h1 (h.setType item cJSON_Array).top (skip v1) with
          | ok h2 c2 rest2 =>
            rw [hw] at e
            simp only at e
            injection e with e1 e2 e3
            subst e1
            obtain ⟨k1, k2⟩ := ihl _ _ _ _ _ _ g1 gl gn hw
            refine ⟨k1, e2.symm, ?_⟩
            have a1 : h.keeps h1 0 item :=
              Heap.keeps_trans h _ h1 0 item 0 _ f4 g3 (Or.inl rfl) (Or.inr (Or.inr (le_refl _)))
            exact Heap.keeps_trans h h1 h2 0 item _ 0 a1 k2 (Or.inr (Or.inr (le_refl _)))
              (Or.inr (Or.inl rfl))
          | fail _ => rw [hw] at e; simp at e
          | overrun => rw [hw] at e; simp at e
          | nofuel => rw [hw] at e; simp at e
        | fail _ => rw [hv] at e; simp at e
        | overrun => rw [hv] at e; simp at e
        | nofuel => rw [hv] at e; simp at e
    · intro h child v k it rest hl hc hn e
      rw [Heap.parse_array_loop] at e
      split_ifs at e with h1 h2
      · simp only [Heap.new_addr] at e
        obtain ⟨f1, f2, f3⟩ := more h child hl hc hn
        cases hv : Heap.parse_value f
            (((h.cJSON_New_Item).1.setNext child h.top).setPrev h.top child) h.top
            (skip v.tail) with
        | ok h1 c1 v1 =>
          rw [hv] at e
          simp only at e
          obtain ⟨g1, g2, g3⟩ := ihv _ _ _ _ _ _ f1 f2 hv
          subst g2
          have gl : h1.live h.top := Heap.live_mono _ _ _ g3.1 f2
          have gn : h1.next h.top = 0 := by rw [(g3.2.1 _ f2).2.1 f2.1]; exact f3
          obtain ⟨k1, k2⟩ := ihl _ _ _ _ _ _ g1 gl gn e
          refine ⟨k1, ?_⟩
          have a1 : h.keeps h1 child 0 :=
            Heap.keeps_trans h _ h1 child 0 0 _ (h.keeps_link_new child 0) g3
              (Or.inr (Or.inl rfl)) (Or.inr (Or.inr (le_refl _)))
          exact Heap.keeps_trans h h1 k child 0 _ 0 a1 k2 (Or.inr (Or.inr (le_refl _)))
            (Or.inl rfl)
        | fail _ => rw [hv] at e; simp at e
        | overrun => rw [hv] at e; simp at e
        | nofuel => rw [hv] at e; simp at e
      · injection e with e1 e2 e3
        subst e1
        exact ⟨hl, h.keeps_refl child 0⟩
    · intro h item v k it rest hl hi e
      rw [Heap.parse_member] at e
      cases hs : h.parse_string item (skip v) with
      | ok h1 c1 v1 =>
        rw [hs] at e
        simp only at e
        split_ifs at e with hcolon
        obtain ⟨s1, s2⟩ := Heap.parse_string_same _ _ _ _ _ _ hs
        have s3 : h.same_links
            ((h1.setString item (h1.valuestring item)).setValuestring item none) := s1
        have hi2 : ((h1.setString item (h1.valuestring item)).setValuestring item none).live
            item := ⟨hi.1, by rw [s3.2.2.2]; exact hi.2⟩
        obtain ⟨g1, g2, g3⟩ := ihv _ _ _ _ _ _ (Heap.linked_of_same _ _ s3 hl) hi2 e
        exact ⟨g1, g2, Heap.keeps_trans h _ k 0 item 0 item (Heap.keeps_of_same _ _ _ _ s3) g3
          (Or.inl rfl) (Or.inl rfl)⟩
      | fail _ => rw [hs] at e; simp at e
      | overrun => rw [hs] at e; simp at e
      | nofuel => rw [hs] at e; simp at e
    · intro h item v k it rest hl hi e
      rw [Heap.parse_object] at e
      split_ifs at e with h1 h2
      · injection e with e1 e2 e3
        subst e1
        exact ⟨hl, e2.symm, h.keeps_refl 0 item⟩
      · simp only [Heap.new_addr] at e
        have hl0 : (h.setType item cJSON_Object).linked := hl
        obtain ⟨f1, f2, f3, f4⟩ := first (h.setType item cJSON_Object) item hl0 hi
        cases hv : Heap.parse_member f
            (((h.setType item cJSON_Object).cJSON_New_Item).1.setChild item
              (h.setType item cJSON_Object).top)
            (h.setType item cJSON_Object).top (skip v.tail) with
        | ok h1 child v1 =>
          rw [hv] at e
          simp only at e
          obtain ⟨g1, g2, g3⟩ := ihm _ _ _ _ _ _ f1 f2 hv
          subst g2
          have gl : h1.live (h.setType item cJSON_Object).top := Heap.live_mono _ _ _ g3.1 f2
          have gn : h1.next (h.setType item cJSON_Object).top = 0 := by
            rw [(g3.2.1 _ f2).2.1 f2.1]; exact f3
          cases hw : Heap.parse_object_loop f h1 (h.setType item cJSON_Object).top (skip v1) with
          | ok h2 c2 rest2 =>
            rw [hw] at e
            simp only at e
            injection e with e1 e2 e3
            subst e1
            obtain ⟨k1, k2⟩ := ihol _ _ _ _ _ _ g1 gl gn hw
            refine ⟨k1, e2.symm, ?_⟩
            have a1 : h.keeps h1 0 item :=
              Heap.keeps_trans h _ h1 0 item 0 _ f4 g3 (Or.inl rfl) (Or.inr (Or.inr (le_refl _)))
            exact Heap.keeps_trans h h1 h2 0 item _ 0 a1 k2 (Or.inr (Or.inr (le_refl _)))
              (Or.inr (Or.inl rfl))
          | fail _ => rw [hw] at e; simp at e
          | overrun => rw [hw] at e; simp at e
          | nofuel => rw [hw] at e; simp at e
        | fail _ => rw [hv] at e; simp at e
        | overrun => rw [hv] at e; simp at e
        | nofuel => rw [hv] at e; simp at e
    · intro h child v k it rest hl hc hn e
      rw [Heap.parse_object_loop] at e
      split_ifs at e with h1 h2
      · simp only [Heap.new_addr] at e
        obtain ⟨f1, f2, f3⟩ := more h child hl hc hn
        cases hv : Heap.parse_member f
            (((h.cJSON_New_Item).1.setNext child h.top).setPrev h.top child) h.top
            v.tail with
        | ok h1 c1 v1 =>
          rw [hv] at e
          simp only at e
          obtain ⟨g1, g2, g3⟩ := ihm _ _ _ _ _ _ f1 f2 hv
          subst g2
          have gl : h1.live h.top := Heap.live_mono _ _ _ g3.1 f2
          have gn : h1.next h.top = 0 := by rw [(g3.2.1 _ f2).2.1 f2.1]; exact f3
          obtain ⟨k1, k2⟩ := ihol _ _ _ _ _ _ g1 gl gn e
          refine ⟨k1, ?_⟩
          have a1 : h.keeps h1 child 0 :=
            Heap.keeps_trans h _ h1 child 0 0 _ (h.keeps_link_new child 0) g3
              (Or.inr (Or.inl rfl)) (Or.inr (Or.inr (le_refl _)))
          exact Heap.keeps_trans h h1 k child 0 _ 0 a1 k2 (Or.inr (Or.inr (le_refl _)))
            (Or.inl rfl)
        | fail _ => rw [hv] at e; simp at e
        | overrun => rw [hv] at e; simp at e
        | nofuel => rw [hv] at e; simp at e
      · injection e with e1 e2 e3
        subst e1
        exact ⟨hl, h.keeps_refl child 0⟩

/-- `cJSON_ParseWithOpts` keeps the heap well linked; the node it returns is
stand-alone, and the nodes there before keep their links. -/
theorem Heap.parse_top_linked (h : Heap) (v : List Nat) (req : Bool) (k : Heap) (c : Nat)
    (rest : List Nat) (hl : h.linked) (e : h.cJSON_ParseWithOpts v req = .ok k c rest) :
    k.linked ∧ c = h.top ∧ k.stand_alone c ∧ h.keeps k 0 0 := by
  obtain ⟨n1, n2, n3, n4⟩ := h.linked_new hl
  have inner : ∀ k2 c2 r2, Heap.parse_value (fuel_for v) (h.cJSON_New_Item).1 h.top (skip v) =
      .ok k2 c2 r2 → k2.linked ∧ c2 = h.top ∧ k2.stand_alone c2 ∧ h.keeps k2 0 0 := by
    intro k2 c2 r2 e2
    obtain ⟨g1, g2, g3⟩ := (Heap.parse_linked (fuel_for v)).1 _ _ _ _ _ _ n1 n2.1 e2
    subst g2
    obtain ⟨p1, p2, p3, p4⟩ := g3.2.1 _ n2.1
    have ht := g3.1
    simp only [Heap.new_top] at ht
    refine ⟨g1, rfl, ⟨Heap.live_mono _ _ _ g3.1 n2.1, ?_, ?_, ?_⟩, ?_⟩
    · rw [p2 n2.1.1]; exact n2.2.1
    · rw [p1]; exact n2.2.2.1
    · intro x hx
      by_cases hx1 : x < h.top + 1
      · have hx2 : (h.cJSON_New_Item).1.live x := ⟨hx.1, hx1⟩
        obtain ⟨_, _, q3, q4⟩ := g3.2.1 x hx2
        by_cases e3 : x = h.top
        · subst e3
          rcases q4 with q4 | q4
          · rw [q4, n4]; exact fun e4 => n2.1.1 e4.symm
          · simp only [Heap.new_top] at q4; omega
        · rw [q3 e3]
          exact n2.2.2.2 x hx2
      · rcases g3.2.2 x hx (by simp only [Heap.new_top]; omega) with q | q
        · rw [q]; exact fun e4 => n2.1.1 e4.symm
        · simp only [Heap.new_top] at q; omega
    · exact Heap.keeps_trans h _ k2 0 0 0 h.top (h.keeps_new 0 0) g3 (Or.inl rfl)
        (Or.inr (Or.inr (le_refl _)))
  unfold Heap.cJSON_ParseWithOpts at e
  simp only [Heap.new_addr] at e
  cases hv : Heap.parse_value (fuel_for v) (h.cJSON_New_Item).1 h.top (skip v) with
  | ok k2 c2 r2 =>
    rw [hv] at e
    simp only at e
    have := inner _ _ _ hv
    split_ifs at e <;>
    · injection e with e1 e2 e3
      subst e1
      subst e2
      exact this
  | fail _ => rw [hv] at e; simp at e
  | overrun => rw [hv] at e; simp at e
  | nofuel => rw [hv] at e; simp at e

theorem trace_ok (r : HParsed) (q : Parsed) (e : r.trace = q.trace) (k : Heap) (it : Nat)
    (rest : List Nat) (hr : r = .ok k it rest) : ∃ node, q = .ok node rest := by
  subst hr
  cases q <;> simp [HParsed.trace, Parsed.trace] at e
  exact ⟨_, by rw [e]⟩

theorem trace_fail (r : HParsed) (q : Parsed) (e : r.trace = q.trace) (ep : List Nat)
    (hr : r = .fail ep) : q = .fail ep := by
  subst hr
  cases q <;> simp [HParsed.trace, Parsed.trace] at e
  rw [e]

theorem trace_overrun (r : HParsed) (q : Parsed) (e : r.trace = q.trace)
    (hr : r = .overrun) : q = .overrun := by
  subst hr
  cases q <;> simp [HParsed.trace, Parsed.trace] at e
  rfl

theorem trace_nofuel (r : HParsed) (q : Parsed) (e : r.trace = q.trace)
    (hr : r = .nofuel) : q = .nofuel := by
  subst hr
  cases q <;> simp [HParsed.trace, Parsed.trace] at e
  rfl

theorem Heap.parse_string_trace (h : Heap) (item : Nat) (node : cJSON) (str : List Nat) :
    (h.parse_string item str).trace = (CJSON.parse_string node str).trace := by
  unfold Heap.parse_string CJSON.parse_string
  split_ifs
  · rfl
  · cases parse_string_len false str.tail 0 with
    | none => rfl
    | some len =>
      cases parse_string_copy .scan str.tail with
      | none => rfl
      | some r =>
        simp only
        split_ifs <;> rfl

/-- The parser on the heap and the parser on values return alike: the same
pointer, the same error pointer, an overrun or no fuel together. -/
theorem Heap.parse_trace (fuel : Nat) :
    (∀ h item node v,
      (Heap.parse_value fuel h item v).trace = (CJSON.parse_value fuel node v).trace) ∧
    (∀ h item node v,
      (Heap.parse_array fuel h item v).trace = (CJSON.parse_array fuel node v).trace) ∧
    (∀ h child v,
      (Heap.parse_array_loop fuel h child v).trace = (CJSON.parse_array_loop fuel v).trace) ∧
    (∀ h child v,
      (Heap.parse_member fuel h child v).trace = (CJSON.parse_member fuel v).trace) ∧
    (∀ h item node v,
      (Heap.parse_object fuel h item v).trace = (CJSON.parse_object fuel node v).trace) ∧
    (∀ h child v,
      (Heap.parse_object_loop fuel h child v).trace =
        (CJSON.parse_object_loop fuel v).trace) := by
  induction fuel with
  | zero =>
    refine ⟨?_, ?_, ?_, ?_, ?_, ?_⟩ <;> intros <;>
      simp [Heap.parse_value, Heap.parse_array, Heap.parse_array_loop, Heap.parse_member,
        Heap.parse_object, Heap.parse_object_loop, CJSON.parse_value, CJSON.parse_array,
        CJSON.parse_array_loop, CJSON.parse_member, CJSON.parse_object,
        CJSON.parse_object_loop, HParsed.trace, Parsed.trace]
  | succ f ih =>
    obtain ⟨ihv, iha, ihl, ihm, iho, ihol⟩ := ih
    refine ⟨?_, ?_, ?_, ?_, ?_, ?_⟩
    · intro h item node v
      rw [Heap.parse_value, CJSON.parse_value]
      split_ifs
      · rfl
      · rfl
      · rfl
      · exact Heap.parse_string_trace _ _ _ _
      · rfl
      · exact iha _ _ _ _
      · exact iho _ _ _ _
      · rfl
    · intro h item node v
      rw [Heap.parse_array, CJSON.parse_array]
      split_ifs
      · rfl
      · rfl
      · have e1 := ihv
          (((h.setType item cJSON_Array).cJSON_New_Item).1.setChild item
            ((h.setType item cJSON_Array).cJSON_New_Item).2)
          ((h.setType item cJSON_Array).cJSON_New_Item).2 CJSON.cJSON_New_Item (skip (skip v.tail))
        cases hv : Heap.parse_value f
            (((h.setType item cJSON_Array).cJSON_New_Item).1.setChild item
              ((h.setType item cJSON_Array).cJSON_New_Item).2)
            ((h.setType item cJSON_Array).cJSON_New_Item).2 (skip (skip v.tail)) with
        | ok h1 child v1 =>
          obtain ⟨n1, hq⟩ := trace_ok _ _ e1 _ _ _ hv
          rw [hq]
          simp only
          have e2 := ihl h1 child (skip v1)
          cases hw : Heap.parse_array_loop f h1 child (skip v1) with
          | ok h2 c2 rest2 =>
            obtain ⟨n2, hq2⟩ := trace_ok _ _ e2 _ _ _ hw
            rw [hq2]
            rfl
          | fail ep => rw [trace_fail _ _ e2 _ hw]; rfl
          | overrun => rw [trace_overrun _ _ e2 hw]; rfl
          | nofuel => rw [trace_nofuel _ _ e2 hw]; rfl
        | fail ep => rw [trace_fail _ _ e1 _ hv]; rfl
        | overrun => rw [trace_overrun _ _ e1 hv]; rfl
        | nofuel => rw [trace_nofuel _ _ e1 hv]; rfl
    · intro h child v
      rw [Heap.parse_array_loop, CJSON.parse_array_loop]
      split_ifs
      · have e1 := ihv
          (((h.cJSON_New_Item).1.setNext child (h.cJSON_New_Item).2).setPrev
            (h.cJSON_New_Item).2 child)
          (h.cJSON_New_Item).2 CJSON.cJSON_New_Item (skip v.tail)
        cases hv : Heap.parse_value f
            (((h.cJSON_New_Item).1.setNext child (h.cJSON_New_Item).2).setPrev
              (h.cJSON_New_Item).2 child)
            (h.cJSON_New_Item).2 (skip v.tail) with
        | ok h1 c1 v1 =>
          obtain ⟨n1, hq⟩ := trace_ok _ _ e1 _ _ _ hv
          rw [hq]
          simp only
          have e2 := ihl h1 c1 (skip v1)
          cases hw : Heap.parse_array_loop f h1 c1 (skip v1) with
          | ok h2 c2 rest2 =>
            obtain ⟨n2, hq2⟩ := trace_ok _ _ e2 _ _ _ hw
            rw [hq2]
            rfl
          | fail ep => rw [trace_fail _ _ e2 _ hw]; rfl
          | overrun => rw [trace_overrun _ _ e2 hw]; rfl
          | nofuel => rw [trace_nofuel _ _ e2 hw]; rfl
        | fail ep => rw [trace_fail _ _ e1 _ hv]; rfl
        | overrun => rw [trace_overrun _ _ e1 hv]; rfl
        | nofuel => rw [trace_nofuel _ _ e1 hv]; rfl
      · rfl
      · rfl
    · intro h child v
      rw [Heap.parse_member, CJSON.parse_member]
      have e1 := Heap.parse_string_trace h child CJSON.cJSON_New_Item (skip v)
      cases hs : h.parse_string child (skip v) with
      | ok h1 c1 v1 =>
        obtain ⟨n1, hq⟩ := trace_ok _ _ e1 _ _ _ hs
        rw [hq]
        simp only
        split_ifs
        · rfl
        · exact ihv _ _ _ _
      | fail ep => rw [trace_fail _ _ e1 _ hs]; rfl
      | overrun => rw [trace_overrun _ _ e1 hs]; rfl
      | nofuel => rw [trace_nofuel _ _ e1 hs]; rfl
    · intro h item node v
      rw [Heap.parse_object, CJSON.parse_object]
      split_ifs
      · rfl
      · rfl
      · have e1 := ihm
          (((h.setType item cJSON_Object).cJSON_New_Item).1.setChild item
            ((h.setType item cJSON_Object).cJSON_New_Item).2)
          ((h.setType item cJSON_Object).cJSON_New_Item).2 (skip v.tail)
        cases hv : Heap.parse_member f
            (((h.setType item cJSON_Object).cJSON_New_Item).1.setChild item
              ((h.setType item cJSON_Object).cJSON_New_Item).2)
            ((h.setType item cJSON_Object).cJSON_New_Item).2 (skip v.tail) with
        | ok h1 child v1 =>
          obtain ⟨n1, hq⟩ := trace_ok _ _ e1 _ _ _ hv
          rw [hq]
          simp only
          have e2 := ihol h1 child (skip v1)
          cases hw : Heap.parse_object_loop f h1 child (skip v1) with
          | ok h2 c2 rest2 =>
            obtain ⟨n2, hq2⟩ := trace_ok _ _ e2 _ _ _ hw
            rw [hq2]
            rfl
          | fail ep => rw [trace_fail _ _ e2 _ hw]; rfl
          | overrun => rw [trace_overrun _ _ e2 hw]; rfl
          | nofuel => rw [trace_nofuel _ _ e2 hw]; rfl
        | fail ep => rw [trace_fail _ _ e1 _ hv]; rfl
        | overrun => rw [trace_overrun _ _ e1 hv]; rfl
        | nofuel => rw [trace_nofuel _ _ e1 hv]; rfl
    · intro h child v
      rw [Heap.parse_object_loop, CJSON.parse_object_loop]
      split_ifs
      · have e1 := ihm
          (((h.cJSON_New_Item).1.setNext child (h.cJSON_New_Item).2).setPrev
            (h.cJSON_New_Item).2 child)
          (h.cJSON_New_Item).2 v.tail
        cases hv : Heap.parse_member f
            (((h.cJSON_New_Item).1.setNext child (h.cJSON_New_Item).2).setPrev
              (h.cJSON_New_Item).2 child)
            (h.cJSON_New_Item).2 v.tail with
        | ok h1 c1 v1 =>
          obtain ⟨n1, hq⟩ := trace_ok _ _ e1 _ _ _ hv
          rw [hq]
          simp only
          have e2 := ihol h1 c1 (skip v1)
          cases hw : Heap.parse_object_loop f h1 c1 (skip v1) with
          | ok h2 c2 rest2 =>
            obtain ⟨n2, hq2⟩ := trace_ok _ _ e2 _ _ _ hw
            rw [hq2]
            rfl
          | fail ep => rw [trace_fail _ _ e2 _ hw]; rfl
          | overrun => rw [trace_overrun _ _ e2 hw]; rfl
          | nofuel => rw [trace_nofuel _ _ e2 hw]; rfl
        | fail ep => rw [trace_fail _ _ e1 _ hv]; rfl
        | overrun => rw [trace_overrun _ _ e1 hv]; rfl
        | nofuel => rw [trace_nofuel _ _ e1 hv]; rfl
      · rfl
      · rfl

/-- `cJSON_ParseWithOpts` on the heap returns as `cJSON_ParseWithOpts` on
values does. -/
theorem Heap.parse_top_trace (h : Heap) (v : List Nat) (req : Bool) :
    (h.cJSON_ParseWithOpts v req).trace = (CJSON.cJSON_ParseWithOpts v req).trace := by
  unfold Heap.cJSON_ParseWithOpts CJSON.cJSON_ParseWithOpts
  have e1 := (Heap.parse_trace (fuel_for v)).1 (h.cJSON_New_Item).1 (h.cJSON_New_Item).2
    CJSON.cJSON_New_Item (skip v)
  cases hv : Heap.parse_value (fuel_for v) (h.cJSON_New_Item).1 (h.cJSON_New_Item).2
      (skip v) with
  | ok h1 c1 v1 =>
    obtain ⟨n1, hq⟩ := trace_ok _ _ e1 _ _ _ hv
    rw [hq]
    simp only
    split_ifs <;> rfl
  | fail ep => rw [trace_fail _ _ e1 _ hv]; rfl
  | overrun => rw [trace_overrun _ _ e1 hv]; rfl
  | nofuel => rw [trace_nofuel _ _ e1 hv]; rfl

theorem Heap.walk_zero (h : Heap) (n : Nat) : h.walk n 0 = 0 := by
  cases n <;> simp [Heap.walk]

theorem Heap.walk_succ (h : Heap) (n : Nat) :
    ∀ c, h.walk (n + 1) c = if h.walk n c = 0 then 0 else h.next (h.walk n c) := by
  induction n with
  | zero => intro c; simp [Heap.walk]
  | succ n ih =>
    intro c
    rw [Heap.walk]
    by_cases e : c = 0
    · subst e; simp [Heap.walk_zero]
    · rw [if_neg e, ih (h.next c)]
      conv_rhs => rw [Heap.walk, if_neg e]

theorem Heap.walk_live (h : Heap) (hl : h.linked) (c : Nat) (hc : h.live c) (n : Nat) :
    h.walk n c = 0 ∨ h.live (h.walk n c) := by
  induction n with
  | zero => exact Or.inr hc
  | succ n ih =>
    rw [Heap.walk_succ]
    rcases ih with ih | ih
    · rw [if_pos ih]; exact Or.inl rfl
    · rw [if_neg ih.1]
      rcases (hl.2 _ ih).1 with x | ⟨x, _⟩
      · exact Or.inl x
      · exact Or.inr x

theorem Heap.walk_prev (h : Heap) (hl : h.linked) (c : Nat) (hc : h.live c) (n : Nat)
    (hn : h.walk (n + 1) c ≠ 0) :
    h.walk n c ≠ 0 ∧ h.prev (h.walk (n + 1) c) = h.walk n c := by
  rw [Heap.walk_succ] at hn ⊢
  by_cases e : h.walk n c = 0
  · rw [if_pos e] at hn; exact absurd rfl hn
  · rw [if_neg e] at hn ⊢
    refine ⟨e, ?_⟩
    rcases h.walk_live hl c hc n with x | x
    · exact absurd x e
    · rcases (hl.2 _ x).1 with y | ⟨_, y⟩
      · exact absurd y hn
      · exact y

/-- On the chain from a node without previous sibling no node comes twice. -/
theorem Heap.walk_injective (h : Heap) (hl : h.linked) (c : Nat) (hc : h.live c)
    (hp : h.prev c = 0) :
    ∀ i j, i < j → h.walk j c ≠ 0 → h.walk i c ≠ h.walk j c := by
  intro i
  induction i with
  | zero =>
    intro j hij hj e
    obtain ⟨k, rfl⟩ : ∃ k, j = k + 1 := ⟨j - 1, by omega⟩
    obtain ⟨a1, a2⟩ := h.walk_prev hl c hc k hj
    rw [← e] at a2
    simp only [Heap.walk] at a2
    rw [hp] at a2
    exact a1 a2.symm
  | succ i ih =>
    intro j hij hj e
    obtain ⟨k, rfl⟩ : ∃ k, j = k + 1 := ⟨j - 1, by omega⟩
    obtain ⟨a1, a2⟩ := h.walk_prev hl c hc k hj
    obtain ⟨b1, b2⟩ := h.walk_prev hl c hc i (by rw [e]; exact hj)
    rw [e, a2] at b2
    exact ih k (by omega) a1 b2.symm

/-- The chain from a node without previous sibling ends before `top` steps. -/
theorem Heap.walk_ends (h : Heap) (hl : h.linked) (c : Nat) (hc : h.live c)
    (hp : h.prev c = 0) : h.walk (h.top - 1) c = 0 := by
  by_contra hne
  have nz : ∀ i, i ≤ h.top - 1 → h.walk i c ≠ 0 := by
    intro i hi
    induction hi using Nat.decreasingInduction with
    | self => exact hne
    | of_succ k _ ihk =>
      intro e
      rw [Heap.walk_succ, if_pos e] at ihk
      exact ihk rfl
  have maps : ∀ i ∈ Finset.range h.top, h.walk i c ∈ Finset.Ico 1 h.top := by
    intro i hi
    rw [Finset.mem_range] at hi
    rw [Finset.mem_Ico]
    rcases h.walk_live hl c hc i with x | x
    · exact absurd x (nz i (by omega))
    · exact ⟨Nat.pos_of_ne_zero x.1, x.2⟩
  have ht := hl.1
  obtain ⟨x, hx, y, hy, hxy, e⟩ :=
    Finset.exists_ne_map_eq_of_card_lt_of_maps_to (by simp; omega) maps
  rw [Finset.mem_range] at hx hy
  rcases Nat.lt_or_gt_of_ne hxy with lt | gt
  · exact h.walk_injective hl c hc hp x y lt (nz y (by omega)) e
  · exact h.walk_injective hl c hc hp y x gt (nz x (by omega)) e.symm

theorem Heap.chain_of_walk (h : Heap) (hl : h.linked) (n : Nat) :
    ∀ c, c = 0 ∨ h.live c → h.walk n c = 0 → ∃ l, h.chain c l ∧ l.length ≤ n := by
  induction n with
  | zero =>
    intro c _ e
    exact ⟨[], by simpa [Heap.walk, Heap.chain] using e, le_refl _⟩
  | succ n ih =>
    intro c hc e
    rcases hc with hc | hc
    · exact ⟨[], by simpa [Heap.chain] using hc, by simp⟩
    · rw [Heap.walk, if_neg hc.1] at e
      have hn : h.next c = 0 ∨ h.live (h.next c) := by
        rcases (hl.2 _ hc).1 with x | ⟨x, _⟩
        · exact Or.inl x
        · exact Or.inr x
      obtain ⟨l, c1, c2⟩ := ih _ hn e
      exact ⟨c :: l, ⟨rfl, hc, c1⟩, by simp; omega⟩

/-- In a well linked heap the chain from the child of a node is a list of
fewer than `top` nodes. -/
theorem Heap.child_chain (h : Heap) (hl : h.linked) (c : Nat) (hc : h.live c) :
    ∃ l, h.chain (h.child c) l ∧ l.length < h.top := by
  have ht := hl.1
  rcases (hl.2 c hc).2.2 with x | ⟨x1, x2⟩
  · exact ⟨[], by simpa [Heap.chain] using x, by simpa using ht⟩
  · obtain ⟨l, l1, l2⟩ := h.chain_of_walk hl (h.top - 1) _ (Or.inr x1) (h.walk_ends hl _ x1 x2)
    exact ⟨l, l1, by omega⟩

theorem Heap.last_from_chain (h : Heap) (l : List Nat) :
    ∀ c fuel, h.chain c l → c ≠ 0 → l.length ≤ fuel →
      ∃ x, h.last_from fuel c = some x ∧ h.live x ∧ h.next x = 0 := by
  induction l with
  | nil => intro c fuel hc h0; exact absurd hc h0
  | cons a l ih =>
    intro c fuel hc h0 hf
    obtain ⟨rfl, c2, c3⟩ := hc
    obtain ⟨f, rfl⟩ : ∃ f, fuel = f + 1 := ⟨fuel - 1, by simp at hf; omega⟩
    rw [Heap.last_from]
    by_cases e : h.next c = 0
    · rw [if_neg (by simp [e])]
      exact ⟨c, rfl, c2, e⟩
    · rw [if_pos ⟨h0, e⟩]
      exact ih _ f c3 e (by simp at hf; omega)

theorem Heap.key_index_chain (h : Heap) (string : Option (List Nat)) (l : List Nat) :
    ∀ c fuel i, h.chain c l → l.length < fuel →
      ∃ r, h.key_index_from string fuel c i = some r := by
  induction l with
  | nil =>
    intro c fuel i hc hf
    obtain ⟨f, rfl⟩ : ∃ f, fuel = f + 1 := ⟨fuel - 1, by omega⟩
    have e : c = 0 := hc
    rw [Heap.key_index_from, if_neg (by simp [e])]
    exact ⟨_, rfl⟩
  | cons a l ih =>
    intro c fuel i hc hf
    obtain ⟨rfl, c2, c3⟩ := hc
    obtain ⟨f, rfl⟩ : ∃ f, fuel = f + 1 := ⟨fuel - 1, by omega⟩
    rw [Heap.key_index_from]
    split_ifs
    · exact ih _ f _ c3 (by simp at hf; omega)
    · exact ⟨_, rfl⟩

theorem Heap.index_from_live (h : Heap) (hl : h.linked) (n : Nat) :
    ∀ c, c = 0 ∨ h.live c → h.index_from n c = 0 ∨ h.live (h.index_from n c) := by
  induction n with
  | zero => intro c hc; exact hc
  | succ n ih =>
    intro c hc
    rw [Heap.index_from]
    by_cases e : c = 0
    · rw [if_neg (by simp [e])]; exact Or.inl e
    · rw [if_pos e]
      rcases hc with hc | hc
      · exact absurd hc e
      · rcases (hl.2 c hc).1 with x | ⟨x, _⟩
        · exact ih _ (Or.inl x)
        · exact ih _ (Or.inr x)

theorem Heap.child_live (h : Heap) (hl : h.linked) (c : Nat) (hc : h.live c) :
    h.child c = 0 ∨ h.live (h.child c) := by
  rcases (hl.2 c hc).2.2 with x | ⟨x, _⟩
  · exact Or.inl x
  · exact Or.inr x

/-- Taking the node `c` out of its chain: its neighbours linked to each
other, the `child` of `array` moved on when it was `c`, and `c` left without
sibling. -/
theorem Heap.unlink_linked (h k : Heap) (c array : Nat) (hl : h.linked) (hc : h.live c)
    (ht : k.top = h.top)
    (hn : ∀ a, k.next a =
      if a = c then 0 else if h.prev c ≠ 0 ∧ a = h.prev c then h.next c else h.next a)
    (hp : ∀ a, k.prev a =
      if a = c then 0 else if h.next c ≠ 0 ∧ a = h.next c then h.prev c else h.prev a)
    (hch : ∀ a, k.child a = if c = h.child array ∧ a = array then h.next c else h.child a) :
    k.linked := by
  obtain ⟨htop, hl⟩ := hl
  obtain ⟨cn, cp, cc⟩ := hl c hc
  have lv : ∀ a, k.live a ↔ h.live a := fun a => by simp [Heap.live, ht]
  refine ⟨by omega, fun a ha => ?_⟩
  rw [lv] at ha
  obtain ⟨an, ap, ac⟩ := hl a ha
  have ha0 := ha.1
  have hc0 := hc.1
  refine ⟨?_, ?_, ?_⟩
  · rw [hn a]
    by_cases e1 : a = c
    · rw [if_pos e1]; exact Or.inl rfl
    · rw [if_neg e1]
      by_cases e2 : h.prev c ≠ 0 ∧ a = h.prev c
      · rw [if_pos e2]
        rcases cn with cn | ⟨cn1, cn2⟩
        · exact Or.inl cn
        · refine Or.inr ⟨(lv _).2 cn1, ?_⟩
          rw [hp]
          have e3 : h.next c ≠ c := by
            intro e3
            rw [e3] at cn2
            exact e1 (by rw [e2.2, cn2])
          rw [if_neg e3, if_pos ⟨cn1.1, rfl⟩]
          exact e2.2.symm
      · rw [if_neg e2]
        rcases an with an | ⟨an1, an2⟩
        · exact Or.inl an
        · refine Or.inr ⟨(lv _).2 an1, ?_⟩
          rw [hp]
          have e3 : h.next a ≠ c := by
            intro e3
            rw [e3] at an2
            exact e2 ⟨by rw [an2]; exact ha0, an2.symm⟩
          have e4 : ¬(h.next c ≠ 0 ∧ h.next a = h.next c) := by
            rintro ⟨e5, e6⟩
            rcases cn with cn | ⟨_, cn2⟩
            · exact e5 cn
            · rw [e6, cn2] at an2; exact e1 an2.symm
          rw [if_neg e3, if_neg e4]
          exact an2
  · rw [hp a]
    by_cases e1 : a = c
    · rw [if_pos e1]; exact Or.inl rfl
    · rw [if_neg e1]
      by_cases e2 : h.next c ≠ 0 ∧ a = h.next c
      · rw [if_pos e2]
        rcases cp with cp | ⟨cp1, cp2⟩
        · exact Or.inl cp
        · refine Or.inr ⟨(lv _).2 cp1, ?_⟩
          rw [hn]
          have e3 : h.prev c ≠ c := by
            intro e3
            rw [e3] at cp2
            exact e1 (by rw [e2.2, cp2])
          rw [if_neg e3, if_pos ⟨cp1.1, rfl⟩]
          exact e2.2.symm
      · rw [if_neg e2]
        rcases ap with ap | ⟨ap1, ap2⟩
        · exact Or.inl ap
        · refine Or.inr ⟨(lv _).2 ap1, ?_⟩
          rw [hn]
          have e3 : h.prev a ≠ c := by
            intro e3
            rw [e3] at ap2
            exact e2 ⟨by rw [ap2]; exact ha0, ap2.symm⟩
          have e4 : ¬(h.prev c ≠ 0 ∧ h.prev a = h.prev c) := by
            rintro ⟨e5, e6⟩
            rcases cp with cp | ⟨_, cp2⟩
            · exact e5 cp
            · rw [e6, cp2] at ap2; exact e1 ap2.symm
          rw [if_neg e3, if_neg e4]
          exact ap2
  · rw [hch a]
    by_cases e1 : c = h.child array ∧ a = array
    · rw [if_pos e1]
      rcases cn with cn | ⟨cn1, cn2⟩
      · exact Or.inl cn
      · refine Or.inr ⟨(lv _).2 cn1, ?_⟩
        rw [hp]
        by_cases e2 : h.next c = c
        · rw [if_pos e2]
        · rw [if_neg e2, if_pos ⟨cn1.1, rfl⟩]
          rcases ac with ac | ⟨_, ac2⟩
          · rw [← e1.2, ← e1.1] at *; exact absurd ac hc0
          · rw [e1.2, ← e1.1] at ac2; exact ac2
    · rw [if_neg e1]
      rcases ac with ac | ⟨ac1, ac2⟩
      · exact Or.inl ac
      · refine Or.inr ⟨(lv _).2 ac1, ?_⟩
        rw [hp]
        by_cases e2 : h.child a = c
        · rw [if_pos e2]
        · rw [if_neg e2]
          have e4 : ¬(h.next c ≠ 0 ∧ h.child a = h.next c) := by
            rintro ⟨e5, e6⟩
            rcases cn with cn | ⟨_, cn2⟩
            · exact e5 cn
            · rw [e6, cn2] at ac2; exact hc0 ac2
          rw [if_neg e4]
          exact ac2

theorem Heap.ite_setNext_next (P : Prop) [Decidable P] (x : Heap) (u v a : Nat) :
    (if P then x.setNext u v else x).next a = if P ∧ a = u then v else x.next a := by
  by_cases hP : P <;> simp [hP]

theorem Heap.ite_setNext_prev (P : Prop) [Decidable P] (x : Heap) (u v : Nat) :
    (if P then x.setNext u v else x).prev = x.prev := by
  split_ifs <;> rfl

theorem Heap.ite_setNext_child (P : Prop) [Decidable P] (x : Heap) (u v : Nat) :
    (if P then x.setNext u v else x).child = x.child := by
  split_ifs <;> rfl

theorem Heap.ite_setNext_top (P : Prop) [Decidable P] (x : Heap) (u v : Nat) :
    (if P then x.setNext u v else x).top = x.top := by
  split_ifs <;> rfl

theorem Heap.ite_setPrev_prev (P : Prop) [Decidable P] (x : Heap) (u v a : Nat) :
    (if P then x.setPrev u v else x).prev a = if P ∧ a = u then v else x.prev a := by
  by_cases hP : P <;> simp [hP]

theorem Heap.ite_setPrev_next (P : Prop) [Decidable P] (x : Heap) (u v : Nat) :
    (if P then x.setPrev u v else x).next = x.next := by
  split_ifs <;> rfl

theorem Heap.ite_setPrev_child (P : Prop) [Decidable P] (x : Heap) (u v : Nat) :
    (if P then x.setPrev u v else x).child = x.child := by
  split_ifs <;> rfl

theorem Heap.ite_setPrev_top (P : Prop) [Decidable P] (x : Heap) (u v : Nat) :
    (if P then x.setPrev u v else x).top = x.top := by
  split_ifs <;> rfl

theorem Heap.ite_setChild_child (P : Prop) [Decidable P] (x : Heap) (u v a : Nat) :
    (if P then x.setChild u v else x).child a = if P ∧ a = u then v else x.child a := by
  by_cases hP : P <;> simp [hP]

theorem Heap.ite_setChild_next (P : Prop) [Decidable P] (x : Heap) (u v : Nat) :
    (if P then x.setChild u v else x).next = x.next := by
  split_ifs <;> rfl

theorem Heap.ite_setChild_prev (P : Prop) [Decidable P] (x : Heap) (u v : Nat) :
    (if P then x.setChild u v else x).prev = x.prev := by
  split_ifs <;> rfl

theorem Heap.ite_setChild_top (P : Prop) [Decidable P] (x : Heap) (u v : Nat) :
    (if P then x.setChild u v else x).top = x.top := by
  split_ifs <;> rfl

/-- The links after `cJSON_DetachItemFromArray` has found the node `c`. -/
theorem Heap.detach_links (h : Heap) (array : Nat) (which : Int)
    (hc : h.index_from which.toNat (h.child array) ≠ 0) :
    (h.cJSON_DetachItemFromArray array which).2 = h.index_from which.toNat (h.child array) ∧
    (h.cJSON_DetachItemFromArray array which).1.top = h.top ∧
    (∀ a, (h.cJSON_DetachItemFromArray array which).1.next a =
      if a = h.index_from which.toNat (h.child array) then 0
      else if h.prev (h.index_from which.toNat (h.child array)) ≠ 0 ∧
          a = h.prev (h.index_from which.toNat (h.child array)) then
        h.next (h.index_from which.toNat (h.child array))
      else h.next a) ∧
    (∀ a, (h.cJSON_DetachItemFromArray array which).1.prev a =
      if a = h.index_from which.toNat (h.child array) then 0
      else if h.next (h.index_from which.toNat (h.child array)) ≠ 0 ∧
          a = h.next (h.index_from which.toNat (h.child array)) then
        h.prev (h.index_from which.toNat (h.child array))
      else h.prev a) ∧
    (∀ a, (h.cJSON_DetachItemFromArray array which).1.child a =
      if h.index_from which.toNat (h.child array) = h.child array ∧ a = array then
        h.next (h.index_from which.toNat (h.child array))
      else h.child a) := by
  simp only [Heap.cJSON_DetachItemFromArray]
  generalize h.index_from which.toNat (h.child array) = c at hc
  rw [if_neg hc]
  refine ⟨rfl, ?_, fun a => ?_, fun a => ?_, fun a => ?_⟩
  · simp only [Heap.setPrev_top, Heap.setNext_top, Heap.ite_setChild_top, Heap.ite_setPrev_top,
      Heap.ite_setNext_top]
  · simp only [Heap.setPrev_next, Heap.setNext_next, Heap.ite_setChild_next,
      Heap.ite_setPrev_next, Heap.ite_setNext_next]
  · simp only [Heap.setPrev_prev, Heap.setNext_prev, Heap.ite_setChild_prev,
      Heap.ite_setPrev_prev, Heap.ite_setNext_prev, Heap.ite_setPrev_next,
      Heap.ite_setNext_next, ite_self]
  · simp only [Heap.setPrev_child, Heap.setNext_child, Heap.ite_setChild_child,
      Heap.ite_setPrev_child, Heap.ite_setNext_child, Heap.ite_setPrev_next,
      Heap.ite_setNext_next, ite_self]

theorem Heap.index_from_walk (h : Heap) (n : Nat) : ∀ c, h.index_from n c = h.walk n c := by
  induction n with
  | zero => intro c; rfl
  | succ n ih =>
    intro c
    rw [Heap.index_from, Heap.walk]
    by_cases e : c = 0
    · rw [if_neg (by simp [e]), if_pos e, e]
    · rw [if_pos e, if_neg e, ih]

/-- The node that the loop over the index ends on, when not null: a node,
not its own sibling, and the head of the chain or a node with a previous
sibling. -/
theorem Heap.index_from_facts (h : Heap) (hl : h.linked) (array : Nat) (ha : h.live array)
    (n : Nat) (hc : h.index_from n (h.child array) ≠ 0) :
    h.live (h.index_from n (h.child array)) ∧
      h.next (h.index_from n (h.child array)) ≠ h.index_from n (h.child array) ∧
      (h.index_from n (h.child array) = h.child array ∨
        h.prev (h.index_from n (h.child array)) ≠ 0) := by
  rw [Heap.index_from_walk] at hc ⊢
  rcases (hl.2 array ha).2.2 with x | ⟨x1, x2⟩
  · rw [x, Heap.walk_zero] at hc; exact absurd rfl hc
  · have lv : h.live (h.walk n (h.child array)) := by
      rcases h.walk_live hl _ x1 n with y | y
      · exact absurd y hc
      · exact y
    refine ⟨lv, ?_, ?_⟩
    · intro e
      have e2 : h.walk (n + 1) (h.child array) = h.walk n (h.child array) := by
        rw [Heap.walk_succ, if_neg hc, e]
      exact h.walk_injective hl _ x1 x2 n (n + 1) (by omega) (by rw [e2]; exact hc) e2.symm
    · cases n with
      | zero => exact Or.inl rfl
      | succ m =>
        obtain ⟨a1, a2⟩ := h.walk_prev hl _ x1 m hc
        exact Or.inr (by rw [a2]; exact a1)

/-- `cJSON_DetachItemFromArray` keeps the heap well linked, and the node it
returns is without sibling. -/
theorem Heap.detach_linked (h : Heap) (array : Nat) (which : Int) (hl : h.linked)
    (ha : h.live array) :
    (h.cJSON_DetachItemFromArray array which).1.linked ∧
      (h.cJSON_DetachItemFromArray array which).1.top = h.top ∧
      ((h.cJSON_DetachItemFromArray array which).2 = 0 ∨
        ((h.cJSON_DetachItemFromArray array which).1.live
            (h.cJSON_DetachItemFromArray array which).2 ∧
          (h.cJSON_DetachItemFromArray array which).1.next
            (h.cJSON_DetachItemFromArray array which).2 = 0 ∧
          (h.cJSON_DetachItemFromArray array which).1.prev
            (h.cJSON_DetachItemFromArray array which).2 = 0)) := by
  by_cases hc : h.index_from which.toNat (h.child array) = 0
  · have e : h.cJSON_DetachItemFromArray array which = (h, 0) := by
      simp only [Heap.cJSON_DetachItemFromArray]
      rw [if_pos hc]
    rw [e]
    exact ⟨hl, rfl, Or.inl rfl⟩
  · obtain ⟨d1, d2, d3, d4, d5⟩ := h.detach_links array which hc
    obtain ⟨f1, f2, f3⟩ := h.index_from_facts hl array ha which.toNat hc
    refine ⟨Heap.unlink_linked h _ _ array hl f1 d2 d3 d4 d5, d2, Or.inr ⟨?_, ?_, ?_⟩⟩
    · rw [d1]; exact ⟨f1.1, by rw [d2]; exact f1.2⟩
    · rw [d1, d3, if_pos rfl]
    · rw [d1, d4, if_pos rfl]

/-- `cJSON_DetachItemFromObject` returns and keeps the heap well linked. -/
theorem Heap.detach_object_linked (h : Heap) (object : Nat) (string : Option (List Nat))
    (hl : h.linked) (ha : h.live object) :
    ∃ r, h.cJSON_DetachItemFromObject object string = some r ∧ r.1.linked ∧
      r.1.top = h.top := by
  obtain ⟨l, l1, l2⟩ := h.child_chain hl object ha
  obtain ⟨r, hr⟩ := h.key_index_chain string l (h.child object) h.top 0 l1 l2
  unfold Heap.cJSON_DetachItemFromObject
  rw [hr]
  refine ⟨_, rfl, ?_⟩
  simp only [Option.map_some']
  by_cases e : r.1 ≠ 0
  · rw [if_pos e]
    exact ⟨(h.detach_linked object r.2 hl ha).1, (h.detach_linked object r.2 hl ha).2.1⟩
  · rw [if_neg e]
    exact ⟨hl, rfl⟩

/-- `cJSON_AddItemToArray` returns and keeps the heap well linked. -/
theorem Heap.add_linked (h : Heap) (array item : Nat) (hl : h.linked) (ha : h.live array)
    (hi : h.stand_alone item) :
    ∃ k, h.cJSON_AddItemToArray array item = some k ∧ k.linked ∧ k.top = h.top := by
  obtain ⟨i1, i2, i3, i4⟩ := hi
  unfold Heap.cJSON_AddItemToArray
  rw [if_neg i1.1]
  by_cases e : h.child array = 0
  · rw [if_pos e]
    exact ⟨_, rfl, Heap.linked_child h array item hl (Or.inr ⟨i1, i3⟩), rfl⟩
  · rw [if_neg e]
    obtain ⟨l, l1, l2⟩ := h.child_chain hl array ha
    obtain ⟨x, x1, x2, x3⟩ := h.last_from_chain l (h.child array) h.top l1 e (le_of_lt l2)
    rw [x1]
    exact ⟨_, rfl, Heap.linked_link h x item hl x2 x3 i1 i3 i4, rfl⟩

/-- `cJSON_AddItemToObject` returns and keeps the heap well linked. -/
theorem Heap.add_object_linked (h : Heap) (object : Nat) (string : List Nat) (item : Nat)
    (hl : h.linked) (ha : h.live object) (hi : h.stand_alone item) :
    ∃ k, h.cJSON_AddItemToObject object string item = some k ∧ k.linked ∧ k.top = h.top := by
  unfold Heap.cJSON_AddItemToObject
  rw [if_neg hi.1.1]
  exact Heap.add_linked (h.setString item (some (cJSON_strdup string))) object item hl ha hi

theorem Heap.ite_child_next_next (P : Prop) [Decidable P] (x : Heap) (u v w z a : Nat) :
    (if P then x.setChild u v else x.setNext w z).next a =
      if ¬P ∧ a = w then z else x.next a := by
  by_cases hP : P <;> simp [hP]

theorem Heap.ite_child_next_prev (P : Prop) [Decidable P] (x : Heap) (u v w z : Nat) :
    (if P then x.setChild u v else x.setNext w z).prev = x.prev := by
  split_ifs <;> rfl

theorem Heap.ite_child_next_child (P : Prop) [Decidable P] (x : Heap) (u v w z a : Nat) :
    (if P then x.setChild u v else x.setNext w z).child a =
      if P ∧ a = u then v else x.child a := by
  by_cases hP : P <;> simp [hP]

theorem Heap.ite_child_next_top (P : Prop) [Decidable P] (x : Heap) (u v w z : Nat) :
    (if P then x.setChild u v else x.setNext w z).top = x.top := by
  split_ifs <;> rfl

/-- The links after `cJSON_ReplaceItemInArray` has found the node `c`, for a
new item that is neither `c` nor its next sibling. -/
theorem Heap.replace_links (h : Heap) (array : Nat) (which : Int) (i : Nat)
    (hc : h.index_from which.toNat (h.child array) ≠ 0)
    (hi : i ≠ h.next (h.index_from which.toNat (h.child array))) :
    (h.cJSON_ReplaceItemInArray array which i).top = h.top ∧
    (∀ a, (h.cJSON_ReplaceItemInArray array which i).next a =
      if a = h.index_from which.toNat (h.child array) then 0
      else if ¬h.index_from which.toNat (h.child array) = h.child array ∧
          a = h.prev (h.index_from which.toNat (h.child array)) then i
      else if a = i then h.next (h.index_from which.toNat (h.child array))
      else h.next a) ∧
    (∀ a, (h.cJSON_ReplaceItemInArray array which i).prev a =
      if a = h.index_from which.toNat (h.child array) then 0
      else if h.next (h.index_from which.toNat (h.child array)) ≠ 0 ∧
          a = h.next (h.index_from which.toNat (h.child array)) then i
      else if a = i then h.prev (h.index_from which.toNat (h.child array))
      else h.prev a) ∧
    (∀ a, (h.cJSON_ReplaceItemInArray array which i).child a =
      if h.index_from which.toNat (h.child array) = h.child array ∧ a = array then i
      else h.child a) := by
  simp only [Heap.cJSON_ReplaceItemInArray]
  generalize h.index_from which.toNat (h.child array) = c at hc hi
  rw [if_neg hc]
  refine ⟨?_, fun a => ?_, fun a => ?_, fun a => ?_⟩
  · simp only [Heap.setPrev_top, Heap.setNext_top, Heap.ite_child_next_top,
      Heap.ite_setPrev_top]
  · simp only [Heap.setPrev_next, Heap.setNext_next, Heap.ite_child_next_next,
      Heap.ite_setPrev_next, Heap.ite_setPrev_prev, Heap.setPrev_prev, Heap.setNext_prev,
      Heap.ite_setPrev_child, Heap.setPrev_child, Heap.setNext_child,
      if_true, hi, and_false, if_false]
  · simp only [Heap.setPrev_prev, Heap.setNext_prev, Heap.setNext_next, Heap.setPrev_next,
      Heap.ite_child_next_prev, Heap.ite_setPrev_prev, if_true]
  · simp only [Heap.setPrev_child, Heap.setNext_child, Heap.ite_child_next_child,
      Heap.ite_setPrev_child]

/-- Putting the stand-alone item `i` in the place of the node `c`: `i` linked
to the neighbours of `c`, made the `child` of `array` when `c` was it, and `c`
left without sibling. -/
theorem Heap.relink_linked (h k : Heap) (c array i : Nat) (hl : h.linked) (hc : h.live c)
    (harr : h.live array) (hcc : h.next c ≠ c) (hi : h.stand_alone i) (hic : i ≠ c)
    (hhead : c = h.child array ∨ h.prev c ≠ 0)
    (ht : k.top = h.top)
    (hn : ∀ a, k.next a =
      if a = c then 0 else if ¬c = h.child array ∧ a = h.prev c then i
      else if a = i then h.next c else h.next a)
    (hp : ∀ a, k.prev a =
      if a = c then 0 else if h.next c ≠ 0 ∧ a = h.next c then i
      else if a = i then h.prev c else h.prev a)
    (hch : ∀ a, k.child a = if c = h.child array ∧ a = array then i else h.child a) :
    k.linked := by
  obtain ⟨htop, hl⟩ := hl
  obtain ⟨cn, cp, cc⟩ := hl c hc
  obtain ⟨i1, i2, i3, i4⟩ := hi
  have lv : ∀ a, k.live a ↔ h.live a := fun a => by simp [Heap.live, ht]
  have hc0 := hc.1
  have hi0 := i1.1
  -- the item is no neighbour of `c`
  have hin : i ≠ h.next c := by
    intro e
    rcases cn with cn | ⟨_, cn2⟩
    · exact hi0 (by rw [e, cn])
    · rw [← e, i3] at cn2; exact hc0 cn2.symm
  have hip : i ≠ h.prev c := by
    intro e
    rcases cp with cp | ⟨_, cp2⟩
    · exact hi0 (by rw [e, cp])
    · rw [← e, i2] at cp2; exact hc0 cp2.symm
  have hpc : h.prev c ≠ c := by
    intro e
    rcases cp with cp | ⟨_, cp2⟩
    · exact hc0 (by rw [← e, cp])
    · rw [e] at cp2; exact hcc cp2
  -- the head of the chain has no previous sibling
  have hhd : c = h.child array → h.prev c = 0 := by
    intro e
    rcases (hl array harr).2.2 with x | ⟨_, x⟩
    · exact absurd (by rw [e, x]) hc0
    · rw [← e] at x; exact x
  refine ⟨by omega, fun a ha => ?_⟩
  rw [lv] at ha
  obtain ⟨an, ap, ac⟩ := hl a ha
  have ha0 := ha.1
  refine ⟨?_, ?_, ?_⟩
  · rw [hn a]
    by_cases e1 : a = c
    · rw [if_pos e1]; exact Or.inl rfl
    · rw [if_neg e1]
      by_cases e2 : ¬c = h.child array ∧ a = h.prev c
      · rw [if_pos e2]
        refine Or.inr ⟨(lv _).2 i1, ?_⟩
        rw [hp, if_neg hic, if_neg (fun x => hin x.2), if_pos rfl]
        exact e2.2.symm
      · rw [if_neg e2]
        by_cases e3 : a = i
        · rw [if_pos e3]
          rcases cn with cn | ⟨cn1, cn2⟩
          · exact Or.inl cn
          · refine Or.inr ⟨(lv _).2 cn1, ?_⟩
            rw [hp, if_neg hcc, if_pos ⟨cn1.1, rfl⟩]
            exact e3.symm
        · rw [if_neg e3]
          rcases an with an | ⟨an1, an2⟩
          · exact Or.inl an
          · refine Or.inr ⟨(lv _).2 an1, ?_⟩
            rw [hp]
            have f1 : h.next a ≠ c := by
              intro f
              rw [f] at an2
              rcases hhead with x | x
              · rw [hhd x] at an2; exact ha0 an2.symm
              · by_cases y : c = h.child array
                · rw [hhd y] at an2; exact ha0 an2.symm
                · exact e2 ⟨y, an2.symm⟩
            have f2 : ¬(h.next c ≠ 0 ∧ h.next a = h.next c) := by
              rintro ⟨f3, f4⟩
              rcases cn with cn | ⟨_, cn2⟩
              · exact f3 cn
              · rw [f4, cn2] at an2; exact e1 an2.symm
            have f3 : h.next a ≠ i := by
              intro f
              rw [f, i3] at an2
              exact ha0 an2.symm
            rw [if_neg f1, if_neg f2, if_neg f3]
            exact an2
  · rw [hp a]
    by_cases e1 : a = c
    · rw [if_pos e1]; exact Or.inl rfl
    · rw [if_neg e1]
      by_cases e2 : h.next c ≠ 0 ∧ a = h.next c
      · rw [if_pos e2]
        refine Or.inr ⟨(lv _).2 i1, ?_⟩
        rw [hn, if_neg hic, if_neg (fun x => hip x.2), if_pos rfl]
        exact e2.2.symm
      · rw [if_neg e2]
        by_cases e3 : a = i
        · rw [if_pos e3]
          rcases cp with cp | ⟨cp1, cp2⟩
          · exact Or.inl cp
          · refine Or.inr ⟨(lv _).2 cp1, ?_⟩
            have f1 : ¬c = h.child array := fun f => cp1.1 (hhd f)
            rw [hn, if_neg hpc, if_pos ⟨f1, rfl⟩]
            exact e3.symm
        · rw [if_neg e3]
          rcases ap with ap | ⟨ap1, ap2⟩
          · exact Or.inl ap
          · refine Or.inr ⟨(lv _).2 ap1, ?_⟩
            rw [hn]
            have f1 : h.prev a ≠ c := by
              intro f
              rw [f] at ap2
              exact e2 ⟨by rw [ap2]; exact ha0, ap2.symm⟩
            have f2 : ¬(¬c = h.child array ∧ h.prev a = h.prev c) := by
              rintro ⟨_, f4⟩
              rcases cp with cp | ⟨_, cp2⟩
              · rw [f4, cp] at ap1; exact ap1.1 rfl
              · rw [f4, cp2] at ap2; exact e1 ap2.symm
            have f3 : h.prev a ≠ i := by
              intro f
              rw [f, i2] at ap2
              exact ha0 ap2.symm
            rw [if_neg f1, if_neg f2, if_neg f3]
            exact ap2
  · rw [hch a]
    by_cases e1 : c = h.child array ∧ a = array
    · rw [if_pos e1]
      refine Or.inr ⟨(lv _).2 i1, ?_⟩
      rw [hp, if_neg hic, if_neg (fun x => hin x.2), if_pos rfl]
      exact hhd e1.1
    · rw [if_neg e1]
      rcases ac with ac | ⟨ac1, ac2⟩
      · exact Or.inl ac
      · refine Or.inr ⟨(lv _).2 ac1, ?_⟩
        rw [hp]
        by_cases e2 : h.child a = c
        · rw [if_pos e2]
        · rw [if_neg e2]
          have f2 : ¬(h.next c ≠ 0 ∧ h.child a = h.next c) := by
            rintro ⟨f3, f4⟩
            rcases cn with cn | ⟨_, cn2⟩
            · exact f3 cn
            · rw [f4, cn2] at ac2; exact hc0 ac2
          rw [if_neg f2, if_neg (i4 a ha)]
          exact ac2

/-- `cJSON_ReplaceItemInArray` keeps the heap well linked. -/
theorem Heap.replace_linked (h : Heap) (array : Nat) (which : Int) (newitem : Nat)
    (hl : h.linked) (ha : h.live array) (hi : h.stand_alone newitem) :
    (h.cJSON_ReplaceItemInArray array which newitem).linked ∧
      (h.cJSON_ReplaceItemInArray array which newitem).top = h.top := by
  by_cases hc : h.index_from which.toNat (h.child array) = 0
  · have e : h.cJSON_ReplaceItemInArray array which newitem = h := by
      simp only [Heap.cJSON_ReplaceItemInArray]
      rw [if_pos hc]
    rw [e]
    exact ⟨hl, rfl⟩
  · obtain ⟨f1, f2, f3⟩ := h.index_from_facts hl array ha which.toNat hc
    have hic : newitem ≠ h.index_from which.toNat (h.child array) := by
      intro e
      rcases f3 with x | x
      · exact hi.2.2.2 array ha (by rw [e, x])
      · rw [← e] at x; exact x hi.2.2.1
    have hin : newitem ≠ h.next (h.index_from which.toNat (h.child array)) := by
      intro e
      rcases (hl.2 _ f1).1 with x | ⟨_, x⟩
      · exact hi.1.1 (by rw [e, x])
      · rw [← e, hi.2.2.1] at x; exact f1.1 x.symm
    obtain ⟨d1, d2, d3, d4⟩ := h.replace_links array which newitem hc hin
    exact ⟨Heap.relink_linked h _ _ array newitem hl f1 ha f2 hi hic f3 d1 d2 d3 d4, d1⟩

/-- `cJSON_ReplaceItemInObject` returns and keeps the heap well linked. -/
theorem Heap.replace_object_linked (h : Heap) (object : Nat) (string : List Nat)
    (newitem : Nat) (hl : h.linked) (ha : h.live object) (hi : h.stand_alone newitem) :
    ∃ k, h.cJSON_ReplaceItemInObject object string newitem = some k ∧ k.linked ∧
      k.top = h.top := by
  obtain ⟨l, l1, l2⟩ := h.child_chain hl object ha
  obtain ⟨r, hr⟩ := h.key_index_chain (some string) l (h.child object) h.top 0 l1 l2
  unfold Heap.cJSON_ReplaceItemInObject
  rw [hr]
  refine ⟨_, rfl, ?_⟩
  simp only [Option.map_some']
  by_cases e : r.1 ≠ 0
  · rw [if_pos e]
    exact Heap.replace_linked (h.setString newitem (some (cJSON_strdup string))) object r.2
      newitem hl ha hi
  · rw [if_neg e]
    exact ⟨hl, rfl⟩

theorem Heap.keeps_weaken (h k : Heap) (nx ch nx2 ch2 : Nat) (e : h.keeps k nx ch)
    (hn : nx = 0 ∨ nx = nx2) (hc : ch = 0 ∨ ch = ch2) : h.keeps k nx2 ch2 := by
  obtain ⟨t, f, g⟩ := e
  refine ⟨t, fun a ha => ?_, g⟩
  obtain ⟨p1, n1, c1, d1⟩ := f a ha
  have ha0 := ha.1
  exact ⟨p1, fun x => n1 (by omega), fun x => c1 (by omega), d1⟩

/-- A node allocated last and left alone by what followed is stand-alone. -/
theorem Heap.fresh_stand_alone (h k : Heap) (n : Nat) (hn : h.stand_alone n)
    (hc : h.child n = 0) (ht : h.top = n + 1) (e : h.keeps k 0 n) : k.stand_alone n := by
  obtain ⟨n1, n2, n3, n4⟩ := hn
  obtain ⟨p1, p2, p3, p4⟩ := e.2.1 n n1
  refine ⟨Heap.live_mono _ _ _ e.1 n1, ?_, ?_, ?_⟩
  · rw [p2 n1.1]; exact n2
  · rw [p1]; exact n3
  · intro x hx
    by_cases hx1 : x < h.top
    · have hx2 : h.live x := ⟨hx.1, hx1⟩
      obtain ⟨_, _, q3, q4⟩ := e.2.1 x hx2
      by_cases e3 : x = n
      · subst e3
        rcases q4 with q4 | q4
        · rw [q4, hc]; exact fun e4 => n1.1 e4.symm
        · omega
      · rw [q3 e3]
        exact n4 x hx2
    · rcases e.2.2 x hx (by omega) with q | q
      · rw [q]; exact fun e4 => n1.1 e4.symm
      · omega

theorem Heap.duplicate_node_same (h : Heap) (item : Nat) :
    (h.cJSON_New_Item).1.same_links (h.duplicate_node item) := ⟨rfl, rfl, rfl, rfl⟩

/-- One pass of the loop of `cJSON_Duplicate`, after the copy `top` of `cptr`
has been made in `h1`: linked after `nptr`, or made the child of `newitem`,
the heap is well linked, the copy is the last of its chain, and the nodes
below `b` keep their `next` and `child`. -/
theorem Heap.duplicate_step (h h1 : Heap) (newitem nptr b : Nat) (hni : h.live newitem)
    (hb : b ≤ newitem) (hnp : nptr = 0 ∨ (b ≤ nptr ∧ h.live nptr ∧ h.next nptr = 0))
    (d1 : h1.linked) (d2 : h.keeps h1 0 0) (d6 : h1.stand_alone h.top) :
    (nptr = 0 →
      (h1.setChild newitem h.top).linked ∧ (h1.setChild newitem h.top).live newitem ∧
      h.keeps (h1.setChild newitem h.top) nptr newitem ∧
      (h1.setChild newitem h.top).live h.top ∧ (h1.setChild newitem h.top).next h.top = 0 ∧
      ∀ a, a ≠ 0 → a < b → (h1.setChild newitem h.top).next a = h.next a ∧
        (h1.setChild newitem h.top).child a = h.child a) ∧
    (nptr ≠ 0 →
      ((h1.setNext nptr h.top).setPrev h.top nptr).linked ∧
      ((h1.setNext nptr h.top).setPrev h.top nptr).live newitem ∧
      h.keeps ((h1.setNext nptr h.top).setPrev h.top nptr) nptr newitem ∧
      ((h1.setNext nptr h.top).setPrev h.top nptr).live h.top ∧
      ((h1.setNext nptr h.top).setPrev h.top nptr).next h.top = 0 ∧
      ∀ a, a ≠ 0 → a < b → ((h1.setNext nptr h.top).setPrev h.top nptr).next a = h.next a ∧
        ((h1.setNext nptr h.top).setPrev h.top nptr).child a = h.child a) := by
  obtain ⟨s1, s2, s3, s4⟩ := d6
  have ht1 := d2.1
  have hni1 : h1.live newitem := Heap.live_mono _ _ _ ht1 hni
  have hni2 := hni.2
  refine ⟨fun en => ⟨?_, hni1, ?_, s1, s2, fun a a0 a1 => ?_⟩,
    fun en => ?_⟩
  · exact Heap.linked_child h1 newitem h.top d1 (Or.inr ⟨s1, s3⟩)
  · rw [en]
    refine ⟨ht1, fun a ha => ?_, fun a ha hge => ?_⟩
    · obtain ⟨p1, p2, p3, p4⟩ := d2.2.1 a ha
      simp only [Heap.setChild_next, Heap.setChild_prev, Heap.setChild_child]
      refine ⟨p1, p2, fun x => by rw [if_neg x]; exact p3 ha.1, ?_⟩
      by_cases y : a = newitem
      · rw [if_pos y]; exact Or.inr (le_refl _)
      · rw [if_neg y]; exact p4
    · simp only [Heap.setChild_child]
      rw [if_neg (by omega)]
      exact d2.2.2 a ha hge
  · obtain ⟨p1, p2, p3, p4⟩ := d2.2.1 a ⟨a0, by omega⟩
    simp only [Heap.setChild_next, Heap.setChild_child]
    rw [if_neg (by omega)]
    exact ⟨p2 a0, p3 a0⟩
  · obtain ⟨np1, np2, np3⟩ := hnp.resolve_left en
    have np4 : h1.next nptr = 0 := by rw [(d2.2.1 nptr np2).2.1 en]; exact np3
    have np5 := np2.2
    refine ⟨?_, hni1, ?_, s1, ?_, fun a a0 a1 => ?_⟩
    · exact Heap.linked_link h1 nptr h.top d1 (Heap.live_mono _ _ _ ht1 np2) np4 s1 s3 s4
    · refine ⟨ht1, fun a ha => ?_, fun a ha hge => ?_⟩
      · obtain ⟨p1, p2, p3, p4⟩ := d2.2.1 a ha
        have := ha.2
        simp only [Heap.setPrev_next, Heap.setPrev_prev, Heap.setPrev_child,
          Heap.setNext_next, Heap.setNext_prev, Heap.setNext_child]
        rw [if_neg (by omega)]
        exact ⟨p1, fun x => by rw [if_neg x]; exact p2 ha.1, fun _ => p3 ha.1, p4⟩
      · simp only [Heap.setPrev_child, Heap.setNext_child]
        exact d2.2.2 a ha hge
    · simp only [Heap.setPrev_next, Heap.setNext_next]
      rw [if_neg (by omega)]
      exact s2
    · obtain ⟨p1, p2, p3, p4⟩ := d2.2.1 a ⟨a0, by omega⟩
      simp only [Heap.setPrev_next, Heap.setNext_next, Heap.setPrev_child, Heap.setNext_child]
      rw [if_neg (by omega)]
      exact ⟨p2 a0, p3 a0⟩

/-- `cJSON_Duplicate` keeps the heap well linked: the copy is a stand-alone
node at the address `top` of the heap before the call, and the nodes there
before keep their links.  In the loop the nodes below `b` are those of the
heap before the call, the source of the copy. -/
theorem Heap.duplicate_linked (fuel : Nat) :
    (∀ h item recurse k n, h.linked → item = 0 ∨ h.live item →
      Heap.cJSON_Duplicate fuel h item recurse = some (k, n) →
      k.linked ∧ h.keeps k 0 0 ∧ (item = 0 → n = 0) ∧
        (item ≠ 0 → n = h.top ∧ k.stand_alone n)) ∧
    (∀ h newitem cptr nptr b k n, h.linked → h.live newitem → b ≤ newitem →
      cptr = 0 ∨ cptr < b →
      nptr = 0 ∨ (b ≤ nptr ∧ h.live nptr ∧ h.next nptr = 0) →
      (∀ a, a ≠ 0 → a < b → h.next a = 0 ∨ h.next a < b) →
      Heap.duplicate_loop fuel h newitem cptr nptr = some (k, n) →
      k.linked ∧ n = newitem ∧ h.keeps k nptr newitem) := by
  induction fuel with
  | zero =>
    refine ⟨?_, ?_⟩ <;> intros <;> simp_all [Heap.cJSON_Duplicate, Heap.duplicate_loop]
  | succ f ih =>
    obtain ⟨ihd, ihl⟩ := ih
    refine ⟨?_, ?_⟩
    · intro h item recurse k n hl hi e
      rw [Heap.cJSON_Duplicate] at e
      by_cases e0 : item = 0
      · rw [if_pos e0] at e
        injection e with e
        injection e with e1 e2
        subst e1
        exact ⟨hl, h.keeps_refl 0 0, fun _ => e2.symm, fun x => absurd e0 x⟩
      · rw [if_neg e0] at e
        have hi : h.live item := hi.resolve_left e0
        obtain ⟨n1, n2, n3, n4⟩ := h.linked_new hl
        have s := h.duplicate_node_same item
        have m1 : (h.duplicate_node item).linked := Heap.linked_of_same _ _ s n1
        have m2 : (h.duplicate_node item).stand_alone h.top := n2
        have m3 : h.keeps (h.duplicate_node item) 0 0 :=
          Heap.keeps_trans h _ _ 0 0 0 0 (h.keeps_new 0 0) (Heap.keeps_of_same _ _ 0 0 s)
            (Or.inl rfl) (Or.inl rfl)
        by_cases er : recurse = true
        · rw [if_pos er] at e
          simp only [Heap.new_addr] at e
          have hi2 := hi.2
          have c1 : (h.duplicate_node item).child item = 0 ∨
              (h.duplicate_node item).child item < h.top := by
            rw [(m3.2.1 item hi).2.2.1 e0]
            rcases (hl.2 item hi).2.2 with x | ⟨x, _⟩
            · exact Or.inl x
            · exact Or.inr x.2
          have c2 : ∀ a, a ≠ 0 → a < h.top → (h.duplicate_node item).next a = 0 ∨
              (h.duplicate_node item).next a < h.top := by
            intro a a0 a1
            rw [(m3.2.1 a ⟨a0, a1⟩).2.1 a0]
            rcases (hl.2 a ⟨a0, a1⟩).1 with x | ⟨x, _⟩
            · exact Or.inl x
            · exact Or.inr x.2
          obtain ⟨g1, g2, g3⟩ := ihl _ _ _ _ h.top _ _ m1 m2.1 (le_refl _) c1 (Or.inl rfl) c2 e
          subst g2
          refine ⟨g1, ?_, fun x => absurd x e0, fun _ => ⟨rfl, ?_⟩⟩
          · exact Heap.keeps_trans h _ k 0 0 0 h.top m3 g3 (Or.inl rfl)
              (Or.inr (Or.inr (le_refl _)))
          · exact Heap.fresh_stand_alone _ k h.top m2 n4 rfl g3
        · rw [if_neg er] at e
          injection e with e
          injection e with e1 e2
          subst e1
          simp only [Heap.new_addr] at e2
          subst e2
          exact ⟨m1, m3, fun x => absurd x e0, fun _ => ⟨rfl, m2⟩⟩
    · intro h newitem cptr nptr b k n hl hni hb hcp hnp hcl e
      rw [Heap.duplicate_loop] at e
      by_cases e0 : cptr = 0
      · rw [if_pos e0] at e
        injection e with e
        injection e with e1 e2
        subst e1
        exact ⟨hl, e2.symm, h.keeps_refl _ _⟩
      · rw [if_neg e0] at e
        have hcb : cptr < b := hcp.resolve_left e0
        have hbt : b < h.top := lt_of_le_of_lt hb hni.2
        have hcl2 : h.live cptr := ⟨e0, by omega⟩
        cases hd : Heap.cJSON_Duplicate f h cptr true with
        | none => rw [hd] at e; simp at e
        | some r =>
          obtain ⟨h1, newchild⟩ := r
          rw [hd] at e
          simp only at e
          obtain ⟨d1, d2, -, d4⟩ := ihd _ _ _ _ _ hl (Or.inr hcl2) hd
          obtain ⟨d5, d6⟩ := d4 e0
          subst d5
          obtain ⟨q0, q1⟩ := Heap.duplicate_step h h1 newitem nptr b hni hb hnp d1 d2 d6
          have hbt2 : b ≤ h.top := by omega
          by_cases en : nptr = 0
          · rw [if_neg (by simp [en])] at e
            obtain ⟨l2, hni1, k2, s1, s5, fr⟩ := q0 en
            have c3 : (h1.setChild newitem h.top).next cptr = 0 ∨
                (h1.setChild newitem h.top).next cptr < b := by
              rw [(fr cptr e0 hcb).1]; exact hcl cptr e0 hcb
            have c4 : ∀ a, a ≠ 0 → a < b → (h1.setChild newitem h.top).next a = 0 ∨
                (h1.setChild newitem h.top).next a < b := by
              intro a a0 a1
              rw [(fr a a0 a1).1]; exact hcl a a0 a1
            obtain ⟨g1, g2, g3⟩ := ihl _ _ _ _ b _ _ l2 hni1 hb c3
              (Or.inr ⟨hbt2, s1, s5⟩) c4 e
            exact ⟨g1, g2, Heap.keeps_trans h _ k nptr newitem h.top newitem k2 g3
              (Or.inr (Or.inr (le_refl _))) (Or.inl rfl)⟩
          · rw [if_pos en] at e
            obtain ⟨l2, hni1, k2, s1, s5, fr⟩ := q1 en
            have c3 : ((h1.setNext nptr h.top).setPrev h.top nptr).next cptr = 0 ∨
                ((h1.setNext nptr h.top).setPrev h.top nptr).next cptr < b := by
              rw [(fr cptr e0 hcb).1]; exact hcl cptr e0 hcb
            have c4 : ∀ a, a ≠ 0 → a < b →
                ((h1.setNext nptr h.top).setPrev h.top nptr).next a = 0 ∨
                ((h1.setNext nptr h.top).setPrev h.top nptr).next a < b := by
              intro a a0 a1
              rw [(fr a a0 a1).1]; exact hcl a a0 a1
            obtain ⟨g1, g2, g3⟩ := ihl _ _ _ _ b _ _ l2 hni1 hb c3
              (Or.inr ⟨hbt2, s1, s5⟩) c4 e
            exact ⟨g1, g2, Heap.keeps_trans h _ k nptr newitem h.top newitem k2 g3
              (Or.inr (Or.inr (le_refl _))) (Or.inl rfl)⟩

theorem Heap.ranked_of_agree (h k : Heap) (b : Nat) (rank : Nat → Nat) (hr : h.ranked b rank)
    (fr : ∀ a, a ≠ 0 → a < b → k.next a = h.next a ∧ k.child a = h.child a) :
    k.ranked b rank := by
  intro a a0 a1
  rw [(fr a a0 a1).1, (fr a a0 a1).2]
  exact hr a a0 a1

/-- On trees `cJSON_Duplicate` returns: fuel above twice the rank of the item
is enough. -/
theorem Heap.duplicate_returns (fuel : Nat) :
    (∀ h item b rank, h.linked → b ≤ h.top → item ≠ 0 → item < b → h.ranked b rank →
      2 * rank item + 2 ≤ fuel → ∃ r, Heap.cJSON_Duplicate fuel h item true = some r) ∧
    (∀ h newitem cptr nptr b rank, h.linked → h.live newitem → b ≤ newitem →
      cptr = 0 ∨ cptr < b →
      nptr = 0 ∨ (b ≤ nptr ∧ h.live nptr ∧ h.next nptr = 0) → h.ranked b rank →
      1 ≤ fuel → (cptr ≠ 0 → 2 * rank cptr + 3 ≤ fuel) →
      ∃ r, Heap.duplicate_loop fuel h newitem cptr nptr = some r) := by
  induction fuel with
  | zero =>
    refine ⟨?_, ?_⟩ <;> intros <;> omega
  | succ f ih =>
    obtain ⟨ihd, ihl⟩ := ih
    refine ⟨?_, ?_⟩
    · intro h item b rank hl hb e0 hib hr hf
      rw [Heap.cJSON_Duplicate, if_neg e0, if_pos rfl]
      simp only [Heap.new_addr]
      have hi : h.live item := ⟨e0, by omega⟩
      obtain ⟨n1, n2, n3, n4⟩ := h.linked_new hl
      have s := h.duplicate_node_same item
      have m1 : (h.duplicate_node item).linked := Heap.linked_of_same _ _ s n1
      have m2 : (h.duplicate_node item).stand_alone h.top := n2
      have m3 : h.keeps (h.duplicate_node item) 0 0 :=
        Heap.keeps_trans h _ _ 0 0 0 0 (h.keeps_new 0 0) (Heap.keeps_of_same _ _ 0 0 s)
          (Or.inl rfl) (Or.inl rfl)
      have fr : ∀ a, a ≠ 0 → a < b → (h.duplicate_node item).next a = h.next a ∧
          (h.duplicate_node item).child a = h.child a := by
        intro a a0 a1
        obtain ⟨_, p2, p3, _⟩ := m3.2.1 a ⟨a0, by omega⟩
        exact ⟨p2 a0, p3 a0⟩
      have hr2 := Heap.ranked_of_agree h _ b rank hr fr
      obtain ⟨r1, _⟩ := hr item e0 hib
      refine ihl _ _ _ _ b rank m1 m2.1 hb ?_ (Or.inl rfl) hr2 (by omega) ?_
      · rw [(fr item e0 hib).2]
        rcases r1 with x | ⟨x, _⟩
        · exact Or.inl x
        · exact Or.inr x
      · rw [(fr item e0 hib).2]
        intro x
        rcases r1 with y | ⟨_, y⟩
        · exact absurd y x
        · omega
    · intro h newitem cptr nptr b rank hl hni hb hcp hnp hr hf1 hf2
      rw [Heap.duplicate_loop]
      by_cases e0 : cptr = 0
      · rw [if_pos e0]
        exact ⟨_, rfl⟩
      · rw [if_neg e0]
        have hcb : cptr < b := hcp.resolve_left e0
        have hni2 := hni.2
        have hf3 := hf2 e0
        obtain ⟨r, hd⟩ := ihd h cptr b rank hl (by omega) e0 hcb hr (by omega)
        obtain ⟨h1, newchild⟩ := r
        rw [hd]
        simp only
        obtain ⟨d1, d2, -, d4⟩ :=
          (Heap.duplicate_linked f).1 _ _ _ _ _ hl (Or.inr ⟨e0, by omega⟩) hd
        obtain ⟨d5, d6⟩ := d4 e0
        subst d5
        obtain ⟨q0, q1⟩ := Heap.duplicate_step h h1 newitem nptr b hni hb hnp d1 d2 d6
        obtain ⟨_, r2⟩ := hr cptr e0 hcb
        by_cases en : nptr = 0
        · rw [if_neg (by simp [en])]
          obtain ⟨l2, hni1, k2, s1, s5, fr⟩ := q0 en
          refine ihl _ _ _ _ b rank l2 hni1 hb ?_ (Or.inr ⟨by omega, s1, s5⟩)
            (Heap.ranked_of_agree h _ b rank hr fr) (by omega) ?_
          · rw [(fr cptr e0 hcb).1]
            rcases r2 with x | ⟨x, _⟩
            · exact Or.inl x
            · exact Or.inr x
          · rw [(fr cptr e0 hcb).1]
            intro x
            rcases r2 with y | ⟨_, y⟩
            · exact absurd y x
            · omega
        · rw [if_pos en]
          obtain ⟨l2, hni1, k2, s1, s5, fr⟩ := q1 en
          refine ihl _ _ _ _ b rank l2 hni1 hb ?_ (Or.inr ⟨by omega, s1, s5⟩)
            (Heap.ranked_of_agree h _ b rank hr fr) (by omega) ?_
          · rw [(fr cptr e0 hcb).1]
            rcases r2 with x | ⟨x, _⟩
            · exact Or.inl x
            · exact Or.inr x
          · rw [(fr cptr e0 hcb).1]
            intro x
            rcases r2 with y | ⟨_, y⟩
            · exact absurd y x
            · omega

theorem trace_ok_heap (r : HParsed) (q : Parsed) (e : r.trace = q.trace) (node : cJSON)
    (rest : List Nat) (hq : q = .ok node rest) : ∃ k c, r = .ok k c rest := by
  subst hq
  cases r <;> simp [HParsed.trace, Parsed.trace] at e
  exact ⟨_, _, by rw [e]⟩

/-- A heap is well linked exactly when its links address nodes and it
satisfies the sibling-chain invariant. -/
theorem Heap.linked_iff (h : Heap) :
    h.linked ↔ 0 < h.top ∧ h.closed ∧ h.sibling_invariant := by
  constructor
  · intro hl
    refine ⟨hl.1, fun a ha => ?_, fun a b ha hb => ⟨fun e => ?_, fun e => ?_⟩, fun c hc e => ?_,
      fun c hc => ?_⟩
    · obtain ⟨x, y, z⟩ := hl.2 a ha
      exact ⟨x.imp id (fun w => w.1), y.imp id (fun w => w.1), z.imp id (fun w => w.1)⟩
    · rcases (hl.2 a ha).1 with x | ⟨_, x⟩
      · rw [x] at e; exact absurd e.symm hb.1
      · rw [e] at x; exact x
    · rcases (hl.2 b hb).2.1 with x | ⟨_, x⟩
      · rw [x] at e; exact absurd e.symm ha.1
      · rw [e] at x; exact x
    · rcases (hl.2 c hc).2.2 with x | x
      · exact absurd x e
      · exact x
    · obtain ⟨l, l1, _⟩ := h.child_chain hl c hc
      exact ⟨l, l1⟩
  · rintro ⟨ht, hc, hs1, hs2, _⟩
    refine ⟨ht, fun a ha => ?_⟩
    obtain ⟨x, y, z⟩ := hc a ha
    refine ⟨?_, ?_, ?_⟩
    · rcases x with x | x
      · exact Or.inl x
      · exact Or.inr ⟨x, (hs1 a _ ha x).1 rfl⟩
    · rcases y with y | y
      · exact Or.inl y
      · exact Or.inr ⟨y, (hs1 _ a y ha).2 rfl⟩
    · by_cases e : h.child a = 0
      · exact Or.inl e
      · exact Or.inr (hs2 a ha e)

theorem Heap.empty_linked : Heap.empty.linked :=
  ⟨by decide, fun a ha => absurd ha.2 (by have := ha.1; simp [Heap.empty]; omega)⟩

theorem Heap.ordered_of_same (h k : Heap) (e : h.same_links k) (ho : h.ordered) :
    k.ordered := by
  obtain ⟨e1, e2, e3, e4⟩ := e
  unfold Heap.ordered Heap.live at *
  rw [e1, e3, e4]
  exact ho

/-- The first node of a chain, `item->child=child=cJSON_New_Item()`, keeps the
heap ordered. -/
theorem Heap.ordered_first (h : Heap) (item : Nat) (hi : h.live item) (ho : h.ordered) :
    ((h.cJSON_New_Item).1.setChild item h.top).ordered := by
  intro a ha
  have hi2 := hi.2
  have ha2 : a < h.top + 1 := ha.2
  simp only [Heap.setChild_child, Heap.setChild_next, Heap.new_child, Heap.new_next]
  by_cases e : a = h.top
  · have e3 : a ≠ item := by omega
    simp only [if_pos e, if_neg e3]
    exact ⟨Or.inl trivial, Or.inl trivial⟩
  · obtain ⟨x, y⟩ := ho a ⟨ha.1, by omega⟩
    simp only [if_neg e]
    refine ⟨?_, y⟩
    by_cases e2 : a = item
    · rw [if_pos e2]; exact Or.inr (by omega)
    · rw [if_neg e2]; exact x

/-- One more node of a chain, `child->next=new_item; new_item->prev=child`,
keeps the heap ordered. -/
theorem Heap.ordered_more (h : Heap) (child : Nat) (hc : h.live child) (ho : h.ordered) :
    (((h.cJSON_New_Item).1.setNext child h.top).setPrev h.top child).ordered := by
  intro a ha
  have hc2 := hc.2
  have ha2 : a < h.top + 1 := ha.2
  simp only [Heap.setPrev_child, Heap.setPrev_next, Heap.setNext_child, Heap.setNext_next,
    Heap.new_child, Heap.new_next]
  by_cases e : a = h.top
  · have e3 : a ≠ child := by omega
    simp only [if_pos e, if_neg e3]
    exact ⟨Or.inl trivial, Or.inl trivial⟩
  · obtain ⟨x, y⟩ := ho a ⟨ha.1, by omega⟩
    simp only [if_neg e]
    refine ⟨x, ?_⟩
    by_cases e2 : a = child
    · rw [if_pos e2]; exact Or.inr (by omega)
    · rw [if_neg e2]; exact y

/-- The parser functions keep the heap ordered. -/
theorem Heap.parse_ordered (fuel : Nat) :
    (∀ h item v k it rest, h.linked → h.live item → h.ordered →
      Heap.parse_value fuel h item v = .ok k it rest → k.ordered) ∧
    (∀ h item v k it rest, h.linked → h.live item → h.ordered →
      Heap.parse_array fuel h item v = .ok k it rest → k.ordered) ∧
    (∀ h child v k it rest, h.linked → h.live child → h.next child = 0 → h.ordered →
      Heap.parse_array_loop fuel h child v = .ok k it rest → k.ordered) ∧
    (∀ h item v k it rest, h.linked → h.live item → h.ordered →
      Heap.parse_member fuel h item v = .ok k it rest → k.ordered) ∧
    (∀ h item v k it rest, h.linked → h.live item → h.ordered →
      Heap.parse_object fuel h item v = .ok k it rest → k.ordered) ∧
    (∀ h child v k it rest, h.linked → h.live child → h.next child = 0 → h.ordered →
      Heap.parse_object_loop fuel h child v = .ok k it rest → k.ordered) := by
  induction fuel with
  | zero =>
    refine ⟨?_, ?_, ?_, ?_, ?_, ?_⟩ <;> intros <;>
      simp_all [Heap.parse_value, Heap.parse_array, Heap.parse_array_loop, Heap.parse_member,
        Heap.parse_object, Heap.parse_object_loop]
  | succ f ih =>
    obtain ⟨ihv, iha, ihl, ihm, iho, ihol⟩ := ih
    obtain ⟨lv, -, -, lm, -, -⟩ := Heap.parse_linked f
    have first : ∀ (h : Heap) (item : Nat), h.linked → h.live item →
        ((h.cJSON_New_Item).1.setChild item h.top).linked ∧
        ((h.cJSON_New_Item).1.setChild item h.top).live h.top ∧
        ((h.cJSON_New_Item).1.setChild item h.top).next h.top = 0 := by
      intro h item hl hi
      obtain ⟨n1, n2, n3, n4⟩ := h.linked_new hl
      exact ⟨Heap.linked_child _ _ _ n1 (Or.inr ⟨n2.1, n2.2.2.1⟩), n2.1, n2.2.1⟩
    have more : ∀ (h : Heap) (child : Nat), h.linked → h.live child → h.next child = 0 →
        (((h.cJSON_New_Item).1.setNext child h.top).setPrev h.top child).linked ∧
        (((h.cJSON_New_Item).1.setNext child h.top).setPrev h.top child).live h.top ∧
        (((h.cJSON_New_Item).1.setNext child h.top).setPrev h.top child).next h.top = 0 := by
      intro h child hl hc hn
      obtain ⟨n1, n2, n3, n4⟩ := h.linked_new hl
      have hc1 := hc.1
      have hc2 := hc.2
      have hne : child ≠ h.top := by omega
      refine ⟨Heap.linked_link _ _ _ n1 (Heap.live_mono h _ _ (by simp) hc) ?_ n2.1 n2.2.2.1
        n2.2.2.2, n2.1, ?_⟩
      · simp [hne, hn]
      · simp [hne.symm]
    refine ⟨?_, ?_, ?_, ?_, ?_, ?_⟩
    · intro h item v k it rest hl hi ho e
      rw [Heap.parse_value] at e
      split_ifs at e with h1 h2 h3 h4 h5 h6 h7
      · injection e with e1 e2 e3
        subst e1
        exact ho
      · injection e with e1 e2 e3
        subst e1
        exact ho
      · injection e with e1 e2 e3
        subst e1
        exact ho
      · exact Heap.ordered_of_same _ _ (Heap.parse_string_same _ _ _ _ _ _ e).1 ho
      · injection e with e1 e2 e3
        subst e1
        exact ho
      · exact iha _ _ _ _ _ _ hl hi ho e
      · exact iho _ _ _ _ _ _ hl hi ho e
    · intro h item v k it rest hl hi ho e
      rw [Heap.parse_array] at e
      split_ifs at e with h1 h2
      · injection e with e1 e2 e3
        subst e1
        exact ho
      · simp only [Heap.new_addr] at e
        have hl0 : (h.setType item cJSON_Array).linked := hl
        have ho0 : (h.setType item cJSON_Array).ordered := ho
        obtain ⟨f1, f2, f3⟩ := first (h.setType item cJSON_Array) item hl0 hi
        have f5 := Heap.ordered_first (h.setType item cJSON_Array) item hi ho0
        cases hv : Heap.parse_value f
            (((h.setType item cJSON_Array).cJSON_New_Item).1.setChild item
              (h.setType item cJSON_Array).top)
            (h.setType item cJSON_Array).top (skip (skip v.tail)) with
        | ok h1 child v1 =>
          rw [hv] at e
          simp only at e
          obtain ⟨g1, g2, g3⟩ := lv _ _ _ _ _ _ f1 f2 hv
          have g4 := ihv _ _ _ _ _ _ f1 f2 f5 hv
          subst g2
          have gl : h1.live (h.setType item cJSON_Array).top := Heap.live_mono _ _ _ g3.1 f2
          have gn : h1.next (h.setType item cJSON_Array).top = 0 := by
            rw [(g3.2.1 _ f2).2.1 f2.1]; exact f3
          cases hw : Heap.parse_array_loop f h1 (h.setType item cJSON_Array).top (skip v1) with
          | ok h2 c2 rest2 =>
            rw [hw] at e
            simp only at e
            injection e with e1 e2 e3
            subst e1
            exact ihl _ _ _ _ _ _ g1 gl gn g4 hw
          | fail _ => rw [hw] at e; simp at e
          | overrun => rw [hw] at e; simp at e
          | nofuel => rw [hw] at e; simp at e
        | fail _ => rw [hv] at e; simp at e
        | overrun => rw [hv] at e; simp at e
        | nofuel => rw [hv] at e; simp at e
    · intro h child v k it rest hl hc hn ho e
      rw [Heap.parse_array_loop] at e
      split_ifs at e with h1 h2
      · simp only [Heap.new_addr] at e
        obtain ⟨f1, f2, f3⟩ := more h child hl hc hn
        have f5 := Heap.ordered_more h child hc ho
        cases hv : Heap.parse_value f
            (((h.cJSON_New_Item).1.setNext child h.top).setPrev h.top child) h.top
            (skip v.tail) with
        | ok h1 c1 v1 =>
          rw [hv] at e
          simp only at e
          obtain ⟨g1, g2, g3⟩ := lv _ _ _ _ _ _ f1 f2 hv
          have g4 := ihv _ _ _ _ _ _ f1 f2 f5 hv
          subst g2
          have gl : h1.live h.top := Heap.live_mono _ _ _ g3.1 f2
          have gn : h1.next h.top = 0 := by rw [(g3.2.1 _ f2).2.1 f2.1]; exact f3
          exact ihl _ _ _ _ _ _ g1 gl gn g4 e
        | fail _ => rw [hv] at e; simp at e
        | overrun => rw [hv] at e; simp at e
        | nofuel => rw [hv] at e; simp at e
      · injection e with e1 e2 e3
        subst e1
        exact ho
    · intro h item v k it rest hl hi ho e
      rw [Heap.parse_member] at e
      cases hs : h.parse_string item (skip v) with
      | ok h1 c1 v1 =>
        rw [hs] at e
        simp only at e
        split_ifs at e with hcolon
        obtain ⟨s1, s2⟩ := Heap.parse_string_same _ _ _ _ _ _ hs
        have s3 : h.same_links
            ((h1.setString item (h1.valuestring item)).setValuestring item none) := s1
        have hi2 : ((h1.setString item (h1.valuestring item)).setValuestring item none).live
            item := ⟨hi.1, by rw [s3.2.2.2]; exact hi.2⟩
        exact ihv _ _ _ _ _ _ (Heap.linked_of_same _ _ s3 hl) hi2
          (Heap.ordered_of_same _ _ s3 ho) e
      | fail _ => rw [hs] at e; simp at e
      | overrun => rw [hs] at e; simp at e
      | nofuel => rw [hs] at e; simp at e
    · intro h item v k it rest hl hi ho e
      rw [Heap.parse_object] at e
      split_ifs at e with h1 h2
      · injection e with e1 e2 e3
        subst e1
        exact ho
      · simp only [Heap.new_addr] at e
        have hl0 : (h.setType item cJSON_Object).linked := hl
        have ho0 : (h.setType item cJSON_Object).ordered := ho
        obtain ⟨f1, f2, f3⟩ := first (h.setType item cJSON_Object) item hl0 hi
        have f5 := Heap.ordered_first (h.setType item cJSON_Object) item hi ho0
        cases hv : Heap.parse_member f
            (((h.setType item cJSON_Object).cJSON_New_Item).1.setChild item
              (h.setType item cJSON_Object).top)
            (h.setType item cJSON_Object).top (skip v.tail) with
        | ok h1 child v1 =>
          rw [hv] at e
          simp only at e
          obtain ⟨g1, g2, g3⟩ := lm _ _ _ _ _ _ f1 f2 hv
          have g4 := ihm _ _ _ _ _ _ f1 f2 f5 hv
          subst g2
          have gl : h1.live (h.setType item cJSON_Object).top := Heap.live_mono _ _ _ g3.1 f2
          have gn : h1.next (h.setType item cJSON_Object).top = 0 := by
            rw [(g3.2.1 _ f2).2.1 f2.1]; exact f3
          cases hw : Heap.parse_object_loop f h1 (h.setType item cJSON_Object).top (skip v1) with
          | ok h2 c2 rest2 =>
            rw [hw] at e
            simp only at e
            injection e with e1 e2 e3
            subst e1
            exact ihol _ _ _ _ _ _ g1 gl gn g4 hw
          | fail _ => rw [hw] at e; simp at e
          | overrun => rw [hw] at e; simp at e
          | nofuel => rw [hw] at e; simp at e
        | fail _ => rw [hv] at e; simp at e
        | overrun => rw [hv] at e; simp at e
        | nofuel => rw [hv] at e; simp at e
    · intro h child v k it rest hl hc hn ho e
      rw [Heap.parse_object_loop] at e
      split_ifs at e with h1 h2
      · simp only [Heap.new_addr] at e
        obtain ⟨f1, f2, f3⟩ := more h child hl hc hn
        have f5 := Heap.ordered_more h child hc ho
        cases hv : Heap.parse_member f
            (((h.cJSON_New_Item).1.setNext child h.top).setPrev h.top child) h.top
            v.tail with
        | ok h1 c1 v1 =>
          rw [hv] at e
          simp only at e
          obtain ⟨g1, g2, g3⟩ := lm _ _ _ _ _ _ f1 f2 hv
          have g4 := ihm _ _ _ _ _ _ f1 f2 f5 hv
          subst g2
          have gl : h1.live h.top := Heap.live_mono _ _ _ g3.1 f2
          have gn : h1.next h.top = 0 := by rw [(g3.2.1 _ f2).2.1 f2.1]; exact f3
          exact ihol _ _ _ _ _ _ g1 gl gn g4 e
        | fail _ => rw [hv] at e; simp at e
        | overrun => rw [hv] at e; simp at e
        | nofuel => rw [hv] at e; simp at e
      · injection e with e1 e2 e3
        subst e1
        exact ho

/-- `cJSON_ParseWithOpts` keeps the heap ordered. -/
theorem Heap.parse_top_ordered (h : Heap) (v : List Nat) (req : Bool) (k : Heap) (c : Nat)
    (rest : List Nat) (hl : h.linked) (ho : h.ordered)
    (e : h.cJSON_ParseWithOpts v req = .ok k c rest) : k.ordered := by
  obtain ⟨n1, n2, n3, n4⟩ := h.linked_new hl
  have o1 : (h.cJSON_New_Item).1.ordered := by
    intro a ha
    have ha2 : a < h.top + 1 := ha.2
    simp only [Heap.new_child, Heap.new_next]
    by_cases e : a = h.top
    · simp only [if_pos e]; exact ⟨Or.inl trivial, Or.inl trivial⟩
    · simp only [if_neg e]; exact ho a ⟨ha.1, by omega⟩
  unfold Heap.cJSON_ParseWithOpts at e
  simp only [Heap.new_addr] at e
  cases hv : Heap.parse_value (fuel_for v) (h.cJSON_New_Item).1 h.top (skip v) with
  | ok k2 c2 r2 =>
    rw [hv] at e
    simp only at e
    have := (Heap.parse_ordered (fuel_for v)).1 _ _ _ _ _ _ n1 n2.1 o1 hv
    split_ifs at e <;>
    · injection e with e1 e2 e3
      subst e1
      exact this
  | fail _ => rw [hv] at e; simp at e
  | overrun => rw [hv] at e; simp at e
  | nofuel => rw [hv] at e; simp at e

/-- An ordered heap is a forest: the distance to `top` is a rank. -/
theorem Heap.ordered_ranked (h : Heap) (hl : h.linked) (ho : h.ordered) :
    h.ranked h.top (fun a => h.top - a) := by
  intro a a0 a1
  obtain ⟨x, y⟩ := ho a ⟨a0, a1⟩
  obtain ⟨p, _, q⟩ := hl.2 a ⟨a0, a1⟩
  refine ⟨?_, ?_⟩
  · rcases q with q | ⟨q, _⟩
    · exact Or.inl q
    · have := q.2
      rcases x with x | x
      · exact Or.inl x
      · exact Or.inr ⟨q.2, by simp only; omega⟩
  · rcases p with p | ⟨p, _⟩
    · exact Or.inl p
    · have := p.2
      rcases y with y | y
      · exact Or.inl y
      · exact Or.inr ⟨p.2, by simp only; omega⟩

theorem Heap.empty_ordered : Heap.empty.ordered :=
  fun a ha => absurd ha.2 (by have := ha.1; simp [Heap.empty]; omega)

/-- C22: the sibling-chain invariant on the heap of the nodes.  A heap is well
linked exactly when its links address nodes and, in the words of the
specification, for any two nodes `a.next = b` iff `b.prev = a`, the `child` of
a container is a node without previous sibling, and the chain from it ends in
a node without next sibling.  The empty heap is well linked.  The parser
on the heap returns as the parser on values does, and from a well linked heap
every successful parse leaves the heap well linked, with a stand-alone root; appending a stand-alone item to an array or
an object, detaching by index or by key, and replacing by index or by key with
a stand-alone item return and leave it well linked; `cJSON_Duplicate` leaves
it well linked whenever it returns, with a stand-alone copy, and it returns on
trees: where a rank decreases along `child` and `next`, as the address does in
the heaps the parser builds from the empty one. -/
theorem C22_sibling_chain :
    Heap.empty.linked ∧
    (∀ h : Heap, h.linked ↔ 0 < h.top ∧ h.closed ∧ h.sibling_invariant) ∧
    (∀ (h : Heap) (v : List Nat) (req : Bool),
      (h.cJSON_ParseWithOpts v req).trace = (cJSON_ParseWithOpts v req).trace) ∧
    (∀ (h : Heap) (v : List Nat) (req : Bool) (k : Heap) (c : Nat) (rest : List Nat),
      h.linked → h.cJSON_ParseWithOpts v req = .ok k c rest →
      k.linked ∧ k.sibling_invariant ∧ c = h.top ∧ k.stand_alone c ∧ h.keeps k 0 0 ∧
        (h.ordered → k.ordered)) ∧
    (∀ (h : Heap) (array item : Nat), h.linked → h.live array → h.stand_alone item →
      ∃ k, h.cJSON_AddItemToArray array item = some k ∧ k.linked ∧ k.sibling_invariant) ∧
    (∀ (h : Heap) (object : Nat) (string : List Nat) (item : Nat), h.linked →
      h.live object → h.stand_alone item →
      ∃ k, h.cJSON_AddItemToObject object string item = some k ∧ k.linked ∧
        k.sibling_invariant) ∧
    (∀ (h : Heap) (array : Nat) (which : Int), h.linked → h.live array →
      (h.cJSON_DetachItemFromArray array which).1.linked ∧
      (h.cJSON_DetachItemFromArray array which).1.sibling_invariant ∧
      ((h.cJSON_DetachItemFromArray array which).2 ≠ 0 →
        (h.cJSON_DetachItemFromArray array which).1.next
          (h.cJSON_DetachItemFromArray array which).2 = 0 ∧
        (h.cJSON_DetachItemFromArray array which).1.prev
          (h.cJSON_DetachItemFromArray array which).2 = 0)) ∧
    (∀ (h : Heap) (object : Nat) (string : Option (List Nat)), h.linked → h.live object →
      ∃ r, h.cJSON_DetachItemFromObject object string = some r ∧ r.1.linked ∧
        r.1.sibling_invariant) ∧
    (∀ (h : Heap) (array : Nat) (which : Int) (newitem : Nat), h.linked → h.live array →
      h.stand_alone newitem →
      (h.cJSON_ReplaceItemInArray array which newitem).linked ∧
      (h.cJSON_ReplaceItemInArray array which newitem).sibling_invariant) ∧
    (∀ (h : Heap) (object : Nat) (string : List Nat) (newitem : Nat), h.linked →
      h.live object → h.stand_alone newitem →
      ∃ k, h.cJSON_ReplaceItemInObject object string newitem = some k ∧ k.linked ∧
        k.sibling_invariant) ∧
    (∀ (fuel : Nat) (h : Heap) (item : Nat) (recurse : Bool) (k : Heap) (n : Nat),
      h.linked → h.live item → Heap.cJSON_Duplicate fuel h item recurse = some (k, n) →
      k.linked ∧ k.sibling_invariant ∧ k.stand_alone n ∧ h.keeps k 0 0) ∧
    (∀ (h : Heap) (item : Nat) (recurse : Bool) (rank : Nat → Nat), h.linked →
      h.live item → h.ranked h.top rank →
      ∃ r, Heap.cJSON_Duplicate (2 * rank item + 2) h item recurse = some r) ∧
    Heap.empty.ordered ∧
    (∀ h : Heap, h.linked → h.ordered → h.ranked h.top (fun a => h.top - a)) := by
  have si : ∀ h : Heap, h.linked → h.sibling_invariant := fun h hl =>
    ((Heap.linked_iff h).1 hl).2.2
  refine ⟨Heap.empty_linked, Heap.linked_iff, Heap.parse_top_trace, ?_, ?_, ?_, ?_, ?_, ?_, ?_,
    ?_, ?_, Heap.empty_ordered, Heap.ordered_ranked⟩
  · intro h v req k c rest hl e
    obtain ⟨p1, p2, p3, p4⟩ := Heap.parse_top_linked h v req k c rest hl e
    exact ⟨p1, si k p1, p2, p3, p4, fun ho => Heap.parse_top_ordered h v req k c rest hl ho e⟩
  · intro h array item hl ha hi
    obtain ⟨k, k1, k2, _⟩ := Heap.add_linked h array item hl ha hi
    exact ⟨k, k1, k2, si k k2⟩
  · intro h object string item hl ha hi
    obtain ⟨k, k1, k2, _⟩ := Heap.add_object_linked h object string item hl ha hi
    exact ⟨k, k1, k2, si k k2⟩
  · intro h array which hl ha
    obtain ⟨d1, _, d3⟩ := Heap.detach_linked h array which hl ha
    refine ⟨d1, si _ d1, fun e => ?_⟩
    rcases d3 with x | ⟨_, x⟩
    · exact absurd x e
    · exact x
  · intro h object string hl ha
    obtain ⟨r, r1, r2, _⟩ := Heap.detach_object_linked h object string hl ha
    exact ⟨r, r1, r2, si _ r2⟩
  · intro h array which newitem hl ha hi
    obtain ⟨r1, _⟩ := Heap.replace_linked h array which newitem hl ha hi
    exact ⟨r1, si _ r1⟩
  · intro h object string newitem hl ha hi
    obtain ⟨k, k1, k2, _⟩ := Heap.replace_object_linked h object string newitem hl ha hi
    exact ⟨k, k1, k2, si k k2⟩
  · intro fuel h item recurse k n hl hi e
    obtain ⟨d1, d2, _, d4⟩ := (Heap.duplicate_linked fuel).1 h item recurse k n hl (Or.inr hi) e
    exact ⟨d1, si k d1, (d4 hi.1).2, d2⟩
  · intro h item recurse rank hl hi hr
    cases recurse with
    | true =>
      exact (Heap.duplicate_returns (2 * rank item + 2)).1 h item h.top rank hl (le_refl _)
        hi.1 hi.2 hr (le_refl _)
    | false =>
      refine ⟨(h.duplicate_node item, (h.cJSON_New_Item).2), ?_⟩
      rw [Heap.cJSON_Duplicate, if_neg hi.1]
      simp

/-- The text `[1,[2,3]]` parsed on the empty heap: five nodes, well linked;
the outer array at 1 with the children 2 and 3, the inner array 3 with the
children 4 and 5. -/
theorem C22_sibling_chain_witness :
    Heap.sample = .ok Heap.sample.heap 1 [] ∧
      Heap.sample.heap.linked ∧ Heap.sample.heap.sibling_invariant ∧
      Heap.sample.heap.stand_alone 1 ∧ Heap.sample.heap.top = 6 ∧
      Heap.sample.heap.child 1 = 2 ∧ Heap.sample.heap.prev 2 = 0 ∧
      Heap.sample.heap.next 2 = 3 ∧ Heap.sample.heap.prev 3 = 2 ∧
      Heap.sample.heap.next 3 = 0 ∧ Heap.sample.heap.child 3 = 4 ∧
      Heap.sample.heap.prev 4 = 0 ∧ Heap.sample.heap.next 4 = 5 ∧
      Heap.sample.heap.prev 5 = 4 ∧ Heap.sample.heap.next 5 = 0 ∧
      Heap.sample.heap.ordered := by
  have e : Heap.sample = .ok Heap.sample.heap 1 [] := by
    have e1 : Heap.sample.trace = (0, []) := by decide!
    have e2 : Heap.sample.root = 1 := by decide!
    revert e1 e2
    cases Heap.sample with
    | ok k c rest =>
      intro e1 e2
      simp only [HParsed.trace, Prod.mk.injEq, true_and] at e1
      simp only [HParsed.root] at e2
      rw [e1, e2]
      rfl
    | fail ep => intro e1; simp [HParsed.trace] at e1
    | overrun => intro e1; simp [HParsed.trace] at e1
    | nofuel => intro e1; simp [HParsed.trace] at e1
  obtain ⟨p1, p2, _, p4, _, p6⟩ :=
    C22_sibling_chain.2.2.2.1 Heap.empty (bytes "[1,[2,3]]") true Heap.sample.heap 1 []
      Heap.empty_linked e
  exact ⟨e, p1, p2, p4, by decide!, by decide!, by decide!, by decide!, by decide!, by decide!,
    by decide!, by decide!, by decide!, by decide!, by decide!, p6 Heap.empty_ordered⟩

/-- The operations on the heap of `[1,[2,3]]`: detaching the first child of
the outer array; appending a new node to the inner array; replacing the second
child of the outer array by a new node; duplicating the outer array. -/
theorem Heap.sample_operations :
    (Heap.sample.heap.cJSON_DetachItemFromArray 1 0).2 = 2 ∧
    (Heap.sample.heap.cJSON_DetachItemFromArray 1 0).1.child 1 = 3 ∧
    (Heap.sample.heap.cJSON_DetachItemFromArray 1 0).1.prev 3 = 0 ∧
    (Heap.sample.heap.cJSON_DetachItemFromArray 1 0).1.next 2 = 0 ∧
    (((Heap.sample.heap.cJSON_New_Item).1.cJSON_AddItemToArray 3 6).map
      (fun k => [k.next 5, k.prev 6, k.next 6])) = some [6, 5, 0] ∧
    ((Heap.sample.heap.cJSON_New_Item).1.cJSON_ReplaceItemInArray 1 1 6).next 2 = 6 ∧
    ((Heap.sample.heap.cJSON_New_Item).1.cJSON_ReplaceItemInArray 1 1 6).prev 6 = 2 ∧
    ((Heap.sample.heap.cJSON_New_Item).1.cJSON_ReplaceItemInArray 1 1 6).next 6 = 0 ∧
    ((Heap.sample.heap.cJSON_New_Item).1.cJSON_ReplaceItemInArray 1 1 6).prev 3 = 0 ∧
    ((Heap.cJSON_Duplicate 12 Heap.sample.heap 1 true).map
      (fun r => [r.2, r.1.top, r.1.child 6, r.1.next 7, r.1.prev 8, r.1.child 8, r.1.next 9,
        r.1.prev 10, r.1.next 10, r.1.child 1])) =
      some [6, 11, 7, 8, 7, 9, 10, 9, 0, 2] ∧
    Heap.sample.heap.ranked 6 (fun a => 6 - a) := by
  refine ⟨by decide!, by decide!, by decide!, by decide!, by decide!, by decide!, by decide!,
    by decide!, by decide!, by decide!, ?_⟩
  intro a a0 a1
  have h : a = 1 ∨ a = 2 ∨ a = 3 ∨ a = 4 ∨ a = 5 := by omega
  rcases h with rfl | rfl | rfl | rfl | rfl <;> decide!

/-- C23: at the literal `"\u"abcdefgh"` the claim fails.  The prescan stops
at the quote after `\u` with the length 1, so the buffer has 2 bytes; the copy
pass reads the quote as the first of four hex digits, moves its pointer over
`"abc`, and writes `defgh` and the terminator, 6 bytes, into that buffer. -/
theorem C23_copy_exceeds_prescan :
    parse_string_len false (bytes "\\u\"abcdefgh\"") 0 = some 1 ∧
    parse_string_copy .scan (bytes "\\u\"abcdefgh\"") = some (bytes "defgh", [34]) ∧
    parse_string cJSON_New_Item (bytes "\"\\u\"abcdefgh\"") = .overrun ∧
    cJSON_Parse (bytes "\"\\u\"abcdefgh\"") = .overrun := by
  refine ⟨by decide, by decide, by decide, by decide!⟩
theorem parsed_form_suffix (c item : cJSON) :
    parsed_form (suffix_last c item) = suffix_last (parsed_form c) (parsed_form item) := by
  induction c with
  | null => rfl
  | node n ch t vs vi vd s ihn _ => rw [suffix_last, parsed_form, parsed_form, suffix_last, ihn]

theorem canon_suffix_last (c item : cJSON) (k : Bool) (hc : canon_chain k c)
    (hi : canon_chain k item) : canon_chain k (suffix_last c item) := by
  induction c with
  | null => exact hi
  | node n ch t vs vi vd s ihn _ =>
    rw [canon_chain_node] at hc
    rw [suffix_last, canon_chain_node]
    exact ⟨hc.1, hc.2.1, ihn hc.2.2⟩

theorem integral_suffix_last (c item : cJSON) (hc : integral c) (hi : integral item) :
    integral (suffix_last c item) := by
  induction c with
  | null => exact hi
  | node n ch t vs vi vd s ihn _ =>
    rw [integral] at hc
    rw [suffix_last, integral]
    exact ⟨hc.1, ihn hc.2.1, hc.2.2⟩

theorem print_item_parsed (t : Nat) (vs : Option (List Nat)) (vi : Int) (vd : ℚ)
    (names : List (List Nat)) (entries : List (Option (List Nat))) (depth : Nat) (fmt : Bool) :
    print_item t vs (if t = cJSON_True then 1 else vi) vd names entries depth fmt =
      print_item t vs vi vd names entries depth fmt := by
  by_cases h : t = cJSON_True
  · rw [if_pos h, h, print_item, print_item, if_neg (by decide), if_neg (by decide),
      if_pos (by decide), if_neg (by decide), if_neg (by decide), if_pos (by decide)]
  · rw [if_neg h]

theorem print_names_parsed (c : cJSON) : print_names (parsed_form c) = print_names c := by
  induction c with
  | null => rfl
  | node n ch t vs vi vd s ihn _ => rw [parsed_form, print_names, print_names, ihn]

theorem print_chain_parsed (c : cJSON) :
    ∀ depth fmt, print_chain (parsed_form c) depth fmt = print_chain c depth fmt := by
  induction c with
  | null => intro depth fmt; rfl
  | node n ch t vs vi vd s ihn ihc =>
    intro depth fmt
    rw [parsed_form, print_chain, print_chain, ihn, ihc, print_names_parsed, print_item_parsed]

theorem same_content_parsed (c : cJSON) : same_content c (parsed_form c) := by
  induction c with
  | null => exact True.intro
  | node n ch t vs vi vd s ihn ihc =>
    rw [parsed_form, same_content]
    refine ⟨rfl, ?_, rfl, rfl, ihc, ihn⟩
    intro h
    rw [if_neg (by rw [h]; decide)]
    exact ⟨rfl, rfl⟩

theorem cJSON_strdup_nul_free (s : List Nat) : nul_free (cJSON_strdup s) := by
  intro c hc
  have := List.mem_takeWhile_imp hc
  simpa using this

theorem print_parse_canon (child : cJSON) (type : Nat) (vs : Option (List Nat)) (vi : Int)
    (vd : ℚ) (hp : payload_canon child type vs vi vd)
    (hnum : type = cJSON_Number → vd = (vi : ℚ) ∧ INT_MIN ≤ vi ∧ vi ≤ INT_MAX)
    (hich : integral child) (fmt req : Bool) :
    ∃ out, print_value (.node .null child type vs vi vd none) 0 fmt = some out ∧
      cJSON_ParseWithOpts out req = .ok (.node .null child type vs vi vd none) [] := by
  obtain ⟨out, hprint, hstart, F, hV⟩ := value_roundtrip child type vs vi vd hp
    (fun ht => whole_number_of_int vi vd (hnum ht))
    (fun k hk d f => chain_roundtrip_all child k hk (whole_of_integral child hich) d f) 0 fmt
  refine ⟨out, hprint, ?_⟩
  have h1 := hV .null 0 none [] (by decide)
  have hsk := (value_start_append hstart []).1
  rw [List.append_nil] at h1 hsk
  have h2 : parse_value F cJSON_New_Item (skip out) =
      .ok (.node .null child type vs vi vd none) [] := by
    rw [hsk]; exact h1
  have h3 := parse_top out cJSON_New_Item F _ h2 (by simp)
  unfold cJSON_ParseWithOpts
  rw [h3]
  cases req <;> rfl

theorem constructed_canon (t : cJSON) (h : Constructed t) :
    ∃ child type vs vi vd, t = .node .null child type vs vi vd none ∧
      payload_canon (parsed_form child) type vs (if type = cJSON_True then 1 else vi) vd ∧
      (type = cJSON_Number → vd = (vi : ℚ) ∧ INT_MIN ≤ vi ∧ vi ≤ INT_MAX) ∧
      integral (parsed_form child) := by
  induction h with
  | null =>
    exact ⟨.null, cJSON_NULL, none, 0, 0, rfl, Or.inl ⟨rfl, rfl, rfl, rfl, rfl⟩,
      fun h => absurd h (by decide), True.intro⟩
  | true =>
    exact ⟨.null, cJSON_True, none, 0, 0, rfl,
      Or.inr (Or.inr (Or.inl ⟨rfl, rfl, rfl, rfl, rfl⟩)), fun h => absurd h (by decide),
      True.intro⟩
  | false =>
    exact ⟨.null, cJSON_False, none, 0, 0, rfl, Or.inr (Or.inl ⟨rfl, rfl, rfl, rfl, rfl⟩),
      fun h => absurd h (by decide), True.intro⟩
  | number n hlo hhi =>
    refine ⟨.null, cJSON_Number, none, n, (n : ℚ), ?_,
      Or.inr (Or.inr (Or.inr (Or.inl ⟨rfl, rfl, rfl⟩))), fun _ => ⟨rfl, hlo, hhi⟩, True.intro⟩
    rw [cJSON_CreateNumber, int_of_double_int n hlo hhi]
    rfl
  | string s =>
    exact ⟨.null, cJSON_String, some (cJSON_strdup s), 0, 0, rfl,
      Or.inr (Or.inr (Or.inr (Or.inr (Or.inl
        ⟨rfl, rfl, ⟨_, rfl, cJSON_strdup_nul_free s⟩, rfl, rfl⟩)))),
      fun h => absurd h (by decide), True.intro⟩
  | array =>
    exact ⟨.null, cJSON_Array, none, 0, 0, rfl,
      Or.inr (Or.inr (Or.inr (Or.inr (Or.inr (Or.inl ⟨rfl, rfl, rfl, rfl, True.intro⟩))))),
      fun h => absurd h (by decide), True.intro⟩
  | object =>
    exact ⟨.null, cJSON_Object, none, 0, 0, rfl,
      Or.inr (Or.inr (Or.inr (Or.inr (Or.inr (Or.inr ⟨rfl, rfl, rfl, rfl, True.intro⟩))))),
      fun h => absurd h (by decide), True.intro⟩
  | add_to_array a item _ hty _ iha ihi =>
    obtain ⟨ch, ty, vs, vi, vd, rfl, hpa, _, hia⟩ := iha
    obtain ⟨c2, t2, vs2, vi2, vd2, rfl, hp2, hn2, hi2⟩ := ihi
    simp only [cJSON.getType] at hty
    subst hty
    rw [if_neg (by decide)] at hpa
    have harr : vs = none ∧ vi = 0 ∧ vd = 0 ∧ canon_chain false (parsed_form ch) := by
      rcases hpa with ⟨h, _⟩ | ⟨h, _⟩ | ⟨h, _⟩ | ⟨h, _⟩ | ⟨h, _⟩ | ⟨_, h⟩ | ⟨h, _⟩
      · exact absurd h (by decide)
      · exact absurd h (by decide)
      · exact absurd h (by decide)
      · exact absurd h (by decide)
      · exact absurd h (by decide)
      · exact h
      · exact absurd h (by decide)
    obtain ⟨rfl, rfl, rfl, hcc⟩ := harr
    refine ⟨suffix_last ch (.node .null c2 t2 vs2 vi2 vd2 none), cJSON_Array, none, 0, 0,
      add_item_child _ _ _ _ _ _ _ _ _ _ _ _ _ _, ?_, fun h => absurd h (by decide), ?_⟩
    · rw [if_neg (by decide), parsed_form_suffix]
      refine Or.inr (Or.inr (Or.inr (Or.inr (Or.inr (Or.inl ⟨rfl, rfl, rfl, rfl, ?_⟩)))))
      refine canon_suffix_last _ _ _ hcc ?_
      rw [parsed_form, canon_chain_node]
      exact ⟨by simp [key_canon], hp2, True.intro⟩
    · rw [parsed_form_suffix]
      refine integral_suffix_last _ _ hia ?_
      rw [parsed_form, integral]
      refine ⟨?_, True.intro, hi2⟩
      intro h
      rw [if_neg (by rw [h]; decide)]
      exact hn2 h
  | add_to_object o item string _ hty _ iho ihi =>
    obtain ⟨ch, ty, vs, vi, vd, rfl, hpo, _, hio⟩ := iho
    obtain ⟨c2, t2, vs2, vi2, vd2, rfl, hp2, hn2, hi2⟩ := ihi
    simp only [cJSON.getType] at hty
    subst hty
    rw [if_neg (by decide)] at hpo
    have hobj : vs = none ∧ vi = 0 ∧ vd = 0 ∧ canon_chain true (parsed_form ch) := by
      rcases hpo with ⟨h, _⟩ | ⟨h, _⟩ | ⟨h, _⟩ | ⟨h, _⟩ | ⟨h, _⟩ | ⟨h, _⟩ | ⟨_, h⟩
      · exact absurd h (by decide)
      · exact absurd h (by decide)
      · exact absurd h (by decide)
      · exact absurd h (by decide)
      · exact absurd h (by decide)
      · exact absurd h (by decide)
      · exact h
    obtain ⟨rfl, rfl, rfl, hcc⟩ := hobj
    refine ⟨suffix_last ch (.node .null c2 t2 vs2 vi2 vd2 (some (cJSON_strdup string))),
      cJSON_Object, none, 0, 0, ?_, ?_, fun h => absurd h (by decide), ?_⟩
    · rw [cJSON_AddItemToObject, add_item_child]
    · rw [if_neg (by decide), parsed_form_suffix]
      refine Or.inr (Or.inr (Or.inr (Or.inr (Or.inr (Or.inr ⟨rfl, rfl, rfl, rfl, ?_⟩)))))
      refine canon_suffix_last _ _ _ hcc ?_
      rw [parsed_form, canon_chain_node]
      exact ⟨by simp [key_canon, cJSON_strdup_nul_free], hp2, True.intro⟩
    · rw [parsed_form_suffix]
      refine integral_suffix_last _ _ hio ?_
      rw [parsed_form, integral]
      refine ⟨?_, True.intro, hi2⟩
      intro h
      rw [if_neg (by rw [h]; decide)]
      exact hn2 h

/-- C24: for every tree built from the constructors, with integers of the
`int` range as numbers, every child of an Array added with
`cJSON_AddItemToArray` and every child of an Object with
`cJSON_AddItemToObject`, `cJSON_PrintUnformatted` gives a text, and
`cJSON_ParseWithOpts` of that text with `require_null_terminated` set
succeeds, stops at the end of the text, and returns a tree of the same
content: kinds, numbers, strings, keys and order of the children.  The tree
returned is the one built, with `valueint` 1 in its True nodes. -/
theorem C24_constructed_roundtrip (t : cJSON) (h : Constructed t) :
    ∃ out, cJSON_PrintUnformatted t = some out ∧
      cJSON_ParseWithOpts out true = .ok (parsed_form t) [] ∧
      same_content t (parsed_form t) := by
  obtain ⟨child, type, vs, vi, vd, rfl, hp, hn, hi⟩ := constructed_canon t h
  obtain ⟨out, hprint, hparse⟩ := print_parse_canon (parsed_form child) type vs
    (if type = cJSON_True then 1 else vi) vd hp (by
      intro hty
      rw [if_neg (by rw [hty]; decide)]
      exact hn hty) hi false true
  refine ⟨out, ?_, hparse, same_content_parsed _⟩
  rw [cJSON_PrintUnformatted, print_value, ← print_chain_parsed, ← print_names_parsed,
    ← print_item_parsed]
  exact hprint

/-- The round trip of C24 on an Object built with the constructors. -/
theorem C24_constructed_roundtrip_witness :
    Constructed (cJSON_AddItemToObject
      (cJSON_AddItemToObject cJSON_CreateObject (bytes "name")
        (cJSON_CreateString (bytes "Jack (\"Bee\") Nimble")))
      (bytes "ok")
      (cJSON_AddItemToArray (cJSON_AddItemToArray cJSON_CreateArray cJSON_CreateTrue)
        (cJSON_CreateNumber ((1920 : Int) : ℚ)))) ∧
    cJSON_PrintUnformatted (cJSON_AddItemToObject
      (cJSON_AddItemToObject cJSON_CreateObject (bytes "name")
        (cJSON_CreateString (bytes "Jack (\"Bee\") Nimble")))
      (bytes "ok")
      (cJSON_AddItemToArray (cJSON_AddItemToArray cJSON_CreateArray cJSON_CreateTrue)
        (cJSON_CreateNumber ((1920 : Int) : ℚ)))) =
      some (bytes "\x7b\"name\":\"Jack (\\\"Bee\\\") Nimble\",\"ok\":[true,1920]\x7d") ∧
    cJSON_ParseWithOpts
        (bytes "\x7b\"name\":\"Jack (\\\"Bee\\\") Nimble\",\"ok\":[true,1920]\x7d") true =
      .ok (parsed_form (cJSON_AddItemToObject
        (cJSON_AddItemToObject cJSON_CreateObject (bytes "name")
          (cJSON_CreateString (bytes "Jack (\"Bee\") Nimble")))
        (bytes "ok")
        (cJSON_AddItemToArray (cJSON_AddItemToArray cJSON_CreateArray cJSON_CreateTrue)
          (cJSON_CreateNumber ((1920 : Int) : ℚ))))) [] := by
  have hc : Constructed (cJSON_AddItemToObject
      (cJSON_AddItemToObject cJSON_CreateObject (bytes "name")
        (cJSON_CreateString (bytes "Jack (\"Bee\") Nimble")))
      (bytes "ok")
      (cJSON_AddItemToArray (cJSON_AddItemToArray cJSON_CreateArray cJSON_CreateTrue)
        (cJSON_CreateNumber ((1920 : Int) : ℚ)))) :=
    Constructed.add_to_object _ _ _
      (Constructed.add_to_object _ _ _ Constructed.object rfl (Constructed.string _)) rfl
      (Constructed.add_to_array _ _
        (Constructed.add_to_array _ _ Constructed.array rfl Constructed.true) rfl
        (Constructed.number 1920 (by decide) (by decide)))
  obtain ⟨out, h1, h2, _⟩ := C24_constructed_roundtrip _ hc
  have hp : cJSON_PrintUnformatted (cJSON_AddItemToObject
      (cJSON_AddItemToObject cJSON_CreateObject (bytes "name")
        (cJSON_CreateString (bytes "Jack (\"Bee\") Nimble")))
      (bytes "ok")
      (cJSON_AddItemToArray (cJSON_AddItemToArray cJSON_CreateArray cJSON_CreateTrue)
        (cJSON_CreateNumber ((1920 : Int) : ℚ)))) =
      some (bytes "\x7b\"name\":\"Jack (\\\"Bee\\\") Nimble\",\"ok\":[true,1920]\x7d") := by
    decide!
  rw [hp] at h1
  rw [← Option.some.inj h1] at h2
  exact ⟨hc, hp, h2⟩

/-- C25: at the text of a quote and a backslash the claim fails: the prescan
of `parse_string` steps over the byte after the backslash, the terminator, and
tests the byte behind it.  So it is when `\u` has fewer than four bytes after
it, where the copy pass moves four bytes on.  When the parser does return an
end position, it is inside the text: the text left is shorter than the
input. -/
theorem C25_reads_past_terminator :
    parse_string_len false (bytes "\\") 0 = none ∧
    cJSON_Parse (bytes "\"\\") = .overrun ∧
    parse_string_len false (bytes "\\u12") 0 = some 3 ∧
    parse_string_copy .scan (bytes "\\u12") = none ∧
    cJSON_Parse (bytes "[\"\\u12") = .overrun ∧
    (∀ text t rest, cJSON_Parse text = .ok t rest → rest.length < text.length) := by
  refine ⟨by decide, by decide!, by decide, by decide, by decide!, ?_⟩
  intro text t rest h
  unfold cJSON_Parse cJSON_ParseWithOpts at h
  cases hp : parse_value (fuel_for text) cJSON_New_Item (skip text) with
  | ok c e =>
    simp only [hp, Bool.false_eq_true, if_false, Parsed.ok.injEq] at h
    have := (parse_shrinks (fuel_for text)).1 _ _ _ _ hp
    have := skip_length_le text
    rw [← h.2]
    omega
  | fail e => simp [hp] at h
  | overrun => simp [hp] at h
  | nofuel => simp [hp] at h
theorem print_string_scan_eq (s : List Nat) :
    ∀ n, print_string_scan s n = n + (print_string_body s).length := by
  induction s with
  | nil => intro n; rfl
  | cons c t ih =>
    intro n
    rw [print_string_scan, print_string_body]
    by_cases h0 : c = 0
    · rw [if_pos h0, if_pos h0]; rfl
    rw [if_neg h0, if_neg h0, ih]
    by_cases h1 : c > 31 ∧ c ≠ 34 ∧ c ≠ 92
    · rw [if_pos h1, if_neg (by omega), if_neg (by omega), List.length_cons]
      omega
    rw [if_neg h1]
    by_cases h2 : c = 34 ∨ c = 92 ∨ c = 8 ∨ c = 12 ∨ c = 10 ∨ c = 13 ∨ c = 9
    · rw [if_pos h2]
      have : (if c = 92 then [92] else if c = 34 then [34] else if c = 8 then [98]
          else if c = 12 then [102] else if c = 10 then [110] else if c = 13 then [114]
          else if c = 9 then [116]
          else [117, hexchar (c / 4096 % 16), hexchar (c / 256 % 16), hexchar (c / 16 % 16),
            hexchar (c % 16)]).length = 1 := by
        split_ifs <;> first | rfl | omega
      rw [List.length_cons, List.length_append, this]
      omega
    · rw [if_neg h2, if_pos (by omega)]
      have : (if c = 92 then [92] else if c = 34 then [34] else if c = 8 then [98]
          else if c = 12 then [102] else if c = 10 then [110] else if c = 13 then [114]
          else if c = 9 then [116]
          else [117, hexchar (c / 4096 % 16), hexchar (c / 256 % 16), hexchar (c / 16 % 16),
            hexchar (c % 16)]).length = 5 := by
        split_ifs <;> first | rfl | omega
      rw [List.length_cons, List.length_append, this]
      omega

theorem foldl_add_sum {α : Type} (f : α → Nat) (l : List α) :
    ∀ a, l.foldl (fun len p => len + f p) a = a + (l.map f).sum := by
  induction l with
  | nil => intro a; rfl
  | cons x t ih =>
    intro a
    rw [List.foldl_cons, ih, List.map_cons, List.sum_cons]
    omega

theorem array_entries_length (es : List (List Nat)) (fmt : Bool) :
    (array_entries es fmt).length + (if es = [] then 0 else 1 + (if fmt then 1 else 0)) ≤
      (es.map (fun ret => ret.length + 2 + (if fmt then 1 else 0))).sum := by
  induction es with
  | nil => simp [array_entries]
  | cons e t ih =>
    rw [array_entries_cons, List.map_cons, List.sum_cons, if_neg (List.cons_ne_nil _ _)]
    cases t with
    | nil =>
      simp only [if_true, List.append_nil, List.map_nil, List.sum_nil]
      split_ifs <;> omega
    | cons e2 t2 =>
      rw [if_neg (List.cons_ne_nil _ _)] at ih ⊢
      simp only [List.length_append, List.length_cons]
      have : (if fmt = true then [32] else ([] : List Nat)).length = if fmt then 1 else 0 := by
        cases fmt <;> rfl
      rw [this]
      omega

theorem object_entries_length (depth : Nat) (fmt : Bool) (names : List (List Nat)) :
    ∀ es : List (List Nat), (object_entries depth fmt names es).length ≤
      ((List.zip names es).map
        (fun p => p.2.length + p.1.length + 2 + (if fmt then 2 + depth else 0))).sum := by
  induction names with
  | nil =>
    intro es
    have : object_entries depth fmt [] es = [] := by cases es <;> rfl
    rw [this]; simp
  | cons k names ih =>
    intro es
    cases es with
    | nil => simp [object_entries]
    | cons e es =>
      rw [object_entries, List.zip_cons_cons, List.map_cons, List.sum_cons]
      have h := ih es
      simp only [List.length_append, List.length_cons]
      have a1 : (if fmt = true then List.replicate depth 9 else ([] : List Nat)).length =
          if fmt then depth else 0 := by cases fmt <;> simp
      have a2 : (if fmt = true then [9] else ([] : List Nat)).length = if fmt then 1 else 0 := by
        cases fmt <;> rfl
      have a3 : (if fmt = true then [10] else ([] : List Nat)).length = if fmt then 1 else 0 := by
        cases fmt <;> rfl
      have a4 : (if es = [] then [] else ([44] : List Nat)).length ≤ 1 := by
        split_ifs <;> simp
      rw [a1, a2, a3]
      split_ifs at * <;> omega
theorem print_string_ptr_length (s : Option (List Nat)) :
    (print_string_ptr s).length + 1 = print_string_alloc s := by
  cases s with
  | none => rfl
  | some s =>
    rw [print_string_alloc, print_string_scan_eq, print_string_ptr]
    simp only [List.length_cons, List.length_append, List.length_nil]
    omega

theorem print_array_length (entries : List (Option (List Nat))) (fmt : Bool)
    (es : List (List Nat)) (out : List Nat) (hes : collect entries = some es)
    (h : print_array entries fmt = some out) :
    out.length + 1 ≤ print_array_alloc es fmt := by
  rw [print_array] at h
  by_cases he : entries = []
  · rw [if_pos he] at h
    rw [he] at hes
    simp only [collect, Option.some.injEq] at hes h
    rw [← hes, ← h]
    rfl
  · rw [if_neg he, hes] at h
    simp only [Option.map_some', Option.some.injEq] at h
    have hlen := collect_length _ _ hes
    have hne : es ≠ [] := by
      intro h0
      rw [h0] at hlen
      exact he (List.length_eq_zero.1 hlen.symm)
    rw [print_array_alloc, if_neg hne, foldl_add_sum, ← h]
    have := array_entries_length es fmt
    rw [if_neg hne] at this
    simp only [List.length_cons, List.length_append, List.length_nil]
    omega

theorem print_object_length (names : List (List Nat)) (entries : List (Option (List Nat)))
    (depth : Nat) (fmt : Bool) (es : List (List Nat)) (out : List Nat)
    (hes : collect entries = some es) (h : print_object names entries depth fmt = some out) :
    out.length + 1 ≤ print_object_alloc names es depth fmt := by
  rw [print_object] at h
  by_cases he : entries = []
  · rw [if_pos he] at h
    rw [he] at hes
    simp only [collect, Option.some.injEq] at hes h
    rw [← hes, ← h, print_object_alloc, if_pos rfl]
    cases fmt
    · simp
    · simp only [if_true, List.length_cons, List.length_append, List.length_replicate,
        List.length_nil]
      omega
  · rw [if_neg he, hes] at h
    simp only [Option.map_some', Option.some.injEq] at h
    have hlen := collect_length _ _ hes
    have hne : es ≠ [] := by
      intro h0
      rw [h0] at hlen
      exact he (List.length_eq_zero.1 hlen.symm)
    rw [print_object_alloc, if_neg hne, foldl_add_sum, ← h]
    have := object_entries_length (depth + 1) fmt names es
    cases fmt
    · simp only [Bool.false_eq_true, if_false, List.nil_append, List.append_nil,
        List.length_cons, List.length_append, List.length_nil] at this ⊢
      omega
    · simp only [if_true, List.length_cons, List.length_append, List.length_replicate,
        List.length_nil] at this ⊢
      omega

/-- C26: the size `print_string_ptr` allocates is the number of bytes it
writes, terminator included; the sizes `print_array` and `print_object`
allocate, for an empty container too, at any depth and in both modes, are at
least the number of bytes they write, terminator included.  So it is for the
array, the object and the string at the root of any tree that is printed. -/
theorem C26_print_buffer :
    (∀ s, (print_string_ptr s).length + 1 = print_string_alloc s) ∧
    (∀ entries fmt es out, collect entries = some es → print_array entries fmt = some out →
      out.length + 1 ≤ print_array_alloc es fmt) ∧
    (∀ names entries depth fmt es out, collect entries = some es →
      print_object names entries depth fmt = some out →
      out.length + 1 ≤ print_object_alloc names es depth fmt) ∧
    (∀ next child type vs vi vd s depth fmt out,
      print_value (.node next child type vs vi vd s) depth fmt = some out →
      (type &&& 255 = cJSON_String → out.length + 1 = print_string_alloc vs) ∧
      (type &&& 255 = cJSON_Array → ∃ es, collect (print_chain child (depth + 1) fmt) = some es ∧
        out.length + 1 ≤ print_array_alloc es fmt) ∧
      (type &&& 255 = cJSON_Object →
        ∃ es, collect (print_chain child (depth + 1) fmt) = some es ∧
          out.length + 1 ≤ print_object_alloc (print_names child) es depth fmt)) := by
  refine ⟨print_string_ptr_length, ?_, ?_, ?_⟩
  · intro entries fmt es out hes h
    exact print_array_length entries fmt es out hes h
  · intro names entries depth fmt es out hes h
    exact print_object_length names entries depth fmt es out hes h
  · intro next child type vs vi vd s depth fmt out h
    rw [print_value, print_item] at h
    refine ⟨?_, ?_, ?_⟩
    · intro ht
      rw [ht, if_neg (by decide), if_neg (by decide), if_neg (by decide), if_neg (by decide),
        if_pos rfl] at h
      simp only [Option.some.injEq] at h
      rw [← h]
      exact print_string_ptr_length vs
    · intro ht
      rw [ht, if_neg (by decide), if_neg (by decide), if_neg (by decide), if_neg (by decide),
        if_neg (by decide), if_pos rfl] at h
      cases hes : collect (print_chain child (depth + 1) fmt) with
      | none =>
        rw [print_array] at h
        by_cases he : print_chain child (depth + 1) fmt = []
        · rw [he] at hes; simp [collect] at hes
        · rw [if_neg he, hes] at h; simp at h
      | some es => exact ⟨es, rfl, print_array_length _ fmt es out hes h⟩
    · intro ht
      rw [ht, if_neg (by decide), if_neg (by decide), if_neg (by decide), if_neg (by decide),
        if_neg (by decide), if_neg (by decide), if_pos rfl] at h
      cases hes : collect (print_chain child (depth + 1) fmt) with
      | none =>
        rw [print_object] at h
        by_cases he : print_chain child (depth + 1) fmt = []
        · rw [he] at hes; simp [collect] at hes
        · rw [if_neg he, hes] at h; simp at h
      | some es => exact ⟨es, rfl, print_object_length _ _ depth fmt es out hes h⟩
theorem array_item_from_chain (c : cJSON) :
    ∀ i : Int, array_item_from c i = c.chain.getD i.toNat .null := by
  induction c with
  | null => intro i; simp [array_item_from, cJSON.chain]
  | node n ch t vs vi vd s ihn _ =>
    intro i
    rw [array_item_from, cJSON.chain]
    by_cases hi : i > 0
    · rw [if_pos hi, ihn]
      have : i.toNat = (i - 1).toNat + 1 := by omega
      rw [this, List.getD_cons_succ]
    · rw [if_neg hi]
      have : i.toNat = 0 := by omega
      rw [this]
      rfl

theorem chain_length_items (c : cJSON) : c.chain.length = c.items.length := by
  simp [cJSON.items]

/-- C27 (amended): on a container whose chain holds `n` children,
`cJSON_GetArraySize` returns `n`, and `cJSON_GetArrayItem(container, i)`
returns the child at index `i` when `0 <= i < n`, null when `i >= n`, and for
every negative `i` the first child, the one at index 0 (null only when the
container is empty). -/
theorem C27_get_array_item (next child : cJSON) (type : Nat) (vs s : Option (List Nat))
    (vi : Int) (vd : ℚ) (i : Int) :
    cJSON_GetArraySize (.node next child type vs vi vd s) = (child.chain.length : Int) ∧
    (0 ≤ i → i < (child.chain.length : Int) →
      child.chain[i.toNat]? = some (cJSON_GetArrayItem (.node next child type vs vi vd s) i) ∧
      cJSON_GetArrayItem (.node next child type vs vi vd s) i ≠ .null) ∧
    ((child.chain.length : Int) ≤ i →
      cJSON_GetArrayItem (.node next child type vs vi vd s) i = .null) ∧
    (i < 0 → cJSON_GetArrayItem (.node next child type vs vi vd s) i = child ∧
      cJSON_GetArrayItem (.node next child type vs vi vd s) i =
        cJSON_GetArrayItem (.node next child type vs vi vd s) 0) ∧
    cJSON_GetArrayItem sample_tree 1 = sample_tree.getChild.getNext ∧
    cJSON_GetArrayItem sample_tree 2 = .null := by
  have hget : ∀ j : Int, cJSON_GetArrayItem (.node next child type vs vi vd s) j =
      child.chain.getD j.toNat .null := by
    intro j
    rw [cJSON_GetArrayItem, cJSON.getChild, array_item_from_chain]
  refine ⟨?_, ?_, ?_, ?_, by decide!, by decide!⟩
  · rw [array_size_eq, cJSON.getChild, chain_length_items]
  · intro h0 hlt
    have hk : i.toNat < child.chain.length := by omega
    rw [hget, List.getD_eq_getElem?_getD, List.getElem?_eq_getElem hk]
    refine ⟨rfl, ?_⟩
    simp only [Option.getD_some]
    have hne := items_getD_ne_null child i.toNat (by rw [← chain_length_items]; exact hk)
    intro h
    apply hne
    rw [List.getD_eq_getElem?_getD, cJSON.items, List.getElem?_map,
      List.getElem?_eq_getElem hk, h]
    rfl
  · intro hge
    rw [hget, List.getD_eq_getElem?_getD, List.getElem?_eq_none (by omega)]
    rfl
  · intro hneg
    have h0 : i.toNat = 0 := by omega
    rw [hget, hget, h0]
    cases child <;> exact ⟨rfl, rfl⟩

/-- C27 as stated fails at the index -1: on the object of two members
`cJSON_GetArrayItem` returns its first member, not null. -/
theorem C27_counterexample :
    cJSON_GetArrayItem sample_tree (-1) = sample_tree.getChild ∧
    cJSON_GetArrayItem sample_tree (-1) ≠ .null ∧
    cJSON_GetArraySize sample_tree = 2 := by
  decide!
end CJSON
